import Mathlib

/-! # falias: a verification development of the alias scanner

Shallow embedding of the scanning core of `falias` (Go):

* `internal/model/types.go`     : `AliasDefinition`, `AliasEntry`, `SourceFile`, `ScanResult`,
                                  `GetAliasesSorted`
* `internal/parser/alias.go`    : `AliasParser.ParseLine`, `IsAliasLine`
* `internal/scanner/include.go` : `IncludeParser.ParseLine`, `IsIncludeLine`
* `internal/resolve/path.go`    : `PathResolver`, `Canonicalize`, `ParseVariableAssignment`
* `internal/scanner/file.go`    : `FileReader.ReadLines`, `FileExists`, `FileReadable`
* `internal/scanner/scanner.go` : `Scanner.ScanShellFiles`, `Scanner.scanFile`
* `internal/export/json.go`     : `JSONExporter.ExportAliases` (the records handed to the
                                  JSON encoder)

Conventions.  A Go `string` is a `Str` (list of characters; the text is taken to be valid
UTF-8, so that the byte loops of the source, which only ever test for ASCII bytes, act on
characters).  A Go `map[string]T` is an association list in insertion order; the order in
which a `range` goes over a map is a parameter of the function that iterates.  A Go `error`
is an `Option Str` holding the message.  The operating system (home directory, symlinks,
file contents) is a parameter `FileSystem`.  The recursion of `scanFile` is driven by a
fuel argument; `maxDepth + 1` units always suffice (`scanFile_isSome`).
-/

namespace Falias

abbrev Str := List Char

/-! ## Go standard library: `strings`, `unicode` -/

/-- Go `unicode.IsSpace`: the Unicode White_Space property. -/
def isSpace (c : Char) : Bool :=
  c = '\t' || c = '\n' || c = Char.ofNat 0x0B || c = Char.ofNat 0x0C || c = '\r' || c = ' ' ||
  c = Char.ofNat 0x85 || c = Char.ofNat 0xA0 || c = Char.ofNat 0x1680 ||
  (0x2000 ≤ c.toNat && c.toNat ≤ 0x200A) ||
  c = Char.ofNat 0x2028 || c = Char.ofNat 0x2029 || c = Char.ofNat 0x202F ||
  c = Char.ofNat 0x205F || c = Char.ofNat 0x3000

/-- Go `strings.TrimLeft` with a predicate: drop the leading characters satisfying `p`. -/
def trimLeftBy (p : Char → Bool) : Str → Str
  | [] => []
  | c :: cs => if p c then trimLeftBy p cs else c :: cs

/-- Go `strings.TrimRight` with a predicate: drop the trailing characters satisfying `p`. -/
def trimRightBy (p : Char → Bool) (s : Str) : Str :=
  (trimLeftBy p s.reverse).reverse

/-- Go `strings.TrimSpace`. -/
def TrimSpace (s : Str) : Str :=
  trimRightBy isSpace (trimLeftBy isSpace s)

/-- Go `strings.TrimRight(s, cutset)`. -/
def TrimRight (s : Str) (cutset : Str) : Str :=
  trimRightBy (fun c => decide (c ∈ cutset)) s

/-- Go `strings.HasPrefix`. -/
def HasPrefix : Str → Str → Bool
  | _, [] => true
  | [], _ :: _ => false
  | c :: cs, p :: ps => decide (c = p) && HasPrefix cs ps

/-- Go `strings.Contains`. -/
def Contains : Str → Str → Bool
  | [], sub => HasPrefix [] sub
  | c :: cs, sub => HasPrefix (c :: cs) sub || Contains cs sub

/-- Go `strings.Replace(s, old, new, 1)` for a non-empty `old`: the first occurrence of `old`
is replaced; for an empty `old` Go inserts `new` at the front. -/
def ReplaceFirst : Str → Str → Str → Str
  | [], old, new => if old = [] then new else []
  | c :: cs, old, new =>
    if HasPrefix (c :: cs) old then new ++ (c :: cs).drop old.length
    else c :: ReplaceFirst cs old new

/-- Go `len(s)` of a string: its size in bytes (UTF-8). -/
def byteLen (s : Str) : Nat :=
  (s.map Char.utf8Size).sum

/-! ## Go standard library: `regexp`

A regular expression is matched by backtracking with continuations, which is the
leftmost-first discipline of Go's `regexp` package: alternatives are tried left to right,
a greedy repetition tries one more iteration first, a lazy one tries to stop first. -/

inductive Regex where
  | empty : Regex
  | char : (Char → Bool) → Regex
  | bol : Regex
  | eol : Regex
  | seq : Regex → Regex → Regex
  | alt : Regex → Regex → Regex
  | star : Regex → Bool → Regex
  | group : Nat → Regex → Regex

namespace Regex

/-- The submatches of a match: index `i` holds the text of capture group `i` (1-based). -/
abbrev Caps := List (Option Str)

/-- Iteration of a matcher `m`: greedy (`g = true`) or lazy.  An iteration that consumes
nothing is cut, so `fuel = length + 1` iterations are always enough. -/
def starLoop {α : Type} (m : Str → Caps → (Str → Caps → Option α) → Option α) (g : Bool) :
    Nat → Str → Caps → (Str → Caps → Option α) → Option α
  | 0, s, c, k => k s c
  | fuel + 1, s, c, k =>
    let more := fun (_ : Unit) =>
      m s c (fun s1 c1 => if s1.length < s.length then starLoop m g fuel s1 c1 k else none)
    if g then (more ()).orElse (fun _ => k s c) else (k s c).orElse more

/-- Match `re` at the front of `s`; `n` is the length of the whole text (for `^`), `c` the
captures so far and `k` the continuation that receives the rest of the text. -/
def run {α : Type} (n : Nat) : Regex → Str → Caps → (Str → Caps → Option α) → Option α
  | empty, s, c, k => k s c
  | char p, s, c, k =>
    match s with
    | [] => none
    | x :: xs => if p x then k xs c else none
  | bol, s, c, k => if s.length = n then k s c else none
  | eol, s, c, k => if s.length = 0 then k s c else none
  | seq a b, s, c, k => run n a s c (fun s1 c1 => run n b s1 c1 k)
  | alt a b, s, c, k => (run n a s c k).orElse (fun _ => run n b s c k)
  | star a g, s, c, k => starLoop (fun s1 c1 k1 => run n a s1 c1 k1) g (s.length + 1) s c k
  | group i a, s, c, k =>
    run n a s c (fun s1 c1 => k s1 (c1.set i (some (s.take (s.length - s1.length)))))

/-- The literal text `t`. -/
def lit : Str → Regex
  | [] => empty
  | c :: cs => seq (char (fun x => decide (x = c))) (lit cs)

/-- One or more: `a+` (greedy) or `a+?` (lazy). -/
def plus (a : Regex) (g : Bool) : Regex := seq a (star a g)

/-- Greedy optional: `a?`. -/
def opt (a : Regex) : Regex := alt a empty

/-- A successful match: the text from the start of the match, the text after the match and
the capture groups. -/
structure Match where
  start : Str
  rest : Str
  caps : Caps

/-- The full match `matches[0]`. -/
def Match.full (m : Match) : Str := m.start.take (m.start.length - m.rest.length)

/-- The submatch `matches[i]` for a capture group (the empty string when it did not take part). -/
def Match.sub (m : Match) (i : Nat) : Str := ((m.caps.get? i).getD none).getD []

/-- Try the start positions from left to right: `s` is the text still to be tried. -/
def findFrom (re : Regex) (groups n : Nat) : Str → Option Match
  | [] => run n re [] (List.replicate (groups + 1) none) (fun s1 c1 => some ⟨[], s1, c1⟩)
  | x :: xs =>
    (run n re (x :: xs) (List.replicate (groups + 1) none)
      (fun s1 c1 => some ⟨x :: xs, s1, c1⟩)).orElse (fun _ => findFrom re groups n xs)

/-- Go `(*Regexp).FindStringSubmatch`: the leftmost-first match of `re` in `s`. -/
def FindStringSubmatch (re : Regex) (groups : Nat) (s : Str) : Option Match :=
  findFrom re groups s.length s

/-- Go `(*Regexp).FindAllStringSubmatch(s, -1)` for an expression that never matches the
empty string: the successive non-overlapping matches, each searched after the previous one. -/
def findAllFrom (re : Regex) (groups n : Nat) : Nat → Str → List Match
  | 0, _ => []
  | fuel + 1, s =>
    match findFrom re groups n s with
    | none => []
    | some m => if m.rest.length < s.length then m :: findAllFrom re groups n fuel m.rest else [m]

def FindAllStringSubmatch (re : Regex) (groups : Nat) (s : Str) : List Match :=
  findAllFrom re groups s.length (s.length + 1) s

/-- Perl class `\s` of Go's `regexp/syntax`: `[\t\n\f\r ]`. -/
def ws (c : Char) : Bool :=
  c = '\t' || c = '\n' || c = Char.ofNat 0x0C || c = '\r' || c = ' '

/-- The class `.` (without the `s` flag): any character but a newline. -/
def dot (c : Char) : Bool := c != '\n'

def upper (c : Char) : Bool := 'A'.toNat ≤ c.toNat && c.toNat ≤ 'Z'.toNat
def lower (c : Char) : Bool := 'a'.toNat ≤ c.toNat && c.toNat ≤ 'z'.toNat
def digit (c : Char) : Bool := '0'.toNat ≤ c.toNat && c.toNat ≤ '9'.toNat

end Regex

/-! ## Go standard library: `path/filepath` (Unix) -/

/-- Go `strings.Split(s, "/")`: the segments between slashes. -/
def splitSlash : Str → List Str
  | [] => [[]]
  | c :: cs =>
    match splitSlash cs with
    | [] => if c = '/' then [[], []] else [[c]]
    | seg :: segs => if c = '/' then [] :: seg :: segs else (c :: seg) :: segs

/-- One step of `filepath.Clean` on the stack of kept segments (top first): an empty segment
and `.` are dropped, `..` removes the segment before it when there is one to remove, is
dropped at the root and is kept at the front of a relative path. -/
def cleanStep (rooted : Bool) (stack : List Str) (seg : Str) : List Str :=
  if seg = [] || seg = ['.'] then stack
  else if seg = ['.', '.'] then
    match stack with
    | [] => if rooted then [] else [seg]
    | top :: below => if top = ['.', '.'] then seg :: top :: below else below
  else seg :: stack

/-- Go `strings.Join(segs, "/")`. -/
def joinSlash : List Str → Str
  | [] => []
  | [seg] => seg
  | seg :: segs => seg ++ '/' :: joinSlash segs

/-- Go `filepath.Clean`: the shortest path equivalent to `path` by lexical processing. -/
def Clean (path : Str) : Str :=
  if path = [] then ['.']
  else
    let rooted := HasPrefix path ['/']
    let kept := ((splitSlash path).foldl (cleanStep rooted) []).reverse
    if rooted then '/' :: joinSlash kept
    else if kept = [] then ['.'] else joinSlash kept

/-- Go `filepath.Join`: the non-empty elements joined by a slash, cleaned; `""` when there
is no non-empty element. -/
def Join (elems : List Str) : Str :=
  match elems.filter (fun e => e ≠ []) with
  | [] => []
  | e :: es => Clean (joinSlash (e :: es))

/-- Go `filepath.IsAbs`. -/
def IsAbs (path : Str) : Bool := HasPrefix path ['/']

/-! ## Go maps as association lists -/

/-- The Go map read `m[k]` (with the `ok` flag as the option). -/
def mapGet {β : Type} : List (Str × β) → Str → Option β
  | [], _ => none
  | (k1, v) :: m, k => if k1 = k then some v else mapGet m k

/-- The Go map write `m[k] = v`. -/
def mapSet {β : Type} : List (Str × β) → Str → β → List (Str × β)
  | [], k, v => [(k, v)]
  | (k1, v1) :: m, k, v => if k1 = k then (k1, v) :: m else (k1, v1) :: mapSet m k v

/-- A write through the pointer stored under `k`: `f` is applied to the value in place;
nothing happens when the key is absent. -/
def mapModify {β : Type} : List (Str × β) → Str → (β → β) → List (Str × β)
  | [], _, _ => []
  | (k1, v1) :: m, k, f => if k1 = k then (k1, f v1) :: m else (k1, v1) :: mapModify m k f

/-! ## `internal/model/types.go`

The Go field `Type` is a reserved word here and is spelled `Typ`. -/

inductive AliasType where
  | normal
  | global
  deriving DecidableEq, Repr

structure SourceLocation where
  FilePath : Str
  LineNum : Nat
  RawLine : Str
  deriving DecidableEq, Repr

structure AliasDefinition where
  Name : Str
  Value : Str
  Typ : AliasType
  Location : SourceLocation
  deriving DecidableEq, Repr

structure AliasEntry where
  Name : Str
  Typ : AliasType
  ActiveValue : Str
  ActiveLocation : SourceLocation
  Definitions : List AliasDefinition
  IsOverridden : Bool
  deriving DecidableEq, Repr

/-- `func (e *AliasEntry) AddDefinition(def AliasDefinition)`. -/
def AliasEntry.AddDefinition (e : AliasEntry) (d : AliasDefinition) : AliasEntry :=
  let e1 := { e with Definitions := e.Definitions ++ [d] }
  let e2 := { e1 with ActiveValue := d.Value }
  let e3 := { e2 with ActiveLocation := d.Location }
  let e4 := { e3 with Typ := d.Typ }
  if e4.Definitions.length > 1 then { e4 with IsOverridden := true } else e4

structure SourceFile where
  Path : Str
  Exists : Bool
  Readable : Bool
  Conditional : Bool
  Aliases : List AliasDefinition
  Includes : List Str
  Error : Str
  deriving DecidableEq, Repr

structure ScanResult where
  Aliases : List (Str × AliasEntry)
  Files : List (Str × SourceFile)
  UnresolvedPaths : List Str
  Warnings : List Str
  Shell : Str
  RootFiles : List Str
  deriving DecidableEq, Repr

/-- `func NewScanResult(shell string, rootFiles []string) *ScanResult`. -/
def NewScanResult (shell : Str) (rootFiles : List Str) : ScanResult :=
  { Aliases := [], Files := [], UnresolvedPaths := [], Warnings := [],
    Shell := shell, RootFiles := rootFiles }

/-- `func (r *ScanResult) AddAlias(def AliasDefinition)`. -/
def ScanResult.AddAlias (r : ScanResult) (d : AliasDefinition) : ScanResult :=
  match mapGet r.Aliases d.Name with
  | some _ => { r with Aliases := mapModify r.Aliases d.Name (fun e => e.AddDefinition d) }
  | none =>
    let entry : AliasEntry :=
      { Name := d.Name, Typ := d.Typ, ActiveValue := d.Value,
        ActiveLocation := d.Location, Definitions := [d], IsOverridden := false }
    { r with Aliases := mapSet r.Aliases d.Name entry }

/-! ## `internal/parser/alias.go` -/

namespace Regex

/-- The sequence `r1 r2 ... rn`. -/
def seqs : List Regex → Regex
  | [] => empty
  | [r] => r
  | r :: rs => seq r (seqs rs)

/-- The class `[a-zA-Z_.\-]`. -/
def nameFirst (c : Char) : Bool := lower c || upper c || c = '_' || c = '.' || c = '-'

/-- The class `[a-zA-Z0-9_.\-]`. -/
def nameRest (c : Char) : Bool := lower c || upper c || digit c || c = '_' || c = '.' || c = '-'

/-- The class `[A-Z_]`. -/
def varFirst (c : Char) : Bool := upper c || c = '_'

/-- The class `[A-Z0-9_]`. -/
def varRest (c : Char) : Bool := upper c || digit c || c = '_'

end Regex

open Regex in
/-- The expression `^\s*alias\s+([a-zA-Z_.\-][a-zA-Z0-9_.\-]*)=(.+)`. -/
def normalAliasPattern : Regex :=
  seqs [bol, star (char ws) true, lit "alias".toList, plus (char ws) true,
    group 1 (seq (char nameFirst) (star (char nameRest) true)), lit "=".toList,
    group 2 (plus (char dot) true)]

open Regex in
/-- The expression `^\s*alias\s+-g\s+([a-zA-Z_.\-][a-zA-Z0-9_.\-]*)=(.+)`. -/
def globalAliasPattern : Regex :=
  seqs [bol, star (char ws) true, lit "alias".toList, plus (char ws) true, lit "-g".toList,
    plus (char ws) true,
    group 1 (seq (char nameFirst) (star (char nameRest) true)), lit "=".toList,
    group 2 (plus (char dot) true)]

/-- The loop of `removeInlineComment`: `sq`, `dq`, `esc` are `inSingleQuote`,
`inDoubleQuote`, `escaped`; the value is the text written to `result`. -/
def removeInlineCommentLoop : Str → Bool → Bool → Bool → Str
  | [], _, _, _ => []
  | ch :: rest, sq, dq, esc =>
    if esc then ch :: removeInlineCommentLoop rest sq dq false
    else if ch = '\\' then ch :: removeInlineCommentLoop rest sq dq true
    else if ch = '\'' ∧ ¬ dq then ch :: removeInlineCommentLoop rest (!sq) dq false
    else if ch = '"' ∧ ¬ sq then ch :: removeInlineCommentLoop rest sq (!dq) false
    else if ch = '#' ∧ ¬ sq ∧ ¬ dq then []
    else ch :: removeInlineCommentLoop rest sq dq false

/-- `func removeInlineComment(line string) string`. -/
def removeInlineComment (line : Str) : Str :=
  TrimSpace (removeInlineCommentLoop line false false false)

/-- The loop of `splitOnUnescapedChar`: `cur` is `current`, `esc` is `escaped`. -/
def splitOnUnescapedCharLoop (delim : Char) : Str → Str → Bool → List Str
  | [], cur, _ => if cur.length > 0 then [cur] else []
  | ch :: rest, cur, esc =>
    if esc then splitOnUnescapedCharLoop delim rest (cur ++ [ch]) false
    else if ch = '\\' then splitOnUnescapedCharLoop delim rest (cur ++ [ch]) true
    else if ch = delim then cur :: splitOnUnescapedCharLoop delim rest [] false
    else splitOnUnescapedCharLoop delim rest (cur ++ [ch]) false

/-- `func splitOnUnescapedChar(s string, delim byte) []string`. -/
def splitOnUnescapedChar (s : Str) (delim : Char) : List Str :=
  splitOnUnescapedCharLoop delim s [] false

/-- The closing-quote loop of `extractValue`, started after the opening quote: `prev` is
`s[i-1]`; the value is `s[1:i]` for the first `quote` not preceded by a backslash. -/
def closingQuote (quote : Char) : Char → Str → Option Str
  | _, [] => none
  | prev, ch :: rest =>
    if ch = quote then
      if prev = '\\' then (closingQuote quote ch rest).map (fun v => ch :: v)
      else some []
    else (closingQuote quote ch rest).map (fun v => ch :: v)

/-- `func extractValue(s string) string`. -/
def extractValue (s0 : Str) : Str :=
  let s := TrimSpace s0
  match s with
  | q :: rest =>
    if q = '\'' ∨ q = '"' then
      match closingQuote q q rest with
      | some v => v
      | none => rest
    else
      match splitOnUnescapedChar s '#' with
      | part :: _ => TrimSpace part
      | [] => s
  | [] =>
    match splitOnUnescapedChar s '#' with
    | part :: _ => TrimSpace part
    | [] => s

/-- `func (p *AliasParser) ParseLine(line, filePath string, lineNum int)`: `none` is the
result `(nil, false)`. -/
def AliasParser.ParseLine (line : Str) (filePath : Str) (lineNum : Nat) :
    Option AliasDefinition :=
  let cleaned := removeInlineComment line
  if cleaned = [] then none
  else
    match Regex.FindStringSubmatch globalAliasPattern 2 cleaned with
    | some m =>
      some { Name := m.sub 1, Value := extractValue (m.sub 2), Typ := AliasType.global,
             Location := { FilePath := filePath, LineNum := lineNum, RawLine := line } }
    | none =>
      match Regex.FindStringSubmatch normalAliasPattern 2 cleaned with
      | some m =>
        some { Name := m.sub 1, Value := extractValue (m.sub 2), Typ := AliasType.normal,
               Location := { FilePath := filePath, LineNum := lineNum, RawLine := line } }
      | none => none

/-- `func IsAliasLine(line string) bool`. -/
def IsAliasLine (line : Str) : Bool :=
  HasPrefix (TrimSpace line) "alias ".toList

/-! ## `internal/scanner/include.go` -/

open Regex in
/-- The expression `^\s*(source|\.)\s+(.+)`. -/
def sourcePattern : Regex :=
  seqs [bol, star (char ws) true, group 1 (alt (lit "source".toList) (lit ".".toList)),
    plus (char ws) true, group 2 (plus (char dot) true)]

open Regex in
/-- The expression
`(?:if\s+)?\[\[?\s+-f\s+(.+?)\s+\]\]?.*(?:source|\.)\s+(.+?)(?:\s*;|\s*$)`. -/
def conditionalPattern : Regex :=
  seqs [opt (seq (lit "if".toList) (plus (char ws) true)),
    lit "[".toList, opt (lit "[".toList), plus (char ws) true, lit "-f".toList,
    plus (char ws) true, group 1 (plus (char dot) false), plus (char ws) true,
    lit "]".toList, opt (lit "]".toList), star (char dot) true,
    alt (lit "source".toList) (lit ".".toList), plus (char ws) true,
    group 2 (plus (char dot) false),
    alt (seq (star (char ws) true) (lit ";".toList)) (seq (star (char ws) true) eol)]

structure ParseResult where
  Path : Str
  Conditional : Bool
  deriving DecidableEq, Repr

/-- The loop of `removeTrailingComment`: the value is `s[:i]` for the first unquoted,
unescaped `#` at index `i`, or `none` when the loop runs to the end. -/
def removeTrailingCommentLoop : Str → Bool → Bool → Bool → Option Str
  | [], _, _, _ => none
  | ch :: rest, sq, dq, esc =>
    if esc then (removeTrailingCommentLoop rest sq dq false).map (fun v => ch :: v)
    else if ch = '\\' then (removeTrailingCommentLoop rest sq dq true).map (fun v => ch :: v)
    else if ch = '\'' ∧ ¬ dq then
      (removeTrailingCommentLoop rest (!sq) dq false).map (fun v => ch :: v)
    else if ch = '"' ∧ ¬ sq then
      (removeTrailingCommentLoop rest sq (!dq) false).map (fun v => ch :: v)
    else if ch = '#' ∧ ¬ sq ∧ ¬ dq then some []
    else (removeTrailingCommentLoop rest sq dq false).map (fun v => ch :: v)

/-- `func removeTrailingComment(s string) string`. -/
def removeTrailingComment (s : Str) : Str :=
  match removeTrailingCommentLoop s false false false with
  | some v => TrimSpace v
  | none => s

/-- `func extractPath(s string) string`. -/
def extractPath (s : Str) : Str :=
  TrimSpace (TrimRight (removeTrailingComment (TrimSpace s)) ";".toList)

/-- `func (p *IncludeParser) ParseLine(line string) []ParseResult`. -/
def IncludeParser.ParseLine (line0 : Str) : List ParseResult :=
  let line := TrimSpace line0
  if line = [] ∨ HasPrefix line "#".toList then []
  else
    match Regex.FindStringSubmatch conditionalPattern 2 line with
    | some m =>
      let path := extractPath (m.sub 2)
      if path ≠ [] then [{ Path := path, Conditional := true }] else []
    | none =>
      match Regex.FindStringSubmatch sourcePattern 2 line with
      | some m =>
        let path := extractPath (m.sub 2)
        if path ≠ [] then [{ Path := path, Conditional := false }] else []
      | none => []

/-- `func IsIncludeLine(line string) bool`. -/
def IsIncludeLine (line : Str) : Bool :=
  let trimmed := TrimSpace line
  if HasPrefix trimmed "#".toList then false
  else HasPrefix trimmed "source ".toList || HasPrefix trimmed ". ".toList ||
    Contains trimmed "source ".toList

/-! ## `internal/resolve/path.go` -/

open Regex in
/-- The expression `\$\{?([A-Z_][A-Z0-9_]*)\}?`. -/
def varPattern : Regex :=
  seqs [lit "$".toList, opt (lit "\x7b".toList),
    group 1 (seq (char varFirst) (star (char varRest) true)), opt (lit "\x7d".toList)]

open Regex in
/-- The expression `^([A-Z_][A-Z0-9_]*)=(.+)$` of `ParseVariableAssignment`. -/
def assignPattern : Regex :=
  seqs [bol, group 1 (seq (char varFirst) (star (char varRest) true)), lit "=".toList,
    group 2 (plus (char dot) true), eol]

structure PathResolver where
  homeDir : Str
  xdgConfigHome : Str
  customVars : List (Str × Str)
  deriving DecidableEq, Repr

/-- `func NewPathResolver() *PathResolver`; `home` is the value of `os.UserHomeDir()` and
`xdgEnv` that of `os.Getenv("XDG_CONFIG_HOME")`. -/
def NewPathResolver (home xdgEnv : Str) : PathResolver :=
  { homeDir := home,
    xdgConfigHome := if xdgEnv = [] then Join [home, ".config".toList] else xdgEnv,
    customVars := [] }

/-- `func (r *PathResolver) SetVariable(name, value string)`. -/
def PathResolver.SetVariable (r : PathResolver) (name value : Str) : PathResolver :=
  { r with customVars := mapSet r.customVars name value }

/-- `func removeQuotes(s string) string`. -/
def removeQuotes (s0 : Str) : Str :=
  let s := TrimSpace s0
  if s.length ≥ 2 ∧
      ((s.head? = some '"' ∧ s.getLast? = some '"') ∨
       (s.head? = some '\'' ∧ s.getLast? = some '\'')) then
    (s.drop 1).take (s.length - 2)
  else s

/-- The loop body of `expandVariables` over the matches: the state is
`(result, foundUnknown)`. -/
def expandStep (r : PathResolver) (acc : Str × Bool) (m : Regex.Match) : Str × Bool :=
  let fullMatch := m.full
  let varName := m.sub 1
  if varName = "HOME".toList then (ReplaceFirst acc.1 fullMatch r.homeDir, acc.2)
  else if varName = "XDG_CONFIG_HOME".toList then
    (ReplaceFirst acc.1 fullMatch r.xdgConfigHome, acc.2)
  else
    match mapGet r.customVars varName with
    | some val => (ReplaceFirst acc.1 fullMatch val, acc.2)
    | none => (acc.1, true)

/-- `func (r *PathResolver) expandVariables(path string) (string, bool)`. -/
def PathResolver.expandVariables (r : PathResolver) (path : Str) : Option Str :=
  let res := (Regex.FindAllStringSubmatch varPattern 1 path).foldl (expandStep r) (path, false)
  if res.2 then none else some res.1

/-- `func (r *PathResolver) ResolvePath(path string) (string, bool)`. -/
def PathResolver.ResolvePath (r : PathResolver) (path0 : Str) : Option Str :=
  if path0 = [] then none
  else
    let path1 := removeQuotes path0
    let path2 :=
      if HasPrefix path1 "~/".toList then Join [r.homeDir, path1.drop 2]
      else if path1 = "~".toList then r.homeDir
      else path1
    match r.expandVariables path2 with
    | none => none
    | some expanded =>
      let cleaned := Clean expanded
      if ¬ IsAbs cleaned then none else some cleaned

/-- `func ParseVariableAssignment(line string) (string, string, bool)`. -/
def ParseVariableAssignment (line : Str) : Option (Str × Str) :=
  match Regex.FindStringSubmatch assignPattern 2 (TrimSpace line) with
  | none => none
  | some m => some (m.sub 1, removeQuotes (m.sub 2))

/-! ## The operating system -/

/-- What a file delivers when it is read: the lines (split at `\n`, a trailing `\r` still
attached) and the error, other than end of file, that ends the reading, if any. -/
structure FileContent where
  lines : List Str
  readErr : Option Str

/-- The file system seen by one scan. -/
structure FileSystem where
  /-- Go `filepath.Abs`. -/
  Abs : Str → Except Str Str
  /-- Go `filepath.EvalSymlinks`. -/
  EvalSymlinks : Str → Except Str Str
  /-- Go `os.Stat` succeeds. -/
  Stat : Str → Bool
  /-- Go `os.Open`: the content of the file, or the error message. -/
  Open : Str → Except Str FileContent

/-- `func Canonicalize(path string) (string, error)`. -/
def Canonicalize (fs : FileSystem) (path : Str) : Except Str Str :=
  match fs.Abs path with
  | .error e => .error e
  | .ok absPath =>
    match fs.EvalSymlinks absPath with
    | .error _ => .ok absPath
    | .ok canonPath => .ok canonPath

/-! ## `internal/scanner/file.go` -/

/-- The constant `maxCapacity` of `ReadLines`: 1 MiB. -/
def maxCapacity : Nat := 1024 * 1024

/-- Go `bufio.Scanner` with `ScanLines` and a buffer of `maxCapacity` bytes: the tokens
delivered by `Scan` (one trailing `\r` dropped from each line) and the value of `Err()`.  A
line that does not fit the buffer stops the scanner with `ErrTooLong`. -/
def bufioScan : List Str → Option Str → List Str × Option Str
  | [], readErr => ([], readErr)
  | line :: rest, readErr =>
    if byteLen line ≥ maxCapacity then ([], some "bufio.Scanner: token too long".toList)
    else
      let token := if line.getLast? = some '\r' then line.dropLast else line
      let r := bufioScan rest readErr
      (token :: r.1, r.2)

/-- `func (r *FileReader) ReadLines(filePath string) ([]string, error)`. -/
def ReadLines (fs : FileSystem) (filePath : Str) : Except Str (List Str) :=
  match fs.Open filePath with
  | .error e => .error e
  | .ok file =>
    let scanned := bufioScan file.lines file.readErr
    let lines := scanned.1.map (fun line => TrimRight line "\r".toList)
    match scanned.2 with
    | some e => .error e
    | none => .ok lines

/-- `func FileExists(filePath string) bool`. -/
def FileExists (fs : FileSystem) (filePath : Str) : Bool := fs.Stat filePath

/-- `func FileReadable(filePath string) bool`. -/
def FileReadable (fs : FileSystem) (filePath : Str) : Bool :=
  match fs.Open filePath with
  | .error _ => false
  | .ok _ => true

/-! ## `internal/scanner/scanner.go`

`scanFile` works on three mutable objects: the scanner's path resolver, the result and the
visited set.  They are threaded as one `ScanState`.  The pointer `sourceFile` is the entry
stored under `canonPath` in `result.Files`: the entry is stored once, right after the path
is marked visited, and a visited path is never stored again, so a write through the pointer
is a write to the entry under that key. -/

/-- The constant `maxDepth`. -/
def maxDepth : Nat := 25

/-- The struct `Scanner`: of its four fields only the path resolver carries state. -/
structure Scanner where
  pathResolver : PathResolver
  deriving DecidableEq, Repr

/-- `func NewScanner() *Scanner`, in the environment `home`, `xdgEnv`. -/
def NewScanner (home xdgEnv : Str) : Scanner :=
  { pathResolver := NewPathResolver home xdgEnv }

structure ScanState where
  pathResolver : PathResolver
  result : ScanResult
  visited : List Str
  deriving DecidableEq, Repr

/-- `result.Warnings = append(result.Warnings, w)`. -/
def ScanState.warn (st : ScanState) (w : Str) : ScanState :=
  { st with result := { st.result with Warnings := st.result.Warnings ++ [w] } }

/-- `result.UnresolvedPaths = append(result.UnresolvedPaths, p)`. -/
def ScanState.unresolved (st : ScanState) (p : Str) : ScanState :=
  { st with result := { st.result with UnresolvedPaths := st.result.UnresolvedPaths ++ [p] } }

/-- A write to the `SourceFile` stored under `key`. -/
def ScanState.modifyFile (st : ScanState) (key : Str) (f : SourceFile → SourceFile) :
    ScanState :=
  { st with result := { st.result with Files := mapModify st.result.Files key f } }

/-- `visited[canonPath] = true` and `result.Files[canonPath] = sourceFile`. -/
def ScanState.enter (st : ScanState) (canonPath : Str) (sourceFile : SourceFile) : ScanState :=
  { st with
    visited := canonPath :: st.visited
    result := { st.result with Files := mapSet st.result.Files canonPath sourceFile } }

/-- `sourceFile.Error = e`. -/
def ScanState.setError (st : ScanState) (canonPath : Str) (e : Str) : ScanState :=
  st.modifyFile canonPath (fun sf => { sf with Error := e })

/-- `sourceFile.Aliases = append(sourceFile.Aliases, *aliasDef)` and
`result.AddAlias(*aliasDef)`. -/
def ScanState.addAlias (st : ScanState) (canonPath : Str) (aliasDef : AliasDefinition) :
    ScanState :=
  let st1 := st.modifyFile canonPath (fun sf => { sf with Aliases := sf.Aliases ++ [aliasDef] })
  { st1 with result := st1.result.AddAlias aliasDef }

/-- `sourceFile.Includes = append(sourceFile.Includes, inc.Path)`. -/
def ScanState.addInclude (st : ScanState) (canonPath : Str) (path : Str) : ScanState :=
  st.modifyFile canonPath (fun sf => { sf with Includes := sf.Includes ++ [path] })

/-- `if sf, exists := result.Files[resolvedPath]; exists { sf.Conditional = true }`. -/
def ScanState.markConditional (st : ScanState) (resolvedPath : Str) : ScanState :=
  st.modifyFile resolvedPath (fun sf => { sf with Conditional := true })

/-- `s.pathResolver.SetVariable(varName, value)`. -/
def ScanState.setVariable (st : ScanState) (varName value : Str) : ScanState :=
  { st with pathResolver := st.pathResolver.SetVariable varName value }

/-- `fmt.Sprintf("Max include depth (%d) reached at %s", maxDepth, filePath)`. -/
def depthWarning (filePath : Str) : Str :=
  "Max include depth (".toList ++ (Nat.repr maxDepth).toList ++ ") reached at ".toList ++
    filePath

/-- `fmt.Sprintf("Error scanning %s: %v", expanded, err)`. -/
def rootWarning (expanded err : Str) : Str :=
  "Error scanning ".toList ++ expanded ++ ": ".toList ++ err

/-- `fmt.Sprintf("Error scanning included file %s: %v", resolvedPath, err)`. -/
def includeWarning (resolvedPath err : Str) : Str :=
  "Error scanning included file ".toList ++ resolvedPath ++ ": ".toList ++ err

/-- The `canonPath` of `scanFile`: `Canonicalize(filePath)`, or `filePath` when that fails. -/
def canonOf (fs : FileSystem) (filePath : Str) : Str :=
  match Canonicalize fs filePath with
  | .ok p => p
  | .error _ => filePath

/-- The `sourceFile` that `scanFile` creates for `canonPath`. -/
def newSourceFile (fs : FileSystem) (canonPath : Str) : SourceFile :=
  { Path := canonPath, Exists := FileExists fs canonPath, Readable := FileReadable fs canonPath,
    Conditional := false, Aliases := [], Includes := [], Error := [] }

/-- What follows the recursive call for an include: the warning when the call returned an
error, then the conditional mark. -/
def afterInclude (inc : ParseResult) (resolvedPath : Str) (r : ScanState × Option Str) :
    ScanState :=
  let st1 :=
    match r.2 with
    | some e => r.1.warn (includeWarning resolvedPath e)
    | none => r.1
  if inc.Conditional then st1.markConditional resolvedPath else st1

/-- The loop `for _, inc := range includes` of `scanFile`; `recur` is the recursive call
`s.scanFile(resolvedPath, result, visited, depth+1)`, with `none` for used-up fuel. -/
def scanIncludes (recur : Str → ScanState → Option (ScanState × Option Str))
    (canonPath : Str) : List ParseResult → ScanState → Option ScanState
  | [], st => some st
  | inc :: rest, st =>
    let st1 := st.addInclude canonPath inc.Path
    match st1.pathResolver.ResolvePath inc.Path with
    | none => scanIncludes recur canonPath rest (st1.unresolved inc.Path)
    | some resolvedPath =>
      (recur resolvedPath st1).bind
        (fun r => scanIncludes recur canonPath rest (afterInclude inc resolvedPath r))

/-- The alias part of the loop body: `if parser.IsAliasLine(line) { ... }`. -/
def aliasStep (canonPath : Str) (lineNum : Nat) (line : Str) (st : ScanState) : ScanState :=
  if IsAliasLine line then
    match AliasParser.ParseLine line canonPath (lineNum + 1) with
    | some aliasDef => st.addAlias canonPath aliasDef
    | none => st
  else st

/-- The include part of the loop body: `if IsIncludeLine(line) { ... }`. -/
def includeStep (recur : Str → ScanState → Option (ScanState × Option Str))
    (canonPath : Str) (line : Str) (st : ScanState) : Option ScanState :=
  if IsIncludeLine line then scanIncludes recur canonPath (IncludeParser.ParseLine line) st
  else some st

/-- The variable part of the loop body: `if varName, value, ok := ...; ok { ... }`. -/
def varStep (line : Str) (st : ScanState) : ScanState :=
  match ParseVariableAssignment line with
  | some (varName, value) => st.setVariable varName value
  | none => st

/-- The body of the loop `for lineNum, line := range lines` for the line of index
`lineNum` (its line number is `lineNum + 1`). -/
def scanLine (recur : Str → ScanState → Option (ScanState × Option Str))
    (canonPath : Str) (lineNum : Nat) (line : Str) (st : ScanState) : Option ScanState :=
  (includeStep recur canonPath line (aliasStep canonPath lineNum line st)).map (varStep line)

/-- The loop `for lineNum, line := range lines` of `scanFile`, from index `lineNum` on. -/
def scanLines (recur : Str → ScanState → Option (ScanState × Option Str))
    (canonPath : Str) : List Str → Nat → ScanState → Option ScanState
  | [], _, st => some st
  | line :: rest, lineNum, st =>
    (scanLine recur canonPath lineNum line st).bind (scanLines recur canonPath rest (lineNum + 1))

/-- The body of `scanFile`, with `recur` for its recursive call at `depth+1`. -/
def scanFileBody (fs : FileSystem) (recur : Str → ScanState → Option (ScanState × Option Str))
    (filePath : Str) (depth : Nat) (st : ScanState) : Option (ScanState × Option Str) :=
  if depth ≥ maxDepth then some (st.warn (depthWarning filePath), none)
  else
    let canonPath := canonOf fs filePath
    if canonPath ∈ st.visited then some (st, none)
    else
      let sourceFile := newSourceFile fs canonPath
      let st1 := st.enter canonPath sourceFile
      if ¬ sourceFile.Exists then
        some (st1.setError canonPath "file does not exist".toList, none)
      else if ¬ sourceFile.Readable then
        some (st1.setError canonPath "permission denied".toList, none)
      else
        match ReadLines fs canonPath with
        | .error e => some (st1.setError canonPath e, some e)
        | .ok lines => (scanLines recur canonPath lines 0 st1).map (fun st2 => (st2, none))

/-- `func (s *Scanner) scanFile(filePath string, result *model.ScanResult,
visited map[string]bool, depth int) error`.  The value is the state after the call and the
returned error; `none` only when the fuel is used up. -/
def scanFile (fs : FileSystem) : Nat → Str → Nat → ScanState →
    Option (ScanState × Option Str)
  | 0, _, _, _ => none
  | fuel + 1, filePath, depth, st =>
    scanFileBody fs (fun p s => scanFile fs fuel p (depth + 1) s) filePath depth st

/-- What follows the call of `scanFile` for a root: the warning when it returned an error. -/
def afterRoot (expanded : Str) (r : ScanState × Option Str) : ScanState :=
  match r.2 with
  | some err => r.1.warn (rootWarning expanded err)
  | none => r.1

/-- The body of the loop `for _, rootPath := range rootPaths` of `ScanShellFiles`. -/
def scanRoot (fs : FileSystem) (fuel : Nat) (rootPath : Str) (st : ScanState) :
    Option ScanState :=
  match st.pathResolver.ResolvePath rootPath with
  | none => some (st.unresolved rootPath)
  | some expanded => (scanFile fs fuel expanded 0 st).map (afterRoot expanded)

/-- The loop over the root paths. -/
def scanRoots (fs : FileSystem) (fuel : Nat) : List Str → ScanState → Option ScanState
  | [], st => some st
  | rootPath :: rest, st => (scanRoot fs fuel rootPath st).bind (scanRoots fs fuel rest)

/-- The state in which `ScanShellFiles` starts: a new result, an empty visited set and the
scanner's own path resolver. -/
def initialState (s : Scanner) (shell : Str) (rootPaths : List Str) : ScanState :=
  { pathResolver := s.pathResolver, result := NewScanResult shell rootPaths, visited := [] }

/-- `func (s *Scanner) ScanShellFiles(shell string, rootPaths []string)` with a given fuel
for the recursion: the result and the scanner after the call (its resolver keeps the
variables set during the scan). -/
def ScanShellFilesFuel (fs : FileSystem) (fuel : Nat) (s : Scanner) (shell : Str)
    (rootPaths : List Str) : Option (ScanResult × Scanner) :=
  (scanRoots fs fuel rootPaths (initialState s shell rootPaths)).map
    (fun st => (st.result, { pathResolver := st.pathResolver }))

/-- `ScanShellFiles` with the fuel that `scanFile` can use at most. -/
def ScanShellFiles (fs : FileSystem) (s : Scanner) (shell : Str) (rootPaths : List Str) :
    Option (ScanResult × Scanner) :=
  ScanShellFilesFuel fs (maxDepth + 1) s shell rootPaths

/-! ## `internal/model/types.go`: `GetAliasesSorted`

Go does not specify the order in which `range` goes over a map, and it differs from one
run to the next.  The order of one iteration is a parameter `ord`: it takes the pairs of
the map to the sequence in which `range` delivers them, a rearrangement of the pairs. -/

/-- `func (r *ScanResult) GetAliasesSorted() []*AliasEntry`: the entries that
`for _, entry := range r.Aliases` delivers, appended in the order of delivery. -/
def ScanResult.GetAliasesSorted (ord : List (Str × AliasEntry) → List (Str × AliasEntry))
    (r : ScanResult) : List AliasEntry :=
  (ord r.Aliases).map Prod.snd

/-! ## `internal/export/json.go` -/

/-- Go `a < b` on strings: the lexicographic order of the bytes, which for UTF-8 text is
the lexicographic order of the code points. -/
def strLess : Str → Str → Bool
  | _, [] => false
  | [], _ :: _ => true
  | a :: as, b :: bs => decide (a.toNat < b.toNat) || (decide (a = b) && strLess as bs)

/-- One round of an insertion sort by name on a sorted front: `x` goes before the first
entry with a greater name, behind the entries with the same name. -/
def insertByName (x : AliasEntry) : List AliasEntry → List AliasEntry
  | [] => [x]
  | y :: ys => if strLess x.Name y.Name then x :: y :: ys else y :: insertByName x ys

/-- Go `sort.Slice(entries, less)` with `less(i, j)` being `entries[i].Name < entries[j].Name`:
the entries rearranged so that no entry has a smaller name than an earlier one.
`sort.Slice` is not stable; it is embedded as an insertion sort, which is what Go runs on
short slices.  For entries with different names, as the values of a map keyed by name are,
every sorting procedure returns the same sequence. -/
def sortByName (entries : List AliasEntry) : List AliasEntry :=
  entries.foldl (fun sorted x => insertByName x sorted) []

/-- The conversion `string(entry.Type)`. -/
def AliasType.toStr : AliasType → Str
  | AliasType.normal => "normal".toList
  | AliasType.global => "global".toList

/-- The struct `SimpleAlias` of `ExportAliases`. -/
structure SimpleAlias where
  Name : Str
  Value : Str
  Typ : Str
  File : Str
  Line : Nat
  Override : Bool
  deriving DecidableEq, Repr

/-- `func (e *JSONExporter) ExportAliases(result *model.ScanResult, w io.Writer) error`: the
slice `aliases` that is handed to the JSON encoder. -/
def ExportAliases (ord : List (Str × AliasEntry) → List (Str × AliasEntry)) (result : ScanResult) :
    List SimpleAlias :=
  let entries := sortByName (result.GetAliasesSorted ord)
  entries.map (fun entry =>
    { Name := entry.Name, Value := entry.ActiveValue, Typ := entry.Typ.toStr,
      File := entry.ActiveLocation.FilePath, Line := entry.ActiveLocation.LineNum,
      Override := entry.IsOverridden })
/-! ## Notions used by the statements -/

/-- The entry that `AddAlias` has built for a name whose definitions so far are `ds`, the
last of them being `dk`. -/
def entryOf (N : Str) (ds : List AliasDefinition) (dk : AliasDefinition) : AliasEntry :=
  { Name := N, Typ := dk.Typ, ActiveValue := dk.Value, ActiveLocation := dk.Location,
    Definitions := ds, IsOverridden := decide (ds.length > 1) }

/-- The table `aliases` holds exactly the definitions `defs`, grouped by name. -/
def TableOf (aliases : List (Str × AliasEntry)) (defs : List AliasDefinition) : Prop :=
  ∀ N : Str,
    match (defs.filter (fun d => d.Name = N)).getLast? with
    | none => mapGet aliases N = none
    | some dk => mapGet aliases N = some (entryOf N (defs.filter (fun d => d.Name = N)) dk)

/-- The place of a definition: `(FilePath, LineNum)`. -/
def defKey (d : AliasDefinition) : Str × Nat := (d.Location.FilePath, d.Location.LineNum)

/-- The definitions that the loop body of `scanFile` adds for the line of index `lineNum`
of the file `canonPath`: at most one. -/
def aliasOf (canonPath : Str) (lineNum : Nat) (line : Str) : List AliasDefinition :=
  if IsAliasLine line then (AliasParser.ParseLine line canonPath (lineNum + 1)).toList else []

/-- The definitions of the lines `lines` of the file `canonPath`, the first of them having
index `lineNum`, in line order. -/
def ownDefs (canonPath : Str) : List Str → Nat → List AliasDefinition
  | [], _ => []
  | line :: rest, lineNum => aliasOf canonPath lineNum line ++ ownDefs canonPath rest (lineNum + 1)

/-- The state `st` holds exactly the definitions `defs` (in discovery order): the alias
table groups them by name, the `SourceFile` of every visited path holds those found in it,
every definition comes from a visited path, and the files recorded are the visited ones. -/
def LogOf (st : ScanState) (defs : List AliasDefinition) : Prop :=
  TableOf st.result.Aliases defs ∧
  (∀ p ∈ st.visited, ∃ sf, mapGet st.result.Files p = some sf ∧
      sf.Aliases = defs.filter (fun d => d.Location.FilePath = p)) ∧
  (∀ d ∈ defs, d.Location.FilePath ∈ st.visited) ∧
  (∀ p, (mapGet st.result.Files p).isSome → p ∈ st.visited)

/-- The alias table of `st1` is that of `st` after `AddAlias` for the definitions `new`, in
order. -/
def Adds (st st1 : ScanState) (new : List AliasDefinition) : Prop :=
  st1.result.Aliases = (new.foldl ScanResult.AddAlias st.result).Aliases

/-- The definitions recorded for the name `N` in the table `aliases`. -/
def definitionsOf (aliases : List (Str × AliasEntry)) (N : Str) : List AliasDefinition :=
  match mapGet aliases N with
  | some e => e.Definitions
  | none => []

/-- A part of a scan that leads from `st` to `st1` and discovers the definitions `new`:
the log grows by `new`, the visited set grows, the new definitions come from files visited
in this part, no two of them from the same line of the same file, and every file visited
and read in this part has contributed all the definitions of its lines. -/
structure Trace (fs : FileSystem) (st st1 : ScanState) (new : List AliasDefinition) : Prop where
  log : ∀ defs, LogOf st defs → LogOf st1 (defs ++ new)
  table : Adds st st1 new
  visited : ∀ p ∈ st.visited, p ∈ st1.visited
  fresh : ∀ d ∈ new, d.Location.FilePath ∉ st.visited
  within : ∀ d ∈ new, d.Location.FilePath ∈ st1.visited
  nodup : (new.map defKey).Nodup
  complete : ∀ q, q ∈ st1.visited → q ∉ st.visited → ∀ lines,
    FileExists fs q = true → FileReadable fs q = true → ReadLines fs q = .ok lines →
    ∀ d ∈ ownDefs q lines 0, d ∈ new

/-- A step from `st` to `st1` that discovers nothing: the alias table, the visited set and
the alias lists of the files are the same. -/
def Silent (st st1 : ScanState) : Prop :=
  st1.result.Aliases = st.result.Aliases ∧ st1.visited = st.visited ∧
  ∀ p, (mapGet st1.result.Files p).map SourceFile.Aliases
      = (mapGet st.result.Files p).map SourceFile.Aliases

/-- The part of a scan that runs the loop over the lines of the visited file `canonPath`
from index `lineNum` on: as `Trace`, but the new definitions may also come from the later
lines of `canonPath` itself. -/
structure LineTrace (fs : FileSystem) (canonPath : Str) (lineNum : Nat) (st st1 : ScanState)
    (new : List AliasDefinition) : Prop where
  log : ∀ defs, LogOf st defs → LogOf st1 (defs ++ new)
  table : Adds st st1 new
  visited : ∀ p ∈ st.visited, p ∈ st1.visited
  fresh : ∀ d ∈ new, (d.Location.FilePath = canonPath ∧ lineNum < d.Location.LineNum) ∨
    d.Location.FilePath ∉ st.visited
  within : ∀ d ∈ new, d.Location.FilePath ∈ st1.visited
  nodup : (new.map defKey).Nodup
  complete : ∀ q, q ∈ st1.visited → q ∉ st.visited → ∀ lines,
    FileExists fs q = true → FileReadable fs q = true → ReadLines fs q = .ok lines →
    ∀ d ∈ ownDefs q lines 0, d ∈ new

/-- The recursive call `recur` behaves as a part of a scan. -/
def RecurOK (fs : FileSystem) (recur : Str → ScanState → Option (ScanState × Option Str)) :
    Prop :=
  ∀ p st r, recur p st = some r → ∃ new, Trace fs st r.1 new

/-- The includes that the loop body of `scanFile` follows for a line. -/
def incsOf (line : Str) : List ParseResult :=
  if IsIncludeLine line then IncludeParser.ParseLine line else []

/-- The states `st` and `st1` record the same files, hold the same warnings and the same
visited set, and their resolvers have the same environment (home directory and
`XDG_CONFIG_HOME`). -/
def SameShape (st st1 : ScanState) : Prop :=
  (∀ q, (mapGet st1.result.Files q).isSome = (mapGet st.result.Files q).isSome) ∧
  st1.result.Warnings = st.result.Warnings ∧ st1.visited = st.visited ∧
  st1.pathResolver.homeDir = st.pathResolver.homeDir ∧
  st1.pathResolver.xdgConfigHome = st.pathResolver.xdgConfigHome

/-- The quoting state in which the loop of `removeInlineComment` arrives at the end of
`line` when it starts in the state `sq`, `dq`, `esc` (inside single quotes, inside double
quotes, after a backslash); `none` when the loop has stopped at a comment before. -/
def quoteScan : Str → Bool → Bool → Bool → Option (Bool × Bool × Bool)
  | [], sq, dq, esc => some (sq, dq, esc)
  | ch :: rest, sq, dq, esc =>
    if esc then quoteScan rest sq dq false
    else if ch = '\\' then quoteScan rest sq dq true
    else if ch = '\'' ∧ ¬ dq then quoteScan rest (!sq) dq false
    else if ch = '"' ∧ ¬ sq then quoteScan rest sq (!dq) false
    else if ch = '#' ∧ ¬ sq ∧ ¬ dq then none
    else quoteScan rest sq dq false

/-- The quotes of `line` are balanced and it does not end in an unfinished backslash
escape: read with the quoting rules of the parser, the line ends outside quotes and not
after an escaping backslash (or a comment has started before its end). -/
def Balanced (line : Str) : Prop :=
  ∀ st, quoteScan line false false false = some st → st = (false, false, false)

/-- The character `ch` is copied by the loop of `removeInlineComment` without a change of
the quoting state `sq`, `dq`. -/
def inert (sq dq : Bool) (ch : Char) : Prop :=
  ch ≠ '\\' ∧ (ch = '\'' → dq = true) ∧ (ch = '"' → sq = true) ∧
  (ch = '#' → sq = true ∨ dq = true)

/-- The found flag, name, value and type of a parse result. -/
def parsed (r : Option AliasDefinition) : Option (Str × Str × AliasType) :=
  r.map (fun d => (d.Name, d.Value, d.Typ))

/-- The capture groups that an expression sets. -/
def Regex.groupsOf : Regex → List Nat
  | Regex.empty => []
  | Regex.char _ => []
  | Regex.bol => []
  | Regex.eol => []
  | Regex.seq a b => Regex.groupsOf a ++ Regex.groupsOf b
  | Regex.alt a b => Regex.groupsOf a ++ Regex.groupsOf b
  | Regex.star a _ => Regex.groupsOf a
  | Regex.group i a => i :: Regex.groupsOf a

/-- A name of the shape `[a-zA-Z_.\-][a-zA-Z0-9_.\-]*`. -/
def validName : Str → Bool
  | [] => false
  | x :: xs => Regex.nameFirst x && xs.all Regex.nameRest

/-- A variable name of the shape `[A-Z_][A-Z0-9_]*`. -/
def validVar : Str → Bool
  | [] => false
  | x :: xs => Regex.varFirst x && xs.all Regex.varRest

/-- The captures `c1` are the captures `c` but for the groups in `G`. -/
def capsFrame (G : List Nat) (c c1 : Regex.Caps) : Prop :=
  c1.length = c.length ∧ ∀ i, i ∉ G → c1.get? i = c.get? i

/-- A character of a plain path: no white space and none of `[`, `#`, the quotes, the
backslash and `;`. -/
def pathChar (c : Char) : Bool :=
  !isSpace c && c != '[' && c != '#' && c != '\'' && c != '"' && c != '\\' && c != ';'

/-- The predicate `I` on scan states is kept by every step of `scanFile`: a warning, an
unresolved path, a variable, a conditional mark, an include or an alias recorded for a
file that exists and is readable, and the four ways of entering a file not yet visited. -/
structure StepInv (fs : FileSystem) (I : ScanState → Prop) : Prop where
  warn : ∀ st w, I st → I (st.warn w)
  unresolved : ∀ st p, I st → I (st.unresolved p)
  setVariable : ∀ st n v, I st → I (st.setVariable n v)
  markConditional : ∀ st p, I st → I (st.markConditional p)
  addInclude : ∀ st cp p, FileExists fs cp = true → FileReadable fs cp = true →
    I st → I (st.addInclude cp p)
  addAlias : ∀ st cp d, FileExists fs cp = true → FileReadable fs cp = true →
    d.Location.FilePath = cp → I st → I (st.addAlias cp d)
  missing : ∀ st cp, cp ∉ st.visited → FileExists fs cp = false → I st →
    I ((st.enter cp (newSourceFile fs cp)).setError cp "file does not exist".toList)
  unreadable : ∀ st cp, cp ∉ st.visited → FileExists fs cp = true →
    FileReadable fs cp = false → I st →
    I ((st.enter cp (newSourceFile fs cp)).setError cp "permission denied".toList)
  readError : ∀ st cp e, cp ∉ st.visited → FileExists fs cp = true →
    FileReadable fs cp = true → ReadLines fs cp = .error e → I st →
    I ((st.enter cp (newSourceFile fs cp)).setError cp e)
  enter : ∀ st cp, cp ∉ st.visited → FileExists fs cp = true → FileReadable fs cp = true →
    I st → I (st.enter cp (newSourceFile fs cp))

/-- The `SourceFile` that a scan records for a path `q` that does not exist, or exists but
is not readable. -/
def deadFile (fs : FileSystem) (q : Str) (conditional : Bool) : SourceFile :=
  { Path := q, Exists := FileExists fs q, Readable := FileReadable fs q,
    Conditional := conditional, Aliases := [], Includes := [],
    Error := if FileExists fs q then "permission denied".toList
      else "file does not exist".toList }

/-- Every recorded file is stored under its own path with the flags of the file system,
and the record of a file that does not exist or is not readable is a `deadFile`. -/
def FilesOK (fs : FileSystem) (st : ScanState) : Prop :=
  ∀ q sf, mapGet st.result.Files q = some sf →
    sf.Path = q ∧ sf.Exists = FileExists fs q ∧ sf.Readable = FileReadable fs q ∧
    (¬ (FileExists fs q = true ∧ FileReadable fs q = true) → sf = deadFile fs q sf.Conditional)

/-- The state `st` with the unresolved paths `u` put before its own, and with the shell
tag and the root list replaced: the parts of the result that a scan never reads. -/
def ScanState.reframe (u : List Str) (shell : Str) (roots : List Str) (st : ScanState) :
    ScanState :=
  { st with result := { st.result with
      UnresolvedPaths := u ++ st.result.UnresolvedPaths, Shell := shell, RootFiles := roots } }

/-- A segment of a lexically normalised path: not empty, not `.`, not `..`, without a
slash. -/
def normalSeg (seg : Str) : Prop :=
  seg ≠ [] ∧ seg ≠ ['.'] ∧ seg ≠ ['.', '.'] ∧ '/' ∉ seg

/-- An absolute, lexically normalised path: a slash followed by normal segments that are
joined by slashes (the root `/` when there is no segment). -/
def NormalAbs (path : Str) : Prop :=
  ∃ segs : List Str, path = '/' :: joinSlash segs ∧ ∀ seg ∈ segs, normalSeg seg

/-- The variable name at the front of a text: the longest text of the shape
`[A-Z_][A-Z0-9_]*`, with the text after it. -/
def nameAt : Str → Option (Str × Str)
  | [] => none
  | x :: t =>
    if Regex.varFirst x then
      some (x :: t.takeWhile Regex.varRest, t.dropWhile Regex.varRest)
    else none

/-- The text without its first character when that is `a`. -/
def skipChar (a : Char) : Str → Str
  | [] => []
  | y :: ys => if y = a then ys else y :: ys

/-- The variable reference at the front of a text: `$`, an optional opening brace, a name,
an optional closing brace; the name, with the text after the reference. -/
def refAt : Str → Option (Str × Str)
  | [] => none
  | d :: t =>
    if d = '$' then
      match nameAt (skipChar (Char.ofNat 0x7b) t) with
      | some (name, rest) => some (name, skipChar (Char.ofNat 0x7d) rest)
      | none => none
    else none

/-- The value that `expandVariables` has for a variable name: the home directory, the XDG
directory or the set value. -/
def PathResolver.valueOf (r : PathResolver) (name : Str) : Option Str :=
  if name = "HOME".toList then some r.homeDir
  else if name = "XDG_CONFIG_HOME".toList then some r.xdgConfigHome
  else mapGet r.customVars name

/-- Every `$` of the text starts a variable reference `$V` or `$\x7bV`, with a name `V` of
the shape `[A-Z_][A-Z0-9_]*`. -/
def refsOnly : Str → Bool
  | [] => true
  | c :: t => (c != '$' || (refAt (c :: t)).isSome) && refsOnly t

/-- A character of the path token of a direct include: no white space, `#`, `;` or
backslash. -/
def tokenChar (c : Char) : Bool :=
  !isSpace c && c != '#' && c != ';' && c != '\\'

/-- A path character of a guarded include: a letter, a digit, `~`, `/`, `.`, `_` or `-`. -/
def guardChar (c : Char) : Bool :=
  Regex.lower c || Regex.upper c || Regex.digit c ||
    c = '~' || c = '/' || c = '.' || c = '_' || c = '-'

/-- White space stands in the text only right after a `;`. -/
def blankAfterSemi : Str → Bool
  | [] => true
  | [_] => true
  | x :: y :: rest => (!Regex.ws y || x = ';') && blankAfterSemi (y :: rest)

/-- The function `ord` is an order of iteration over a map: it rearranges the pairs. -/
def IterOrder (ord : List (Str × AliasEntry) → List (Str × AliasEntry)) : Prop :=
  ∀ m, (ord m).Perm m

/-- The alias table `m` is a map keyed by name: no key occurs twice, and every entry is
stored under its own name. -/
def Keyed (m : List (Str × AliasEntry)) : Prop :=
  (m.map Prod.fst).Nodup ∧ ∀ p ∈ m, p.2.Name = p.1

/-- The alias part of the loop body without the quick check: the parser is run on every
line. -/
def aliasStepUngated (canonPath : Str) (lineNum : Nat) (line : Str) (st : ScanState) :
    ScanState :=
  match AliasParser.ParseLine line canonPath (lineNum + 1) with
  | some aliasDef => st.addAlias canonPath aliasDef
  | none => st

/-- The text is enclosed in quotes: it has at least two characters, and it starts and ends
with a double quote, or starts and ends with a single quote. -/
def enclosedInQuotes (s : Str) : Bool :=
  decide (s.length ≥ 2) &&
    ((s.head? = some '"' && s.getLast? = some '"') ||
     (s.head? = some '\'' && s.getLast? = some '\''))

/-- The text has the form `alias -g NAME=VALUE`: white space (possibly none), the word
`alias`, white space, `-g`, white space, a name of the shape
`[a-zA-Z_.\-][a-zA-Z0-9_.\-]*`, the sign `=` and a value that starts with a character
other than a newline. -/
def GlobalAliasForm (s : Str) : Prop :=
  ∃ (W0 W1 W2 N : Str) (v : Char) (rest : Str),
    s = W0 ++ ("alias".toList ++ (W1 ++ ("-g".toList ++ (W2 ++ (N ++ '=' :: v :: rest))))) ∧
    (∀ c ∈ W0, Regex.ws c = true) ∧ W1 ≠ [] ∧ (∀ c ∈ W1, Regex.ws c = true) ∧
    W2 ≠ [] ∧ (∀ c ∈ W2, Regex.ws c = true) ∧ validName N = true ∧ v ≠ '\n'

/-- The alias parser with the two expressions tried in the other order: the expression
for a normal alias first, the expression for a global alias second. -/
def AliasParser.ParseLineNormalFirst (line : Str) (filePath : Str) (lineNum : Nat) :
    Option AliasDefinition :=
  let cleaned := removeInlineComment line
  if cleaned = [] then none
  else
    match Regex.FindStringSubmatch normalAliasPattern 2 cleaned with
    | some m =>
      some { Name := m.sub 1, Value := extractValue (m.sub 2), Typ := AliasType.normal,
             Location := { FilePath := filePath, LineNum := lineNum, RawLine := line } }
    | none =>
      match Regex.FindStringSubmatch globalAliasPattern 2 cleaned with
      | some m =>
        some { Name := m.sub 1, Value := extractValue (m.sub 2), Typ := AliasType.global,
               Location := { FilePath := filePath, LineNum := lineNum, RawLine := line } }
      | none => none

/-- The place of the definition `d` is a line of its file: the line number is at least 1,
and the file reader returns the lines of the file `d.Location.FilePath`, the line of that
number (counted from 1) being the raw line of `d`. -/
def AtLine (fs : FileSystem) (d : AliasDefinition) : Prop :=
  1 ≤ d.Location.LineNum ∧
  ∃ lines, ReadLines fs d.Location.FilePath = .ok lines ∧
    lines.get? (d.Location.LineNum - 1) = some d.Location.RawLine

/-- The provenance of the definitions of a scan result: every definition in the entry of a
name `N` has the name `N`, is in the alias list of the file recorded under its path, a
file stored under its own path that exists and is readable, and stands at its line of that
file; and every definition in the alias list of a recorded file is in the entry of its
name. -/
def Provenance (fs : FileSystem) (r : ScanResult) : Prop :=
  (∀ N e, mapGet r.Aliases N = some e → ∀ d ∈ e.Definitions,
    d.Name = N ∧
    (∃ sf, mapGet r.Files d.Location.FilePath = some sf ∧ sf.Path = d.Location.FilePath ∧
      sf.Exists = true ∧ sf.Readable = true ∧ d ∈ sf.Aliases) ∧
    AtLine fs d) ∧
  (∀ q sf, mapGet r.Files q = some sf → ∀ d ∈ sf.Aliases,
    ∃ e, mapGet r.Aliases d.Name = some e ∧ d ∈ e.Definitions)

/-- The predicate `I` on scan states is kept by every step of `scanFile`, where an alias is
recorded for a line of a file that exists and is readable: the definition that the alias
parser returns for the line of index `i` of the lines that the reader returns. -/
structure LineInv (fs : FileSystem) (I : ScanState → Prop) : Prop where
  warn : ∀ st w, I st → I (st.warn w)
  unresolved : ∀ st p, I st → I (st.unresolved p)
  setVariable : ∀ st n v, I st → I (st.setVariable n v)
  markConditional : ∀ st p, I st → I (st.markConditional p)
  addInclude : ∀ st cp p, FileExists fs cp = true → FileReadable fs cp = true →
    I st → I (st.addInclude cp p)
  addAlias : ∀ st cp lines i line d, FileExists fs cp = true → FileReadable fs cp = true →
    ReadLines fs cp = .ok lines → lines.get? i = some line →
    AliasParser.ParseLine line cp (i + 1) = some d → I st → I (st.addAlias cp d)
  missing : ∀ st cp, cp ∉ st.visited → FileExists fs cp = false → I st →
    I ((st.enter cp (newSourceFile fs cp)).setError cp "file does not exist".toList)
  unreadable : ∀ st cp, cp ∉ st.visited → FileExists fs cp = true →
    FileReadable fs cp = false → I st →
    I ((st.enter cp (newSourceFile fs cp)).setError cp "permission denied".toList)
  readError : ∀ st cp e, cp ∉ st.visited → FileExists fs cp = true →
    FileReadable fs cp = true → ReadLines fs cp = .error e → I st →
    I ((st.enter cp (newSourceFile fs cp)).setError cp e)
  enter : ∀ st cp, cp ∉ st.visited → FileExists fs cp = true → FileReadable fs cp = true →
    I st → I (st.enter cp (newSourceFile fs cp))

/-- Every definition in the alias table of `st` stands at its line of its file. -/
def TableAtLine (fs : FileSystem) (st : ScanState) : Prop :=
  ∀ N e, mapGet st.result.Aliases N = some e → ∀ d ∈ e.Definitions, AtLine fs d

/-- A shell variable name: `[a-zA-Z_][a-zA-Z0-9_]*`. -/
def shellName : Str → Bool
  | [] => false
  | x :: xs =>
    (Regex.upper x || Regex.lower x || x = '_') &&
      xs.all (fun c => Regex.upper c || Regex.lower c || Regex.digit c || c = '_')

/-- The variable name that the resolver reads in `$V`: the longest front part of `V` of the
shape `[A-Z_][A-Z0-9_]*`; none when `V` does not start with `[A-Z_]`. -/
def readName (V : Str) : Option Str := (nameAt V).map Prod.fst
/-! ## Example file systems -/

/-- A file system without symbolic links that holds the files `files` (path and lines),
all of them readable. -/
def plainFS (files : List (Str × List Str)) : FileSystem :=
  { Abs := fun p => .ok p
    EvalSymlinks := fun p => .ok p
    Stat := fun p => (mapGet files p).isSome
    Open := fun p =>
      match mapGet files p with
      | some lines => .ok { lines := lines, readErr := none }
      | none => .error "no such file or directory".toList }

/-- A scanner made in an environment with home directory `/home/u` and no
`XDG_CONFIG_HOME`. -/
def scanner0 : Scanner := NewScanner "/home/u".toList []

/-- Scenario E: the file `/rc` defines an alias and sources itself. -/
def fsSelf : FileSystem :=
  plainFS [("/rc".toList, ["alias a=\'1\'".toList, "source /rc".toList])]

def selfDef : AliasDefinition :=
  { Name := "a".toList, Value := "1".toList, Typ := AliasType.normal,
    Location := { FilePath := "/rc".toList, LineNum := 1, RawLine := "alias a=\'1\'".toList } }

def selfFile : SourceFile :=
  { Path := "/rc".toList, Exists := true, Readable := true, Conditional := false,
    Aliases := [selfDef], Includes := ["/rc".toList], Error := [] }

/-- The result of scanning `/rc` in `fsSelf`. -/
def selfResult : ScanResult :=
  { Aliases := [("a".toList,
      { Name := "a".toList, Typ := AliasType.normal, ActiveValue := "1".toList,
        ActiveLocation := selfDef.Location, Definitions := [selfDef], IsOverridden := false })],
    Files := [("/rc".toList, selfFile)],
    UnresolvedPaths := [], Warnings := [], Shell := "bash".toList,
    RootFiles := ["/rc".toList] }

/-- The path of the file of index `i` of the example chain: `/f`, `/fx`, `/fxx`, ... -/
def chainPath (i : Nat) : Str := '/' :: 'f' :: List.replicate i 'x'

/-- An endless include chain: every path `/f...` is a readable file whose second line
sources the same path with one more `x`. -/
def chainFS : FileSystem :=
  { Abs := fun p => .ok p
    EvalSymlinks := fun p => .ok p
    Stat := fun p => HasPrefix p "/f".toList
    Open := fun p =>
      if HasPrefix p "/f".toList then
        .ok { lines := ["# next".toList, "source ".toList ++ p ++ ['x']], readErr := none }
      else .error "no such file or directory".toList }

/-- A root file that sources `$D/rc` on line 1 and assigns `D=/a` on line 2, and the file
`/a/rc` with one alias. -/
def fsRescan : FileSystem :=
  plainFS [("/r".toList, ["source $D/rc".toList, "D=/a".toList]),
           ("/a/rc".toList, ["alias x=\'1\'".toList])]

/-- The root file `/r` has a guarded include of `/link`, a symbolic link to `/real`. -/
def fsLink : FileSystem :=
  { Abs := fun p => .ok p
    EvalSymlinks := fun p => if p = "/link".toList then .ok "/real".toList else .ok p
    Stat := fun p => decide (p ∈ ["/r".toList, "/real".toList, "/link".toList])
    Open := fun p =>
      if p = "/r".toList then
        .ok { lines := ["[ -f /link ] && source /link".toList], readErr := none }
      else if p = "/real".toList ∨ p = "/link".toList then
        .ok { lines := ["alias y=\'2\'".toList], readErr := none }
      else .error "no such file or directory".toList }

/-- The root file `/r` has a guarded include of `/b` spelled with the dot command. -/
def fsDot : FileSystem :=
  plainFS [("/r".toList, ["[ -f /b ] && . /b".toList]), ("/b".toList, ["alias z=\'3\'".toList])]

/-- The same files as `fsDot`, the include spelled with `source`. -/
def fsSource : FileSystem :=
  plainFS [("/r".toList, ["[ -f /b ] && source /b".toList]),
           ("/b".toList, ["alias z=\'3\'".toList])]

/-- The file `/big` has an alias on line 1 and a second line of `maxCapacity` bytes, one
more than fits the buffer of `ReadLines`. -/
def fsBig : FileSystem :=
  plainFS [("/big".toList, ["alias a=\'1\'".toList, List.replicate maxCapacity 'a'])]

/-- The result of scanning `/big` in `fsBig`. -/
def bigResult : ScanResult :=
  { Aliases := [],
    Files := [("/big".toList,
      { Path := "/big".toList, Exists := true, Readable := true, Conditional := false,
        Aliases := [], Includes := [], Error := "bufio.Scanner: token too long".toList })],
    UnresolvedPaths := [],
    Warnings := ["Error scanning /big: bufio.Scanner: token too long".toList],
    Shell := "bash".toList, RootFiles := ["/big".toList] }

/-- The file `/a` sources `/b` on line 1 and defines `n` on lines 2 and 3; `/b` defines
`n` on its line 1. -/
def fsOrder : FileSystem :=
  plainFS [("/a".toList, ["source /b".toList, "alias n=\'2\'".toList, "alias n=\'3\'".toList]),
           ("/b".toList, ["alias n=\'1\'".toList])]

/-- The definition of `n` in `/b`. -/
def orderDefB : AliasDefinition :=
  { Name := "n".toList, Value := "1".toList, Typ := AliasType.normal,
    Location := { FilePath := "/b".toList, LineNum := 1, RawLine := "alias n=\'1\'".toList } }

/-- The definition of `n` on line 2 of `/a`. -/
def orderDefJ : AliasDefinition :=
  { Name := "n".toList, Value := "2".toList, Typ := AliasType.normal,
    Location := { FilePath := "/a".toList, LineNum := 2, RawLine := "alias n=\'2\'".toList } }

/-- Scenario A: `~/.bashrc` defines `ll` and sources `~/.aliases`, which defines `ll`
again. -/
def fsScenarioA : FileSystem :=
  plainFS [("/home/u/.bashrc".toList, ["alias ll=\'ls -la\'".toList, "source ~/.aliases".toList]),
           ("/home/u/.aliases".toList, ["alias ll=\'ls -lah\'".toList])]

/-- The definition of `ll` in `~/.bashrc`. -/
def scenarioADef1 : AliasDefinition :=
  { Name := "ll".toList, Value := "ls -la".toList, Typ := AliasType.normal,
    Location := { FilePath := "/home/u/.bashrc".toList, LineNum := 1,
                  RawLine := "alias ll=\'ls -la\'".toList } }

/-- The definition of `ll` in `~/.aliases`. -/
def scenarioADef2 : AliasDefinition :=
  { Name := "ll".toList, Value := "ls -lah".toList, Typ := AliasType.normal,
    Location := { FilePath := "/home/u/.aliases".toList, LineNum := 1,
                  RawLine := "alias ll=\'ls -lah\'".toList } }


/-- Scenario D: the file `/rc` sources `$UNKNOWN/.rc` and then defines an alias. -/
def fsUnknown : FileSystem :=
  plainFS [("/rc".toList, ["source $UNKNOWN/.rc".toList, "alias a=\'1\'".toList])]

/-- The file `/rc` sources `/nope`, which does not exist, and defines an alias; `/locked`
exists but cannot be opened; `/gone` does not exist. -/
def fsDead : FileSystem :=
  { Abs := fun p => .ok p
    EvalSymlinks := fun p => .ok p
    Stat := fun p => decide (p = "/rc".toList ∨ p = "/locked".toList)
    Open := fun p =>
      if p = "/rc".toList then
        .ok { lines := ["source /nope".toList, "alias a=\'1\'".toList], readErr := none }
      else .error "permission denied".toList }

/-! ## Example alias tables -/

/-- Three definitions in the order in which a scan of `/rc` finds them: `b`, `a`, and `b`
again. -/
def exportDefs : List AliasDefinition :=
  [{ Name := "b".toList, Value := "1".toList, Typ := AliasType.normal,
     Location := { FilePath := "/rc".toList, LineNum := 1, RawLine := "alias b=1".toList } },
   { Name := "a".toList, Value := "2".toList, Typ := AliasType.global,
     Location := { FilePath := "/rc".toList, LineNum := 2, RawLine := "alias -g a=2".toList } },
   { Name := "b".toList, Value := "3".toList, Typ := AliasType.normal,
     Location := { FilePath := "/rc".toList, LineNum := 3, RawLine := "alias b=3".toList } }]

/-- The scan result that `AddAlias` builds from `exportDefs`. -/
def exportResult : ScanResult :=
  exportDefs.foldl ScanResult.AddAlias (NewScanResult "zsh".toList ["/rc".toList])

/-- The records of the aliases of `exportResult`. -/
def exportRecords : List SimpleAlias :=
  [{ Name := "a".toList, Value := "2".toList, Typ := "global".toList, File := "/rc".toList,
     Line := 2, Override := false },
   { Name := "b".toList, Value := "3".toList, Typ := "normal".toList, File := "/rc".toList,
     Line := 3, Override := true }]

/-- The file `/rc` has one alias line, with a tab after the word `alias`. -/
def fsTab : FileSystem :=
  plainFS [("/rc".toList, ["alias\tx=y".toList])]

/-- The file `/rc` has the same alias line with a blank after the word `alias`. -/
def fsBlank : FileSystem :=
  plainFS [("/rc".toList, ["alias x=y".toList])]

def blankDef : AliasDefinition :=
  { Name := "x".toList, Value := "y".toList, Typ := AliasType.normal,
    Location := { FilePath := "/rc".toList, LineNum := 1, RawLine := "alias x=y".toList } }

def blankEntry : AliasEntry :=
  { Name := "x".toList, Typ := AliasType.normal, ActiveValue := "y".toList,
    ActiveLocation := blankDef.Location, Definitions := [blankDef], IsOverridden := false }

/-- The result of scanning `/rc` in `fsBlank`. -/
def blankResult : ScanResult :=
  { Aliases := [("x".toList, blankEntry)],
    Files := [("/rc".toList,
      { Path := "/rc".toList, Exists := true, Readable := true, Conditional := false,
        Aliases := [blankDef], Includes := [], Error := [] })],
    UnresolvedPaths := [], Warnings := [], Shell := "zsh".toList,
    RootFiles := ["/rc".toList] }

/-! ## Example file systems for the corrected claims -/

/-- The root file `/r` sources `$HOMEx/.rc` and defines an alias; the file `/home/ux/.rc`
has one alias. -/
def fsMixed : FileSystem :=
  plainFS [("/r".toList, ["source $HOMEx/.rc".toList, "alias a=\'1\'".toList]),
           ("/home/ux/.rc".toList, ["alias b=\'2\'".toList])]

/-- The include chain of `chainFS` cut after 25 files: the paths `/f`, `/fx`, ... with up to
24 letters `x` are readable files, each sourcing the path with one more `x`; the path with
25 letters `x`, which the last of them sources, does not exist. -/
def fsChainEnd : FileSystem :=
  { Abs := fun p => .ok p
    EvalSymlinks := fun p => .ok p
    Stat := fun p => HasPrefix p "/f".toList && decide (p.length ≤ 26)
    Open := fun p =>
      if HasPrefix p "/f".toList && decide (p.length ≤ 26) then
        .ok { lines := ["# next".toList, "source ".toList ++ p ++ ['x']], readErr := none }
      else .error "no such file or directory".toList }

theorem mapGet_mapSet {β : Type} (m : List (Str × β)) (k : Str) (v : β) (k2 : Str) :
    mapGet (mapSet m k v) k2 = if k = k2 then some v else mapGet m k2 := by
  induction m with
  | nil => simp [mapSet, mapGet]
  | cons p m ih =>
    obtain ⟨k1, v1⟩ := p
    by_cases h1 : k1 = k
    · subst h1
      by_cases h2 : k1 = k2 <;> simp [mapSet, mapGet, h2]
    · by_cases h2 : k1 = k2
      · subst h2
        have h3 : ¬ k = k1 := fun h => h1 h.symm
        simp [mapSet, mapGet, h1, h3]
      · simp [mapSet, mapGet, h1, h2, ih]

theorem mapGet_mapModify {β : Type} (m : List (Str × β)) (k : Str) (f : β → β) (k2 : Str) :
    mapGet (mapModify m k f) k2 = if k = k2 then (mapGet m k2).map f else mapGet m k2 := by
  induction m with
  | nil => simp [mapModify, mapGet]
  | cons p m ih =>
    obtain ⟨k1, v1⟩ := p
    by_cases h1 : k1 = k
    · subst h1
      by_cases h2 : k1 = k2 <;> simp [mapModify, mapGet, h2]
    · by_cases h2 : k1 = k2
      · subst h2
        have h3 : ¬ k = k1 := fun h => h1 h.symm
        simp [mapModify, mapGet, h1, h3]
      · simp [mapModify, mapGet, h1, h2, ih]

theorem TableOf_nil : TableOf [] [] := by
  intro N
  simp [mapGet]

theorem TableOf_AddAlias (r : ScanResult) (defs : List AliasDefinition) (d : AliasDefinition)
    (h : TableOf r.Aliases defs) : TableOf (r.AddAlias d).Aliases (defs ++ [d]) := by
  intro N
  have hN := h N
  by_cases hd : d.Name = N
  · subst hd
    have hf : (defs ++ [d]).filter (fun x => x.Name = d.Name)
        = defs.filter (fun x => x.Name = d.Name) ++ [d] := by
      simp [List.filter_append, List.filter_cons]
    rw [hf]
    rw [List.getLast?_concat]
    cases hl : (defs.filter (fun x => x.Name = d.Name)).getLast? with
    | none =>
      rw [hl] at hN
      have hnil : defs.filter (fun x => x.Name = d.Name) = [] := by
        simpa [List.getLast?_eq_none_iff] using hl
      simp only at hN
      simp [ScanResult.AddAlias, hN, mapGet_mapSet, entryOf, hnil]
    | some dk =>
      rw [hl] at hN
      simp only at hN
      have hne : defs.filter (fun x => x.Name = d.Name) ≠ [] := by
        intro h0
        rw [h0] at hl
        simp at hl
      have hlen : 0 < (defs.filter (fun x => x.Name = d.Name)).length :=
        List.length_pos.mpr hne
      simp [ScanResult.AddAlias, hN, mapGet_mapModify, entryOf, AliasEntry.AddDefinition, hlen]
  · have hf : (defs ++ [d]).filter (fun x => x.Name = N) = defs.filter (fun x => x.Name = N) := by
      simp [List.filter_append, List.filter_cons, hd]
    rw [hf]
    have hget : mapGet (r.AddAlias d).Aliases N = mapGet r.Aliases N := by
      unfold ScanResult.AddAlias
      cases hg : mapGet r.Aliases d.Name <;> simp [mapGet_mapSet, mapGet_mapModify, hd]
    rw [hget]
    exact hN

theorem TableOf_foldl (defs new : List AliasDefinition) (r : ScanResult)
    (h : TableOf r.Aliases defs) :
    TableOf (new.foldl ScanResult.AddAlias r).Aliases (defs ++ new) := by
  induction new generalizing defs r with
  | nil => simpa using h
  | cons d new ih =>
    have := ih (defs ++ [d]) (r.AddAlias d) (TableOf_AddAlias r defs d h)
    simpa using this

/-- C1: starting from an empty `ScanResult`, after the calls `AddAlias d` for the `d` of
`defs` in order, the entry of every name `N` is determined by the definitions
`D1..Dk` of `N` among them (in call order): there is no entry when there is none, and
otherwise the entry has `Definitions = [D1..Dk]`, the active value, location and type of
`Dk`, and `IsOverridden = (k > 1)`. -/
theorem AddAlias_override_law (shell : Str) (roots : List Str) (defs : List AliasDefinition)
    (N : Str) :
    match (defs.filter (fun d => d.Name = N)).getLast? with
    | none => mapGet (defs.foldl ScanResult.AddAlias (NewScanResult shell roots)).Aliases N = none
    | some dk =>
      mapGet (defs.foldl ScanResult.AddAlias (NewScanResult shell roots)).Aliases N
        = some { Name := N, Typ := dk.Typ, ActiveValue := dk.Value,
                 ActiveLocation := dk.Location,
                 Definitions := defs.filter (fun d => d.Name = N),
                 IsOverridden := decide ((defs.filter (fun d => d.Name = N)).length > 1) } := by
  have h := TableOf_foldl [] defs (NewScanResult shell roots) TableOf_nil N
  simpa [entryOf] using h

/-! ## Termination: the fuel `maxDepth + 1` is enough -/

theorem scanIncludes_isSome (recur : Str → ScanState → Option (ScanState × Option Str))
    (h : ∀ p st, (recur p st).isSome) (canonPath : Str) (incs : List ParseResult)
    (st : ScanState) : (scanIncludes recur canonPath incs st).isSome := by
  induction incs generalizing st with
  | nil => simp [scanIncludes]
  | cons inc rest ih =>
    simp only [scanIncludes]
    split
    · exact ih _
    · rename_i resolvedPath _
      obtain ⟨r, hr⟩ := Option.isSome_iff_exists.mp (h resolvedPath (st.addInclude canonPath inc.Path))
      rw [hr]
      exact ih _

theorem scanLine_isSome (recur : Str → ScanState → Option (ScanState × Option Str))
    (h : ∀ p st, (recur p st).isSome) (canonPath : Str) (lineNum : Nat) (line : Str)
    (st : ScanState) : (scanLine recur canonPath lineNum line st).isSome := by
  unfold scanLine includeStep
  split
  · simpa using scanIncludes_isSome recur h canonPath _ _
  · simp

theorem scanLines_isSome (recur : Str → ScanState → Option (ScanState × Option Str))
    (h : ∀ p st, (recur p st).isSome) (canonPath : Str) (lines : List Str) (lineNum : Nat)
    (st : ScanState) : (scanLines recur canonPath lines lineNum st).isSome := by
  induction lines generalizing lineNum st with
  | nil => simp [scanLines]
  | cons line rest ih =>
    simp only [scanLines]
    obtain ⟨r, hr⟩ := Option.isSome_iff_exists.mp (scanLine_isSome recur h canonPath lineNum line st)
    rw [hr]
    exact ih _ _

theorem scanFileBody_isSome (fs : FileSystem)
    (recur : Str → ScanState → Option (ScanState × Option Str))
    (h : ∀ p st, (recur p st).isSome) (filePath : Str) (depth : Nat) (st : ScanState) :
    (scanFileBody fs recur filePath depth st).isSome := by
  unfold scanFileBody
  simp only
  split
  · simp
  · split
    · simp
    · split
      · simp
      · split
        · simp
        · split
          · simp
          · simpa using scanLines_isSome recur h _ _ _ _

theorem scanFileBody_at_ceiling (fs : FileSystem)
    (recur : Str → ScanState → Option (ScanState × Option Str))
    (filePath : Str) (depth : Nat) (st : ScanState) (hd : maxDepth ≤ depth) :
    scanFileBody fs recur filePath depth st = some (st.warn (depthWarning filePath), none) := by
  unfold scanFileBody
  simp [hd]

theorem scanFile_isSome (fs : FileSystem) (fuel : Nat) :
    ∀ (depth : Nat), maxDepth + 1 ≤ fuel + depth → 1 ≤ fuel →
      ∀ (filePath : Str) (st : ScanState), (scanFile fs fuel filePath depth st).isSome := by
  induction fuel with
  | zero => intro depth _ h1; omega
  | succ fuel ih =>
    intro depth h2 _ filePath st
    simp only [scanFile]
    by_cases hd : maxDepth ≤ depth
    · rw [scanFileBody_at_ceiling fs _ filePath depth st hd]
      simp
    · apply scanFileBody_isSome
      intro p s
      apply ih (depth + 1)
      · omega
      · simp only [maxDepth] at hd h2 ⊢; omega

theorem scanRoots_isSome (fs : FileSystem) (fuel : Nat) (hf : maxDepth + 1 ≤ fuel)
    (roots : List Str) (st : ScanState) : (scanRoots fs fuel roots st).isSome := by
  induction roots generalizing st with
  | nil => simp [scanRoots]
  | cons root rest ih =>
    simp only [scanRoots, scanRoot]
    split
    · simpa using ih _
    · rename_i expanded _
      obtain ⟨r, hr⟩ := Option.isSome_iff_exists.mp
        (scanFile_isSome fs fuel 0 (by omega) (by omega) expanded st)
      rw [hr]
      simpa using ih _

/-! More fuel never changes a result. -/

theorem scanIncludes_mono (r1 r2 : Str → ScanState → Option (ScanState × Option Str))
    (h : ∀ p st r, r1 p st = some r → r2 p st = some r) (canonPath : Str)
    (incs : List ParseResult) (st st' : ScanState)
    (hs : scanIncludes r1 canonPath incs st = some st') :
    scanIncludes r2 canonPath incs st = some st' := by
  induction incs generalizing st with
  | nil => simpa [scanIncludes] using hs
  | cons inc rest ih =>
    simp only [scanIncludes] at hs ⊢
    cases hres : (st.addInclude canonPath inc.Path).pathResolver.ResolvePath inc.Path with
    | none =>
      simp only [hres] at hs ⊢
      exact ih _ hs
    | some resolvedPath =>
      simp only [hres] at hs ⊢
      obtain ⟨r, hr, hrest⟩ := Option.bind_eq_some.mp hs
      simp only [h _ _ _ hr, Option.some_bind]
      exact ih _ hrest

theorem scanLine_mono (r1 r2 : Str → ScanState → Option (ScanState × Option Str))
    (h : ∀ p st r, r1 p st = some r → r2 p st = some r) (canonPath : Str) (lineNum : Nat)
    (line : Str) (st st' : ScanState) (hs : scanLine r1 canonPath lineNum line st = some st') :
    scanLine r2 canonPath lineNum line st = some st' := by
  unfold scanLine includeStep at hs ⊢
  by_cases hinc : IsIncludeLine line = true
  · simp only [hinc, if_true] at hs ⊢
    obtain ⟨a, ha, hst⟩ := Option.map_eq_some'.mp hs
    simp [scanIncludes_mono r1 r2 h _ _ _ _ ha, hst]
  · simp only [hinc] at hs ⊢
    exact hs

theorem scanLines_mono (r1 r2 : Str → ScanState → Option (ScanState × Option Str))
    (h : ∀ p st r, r1 p st = some r → r2 p st = some r) (canonPath : Str)
    (lines : List Str) (lineNum : Nat) (st st' : ScanState)
    (hs : scanLines r1 canonPath lines lineNum st = some st') :
    scanLines r2 canonPath lines lineNum st = some st' := by
  induction lines generalizing lineNum st with
  | nil => simpa [scanLines] using hs
  | cons line rest ih =>
    simp only [scanLines] at hs ⊢
    obtain ⟨a, ha, hrest⟩ := Option.bind_eq_some.mp hs
    simp only [scanLine_mono r1 r2 h _ _ _ _ _ ha, Option.some_bind]
    exact ih _ _ hrest

theorem scanFileBody_mono (fs : FileSystem)
    (r1 r2 : Str → ScanState → Option (ScanState × Option Str))
    (h : ∀ p st r, r1 p st = some r → r2 p st = some r) (filePath : Str) (depth : Nat)
    (st : ScanState) (res : ScanState × Option Str)
    (hs : scanFileBody fs r1 filePath depth st = some res) :
    scanFileBody fs r2 filePath depth st = some res := by
  unfold scanFileBody at hs ⊢
  simp only at hs ⊢
  by_cases h1 : depth ≥ maxDepth
  · simpa [h1] using hs
  · by_cases h2 : canonOf fs filePath ∈ st.visited
    · simpa [h1, h2] using hs
    · by_cases h3 : (newSourceFile fs (canonOf fs filePath)).Exists = true
      · by_cases h4 : (newSourceFile fs (canonOf fs filePath)).Readable = true
        · cases h5 : ReadLines fs (canonOf fs filePath) with
          | error e => simpa [h1, h2, h3, h4, h5] using hs
          | ok lines =>
            simp only [h1, h2, h3, h4, h5, if_false, not_true_eq_false] at hs ⊢
            obtain ⟨a, ha, hst⟩ := Option.map_eq_some'.mp hs
            simp [scanLines_mono r1 r2 h _ _ _ _ _ ha, hst]
        · simpa [h1, h2, h3, h4] using hs
      · simpa [h1, h2, h3] using hs

theorem scanFile_mono (fs : FileSystem) (fuel : Nat) :
    ∀ (filePath : Str) (depth : Nat) (st : ScanState) (res : ScanState × Option Str),
      scanFile fs fuel filePath depth st = some res →
      scanFile fs (fuel + 1) filePath depth st = some res := by
  induction fuel with
  | zero => intro _ _ _ _ h; simp [scanFile] at h
  | succ fuel ih =>
    intro filePath depth st res h
    rw [scanFile] at h ⊢
    exact scanFileBody_mono fs _ _ (fun p s r hr => ih p (depth + 1) s r hr) _ _ _ _ h

theorem scanFile_mono_add (fs : FileSystem) (fuel k : Nat) (filePath : Str) (depth : Nat)
    (st : ScanState) (res : ScanState × Option Str)
    (h : scanFile fs fuel filePath depth st = some res) :
    scanFile fs (fuel + k) filePath depth st = some res := by
  induction k with
  | zero => exact h
  | succ k ih => exact scanFile_mono fs (fuel + k) _ _ _ _ ih

theorem scanRoots_mono_add (fs : FileSystem) (fuel k : Nat) (roots : List Str)
    (st st' : ScanState) (h : scanRoots fs fuel roots st = some st') :
    scanRoots fs (fuel + k) roots st = some st' := by
  induction roots generalizing st with
  | nil => simpa [scanRoots] using h
  | cons root rest ih =>
    simp only [scanRoots] at h ⊢
    obtain ⟨a, ha, hrest⟩ := Option.bind_eq_some.mp h
    have ha2 : scanRoot fs (fuel + k) root st = some a := by
      unfold scanRoot at ha ⊢
      split at ha
      · rename_i hres
        simpa [hres] using ha
      · rename_i expanded hres
        obtain ⟨r, hr, hst⟩ := Option.map_eq_some'.mp ha
        simp [hres, scanFile_mono_add fs fuel k _ _ _ _ hr, hst]
    simp only [ha2, Option.some_bind]
    exact ih _ hrest

/-- C3: `ScanShellFiles` returns a result for every file system, scanner, shell and list of
roots, cyclic include graphs included: every recursive call of `scanFile` is made at
`depth + 1` and a call at depth `maxDepth = 25` returns at once, so a recursion budget of
`maxDepth + 1` nested calls is never used up, and any larger budget gives the same result. -/
theorem ScanShellFiles_terminates (fs : FileSystem) (s : Scanner) (shell : Str)
    (roots : List Str) :
    ∃ r, ScanShellFiles fs s shell roots = some r ∧
      ∀ k, ScanShellFilesFuel fs (maxDepth + 1 + k) s shell roots = some r := by
  obtain ⟨st, hst⟩ := Option.isSome_iff_exists.mp
    (scanRoots_isSome fs (maxDepth + 1) (le_refl _) roots (initialState s shell roots))
  refine ⟨(st.result, { pathResolver := st.pathResolver }), ?_, ?_⟩
  · simp [ScanShellFiles, ScanShellFilesFuel, hst]
  · intro k
    simp [ScanShellFilesFuel, scanRoots_mono_add fs (maxDepth + 1) k roots _ _ hst]

/-! ## The log of a scan -/

theorem ParseLine_location (line filePath : Str) (lineNum : Nat) (d : AliasDefinition)
    (h : AliasParser.ParseLine line filePath lineNum = some d) :
    d.Location = { FilePath := filePath, LineNum := lineNum, RawLine := line } := by
  unfold AliasParser.ParseLine at h
  simp only at h
  split at h
  · simp at h
  · split at h
    · simp only [Option.some.injEq] at h
      rw [← h]
    · split at h
      · simp only [Option.some.injEq] at h
        rw [← h]
      · simp at h

theorem aliasOf_cases (canonPath : Str) (lineNum : Nat) (line : Str) :
    aliasOf canonPath lineNum line = [] ∨
    ∃ d, aliasOf canonPath lineNum line = [d] ∧
      d.Location = { FilePath := canonPath, LineNum := lineNum + 1, RawLine := line } := by
  unfold aliasOf
  by_cases h : IsAliasLine line = true
  · cases hp : AliasParser.ParseLine line canonPath (lineNum + 1) with
    | none => left; simp [h, hp]
    | some d => right; exact ⟨d, by simp [h, hp], ParseLine_location _ _ _ _ hp⟩
  · left; simp [h]

theorem mem_aliasOf (canonPath : Str) (lineNum : Nat) (line : Str) (d : AliasDefinition)
    (h : d ∈ aliasOf canonPath lineNum line) :
    d.Location = { FilePath := canonPath, LineNum := lineNum + 1, RawLine := line } := by
  rcases aliasOf_cases canonPath lineNum line with h0 | ⟨d1, h1, hloc⟩
  · rw [h0] at h; simp at h
  · rw [h1] at h
    simp only [List.mem_singleton] at h
    rw [h]; exact hloc

theorem mem_ownDefs (canonPath : Str) (lines : List Str) (lineNum : Nat) (d : AliasDefinition)
    (h : d ∈ ownDefs canonPath lines lineNum) :
    d.Location.FilePath = canonPath ∧ lineNum < d.Location.LineNum := by
  induction lines generalizing lineNum with
  | nil => simp [ownDefs] at h
  | cons line rest ih =>
    simp only [ownDefs, List.mem_append] at h
    rcases h with h | h
    · have := mem_aliasOf _ _ _ _ h
      simp [this]
    · have := ih _ h
      exact ⟨this.1, by omega⟩

theorem aliasStep_eq (canonPath : Str) (lineNum : Nat) (line : Str) (st : ScanState) :
    aliasStep canonPath lineNum line st
      = (aliasOf canonPath lineNum line).foldl (fun s d => s.addAlias canonPath d) st := by
  unfold aliasStep aliasOf
  by_cases h : IsAliasLine line = true
  · cases hp : AliasParser.ParseLine line canonPath (lineNum + 1) <;> simp [h, hp]
  · simp [h]

theorem Silent_refl (st : ScanState) : Silent st st := ⟨rfl, rfl, fun _ => rfl⟩

theorem Silent_trans {a b c : ScanState} (h1 : Silent a b) (h2 : Silent b c) : Silent a c :=
  ⟨h2.1.trans h1.1, h2.2.1.trans h1.2.1, fun p => (h2.2.2 p).trans (h1.2.2 p)⟩

theorem Silent_warn (st : ScanState) (w : Str) : Silent st (st.warn w) :=
  ⟨rfl, rfl, fun _ => rfl⟩

theorem Silent_unresolved (st : ScanState) (p : Str) : Silent st (st.unresolved p) :=
  ⟨rfl, rfl, fun _ => rfl⟩

theorem Silent_setVariable (st : ScanState) (n v : Str) : Silent st (st.setVariable n v) :=
  ⟨rfl, rfl, fun _ => rfl⟩

theorem Silent_modifyFile (st : ScanState) (key : Str) (f : SourceFile → SourceFile)
    (hf : ∀ sf, (f sf).Aliases = sf.Aliases) : Silent st (st.modifyFile key f) := by
  refine ⟨rfl, rfl, fun p => ?_⟩
  simp only [ScanState.modifyFile, mapGet_mapModify]
  by_cases h : key = p
  · simp only [h, if_true, Option.map_map]
    cases mapGet st.result.Files p <;> simp [hf]
  · simp [h]

theorem Silent_addInclude (st : ScanState) (cp path : Str) : Silent st (st.addInclude cp path) :=
  Silent_modifyFile st cp _ (fun _ => rfl)

theorem Silent_markConditional (st : ScanState) (p : Str) : Silent st (st.markConditional p) :=
  Silent_modifyFile st p _ (fun _ => rfl)

theorem Silent_setError (st : ScanState) (cp e : Str) : Silent st (st.setError cp e) :=
  Silent_modifyFile st cp _ (fun _ => rfl)

theorem Silent_varStep (line : Str) (st : ScanState) : Silent st (varStep line st) := by
  unfold varStep
  split
  · exact Silent_setVariable _ _ _
  · exact Silent_refl _

theorem Silent_afterInclude (inc : ParseResult) (resolvedPath : Str)
    (r : ScanState × Option Str) : Silent r.1 (afterInclude inc resolvedPath r) := by
  unfold afterInclude
  have h1 : Silent r.1 (match r.2 with
      | some e => r.1.warn (includeWarning resolvedPath e)
      | none => r.1) := by
    split
    · exact Silent_warn _ _
    · exact Silent_refl _
  simp only
  split
  · exact Silent_trans h1 (Silent_markConditional _ _)
  · exact h1

theorem Silent_afterRoot (expanded : Str) (r : ScanState × Option Str) :
    Silent r.1 (afterRoot expanded r) := by
  unfold afterRoot
  split
  · exact Silent_warn _ _
  · exact Silent_refl _

theorem LogOf_silent {st st1 : ScanState} (h : Silent st st1) (defs : List AliasDefinition)
    (hl : LogOf st defs) : LogOf st1 defs := by
  obtain ⟨ha, hv, hf⟩ := h
  obtain ⟨h1, h2, h3, h4⟩ := hl
  refine ⟨by rw [ha]; exact h1, ?_, by rw [hv]; exact h3, ?_⟩
  · intro p hp
    rw [hv] at hp
    obtain ⟨sf, hsf, hal⟩ := h2 p hp
    have := hf p
    rw [hsf] at this
    cases hg : mapGet st1.result.Files p with
    | none => rw [hg] at this; simp at this
    | some sf1 =>
      rw [hg] at this
      simp only [Option.map_some', Option.some.injEq] at this
      exact ⟨sf1, rfl, this.trans hal⟩
  · intro p hp
    rw [hv]
    apply h4 p
    have := hf p
    cases hg : mapGet st1.result.Files p with
    | none => rw [hg] at hp; simp at hp
    | some sf1 =>
      rw [hg] at this
      cases hg0 : mapGet st.result.Files p with
      | none => rw [hg0] at this; simp at this
      | some _ => simp

theorem LogOf_enter (st : ScanState) (cp : Str) (sf : SourceFile) (hsf : sf.Aliases = [])
    (hcp : cp ∉ st.visited) (defs : List AliasDefinition) (hl : LogOf st defs) :
    LogOf (st.enter cp sf) defs := by
  obtain ⟨h1, h2, h3, h4⟩ := hl
  refine ⟨h1, ?_, ?_, ?_⟩
  · intro p hp
    simp only [ScanState.enter, mapGet_mapSet]
    by_cases h : cp = p
    · subst h
      refine ⟨sf, by simp, ?_⟩
      rw [hsf]
      symm
      rw [List.filter_eq_nil_iff]
      intro d hd
      have := h3 d hd
      simp only [decide_eq_true_eq]
      intro heq
      exact hcp (heq ▸ this)
    · simp only [h, if_false]
      apply h2
      simp only [ScanState.enter, List.mem_cons] at hp
      rcases hp with hp | hp
      · exact absurd hp.symm h
      · exact hp
  · intro d hd
    simp only [ScanState.enter, List.mem_cons]
    exact Or.inr (h3 d hd)
  · intro p hp
    simp only [ScanState.enter, mapGet_mapSet] at hp
    simp only [ScanState.enter, List.mem_cons]
    by_cases h : cp = p
    · exact Or.inl h.symm
    · simp only [h, if_false] at hp
      exact Or.inr (h4 p hp)

theorem LogOf_addAlias (st : ScanState) (cp : Str) (d : AliasDefinition)
    (hd : d.Location.FilePath = cp) (hcp : cp ∈ st.visited) (defs : List AliasDefinition)
    (hl : LogOf st defs) : LogOf (st.addAlias cp d) (defs ++ [d]) := by
  obtain ⟨h1, h2, h3, h4⟩ := hl
  have hfiles : (st.addAlias cp d).result.Files
      = mapModify st.result.Files cp (fun sf => { sf with Aliases := sf.Aliases ++ [d] }) := by
    simp only [ScanState.addAlias, ScanState.modifyFile, ScanResult.AddAlias]
    split <;> rfl
  have hvis : (st.addAlias cp d).visited = st.visited := rfl
  refine ⟨?_, ?_, ?_, ?_⟩
  · exact TableOf_AddAlias _ defs d h1
  · intro p hp
    rw [hvis] at hp
    obtain ⟨sf, hsf, hal⟩ := h2 p hp
    rw [hfiles, mapGet_mapModify, hsf]
    by_cases h : cp = p
    · subst h
      refine ⟨{ sf with Aliases := sf.Aliases ++ [d] }, by simp, ?_⟩
      simp [List.filter_append, hal, hd]
    · refine ⟨sf, by simp [h], ?_⟩
      have : ¬ d.Location.FilePath = p := by rw [hd]; exact h
      simp [List.filter_append, hal, this]
  · intro x hx
    rw [hvis]
    simp only [List.mem_append, List.mem_singleton] at hx
    rcases hx with hx | hx
    · exact h3 x hx
    · rw [hx, hd]; exact hcp
  · intro p hp
    rw [hvis]
    apply h4
    rw [hfiles, mapGet_mapModify] at hp
    by_cases h : cp = p
    · simp only [h, if_true, Option.isSome_map'] at hp
      exact hp
    · simpa [h] using hp

theorem AddAlias_congr {r1 r2 : ScanResult} (h : r1.Aliases = r2.Aliases) (d : AliasDefinition) :
    (r1.AddAlias d).Aliases = (r2.AddAlias d).Aliases := by
  simp only [ScanResult.AddAlias, h]
  split <;> rfl

theorem foldl_AddAlias_congr (new : List AliasDefinition) {r1 r2 : ScanResult}
    (h : r1.Aliases = r2.Aliases) :
    (new.foldl ScanResult.AddAlias r1).Aliases = (new.foldl ScanResult.AddAlias r2).Aliases := by
  induction new generalizing r1 r2 with
  | nil => exact h
  | cons d rest ih => exact ih (AddAlias_congr h d)

theorem Adds_silent {st st1 : ScanState} (h : st1.result.Aliases = st.result.Aliases) :
    Adds st st1 [] := h

theorem Adds_trans {a b c : ScanState} {n1 n2 : List AliasDefinition} (h1 : Adds a b n1)
    (h2 : Adds b c n2) : Adds a c (n1 ++ n2) := by
  unfold Adds at *
  rw [h2, List.foldl_append]
  exact foldl_AddAlias_congr n2 h1

theorem Adds_addAlias (st : ScanState) (cp : Str) (d : AliasDefinition) :
    Adds st (st.addAlias cp d) [d] := by
  unfold Adds
  have h : (st.modifyFile cp
      (fun sf => { sf with Aliases := sf.Aliases ++ [d] })).result.Aliases = st.result.Aliases := rfl
  exact AddAlias_congr h d

theorem Trace_silent (fs : FileSystem) {st st1 : ScanState} (h : Silent st st1) :
    Trace fs st st1 [] where
  log := fun defs hl => by simpa using LogOf_silent h defs hl
  table := Adds_silent h.1
  visited := fun p hp => by rw [h.2.1]; exact hp
  fresh := fun d hd => by simp at hd
  within := fun d hd => by simp at hd
  nodup := by simp
  complete := fun q hq hnq => by rw [h.2.1] at hq; exact absurd hq hnq

theorem LogOf_visited {st : ScanState} {defs : List AliasDefinition} (hl : LogOf st defs)
    {d : AliasDefinition} (hd : d ∈ defs) : d.Location.FilePath ∈ st.visited :=
  hl.2.2.1 d hd

/-- Two definitions from different files have different places. -/
theorem defKey_ne_of_path {d1 d2 : AliasDefinition}
    (h : d1.Location.FilePath ≠ d2.Location.FilePath) : defKey d1 ≠ defKey d2 := by
  intro heq
  apply h
  simpa [defKey] using congrArg Prod.fst heq

theorem nodup_append_keys {n1 n2 : List AliasDefinition} (h1 : (n1.map defKey).Nodup)
    (h2 : (n2.map defKey).Nodup)
    (hdis : ∀ a ∈ n1, ∀ b ∈ n2, defKey a ≠ defKey b) : ((n1 ++ n2).map defKey).Nodup := by
  rw [List.map_append, List.nodup_append]
  refine ⟨h1, h2, ?_⟩
  intro k hk1 hk2
  obtain ⟨a, ha, rfl⟩ := List.mem_map.mp hk1
  obtain ⟨b, hb, hab⟩ := List.mem_map.mp hk2
  exact hdis a ha b hb hab.symm

theorem Trace_trans (fs : FileSystem) {a b c : ScanState} {n1 n2 : List AliasDefinition}
    (h1 : Trace fs a b n1) (h2 : Trace fs b c n2) : Trace fs a c (n1 ++ n2) where
  log := fun defs hl => by
    rw [← List.append_assoc]
    exact h2.log _ (h1.log _ hl)
  table := Adds_trans h1.table h2.table
  visited := fun p hp => h2.visited p (h1.visited p hp)
  fresh := fun d hd => by
    rcases List.mem_append.mp hd with hd | hd
    · exact h1.fresh d hd
    · exact fun hc => h2.fresh d hd (h1.visited _ hc)
  within := fun d hd => by
    rcases List.mem_append.mp hd with hd | hd
    · exact h2.visited _ (h1.within d hd)
    · exact h2.within d hd
  nodup := nodup_append_keys h1.nodup h2.nodup (fun x hx y hy =>
    defKey_ne_of_path (fun heq => h2.fresh y hy (heq ▸ h1.within x hx)))
  complete := fun q hq hnq lines he hr hl d hd => by
    by_cases hb : q ∈ b.visited
    · exact List.mem_append_left _ (h1.complete q hb hnq lines he hr hl d hd)
    · exact List.mem_append_right _ (h2.complete q hq hb lines he hr hl d hd)


theorem scanIncludes_trace (fs : FileSystem)
    (recur : Str → ScanState → Option (ScanState × Option Str)) (hrec : RecurOK fs recur)
    (canonPath : Str) (incs : List ParseResult) (st st1 : ScanState)
    (h : scanIncludes recur canonPath incs st = some st1) : ∃ new, Trace fs st st1 new := by
  induction incs generalizing st with
  | nil =>
    simp only [scanIncludes, Option.some.injEq] at h
    subst h
    exact ⟨[], Trace_silent fs (Silent_refl _)⟩
  | cons inc rest ih =>
    simp only [scanIncludes] at h
    cases hres : (st.addInclude canonPath inc.Path).pathResolver.ResolvePath inc.Path with
    | none =>
      simp only [hres] at h
      obtain ⟨new, hn⟩ := ih _ h
      have hs : Silent st ((st.addInclude canonPath inc.Path).unresolved inc.Path) :=
        Silent_trans (Silent_addInclude _ _ _) (Silent_unresolved _ _)
      exact ⟨[] ++ new, Trace_trans fs (Trace_silent fs hs) hn⟩
    | some resolvedPath =>
      simp only [hres] at h
      obtain ⟨r, hr, hrest⟩ := Option.bind_eq_some.mp h
      obtain ⟨n1, hn1⟩ := hrec _ _ _ hr
      obtain ⟨n2, hn2⟩ := ih _ hrest
      have t1 := Trace_trans fs (Trace_silent fs (Silent_addInclude st canonPath inc.Path)) hn1
      have t2 := Trace_trans fs t1 (Trace_silent fs (Silent_afterInclude inc resolvedPath r))
      exact ⟨([] ++ n1 ++ []) ++ n2, Trace_trans fs t2 hn2⟩

theorem Trace.toLine {fs : FileSystem} {a b : ScanState} {n : List AliasDefinition}
    (h : Trace fs a b n) (cp : Str) (i : Nat) : LineTrace fs cp i a b n where
  log := h.log
  table := h.table
  visited := h.visited
  fresh := fun d hd => Or.inr (h.fresh d hd)
  within := h.within
  nodup := h.nodup
  complete := h.complete

theorem LineTrace_trans (fs : FileSystem) {cp : Str} {i j : Nat} {a b c : ScanState}
    {n1 n2 : List AliasDefinition} (h1 : LineTrace fs cp i a b n1)
    (h2 : LineTrace fs cp j b c n2) (hij : i ≤ j)
    (hbound : ∀ d ∈ n1, d.Location.FilePath = cp → d.Location.LineNum ≤ j) :
    LineTrace fs cp i a c (n1 ++ n2) where
  log := fun defs hl => by
    rw [← List.append_assoc]
    exact h2.log _ (h1.log _ hl)
  table := Adds_trans h1.table h2.table
  visited := fun p hp => h2.visited p (h1.visited p hp)
  fresh := fun d hd => by
    rcases List.mem_append.mp hd with hd | hd
    · exact h1.fresh d hd
    · rcases h2.fresh d hd with ⟨hp, hl⟩ | hp
      · exact Or.inl ⟨hp, by omega⟩
      · exact Or.inr (fun hc => hp (h1.visited _ hc))
  within := fun d hd => by
    rcases List.mem_append.mp hd with hd | hd
    · exact h2.visited _ (h1.within d hd)
    · exact h2.within d hd
  nodup := nodup_append_keys h1.nodup h2.nodup (fun x hx y hy => by
    rcases h2.fresh y hy with ⟨hp, hl⟩ | hp
    · by_cases hxp : x.Location.FilePath = cp
      · have := hbound x hx hxp
        intro heq
        have h2 : x.Location.LineNum = y.Location.LineNum := by
          simpa [defKey] using congrArg Prod.snd heq
        omega
      · exact defKey_ne_of_path (fun heq => hxp (heq.trans hp))
    · exact defKey_ne_of_path (fun heq => hp (heq ▸ h1.within x hx)))
  complete := fun q hq hnq lines he hr hl d hd => by
    by_cases hb : q ∈ b.visited
    · exact List.mem_append_left _ (h1.complete q hb hnq lines he hr hl d hd)
    · exact List.mem_append_right _ (h2.complete q hq hb lines he hr hl d hd)

theorem LineTrace_alias (fs : FileSystem) (cp : Str) (i : Nat) (line : Str) (st : ScanState)
    (hcp : cp ∈ st.visited) :
    LineTrace fs cp i st (aliasStep cp i line st) (aliasOf cp i line) := by
  rw [aliasStep_eq]
  rcases aliasOf_cases cp i line with h0 | ⟨d, h1, hloc⟩
  · rw [h0]
    exact (Trace_silent fs (Silent_refl st)).toLine cp i
  · rw [h1]
    have hpath : d.Location.FilePath = cp := by rw [hloc]
    have hnum : d.Location.LineNum = i + 1 := by rw [hloc]
    exact {
      log := fun defs hl => LogOf_addAlias st cp d hpath hcp defs hl
      table := Adds_addAlias st cp d
      visited := fun p hp => hp
      fresh := fun x hx => by
        simp only [List.mem_singleton] at hx
        subst hx
        exact Or.inl ⟨hpath, by omega⟩
      within := fun x hx => by
        simp only [List.mem_singleton] at hx
        subst hx
        rw [hpath]
        exact hcp
      nodup := by simp
      complete := fun q hq hnq => absurd hq hnq }

theorem includeStep_trace (fs : FileSystem)
    (recur : Str → ScanState → Option (ScanState × Option Str)) (hrec : RecurOK fs recur)
    (canonPath line : Str) (st st1 : ScanState)
    (h : includeStep recur canonPath line st = some st1) : ∃ new, Trace fs st st1 new := by
  unfold includeStep at h
  by_cases hinc : IsIncludeLine line = true
  · simp only [hinc, if_true] at h
    exact scanIncludes_trace fs recur hrec _ _ _ _ h
  · simp only [hinc, if_false, Option.some.injEq, Bool.false_eq_true] at h
    subst h
    exact ⟨[], Trace_silent fs (Silent_refl _)⟩

/-- The loop body for one line: the definition of the line itself, then the definitions
`new` found through its includes. -/
theorem scanLine_trace (fs : FileSystem)
    (recur : Str → ScanState → Option (ScanState × Option Str)) (hrec : RecurOK fs recur)
    (cp : Str) (i : Nat) (line : Str) (st st1 : ScanState) (hcp : cp ∈ st.visited)
    (h : scanLine recur cp i line st = some st1) :
    ∃ new, Trace fs (aliasStep cp i line st) st1 new ∧
      LineTrace fs cp i st st1 (aliasOf cp i line ++ new) := by
  unfold scanLine at h
  obtain ⟨s0, hs0, hv⟩ := Option.map_eq_some'.mp h
  obtain ⟨n, hn⟩ := includeStep_trace fs recur hrec cp line _ _ hs0
  have t : Trace fs (aliasStep cp i line st) st1 (n ++ []) := by
    rw [← hv]
    exact Trace_trans fs hn (Trace_silent fs (Silent_varStep line s0))
  rw [List.append_nil] at t
  refine ⟨n, t, ?_⟩
  apply LineTrace_trans fs (LineTrace_alias fs cp i line st hcp) (t.toLine cp (i + 1))
    (by omega)
  intro d hd _
  rw [mem_aliasOf _ _ _ _ hd]

theorem scanLines_trace (fs : FileSystem)
    (recur : Str → ScanState → Option (ScanState × Option Str)) (hrec : RecurOK fs recur)
    (cp : Str) (lines : List Str) (i : Nat) (st st1 : ScanState) (hcp : cp ∈ st.visited)
    (h : scanLines recur cp lines i st = some st1) :
    ∃ new, LineTrace fs cp i st st1 new ∧ ∀ d ∈ ownDefs cp lines i, d ∈ new := by
  induction lines generalizing i st with
  | nil =>
    simp only [scanLines, Option.some.injEq] at h
    subst h
    exact ⟨[], (Trace_silent fs (Silent_refl _)).toLine cp i, by simp [ownDefs]⟩
  | cons line rest ih =>
    simp only [scanLines] at h
    obtain ⟨s1, hs1, hrest⟩ := Option.bind_eq_some.mp h
    obtain ⟨n1, t1, l1⟩ := scanLine_trace fs recur hrec cp i line st s1 hcp hs1
    obtain ⟨n2, l2, hown⟩ := ih (i + 1) s1 (l1.visited cp hcp) hrest
    refine ⟨(aliasOf cp i line ++ n1) ++ n2, ?_, ?_⟩
    · apply LineTrace_trans fs l1 l2 (by omega)
      intro d hd hp
      rcases List.mem_append.mp hd with hd | hd
      · rw [mem_aliasOf _ _ _ _ hd]
      · have hvis : cp ∈ (aliasStep cp i line st).visited :=
          (LineTrace_alias fs cp i line st hcp).visited cp hcp
        exact absurd (hp ▸ hvis) (t1.fresh d hd)
    · intro d hd
      simp only [ownDefs, List.mem_append] at hd
      rcases hd with hd | hd
      · exact List.mem_append_left _ (List.mem_append_left _ hd)
      · exact List.mem_append_right _ (hown d hd)

/-! The cases of `scanFileBody`. -/

theorem scanFileBody_visited (fs : FileSystem)
    (recur : Str → ScanState → Option (ScanState × Option Str)) (filePath : Str) (depth : Nat)
    (st : ScanState) (hd : depth < maxDepth) (hv : canonOf fs filePath ∈ st.visited) :
    scanFileBody fs recur filePath depth st = some (st, none) := by
  unfold scanFileBody
  simp [Nat.not_le.mpr hd, hv]

theorem scanFileBody_missing (fs : FileSystem)
    (recur : Str → ScanState → Option (ScanState × Option Str)) (filePath : Str) (depth : Nat)
    (st : ScanState) (hd : depth < maxDepth) (hv : canonOf fs filePath ∉ st.visited)
    (he : FileExists fs (canonOf fs filePath) = false) :
    scanFileBody fs recur filePath depth st
      = some ((st.enter (canonOf fs filePath) (newSourceFile fs (canonOf fs filePath))).setError
          (canonOf fs filePath) "file does not exist".toList, none) := by
  unfold scanFileBody
  simp [Nat.not_le.mpr hd, hv, newSourceFile, he]

theorem scanFileBody_unreadable (fs : FileSystem)
    (recur : Str → ScanState → Option (ScanState × Option Str)) (filePath : Str) (depth : Nat)
    (st : ScanState) (hd : depth < maxDepth) (hv : canonOf fs filePath ∉ st.visited)
    (he : FileExists fs (canonOf fs filePath) = true)
    (hr : FileReadable fs (canonOf fs filePath) = false) :
    scanFileBody fs recur filePath depth st
      = some ((st.enter (canonOf fs filePath) (newSourceFile fs (canonOf fs filePath))).setError
          (canonOf fs filePath) "permission denied".toList, none) := by
  unfold scanFileBody
  simp [Nat.not_le.mpr hd, hv, newSourceFile, he, hr]

theorem scanFileBody_readError (fs : FileSystem)
    (recur : Str → ScanState → Option (ScanState × Option Str)) (filePath : Str) (depth : Nat)
    (st : ScanState) (hd : depth < maxDepth) (hv : canonOf fs filePath ∉ st.visited)
    (he : FileExists fs (canonOf fs filePath) = true)
    (hr : FileReadable fs (canonOf fs filePath) = true) (e : Str)
    (hl : ReadLines fs (canonOf fs filePath) = .error e) :
    scanFileBody fs recur filePath depth st
      = some ((st.enter (canonOf fs filePath) (newSourceFile fs (canonOf fs filePath))).setError
          (canonOf fs filePath) e, some e) := by
  unfold scanFileBody
  simp [Nat.not_le.mpr hd, hv, newSourceFile, he, hr, hl]

theorem scanFileBody_read (fs : FileSystem)
    (recur : Str → ScanState → Option (ScanState × Option Str)) (filePath : Str) (depth : Nat)
    (st : ScanState) (hd : depth < maxDepth) (hv : canonOf fs filePath ∉ st.visited)
    (he : FileExists fs (canonOf fs filePath) = true)
    (hr : FileReadable fs (canonOf fs filePath) = true) (lines : List Str)
    (hl : ReadLines fs (canonOf fs filePath) = .ok lines) :
    scanFileBody fs recur filePath depth st
      = (scanLines recur (canonOf fs filePath) lines 0
          (st.enter (canonOf fs filePath) (newSourceFile fs (canonOf fs filePath)))).map
          (fun st2 => (st2, none)) := by
  unfold scanFileBody
  simp [Nat.not_le.mpr hd, hv, newSourceFile, he, hr, hl]

/-- A file that is entered and not read: the state after `enter` and `setError`. -/
theorem Trace_enter_error (fs : FileSystem) (st : ScanState) (cp e : Str)
    (hv : cp ∉ st.visited)
    (hno : ∀ lines, FileExists fs cp = true → FileReadable fs cp = true →
      ReadLines fs cp = .ok lines → False) :
    Trace fs st ((st.enter cp (newSourceFile fs cp)).setError cp e) [] where
  log := fun defs hl => by
    rw [List.append_nil]
    exact LogOf_silent (Silent_setError _ cp e) defs (LogOf_enter st cp _ rfl hv defs hl)
  table := Adds_silent rfl
  visited := fun p hp => by
    simp only [ScanState.setError, ScanState.modifyFile, ScanState.enter, List.mem_cons]
    exact Or.inr hp
  fresh := fun d hd => by simp at hd
  within := fun d hd => by simp at hd
  nodup := by simp
  complete := fun q hq hnq lines he hr hl => by
    simp only [ScanState.setError, ScanState.modifyFile, ScanState.enter, List.mem_cons] at hq
    rcases hq with hq | hq
    · subst hq
      exact absurd (hno lines he hr hl) id
    · exact absurd hq hnq

theorem scanFileBody_trace (fs : FileSystem)
    (recur : Str → ScanState → Option (ScanState × Option Str)) (hrec : RecurOK fs recur)
    (filePath : Str) (depth : Nat) : ∀ (st : ScanState) (r : ScanState × Option Str),
    scanFileBody fs recur filePath depth st = some r → ∃ new, Trace fs st r.1 new := by
  intro st r h
  by_cases hd : depth < maxDepth
  · by_cases hv : canonOf fs filePath ∈ st.visited
    · rw [scanFileBody_visited fs recur filePath depth st hd hv] at h
      simp only [Option.some.injEq] at h
      subst h
      exact ⟨[], Trace_silent fs (Silent_refl _)⟩
    · cases he : FileExists fs (canonOf fs filePath) with
      | false =>
        rw [scanFileBody_missing fs recur filePath depth st hd hv he] at h
        simp only [Option.some.injEq] at h
        subst h
        exact ⟨[], Trace_enter_error fs st _ _ hv (fun _ he1 _ _ => by simp [he] at he1)⟩
      | true =>
        cases hr : FileReadable fs (canonOf fs filePath) with
        | false =>
          rw [scanFileBody_unreadable fs recur filePath depth st hd hv he hr] at h
          simp only [Option.some.injEq] at h
          subst h
          exact ⟨[], Trace_enter_error fs st _ _ hv (fun _ _ hr1 _ => by simp [hr] at hr1)⟩
        | true =>
          cases hl : ReadLines fs (canonOf fs filePath) with
          | error e =>
            rw [scanFileBody_readError fs recur filePath depth st hd hv he hr e hl] at h
            simp only [Option.some.injEq] at h
            subst h
            exact ⟨[], Trace_enter_error fs st _ _ hv (fun _ _ _ hl1 => by simp [hl] at hl1)⟩
          | ok lines =>
            rw [scanFileBody_read fs recur filePath depth st hd hv he hr lines hl] at h
            obtain ⟨st2, hst2, hr2⟩ := Option.map_eq_some'.mp h
            subst hr2
            have hin : canonOf fs filePath ∈
                (st.enter (canonOf fs filePath) (newSourceFile fs (canonOf fs filePath))).visited := by
              simp [ScanState.enter]
            obtain ⟨new, lt, hown⟩ := scanLines_trace fs recur hrec _ lines 0 _ st2 hin hst2
            refine ⟨new, ?_⟩
            exact {
              log := fun defs hlog => lt.log defs (LogOf_enter st _ _ rfl hv defs hlog)
              table := by
                have h0 : Adds st
                    (st.enter (canonOf fs filePath) (newSourceFile fs (canonOf fs filePath))) [] :=
                  Adds_silent rfl
                exact Adds_trans h0 lt.table
              visited := fun p hp => lt.visited p (by simp [ScanState.enter, hp])
              fresh := fun d hdm => by
                rcases lt.fresh d hdm with ⟨hp, _⟩ | hp
                · rw [hp]; exact hv
                · intro hc
                  exact hp (by simp [ScanState.enter, hc])
              within := lt.within
              nodup := lt.nodup
              complete := fun q hq hnq lines1 he1 hr1 hl1 d hdm => by
                by_cases hqc : q = canonOf fs filePath
                · subst hqc
                  rw [hl] at hl1
                  simp only [Except.ok.injEq] at hl1
                  subst hl1
                  exact hown d hdm
                · apply lt.complete q hq _ lines1 he1 hr1 hl1 d hdm
                  simp [ScanState.enter, hqc, hnq] }
  · have hd2 : maxDepth ≤ depth := Nat.not_lt.mp hd
    rw [scanFileBody_at_ceiling fs recur filePath depth st hd2] at h
    simp only [Option.some.injEq] at h
    subst h
    exact ⟨[], Trace_silent fs (Silent_warn _ _)⟩

theorem scanFile_trace (fs : FileSystem) (fuel : Nat) :
    ∀ (depth : Nat), RecurOK fs (fun p s => scanFile fs fuel p depth s) := by
  induction fuel with
  | zero =>
    intro depth p st r h
    simp [scanFile] at h
  | succ fuel ih =>
    intro depth p st r h
    simp only [scanFile] at h
    exact scanFileBody_trace fs _ (ih (depth + 1)) p depth st r h

theorem scanRoot_trace (fs : FileSystem) (fuel : Nat) (root : Str) (st st1 : ScanState)
    (h : scanRoot fs fuel root st = some st1) : ∃ new, Trace fs st st1 new := by
  unfold scanRoot at h
  cases hres : st.pathResolver.ResolvePath root with
  | none =>
    simp only [hres, Option.some.injEq] at h
    subst h
    exact ⟨[], Trace_silent fs (Silent_unresolved _ _)⟩
  | some expanded =>
    simp only [hres] at h
    obtain ⟨r, hr, hst⟩ := Option.map_eq_some'.mp h
    obtain ⟨new, t⟩ := scanFile_trace fs fuel 0 expanded st r hr
    subst hst
    exact ⟨new ++ [], Trace_trans fs t (Trace_silent fs (Silent_afterRoot expanded r))⟩

theorem scanRoots_trace (fs : FileSystem) (fuel : Nat) (roots : List Str) (st st1 : ScanState)
    (h : scanRoots fs fuel roots st = some st1) : ∃ new, Trace fs st st1 new := by
  induction roots generalizing st with
  | nil =>
    simp only [scanRoots, Option.some.injEq] at h
    subst h
    exact ⟨[], Trace_silent fs (Silent_refl _)⟩
  | cons root rest ih =>
    simp only [scanRoots] at h
    obtain ⟨s1, hs1, hrest⟩ := Option.bind_eq_some.mp h
    obtain ⟨n1, t1⟩ := scanRoot_trace fs fuel root st s1 hs1
    obtain ⟨n2, t2⟩ := ih s1 hrest
    exact ⟨n1 ++ n2, Trace_trans fs t1 t2⟩

theorem LogOf_initial (s : Scanner) (shell : Str) (roots : List Str) :
    LogOf (initialState s shell roots) [] := by
  refine ⟨TableOf_nil, ?_, ?_, ?_⟩
  · intro p hp
    simp [initialState] at hp
  · intro d hd
    simp at hd
  · intro p hp
    simp [initialState, NewScanResult, mapGet] at hp

/-! ## Anchored expressions and alias lines -/

theorem HasPrefix_cons {s : Str} {c : Char} {p : Str} (h : HasPrefix s (c :: p) = true) :
    ∃ t, s = c :: t := by
  cases s with
  | nil => simp [HasPrefix] at h
  | cons x t =>
    simp only [HasPrefix, Bool.and_eq_true, decide_eq_true_eq] at h
    exact ⟨t, by rw [h.1]⟩

/-- An expression that starts with `^` matches at no position but the first. -/
theorem findFrom_bol_none (X : Regex) (groups n : Nat) (t : Str) (h : t.length < n) :
    Regex.findFrom (Regex.seq Regex.bol X) groups n t = none := by
  induction t with
  | nil =>
    have : ¬ (0 = n) := by
      simp only [List.length_nil] at h
      omega
    simp [Regex.findFrom, Regex.run, this]
  | cons x xs ih =>
    have h1 : ¬ (xs.length + 1 = n) := by
      simp only [List.length_cons] at h
      omega
    have h2 : xs.length < n := by
      simp only [List.length_cons] at h
      omega
    simp [Regex.findFrom, Regex.run, h1, ih h2]

/-- An expression `^X` that does not match at the front of `x :: xs` does not match it. -/
theorem FindStringSubmatch_bol_none (X : Regex) (groups : Nat) (x : Char) (xs : Str)
    (h : ∀ (k : Str → Regex.Caps → Option Regex.Match) (c : Regex.Caps),
      Regex.run (x :: xs).length X (x :: xs) c k = none) :
    Regex.FindStringSubmatch (Regex.seq Regex.bol X) groups (x :: xs) = none := by
  unfold Regex.FindStringSubmatch
  simp only [Regex.findFrom, Regex.run, if_true, h]
  have := findFrom_bol_none X groups (x :: xs).length xs (by simp)
  simp only [List.length_cons] at this
  simp [this]

theorem assignPattern_eq :
    assignPattern = Regex.seq Regex.bol (Regex.seqs
      [Regex.group 1 (Regex.seq (Regex.char Regex.varFirst)
          (Regex.star (Regex.char Regex.varRest) true)),
       Regex.lit "=".toList, Regex.group 2 (Regex.plus (Regex.char Regex.dot) true),
       Regex.eol]) := rfl

theorem sourcePattern_eq :
    sourcePattern = Regex.seq Regex.bol (Regex.seqs
      [Regex.star (Regex.char Regex.ws) true,
       Regex.group 1 (Regex.alt (Regex.lit "source".toList) (Regex.lit ".".toList)),
       Regex.plus (Regex.char Regex.ws) true,
       Regex.group 2 (Regex.plus (Regex.char Regex.dot) true)]) := rfl

/-- A line that passes `IsAliasLine` is no variable assignment: its first character after
trimming is `a`, which is not in `[A-Z_]`. -/
theorem IsAliasLine_not_assignment (line : Str) (h : IsAliasLine line = true) :
    ParseVariableAssignment line = none := by
  unfold IsAliasLine at h
  obtain ⟨t, ht⟩ := HasPrefix_cons h
  unfold ParseVariableAssignment
  rw [ht, assignPattern_eq, FindStringSubmatch_bol_none]
  intro k c
  have hv : Regex.varFirst 'a' = false := by decide
  simp [Regex.seqs, Regex.run, hv]

/-- On a line that passes `IsAliasLine` the expression for a direct include does not
match. -/
theorem IsAliasLine_not_source (line : Str) (h : IsAliasLine line = true) :
    Regex.FindStringSubmatch sourcePattern 2 (TrimSpace line) = none := by
  unfold IsAliasLine at h
  obtain ⟨t, ht⟩ := HasPrefix_cons h
  rw [ht, sourcePattern_eq, FindStringSubmatch_bol_none]
  intro k c
  have hw : Regex.ws 'a' = false := by decide
  have h1 : ('a' == 's') = false := by decide
  have h2 : ('a' == '.') = false := by decide
  simp [Regex.seqs, Regex.run, Regex.starLoop, Regex.lit, hw, h1, h2]

/-- Every include that the include parser finds on an alias line is a guarded one. -/
theorem IsAliasLine_includes_conditional (line : Str) (h : IsAliasLine line = true)
    (r : ParseResult) (hr : r ∈ IncludeParser.ParseLine line) : r.Conditional = true := by
  unfold IncludeParser.ParseLine at hr
  simp only [IsAliasLine_not_source line h] at hr
  split at hr
  · simp at hr
  · split at hr
    · split at hr
      · simp only [List.mem_singleton] at hr
        rw [hr]
      · simp at hr
    · simp at hr

/-- A line with a direct (unguarded) include is no alias line. -/
theorem direct_include_not_alias (line : Str) (inc : ParseResult)
    (hinc : inc ∈ incsOf line) (hc : inc.Conditional = false) : IsAliasLine line = false := by
  cases ha : IsAliasLine line with
  | false => rfl
  | true =>
    unfold incsOf at hinc
    split at hinc
    · have := IsAliasLine_includes_conditional line ha inc hinc
      rw [hc] at this
      exact absurd this (by simp)
    · simp at hinc

/-! ## Each path is read once -/

theorem TableOf_get {aliases : List (Str × AliasEntry)} {defs : List AliasDefinition}
    (h : TableOf aliases defs) {N : Str} {e : AliasEntry} (he : mapGet aliases N = some e) :
    ∃ dk, (defs.filter (fun d => d.Name = N)).getLast? = some dk ∧
      e = entryOf N (defs.filter (fun d => d.Name = N)) dk := by
  have hN := h N
  cases hl : (defs.filter (fun d => d.Name = N)).getLast? with
  | none =>
    rw [hl] at hN
    simp only at hN
    rw [hN] at he
    simp at he
  | some dk =>
    rw [hl] at hN
    simp only at hN
    rw [hN] at he
    simp only [Option.some.injEq] at he
    exact ⟨dk, rfl, he.symm⟩

theorem TableOf_definitions {aliases : List (Str × AliasEntry)} {defs : List AliasDefinition}
    (h : TableOf aliases defs) {N : Str} {e : AliasEntry} (he : mapGet aliases N = some e) :
    e.Definitions = defs.filter (fun d => d.Name = N) := by
  obtain ⟨dk, _, heq⟩ := TableOf_get h he
  rw [heq]
  rfl

theorem TableOf_mem {aliases : List (Str × AliasEntry)} {defs : List AliasDefinition}
    (h : TableOf aliases defs) {d : AliasDefinition} (hd : d ∈ defs) :
    ∃ e, mapGet aliases d.Name = some e ∧ e.Definitions = defs.filter (fun x => x.Name = d.Name) := by
  have hN := h d.Name
  have hmem : d ∈ defs.filter (fun x => x.Name = d.Name) := by
    simp [List.mem_filter, hd]
  cases hl : (defs.filter (fun x => x.Name = d.Name)).getLast? with
  | none =>
    rw [List.getLast?_eq_none_iff] at hl
    rw [hl] at hmem
    simp at hmem
  | some dk =>
    rw [hl] at hN
    simp only at hN
    exact ⟨_, hN, rfl⟩

theorem nodup_of_nodup_keys {l : List AliasDefinition} (h : (l.map defKey).Nodup) : l.Nodup :=
  List.Nodup.of_map defKey h

theorem keys_filter_nodup {l : List AliasDefinition} (h : (l.map defKey).Nodup)
    (p : AliasDefinition → Bool) : ((l.filter p).map defKey).Nodup :=
  List.Nodup.sublist (List.Sublist.map defKey (List.filter_sublist l)) h

theorem get_of_eq {α : Type} {l1 l2 : List α} (h : l1 = l2) (j : Nat) (hj : j < l1.length) :
    l1.get ⟨j, hj⟩ = l2.get ⟨j, h ▸ hj⟩ := by
  subst h
  rfl

/-- Two positions of filtered sublists of a list without repeated places that hold
definitions of the same place hold the same definition and are the same position of the
same sublist. -/
theorem same_place_same_position {defs l1 l2 : List AliasDefinition}
    (hnd : (defs.map defKey).Nodup) (p q : AliasDefinition → Bool)
    (h1 : l1 = defs.filter p) (h2 : l2 = defs.filter q)
    (hpq : ∀ d, p d = true → q d = true → (defs.filter p) = (defs.filter q))
    (i j : Nat) (hi : i < l1.length) (hj : j < l2.length)
    (hk : defKey (l1.get ⟨i, hi⟩) = defKey (l2.get ⟨j, hj⟩)) :
    (∃ d, p d = true ∧ q d = true) ∧ i = j := by
  subst h1 h2
  have hmi : (defs.filter p).get ⟨i, hi⟩ ∈ defs.filter p := List.get_mem _ _ _
  have hmj : (defs.filter q).get ⟨j, hj⟩ ∈ defs.filter q := List.get_mem _ _ _
  have hdi := List.mem_filter.mp hmi
  have hdj := List.mem_filter.mp hmj
  have heq : (defs.filter p).get ⟨i, hi⟩ = (defs.filter q).get ⟨j, hj⟩ :=
    List.inj_on_of_nodup_map hnd hdi.1 hdj.1 hk
  have hlists : defs.filter p = defs.filter q := hpq _ hdi.2 (heq ▸ hdj.2)
  refine ⟨⟨_, hdi.2, heq ▸ hdj.2⟩, ?_⟩
  have hndp : (defs.filter p).Nodup := nodup_of_nodup_keys (keys_filter_nodup hnd p)
  have hj2 : j < (defs.filter p).length := by rw [hlists]; exact hj
  have heq2 : (defs.filter p).get ⟨i, hi⟩ = (defs.filter p).get ⟨j, hj2⟩ := by
    rw [heq]
    exact (get_of_eq hlists j hj2).symm
  have := (List.Nodup.get_inj_iff hndp).mp heq2
  simpa using this

theorem mem_ownDefs_of_line (cp : Str) (lines : List Str) (k i : Nat) (line : Str)
    (d : AliasDefinition) (hl : lines.get? i = some line) (ha : IsAliasLine line = true)
    (hp : AliasParser.ParseLine line cp (k + i + 1) = some d) : d ∈ ownDefs cp lines k := by
  induction lines generalizing k i with
  | nil => simp at hl
  | cons l rest ih =>
    simp only [ownDefs, List.mem_append]
    cases i with
    | zero =>
      simp only [List.get?_cons_zero, Option.some.injEq] at hl
      subst hl
      left
      simp only [Nat.add_zero] at hp
      simp [aliasOf, ha, hp]
    | succ i =>
      right
      simp only [List.get?_cons_succ] at hl
      apply ih (k + 1) i hl
      rw [← hp]
      congr 1
      omega

/-- The state at the end of a scan has a log without repeated places that holds all the
definitions of the files that were read. -/
theorem scan_log (fs : FileSystem) (fuel : Nat) (s : Scanner) (shell : Str) (roots : List Str)
    (st : ScanState) (h : scanRoots fs fuel roots (initialState s shell roots) = some st) :
    ∃ defs, LogOf st defs ∧ (defs.map defKey).Nodup ∧
      ∀ q lines, q ∈ st.visited → FileExists fs q = true → FileReadable fs q = true →
        ReadLines fs q = .ok lines → ∀ d ∈ ownDefs q lines 0, d ∈ defs := by
  obtain ⟨new, t⟩ := scanRoots_trace fs fuel roots _ st h
  refine ⟨new, ?_, t.nodup, ?_⟩
  · simpa using t.log [] (LogOf_initial s shell roots)
  · intro q lines hq he hr hl d hd
    exact t.complete q hq (by simp [initialState]) lines he hr hl d hd


theorem LogOf_file {st : ScanState} {defs : List AliasDefinition} (hl : LogOf st defs)
    {p : Str} {sf : SourceFile} (h : mapGet st.result.Files p = some sf) :
    p ∈ st.visited ∧ sf.Aliases = defs.filter (fun d => d.Location.FilePath = p) := by
  have hp : p ∈ st.visited := hl.2.2.2 p (by simp [h])
  obtain ⟨sf1, h1, h2⟩ := hl.2.1 p hp
  rw [h] at h1
  simp only [Option.some.injEq] at h1
  subst h1
  exact ⟨hp, h2⟩

theorem count_filter_eq_one {defs : List AliasDefinition} (hnd : (defs.map defKey).Nodup)
    (p : AliasDefinition → Bool) {d : AliasDefinition} (hd : d ∈ defs) (hp : p d = true) :
    (defs.filter p).count d = 1 :=
  List.count_eq_one_of_mem (nodup_of_nodup_keys (keys_filter_nodup hnd p))
    (List.mem_filter.mpr ⟨hd, hp⟩)

/-- C2: for every file system and list of roots (cyclic include graphs included), the result
of a scan never holds two alias definitions with the same `(FilePath, LineNum)`, neither in
the alias table nor in the alias lists of the files; and every recorded file that exists and
is read (a file that sources itself included) has each definition of its alias lines exactly
once in its own list and exactly once in the entry of the name. -/
theorem scan_reads_each_path_once (fs : FileSystem) (s : Scanner) (shell : Str)
    (roots : List Str) (r : ScanResult × Scanner)
    (h : ScanShellFiles fs s shell roots = some r) :
    (∀ N M eN eM, mapGet r.1.Aliases N = some eN → mapGet r.1.Aliases M = some eM →
      ∀ i j (hi : i < eN.Definitions.length) (hj : j < eM.Definitions.length),
        defKey (eN.Definitions.get ⟨i, hi⟩) = defKey (eM.Definitions.get ⟨j, hj⟩) →
        N = M ∧ i = j) ∧
    (∀ p q sp sq, mapGet r.1.Files p = some sp → mapGet r.1.Files q = some sq →
      ∀ i j (hi : i < sp.Aliases.length) (hj : j < sq.Aliases.length),
        defKey (sp.Aliases.get ⟨i, hi⟩) = defKey (sq.Aliases.get ⟨j, hj⟩) →
        p = q ∧ i = j) ∧
    (∀ q sf lines, mapGet r.1.Files q = some sf → FileExists fs q = true →
      FileReadable fs q = true → ReadLines fs q = .ok lines →
      ∀ i line d, lines.get? i = some line → IsAliasLine line = true →
        AliasParser.ParseLine line q (i + 1) = some d →
        sf.Aliases.count d = 1 ∧
        ∃ e, mapGet r.1.Aliases d.Name = some e ∧ e.Definitions.count d = 1) := by
  unfold ScanShellFiles ScanShellFilesFuel at h
  obtain ⟨st, hst, hr⟩ := Option.map_eq_some'.mp h
  subst hr
  obtain ⟨defs, hlog, hnd, hcomp⟩ := scan_log fs _ s shell roots st hst
  refine ⟨?_, ?_, ?_⟩
  · intro N M eN eM hN hM i j hi hj hk
    have h1 := TableOf_definitions hlog.1 hN
    have h2 := TableOf_definitions hlog.1 hM
    obtain ⟨⟨d, hd1, hd2⟩, hij⟩ := same_place_same_position hnd _ _ h1 h2
      (fun d hd1 hd2 => by
        simp only [decide_eq_true_eq] at hd1 hd2
        rw [← hd1, ← hd2]) i j hi hj hk
    simp only [decide_eq_true_eq] at hd1 hd2
    exact ⟨hd1.symm.trans hd2, hij⟩
  · intro p q sp sq hp hq i j hi hj hk
    have h1 := (LogOf_file hlog hp).2
    have h2 := (LogOf_file hlog hq).2
    obtain ⟨⟨d, hd1, hd2⟩, hij⟩ := same_place_same_position hnd _ _ h1 h2
      (fun d hd1 hd2 => by
        simp only [decide_eq_true_eq] at hd1 hd2
        rw [← hd1, ← hd2]) i j hi hj hk
    simp only [decide_eq_true_eq] at hd1 hd2
    exact ⟨hd1.symm.trans hd2, hij⟩
  · intro q sf lines hq he hre hl i line d hline ha hp
    obtain ⟨hvis, hsf⟩ := LogOf_file hlog hq
    have hown : d ∈ ownDefs q lines 0 :=
      mem_ownDefs_of_line q lines 0 i line d hline ha (by simpa using hp)
    have hd : d ∈ defs := hcomp q lines hvis he hre hl d hown
    have hpath := (mem_ownDefs q lines 0 d hown).1
    refine ⟨?_, ?_⟩
    · rw [hsf]
      exact count_filter_eq_one hnd _ hd (by simp [hpath])
    · obtain ⟨e, he1, he2⟩ := TableOf_mem hlog.1 hd
      refine ⟨e, he1, ?_⟩
      rw [he2]
      exact count_filter_eq_one hnd _ hd (by simp)

set_option maxRecDepth 100000 in
/-- C2, at Scenario E: the file `/rc` sources itself; it is read once, and its alias line
is in its list and in the entry of `a` exactly once. -/
theorem scan_reads_each_path_once_witness :
    ScanShellFiles fsSelf scanner0 "bash".toList ["/rc".toList] = some (selfResult, scanner0) ∧
    (selfFile.Aliases.count selfDef = 1 ∧
      ∃ e, mapGet selfResult.Aliases selfDef.Name = some e ∧ e.Definitions.count selfDef = 1) :=
  ⟨by decide!,
   (scan_reads_each_path_once fsSelf scanner0 "bash".toList ["/rc".toList]
      (selfResult, scanner0) (by decide!)).2.2
      "/rc".toList selfFile ["alias a=\'1\'".toList, "source /rc".toList]
      (by decide!) (by decide!) (by decide!) (by rfl)
      0 "alias a=\'1\'".toList selfDef (by decide!) (by decide!) (by decide!)⟩

/-! ## How `AddAlias` extends an arbitrary table -/

theorem mapGet_AddAlias (r : ScanResult) (d : AliasDefinition) (N : Str) :
    mapGet (r.AddAlias d).Aliases N =
      if d.Name = N then
        some (match mapGet r.Aliases N with
          | some e => e.AddDefinition d
          | none => { Name := d.Name, Typ := d.Typ, ActiveValue := d.Value,
                      ActiveLocation := d.Location, Definitions := [d], IsOverridden := false })
      else mapGet r.Aliases N := by
  by_cases h : d.Name = N
  · subst h
    unfold ScanResult.AddAlias
    cases hg : mapGet r.Aliases d.Name with
    | none => simp [mapGet_mapSet]
    | some e => simp [mapGet_mapModify, hg]
  · unfold ScanResult.AddAlias
    cases hg : mapGet r.Aliases d.Name <;> simp [mapGet_mapSet, mapGet_mapModify, h]

theorem AddDefinition_fields (e : AliasEntry) (d : AliasDefinition) :
    (e.AddDefinition d).Definitions = e.Definitions ++ [d] ∧
    (e.AddDefinition d).ActiveValue = d.Value ∧
    (e.AddDefinition d).ActiveLocation = d.Location ∧ (e.AddDefinition d).Typ = d.Typ := by
  unfold AliasEntry.AddDefinition
  simp only
  split <;> exact ⟨rfl, rfl, rfl, rfl⟩

theorem definitionsOf_AddAlias (r : ScanResult) (d : AliasDefinition) (N : Str) :
    definitionsOf (r.AddAlias d).Aliases N
      = definitionsOf r.Aliases N ++ (if d.Name = N then [d] else []) := by
  unfold definitionsOf
  rw [mapGet_AddAlias]
  by_cases h : d.Name = N
  · simp only [h, if_true]
    cases hg : mapGet r.Aliases N with
    | none => simp
    | some e => simp [(AddDefinition_fields e d).1]
  · simp [h]

theorem definitionsOf_foldl (new : List AliasDefinition) (r : ScanResult) (N : Str) :
    definitionsOf (new.foldl ScanResult.AddAlias r).Aliases N
      = definitionsOf r.Aliases N ++ new.filter (fun d => d.Name = N) := by
  induction new generalizing r with
  | nil => simp
  | cons d rest ih =>
    simp only [List.foldl_cons]
    rw [ih, definitionsOf_AddAlias]
    by_cases h : d.Name = N
    · simp [h, List.filter_cons]
    · simp [h, List.filter_cons]

/-- After `AddAlias` for the definitions `new`, a name that has a definition among them has
an entry whose active value, location and type are those of the last of them. -/
theorem active_foldl (new : List AliasDefinition) (r : ScanResult) (N : Str)
    (dk : AliasDefinition) (h : (new.filter (fun d => d.Name = N)).getLast? = some dk) :
    ∃ e, mapGet (new.foldl ScanResult.AddAlias r).Aliases N = some e ∧
      e.ActiveValue = dk.Value ∧ e.ActiveLocation = dk.Location ∧ e.Typ = dk.Typ := by
  induction new using List.reverseRecOn with
  | nil => simp at h
  | append_singleton init d ih =>
    rw [List.foldl_append, List.foldl_cons, List.foldl_nil, mapGet_AddAlias]
    by_cases hd : d.Name = N
    · have hf : (init ++ [d]).filter (fun x => x.Name = N)
          = init.filter (fun x => x.Name = N) ++ [d] := by
        simp [List.filter_append, List.filter_cons, hd]
      rw [hf, List.getLast?_concat] at h
      simp only [Option.some.injEq] at h
      subst h
      simp only [hd, if_true]
      refine ⟨_, rfl, ?_⟩
      cases hg : mapGet (init.foldl ScanResult.AddAlias r).Aliases N with
      | none => exact ⟨rfl, rfl, rfl⟩
      | some e => exact (AddDefinition_fields e d).2
    · have hf : (init ++ [d]).filter (fun x => x.Name = N)
          = init.filter (fun x => x.Name = N) := by
        simp [List.filter_append, List.filter_cons, hd]
      rw [hf] at h
      simp only [hd, if_false]
      exact ih h

theorem definitionsOf_some {aliases : List (Str × AliasEntry)} {N : Str} {e : AliasEntry}
    (h : mapGet aliases N = some e) : definitionsOf aliases N = e.Definitions := by
  simp [definitionsOf, h]

/-! ## The depth ceiling -/

theorem SameShape_refl (st : ScanState) : SameShape st st := ⟨fun _ => rfl, rfl, rfl, rfl, rfl⟩

theorem SameShape_trans {a b c : ScanState} (h1 : SameShape a b) (h2 : SameShape b c) :
    SameShape a c :=
  ⟨fun q => (h2.1 q).trans (h1.1 q), h2.2.1.trans h1.2.1, h2.2.2.1.trans h1.2.2.1,
    h2.2.2.2.1.trans h1.2.2.2.1, h2.2.2.2.2.trans h1.2.2.2.2⟩

theorem SameShape_modifyFile (st : ScanState) (key : Str) (f : SourceFile → SourceFile) :
    SameShape st (st.modifyFile key f) := by
  refine ⟨fun q => ?_, rfl, rfl, rfl, rfl⟩
  simp only [ScanState.modifyFile, mapGet_mapModify]
  by_cases h : key = q
  · simp [h]
  · simp [h]

theorem SameShape_addAlias (st : ScanState) (cp : Str) (d : AliasDefinition) :
    SameShape st (st.addAlias cp d) := by
  have h := SameShape_modifyFile st cp (fun sf => { sf with Aliases := sf.Aliases ++ [d] })
  refine ⟨fun q => ?_, ?_, rfl, rfl, rfl⟩
  · rw [← h.1 q]
    simp only [ScanState.addAlias, ScanResult.AddAlias]
    split <;> rfl
  · simp only [ScanState.addAlias, ScanResult.AddAlias, ScanState.modifyFile]
    split <;> rfl

theorem SameShape_aliasStep (cp : Str) (i : Nat) (line : Str) (st : ScanState) :
    SameShape st (aliasStep cp i line st) := by
  unfold aliasStep
  split
  · split
    · exact SameShape_addAlias _ _ _
    · exact SameShape_refl _
  · exact SameShape_refl _

theorem SameShape_varStep (line : Str) (st : ScanState) : SameShape st (varStep line st) := by
  unfold varStep
  split
  · exact ⟨fun _ => rfl, rfl, rfl, rfl, rfl⟩
  · exact SameShape_refl _

theorem scanLine_no_include (recur : Str → ScanState → Option (ScanState × Option Str))
    (cp : Str) (i : Nat) (line : Str) (st : ScanState) (h : incsOf line = []) :
    ∃ st1, scanLine recur cp i line st = some st1 ∧ SameShape st st1 := by
  unfold scanLine includeStep
  unfold incsOf at h
  by_cases hinc : IsIncludeLine line = true
  · simp only [hinc, if_true] at h
    simp only [hinc, if_true, h, scanIncludes, Option.map_some']
    exact ⟨_, rfl, SameShape_trans (SameShape_aliasStep cp i line st) (SameShape_varStep line _)⟩
  · simp only [hinc, if_false, Option.map_some', Bool.false_eq_true]
    exact ⟨_, rfl, SameShape_trans (SameShape_aliasStep cp i line st) (SameShape_varStep line _)⟩

theorem scanLines_no_include (recur : Str → ScanState → Option (ScanState × Option Str))
    (cp : Str) (lines : List Str) (i : Nat) (st : ScanState)
    (h : lines.flatMap incsOf = []) :
    ∃ st1, scanLines recur cp lines i st = some st1 ∧ SameShape st st1 := by
  induction lines generalizing i st with
  | nil => exact ⟨st, rfl, SameShape_refl st⟩
  | cons line rest ih =>
    simp only [List.flatMap_cons, List.append_eq_nil] at h
    obtain ⟨s1, hs1, hsame1⟩ := scanLine_no_include recur cp i line st h.1
    obtain ⟨s2, hs2, hsame2⟩ := ih (i + 1) s1 h.2
    exact ⟨s2, by simp [scanLines, hs1, hs2], SameShape_trans hsame1 hsame2⟩

/-- A line whose only include is `inc`, resolved to `target`: the loop body makes the
recursive call for `target` once, in a state of the same shape, and leaves a state of the
shape that the call returned when the call reports no error. -/
theorem scanLine_one_include (recur : Str → ScanState → Option (ScanState × Option Str))
    (cp : Str) (i : Nat) (line : Str) (st : ScanState) (inc : ParseResult) (target : Str)
    (h : incsOf line = [inc])
    (hres : ∀ s1, SameShape st s1 → s1.pathResolver.ResolvePath inc.Path = some target)
    (hrec : ∀ s1, SameShape st s1 → ∃ r, recur target s1 = some (r, none)) :
    ∃ sa r st1, SameShape st sa ∧ recur target sa = some (r, none) ∧ SameShape r st1 ∧
      scanLine recur cp i line st = some st1 := by
  unfold incsOf at h
  by_cases hinc : IsIncludeLine line = true
  · simp only [hinc, if_true] at h
    have hsa : SameShape st ((aliasStep cp i line st).addInclude cp inc.Path) :=
      SameShape_trans (SameShape_aliasStep cp i line st) (SameShape_modifyFile _ _ _)
    obtain ⟨r, hr⟩ := hrec _ hsa
    refine ⟨_, r, varStep line (afterInclude inc target (r, none)), hsa, hr, ?_, ?_⟩
    · refine SameShape_trans ?_ (SameShape_varStep line _)
      unfold afterInclude
      simp only
      split
      · exact SameShape_modifyFile _ _ _
      · exact SameShape_refl _
    · unfold scanLine includeStep
      simp [hinc, h, scanIncludes, hres _ hsa, hr]
  · simp [hinc] at h

theorem append_eq_singleton_cases {α : Type} {a b : List α} {x : α} (h : a ++ b = [x]) :
    (a = [] ∧ b = [x]) ∨ (a = [x] ∧ b = []) := by
  cases a with
  | nil => exact Or.inl ⟨rfl, h⟩
  | cons y ys =>
    simp only [List.cons_append, List.cons.injEq, List.append_eq_nil] at h
    exact Or.inr ⟨by rw [h.1, h.2.1], h.2.2⟩

theorem scanLines_one_include (recur : Str → ScanState → Option (ScanState × Option Str))
    (cp : Str) (lines : List Str) (i : Nat) (st : ScanState) (inc : ParseResult)
    (target : Str) (h : lines.flatMap incsOf = [inc])
    (hres : ∀ s1, SameShape st s1 → s1.pathResolver.ResolvePath inc.Path = some target)
    (hrec : ∀ s1, SameShape st s1 → ∃ r, recur target s1 = some (r, none)) :
    ∃ sa r st1, SameShape st sa ∧ recur target sa = some (r, none) ∧ SameShape r st1 ∧
      scanLines recur cp lines i st = some st1 := by
  induction lines generalizing i st with
  | nil => simp at h
  | cons line rest ih =>
    simp only [List.flatMap_cons] at h
    rcases append_eq_singleton_cases h with ⟨h1, h2⟩ | ⟨h1, h2⟩
    · obtain ⟨s1, hs1, hsame1⟩ := scanLine_no_include recur cp i line st h1
      obtain ⟨sa, r, st1, hsa, hr, hsame, hscan⟩ := ih (i + 1) s1 h2
        (fun s2 hs2 => hres s2 (SameShape_trans hsame1 hs2)) (fun s2 hs2 => hrec s2 (SameShape_trans hsame1 hs2))
      exact ⟨sa, r, st1, SameShape_trans hsame1 hsa, hr, hsame, by simp [scanLines, hs1, hscan]⟩
    · obtain ⟨sa, r, s1, hsa, hr, hsame, hscan⟩ :=
        scanLine_one_include recur cp i line st inc target h1 hres hrec
      obtain ⟨s2, hs2, hsame2⟩ := scanLines_no_include recur cp rest (i + 1) s1 h2
      exact ⟨sa, r, s2, hsa, hr, SameShape_trans hsame hsame2, by simp [scanLines, hscan, hs2]⟩

theorem resolver_eta (r : PathResolver) :
    r = { homeDir := r.homeDir, xdgConfigHome := r.xdgConfigHome, customVars := r.customVars } :=
  rfl

theorem mapGet_enter_isSome (st : ScanState) (cp : Str) (sf : SourceFile) (q : Str) :
    (mapGet (st.enter cp sf).result.Files q).isSome = true ↔
      (q = cp ∨ (mapGet st.result.Files q).isSome = true) := by
  simp only [ScanState.enter, mapGet_mapSet]
  by_cases h : cp = q
  · simp [h]
  · have h2 : ¬ q = cp := fun e => h e.symm
    simp [h, h2]

/-- The scan of the file of index `i` of a chain, entered at depth `i`: it records the files
of index `i`, ..., `maxDepth - 1`, adds the depth warning for the file of index `maxDepth`
and reports no error. -/
theorem chain_scan (fs : FileSystem) (home xdg : Str) (f p : Nat → Str)
    (hdist : ∀ i j, i < maxDepth → j < maxDepth → f i = f j → i = j)
    (hfile : ∀ i, i < maxDepth →
      canonOf fs (p i) = f i ∧ FileExists fs (f i) = true ∧ FileReadable fs (f i) = true ∧
      ∃ lines inc, ReadLines fs (f i) = .ok lines ∧ lines.flatMap incsOf = [inc] ∧
        ∀ vars, PathResolver.ResolvePath
          { homeDir := home, xdgConfigHome := xdg, customVars := vars } inc.Path
            = some (p (i + 1))) :
    ∀ k i, i + k = maxDepth → ∀ fuel st, maxDepth + 1 ≤ fuel + i → 1 ≤ fuel →
      st.pathResolver.homeDir = home → st.pathResolver.xdgConfigHome = xdg →
      (∀ q ∈ st.visited, ∃ j, j < i ∧ q = f j) →
      ∃ st1, scanFile fs fuel (p i) i st = some (st1, none) ∧
        st1.result.Warnings = st.result.Warnings ++ [depthWarning (p maxDepth)] ∧
        (∀ q, (mapGet st1.result.Files q).isSome = true ↔
          ((mapGet st.result.Files q).isSome = true ∨ ∃ j, i ≤ j ∧ j < maxDepth ∧ q = f j)) := by
  intro k
  induction k with
  | zero =>
    intro i hi fuel st _ hfuel _ _ _
    obtain ⟨fuel1, rfl⟩ : ∃ m, fuel = m + 1 := ⟨fuel - 1, by omega⟩
    have hi2 : i = maxDepth := by omega
    subst hi2
    refine ⟨st.warn (depthWarning (p maxDepth)), ?_, rfl, ?_⟩
    · simp only [scanFile]
      exact scanFileBody_at_ceiling fs _ _ _ _ (le_refl _)
    · intro q
      constructor
      · intro h; exact Or.inl h
      · rintro (h | ⟨j, h1, h2, _⟩)
        · exact h
        · omega
  | succ k ih =>
    intro i hi fuel st hfuel1 hfuel hhome hxdg hvis
    obtain ⟨fuel1, rfl⟩ : ∃ m, fuel = m + 1 := ⟨fuel - 1, by omega⟩
    have hilt : i < maxDepth := by omega
    obtain ⟨hcanon, hex, hrd, lines, inc, hlines, hincs, hres⟩ := hfile i hilt
    have hnv : canonOf fs (p i) ∉ st.visited := by
      rw [hcanon]
      intro hmem
      obtain ⟨j, hj, hfj⟩ := hvis _ hmem
      have := hdist i j hilt (by omega) hfj
      omega
    simp only [scanFile]
    rw [scanFileBody_read fs _ (p i) i st hilt hnv (hcanon ▸ hex) (hcanon ▸ hrd) lines
      (hcanon ▸ hlines), hcanon]
    have henv : ∀ s1, SameShape (st.enter (f i) (newSourceFile fs (f i))) s1 →
        s1.pathResolver.homeDir = home ∧ s1.pathResolver.xdgConfigHome = xdg ∧
        (∀ q ∈ s1.visited, ∃ j, j < i + 1 ∧ q = f j) := by
      intro s1 hs1
      refine ⟨hs1.2.2.2.1.trans hhome, hs1.2.2.2.2.trans hxdg, ?_⟩
      intro q hq
      rw [hs1.2.2.1] at hq
      simp only [ScanState.enter, List.mem_cons] at hq
      rcases hq with hq | hq
      · exact ⟨i, by omega, hq⟩
      · obtain ⟨j, hj, hfj⟩ := hvis q hq
        exact ⟨j, by omega, hfj⟩
    have hfuel2 : maxDepth + 1 ≤ fuel1 + (i + 1) := by omega
    have hfuel3 : 1 ≤ fuel1 := by simp only [maxDepth] at hilt hfuel1 ⊢; omega
    obtain ⟨sa, r, st1, hsa, hr, hsame, hscan⟩ :=
      scanLines_one_include (fun q s => scanFile fs fuel1 q (i + 1) s) (f i) lines 0
        (st.enter (f i) (newSourceFile fs (f i))) inc (p (i + 1)) hincs
        (fun s1 hs1 => by
          obtain ⟨h1, h2, _⟩ := henv s1 hs1
          rw [resolver_eta s1.pathResolver, h1, h2]
          exact hres _)
        (fun s1 hs1 => by
          obtain ⟨h1, h2, h3⟩ := henv s1 hs1
          obtain ⟨r, hr, _⟩ := ih (i + 1) (by omega) fuel1 s1 hfuel2 hfuel3 h1 h2 h3
          exact ⟨r, hr⟩)
    obtain ⟨h1, h2, h3⟩ := henv sa hsa
    obtain ⟨r2, hr2, hwarn, hkeys⟩ := ih (i + 1) (by omega) fuel1 sa hfuel2 hfuel3 h1 h2 h3
    have hr3 : some (r2, (none : Option Str)) = some (r, none) := hr2.symm.trans hr
    simp only [Option.some.injEq, Prod.mk.injEq, and_true] at hr3
    subst hr3
    refine ⟨st1, by simp [hscan], ?_, ?_⟩
    · rw [hsame.2.1, hwarn, hsa.2.1]
      rfl
    · intro q
      rw [hsame.1 q, hkeys q, hsa.1 q, mapGet_enter_isSome]
      constructor
      · rintro ((h | h) | ⟨j, hj1, hj2, hj3⟩)
        · exact Or.inr ⟨i, le_refl _, hilt, h⟩
        · exact Or.inl h
        · exact Or.inr ⟨j, by omega, hj2, hj3⟩
      · rintro (h | ⟨j, hj1, hj2, hj3⟩)
        · exact Or.inl (Or.inr h)
        · by_cases hji : j = i
          · subst hji
            exact Or.inl (Or.inl hj3)
          · exact Or.inr ⟨j, by omega, hj2, hj3⟩

/-- C4: a linear chain of distinct, existing, readable files `f 0 -> f 1 -> ... -> f n` with
`n >= 25`, where the only include of `f i` resolves to `f (i+1)` (whatever variables are
set), scanned from the single root `f 0`: exactly `f 0 .. f 24` get a `SourceFile`, `f 25`
and every later file get none, and `Warnings` holds exactly one entry, the depth warning
raised for the include of `f 25`. -/
theorem depth_ceiling_chain (fs : FileSystem) (s : Scanner) (shell root : Str)
    (f p : Nat → Str) (n : Nat) (hn : maxDepth ≤ n)
    (hdist : ∀ i j, i ≤ n → j ≤ n → f i = f j → i = j)
    (hroot : s.pathResolver.ResolvePath root = some (p 0))
    (hfile : ∀ i, i < maxDepth →
      canonOf fs (p i) = f i ∧ FileExists fs (f i) = true ∧ FileReadable fs (f i) = true ∧
      ∃ lines inc, ReadLines fs (f i) = .ok lines ∧ lines.flatMap incsOf = [inc] ∧
        ∀ vars, PathResolver.ResolvePath
          { homeDir := s.pathResolver.homeDir, xdgConfigHome := s.pathResolver.xdgConfigHome,
            customVars := vars } inc.Path = some (p (i + 1))) :
    ∃ r, ScanShellFiles fs s shell [root] = some r ∧
      (∀ i, i < maxDepth → (mapGet r.1.Files (f i)).isSome = true) ∧
      (∀ q, (mapGet r.1.Files q).isSome = true → ∃ i, i < maxDepth ∧ q = f i) ∧
      (∀ j, maxDepth ≤ j → j ≤ n → mapGet r.1.Files (f j) = none) ∧
      r.1.Warnings = [depthWarning (p maxDepth)] := by
  obtain ⟨st1, hscan, hwarn, hkeys⟩ :=
    chain_scan fs s.pathResolver.homeDir s.pathResolver.xdgConfigHome f p
      (fun i j hi hj h => hdist i j (by omega) (by omega) h) hfile maxDepth 0 (by omega)
      (maxDepth + 1) (initialState s shell [root]) (by omega) (by omega) rfl rfl
      (fun q hq => by simp [initialState] at hq)
  have hinit : ∀ q, (mapGet (initialState s shell [root]).result.Files q).isSome = false := by
    intro q
    simp [initialState, NewScanResult, mapGet]
  have hk : ∀ q, (mapGet st1.result.Files q).isSome = true ↔ ∃ j, j < maxDepth ∧ q = f j := by
    intro q
    rw [hkeys q, hinit q]
    constructor
    · rintro (h | ⟨j, _, h2, h3⟩)
      · simp at h
      · exact ⟨j, h2, h3⟩
    · rintro ⟨j, h2, h3⟩
      exact Or.inr ⟨j, Nat.zero_le _, h2, h3⟩
  refine ⟨(st1.result, { pathResolver := st1.pathResolver }), ?_, ?_, ?_, ?_, ?_⟩
  · have hr : (initialState s shell [root]).pathResolver.ResolvePath root = some (p 0) := hroot
    simp [ScanShellFiles, ScanShellFilesFuel, scanRoots, scanRoot, hr, hscan, afterRoot]
  · intro i hi
    exact (hk (f i)).mpr ⟨i, hi, rfl⟩
  · intro q hq
    exact (hk q).mp hq
  · intro j hj1 hj2
    cases hg : mapGet st1.result.Files (f j) with
    | none => rfl
    | some sf =>
      obtain ⟨i, hi, hfi⟩ := (hk (f j)).mp (by simp [hg])
      have := hdist j i hj2 (by omega) hfi
      omega
  · rw [hwarn]
    simp [initialState, NewScanResult]

theorem chainPath_inj (i j : Nat) (h : chainPath i = chainPath j) : i = j := by
  have := congrArg List.length h
  simpa [chainPath] using this

set_option maxRecDepth 100000 in
set_option maxHeartbeats 4000000 in
/-- C4, at the chain `/f -> /fx -> /fxx -> ...` scanned from `/f`: the files with 0 to 24
letters `x` are recorded, the one with 25 is not, and the only warning is the depth
warning for it. -/
theorem depth_ceiling_chain_witness :
    ∃ r, ScanShellFiles chainFS scanner0 "bash".toList ["/f".toList] = some r ∧
      (∀ i, i < maxDepth → (mapGet r.1.Files (chainPath i)).isSome = true) ∧
      (∀ q, (mapGet r.1.Files q).isSome = true → ∃ i, i < maxDepth ∧ q = chainPath i) ∧
      (∀ j, maxDepth ≤ j → j ≤ 30 → mapGet r.1.Files (chainPath j) = none) ∧
      r.1.Warnings = [depthWarning (chainPath maxDepth)] :=
  depth_ceiling_chain chainFS scanner0 "bash".toList "/f".toList chainPath chainPath 30
    (by decide) (fun i j _ _ h => chainPath_inj i j h) (by decide!)
    (fun i hi => by
      have hi2 : i < 25 := hi
      refine ⟨rfl, ?_, ?_, ["# next".toList, "source ".toList ++ chainPath (i + 1)],
        { Path := chainPath (i + 1), Conditional := false }, ?_, ?_, ?_⟩
      · interval_cases i <;> rfl
      · interval_cases i <;> rfl
      · interval_cases i <;> rfl
      · interval_cases i <;> decide!
      · intro vars
        interval_cases i <;> rfl)

/-! ## Depth-first line order -/

theorem aliasStep_pathResolver (cp : Str) (i : Nat) (line : Str) (st : ScanState) :
    (aliasStep cp i line st).pathResolver = st.pathResolver := by
  unfold aliasStep
  split
  · split <;> rfl
  · rfl

theorem aliasStep_visited (cp : Str) (i : Nat) (line : Str) (st : ScanState) :
    (aliasStep cp i line st).visited = st.visited := by
  unfold aliasStep
  split
  · split <;> rfl
  · rfl

/-- A call of `scanFile` below the depth ceiling leaves the canonical path visited. -/
theorem scanFileBody_visits (fs : FileSystem)
    (recur : Str → ScanState → Option (ScanState × Option Str)) (hrec : RecurOK fs recur)
    (filePath : Str) (depth : Nat) (st : ScanState) (r : ScanState × Option Str)
    (hd : depth < maxDepth) (h : scanFileBody fs recur filePath depth st = some r) :
    canonOf fs filePath ∈ r.1.visited := by
  by_cases hv : canonOf fs filePath ∈ st.visited
  · rw [scanFileBody_visited fs recur filePath depth st hd hv] at h
    simp only [Option.some.injEq] at h
    subst h
    exact hv
  · cases he : FileExists fs (canonOf fs filePath) with
    | false =>
      rw [scanFileBody_missing fs recur filePath depth st hd hv he] at h
      simp only [Option.some.injEq] at h
      subst h
      simp [ScanState.setError, ScanState.modifyFile, ScanState.enter]
    | true =>
      cases hr : FileReadable fs (canonOf fs filePath) with
      | false =>
        rw [scanFileBody_unreadable fs recur filePath depth st hd hv he hr] at h
        simp only [Option.some.injEq] at h
        subst h
        simp [ScanState.setError, ScanState.modifyFile, ScanState.enter]
      | true =>
        cases hl : ReadLines fs (canonOf fs filePath) with
        | error e =>
          rw [scanFileBody_readError fs recur filePath depth st hd hv he hr e hl] at h
          simp only [Option.some.injEq] at h
          subst h
          simp [ScanState.setError, ScanState.modifyFile, ScanState.enter]
        | ok lines =>
          rw [scanFileBody_read fs recur filePath depth st hd hv he hr lines hl] at h
          obtain ⟨st2, hst2, hr2⟩ := Option.map_eq_some'.mp h
          subst hr2
          have hin : canonOf fs filePath ∈
              (st.enter (canonOf fs filePath) (newSourceFile fs (canonOf fs filePath))).visited := by
            simp [ScanState.enter]
          obtain ⟨new, lt, _⟩ := scanLines_trace fs recur hrec _ lines 0 _ st2 hin hst2
          exact lt.visited _ hin

/-- A line whose only include is `inc`: the loop body makes the recursive call for the
resolved path in the state after the alias part and the record of the include. -/
theorem scanLine_single_include (recur : Str → ScanState → Option (ScanState × Option Str))
    (cp : Str) (i : Nat) (line : Str) (st s1 : ScanState) (inc : ParseResult) (target : Str)
    (hinc : incsOf line = [inc])
    (hres : st.pathResolver.ResolvePath inc.Path = some target)
    (h : scanLine recur cp i line st = some s1) :
    ∃ r, recur target ((aliasStep cp i line st).addInclude cp inc.Path) = some r ∧
      s1 = varStep line (afterInclude inc target r) := by
  unfold incsOf at hinc
  by_cases hil : IsIncludeLine line = true
  · simp only [hil, if_true] at hinc
    have hres2 : ((aliasStep cp i line st).addInclude cp inc.Path).pathResolver.ResolvePath
        inc.Path = some target := by
      have : ((aliasStep cp i line st).addInclude cp inc.Path).pathResolver = st.pathResolver :=
        aliasStep_pathResolver cp i line st
      rw [this]
      exact hres
    unfold scanLine includeStep at h
    simp only [hil, if_true, hinc, scanIncludes, hres2] at h
    obtain ⟨s0, hs0, hv⟩ := Option.map_eq_some'.mp h
    obtain ⟨r, hr, hrest⟩ := Option.bind_eq_some.mp hs0
    simp only [Option.some.injEq] at hrest
    exact ⟨r, hr, by rw [← hv, ← hrest]⟩
  · simp [hil] at hinc

theorem filter_split (p : AliasDefinition → Bool) (x a b : List AliasDefinition)
    (dB dj : AliasDefinition) (c d : List AliasDefinition) (hB : p dB = true)
    (hj : p dj = true) :
    ((x ++ (a ++ dB :: b)) ++ (c ++ dj :: d)).filter p
      = (x ++ a).filter p ++ dB :: ((b ++ c).filter p ++ dj :: d.filter p) := by
  simp [List.filter_append, List.filter_cons, hB, hj]

/-- C7 (as amended): the scan is in the loop over the lines of the visited file `A`, at a
line `lineI` (index `idx`) whose only include resolves to a file `B` that is not yet
visited, lies below the depth ceiling, exists and is read; `B` defines `N` (line `k+1`,
definition `dB`) and a later line of `A` defines `N` (definition `dj`).  Then the loop
returns, and in the entry of `N` the definition of `B` precedes the later definition of
`A`; the active value and location are those of the last definition of the entry (so they
are those of `dj` exactly when no definition of `N` follows it); and whatever definitions
are added afterwards are appended behind them. -/
theorem include_defs_precede_later_lines (fs : FileSystem) (fuel depth : Nat) (A : Str)
    (st : ScanState) (lineI : Str) (rest : List Str) (idx : Nat) (inc : ParseResult)
    (B1 : Str) (blines : List Str) (k : Nat) (lineB : Str) (dB : AliasDefinition) (m : Nat)
    (lineJ : Str) (dj : AliasDefinition)
    (hfuel : 1 ≤ fuel) (hfuel2 : maxDepth ≤ fuel + depth) (hdepth : depth + 1 < maxDepth)
    (hA : A ∈ st.visited)
    (hinc : incsOf lineI = [inc])
    (hres : st.pathResolver.ResolvePath inc.Path = some B1)
    (hB : canonOf fs B1 ∉ st.visited)
    (hBe : FileExists fs (canonOf fs B1) = true)
    (hBr : FileReadable fs (canonOf fs B1) = true)
    (hBl : ReadLines fs (canonOf fs B1) = .ok blines)
    (hk : blines.get? k = some lineB) (hkA : IsAliasLine lineB = true)
    (hkP : AliasParser.ParseLine lineB (canonOf fs B1) (k + 1) = some dB)
    (hm : rest.get? m = some lineJ) (hmA : IsAliasLine lineJ = true)
    (hmP : AliasParser.ParseLine lineJ A (idx + 1 + m + 1) = some dj)
    (hname : dB.Name = dj.Name) :
    ∃ st1 e l1 l2 l3 dLast,
      scanLines (fun p s => scanFile fs fuel p (depth + 1) s) A (lineI :: rest) idx st
        = some st1 ∧
      mapGet st1.result.Aliases dj.Name = some e ∧
      e.Definitions = l1 ++ dB :: (l2 ++ dj :: l3) ∧
      e.Definitions.getLast? = some dLast ∧
      e.ActiveValue = dLast.Value ∧ e.ActiveLocation = dLast.Location ∧
      ∀ more : List AliasDefinition,
        definitionsOf (more.foldl ScanResult.AddAlias st1.result).Aliases dj.Name
        = (l1 ++ dB :: (l2 ++ dj :: l3)) ++ more.filter (fun d => d.Name = dj.Name) := by
  have hrecOK : RecurOK fs (fun p s => scanFile fs fuel p (depth + 1) s) :=
    scanFile_trace fs fuel (depth + 1)
  obtain ⟨st1, hst1⟩ := Option.isSome_iff_exists.mp
    (scanLines_isSome (fun p s => scanFile fs fuel p (depth + 1) s)
      (fun p s => scanFile_isSome fs fuel (depth + 1) (by omega) hfuel p s) A (lineI :: rest)
      idx st)
  have hst1' := hst1
  simp only [scanLines] at hst1'
  obtain ⟨s1, hs1, hrest⟩ := Option.bind_eq_some.mp hst1'
  obtain ⟨n1, t1, lt1⟩ := scanLine_trace fs _ hrecOK A idx lineI st s1 hA hs1
  obtain ⟨n2, lt2, hown⟩ := scanLines_trace fs _ hrecOK A rest (idx + 1) s1 st1
    (lt1.visited A hA) hrest
  -- `B` is visited by the include of `lineI`
  obtain ⟨r, hr, hs1eq⟩ := scanLine_single_include _ A idx lineI st s1 inc B1 hinc hres hs1
  have hBvis : canonOf fs B1 ∈ s1.visited := by
    obtain ⟨fuel1, rfl⟩ : ∃ f, fuel = f + 1 := ⟨fuel - 1, by omega⟩
    simp only [scanFile] at hr
    have h1 := scanFileBody_visits fs _ (scanFile_trace fs fuel1 (depth + 1 + 1)) B1 (depth + 1)
      _ r hdepth hr
    rw [hs1eq, (Silent_varStep lineI _).2.1, (Silent_afterInclude inc B1 r).2.1]
    exact h1
  have hdB : dB ∈ n1 := by
    apply t1.complete (canonOf fs B1) hBvis _ blines hBe hBr hBl
    · exact mem_ownDefs_of_line _ blines 0 k lineB dB hk hkA (by simpa using hkP)
    · rw [aliasStep_visited]
      exact hB
  have hdj : dj ∈ n2 :=
    hown dj (mem_ownDefs_of_line A rest (idx + 1) m lineJ dj hm hmA hmP)
  obtain ⟨a, b, hab⟩ := List.append_of_mem hdB
  obtain ⟨c, d, hcd⟩ := List.append_of_mem hdj
  have htable : Adds st st1 ((aliasOf A idx lineI ++ n1) ++ n2) := Adds_trans lt1.table lt2.table
  have hfilter : ((aliasOf A idx lineI ++ n1) ++ n2).filter (fun x => x.Name = dj.Name)
      = (aliasOf A idx lineI ++ a).filter (fun x => x.Name = dj.Name)
        ++ dB :: ((b ++ c).filter (fun x => x.Name = dj.Name)
        ++ dj :: d.filter (fun x => x.Name = dj.Name)) := by
    rw [hab, hcd]
    exact filter_split _ _ _ _ _ _ _ _ (by simp [hname]) (by simp)
  have hne : ((aliasOf A idx lineI ++ n1) ++ n2).filter (fun x => x.Name = dj.Name) ≠ [] := by
    rw [hfilter]
    simp
  obtain ⟨dk, hdk⟩ : ∃ dk, (((aliasOf A idx lineI ++ n1) ++ n2).filter
      (fun x => x.Name = dj.Name)).getLast? = some dk := by
    cases hl : (((aliasOf A idx lineI ++ n1) ++ n2).filter
      (fun x => x.Name = dj.Name)).getLast? with
    | none => exact absurd (List.getLast?_eq_none_iff.mp hl) hne
    | some dk => exact ⟨dk, rfl⟩
  obtain ⟨e, he, hav, hal, _⟩ := active_foldl _ st.result dj.Name dk hdk
  unfold Adds at htable
  rw [← htable] at he
  have hdefs : e.Definitions = definitionsOf st.result.Aliases dj.Name
      ++ ((aliasOf A idx lineI ++ n1) ++ n2).filter (fun x => x.Name = dj.Name) := by
    rw [← definitionsOf_some he, htable, definitionsOf_foldl]
  refine ⟨st1, e, definitionsOf st.result.Aliases dj.Name
      ++ (aliasOf A idx lineI ++ a).filter (fun x => x.Name = dj.Name),
    (b ++ c).filter (fun x => x.Name = dj.Name), d.filter (fun x => x.Name = dj.Name), dk,
    hst1, he, ?_, ?_, hav, hal, ?_⟩
  · rw [hdefs, hfilter, List.append_assoc]
  · rw [hdefs, List.getLast?_append_of_ne_nil _ hne]
    exact hdk
  · intro more
    rw [definitionsOf_foldl, definitionsOf_some he, hdefs, hfilter]
    simp only [List.append_assoc]

set_option maxRecDepth 100000 in
/-- C7 (as stated) fails: in `fsOrder` the file `/a` includes `/b` on line 1 and defines `n`
on the later line 2, and `/b` defines `n`; the definition of `/b` precedes that of line 2,
but the active value of `n` is `3`, the value of line 3, not the value `2` of line 2. -/
theorem later_line_overrides_line_j :
    IncludeParser.ParseLine "source /b".toList = [{ Path := "/b".toList, Conditional := false }] ∧
    AliasParser.ParseLine "alias n=\'1\'".toList "/b".toList 1 = some orderDefB ∧
    AliasParser.ParseLine "alias n=\'2\'".toList "/a".toList 2 = some orderDefJ ∧
    (ScanShellFiles fsOrder scanner0 "bash".toList ["/a".toList]).map
        (fun r => (mapGet r.1.Aliases "n".toList).map (fun e => (e.ActiveValue,
          e.Definitions.map (fun d => (d.Location.FilePath, d.Location.LineNum, d.Value)))))
      = some (some ("3".toList,
          [("/b".toList, 1, "1".toList), ("/a".toList, 2, "2".toList),
           ("/a".toList, 3, "3".toList)])) := by
  refine ⟨by decide!, by decide!, by decide!, by rfl⟩

set_option maxRecDepth 100000 in
/-- C7 (as amended), in `fsOrder`, for the loop over the lines of the root `/a` from its
first line on. -/
theorem include_defs_precede_later_lines_witness :
    ∃ st1 e l1 l2 l3 dLast,
      scanLines (fun p s => scanFile fsOrder maxDepth p (0 + 1) s) "/a".toList
          ("source /b".toList :: ["alias n=\'2\'".toList, "alias n=\'3\'".toList]) 0
          ((initialState scanner0 "bash".toList ["/a".toList]).enter "/a".toList
            (newSourceFile fsOrder "/a".toList))
        = some st1 ∧
      mapGet st1.result.Aliases orderDefJ.Name = some e ∧
      e.Definitions = l1 ++ orderDefB :: (l2 ++ orderDefJ :: l3) ∧
      e.Definitions.getLast? = some dLast ∧
      e.ActiveValue = dLast.Value ∧ e.ActiveLocation = dLast.Location ∧
      ∀ more : List AliasDefinition,
        definitionsOf (more.foldl ScanResult.AddAlias st1.result).Aliases orderDefJ.Name
          = (l1 ++ orderDefB :: (l2 ++ orderDefJ :: l3))
            ++ more.filter (fun d => d.Name = orderDefJ.Name) :=
  include_defs_precede_later_lines fsOrder maxDepth 0 "/a".toList
    ((initialState scanner0 "bash".toList ["/a".toList]).enter "/a".toList
      (newSourceFile fsOrder "/a".toList))
    "source /b".toList ["alias n=\'2\'".toList, "alias n=\'3\'".toList] 0
    { Path := "/b".toList, Conditional := false } "/b".toList ["alias n=\'1\'".toList]
    0 "alias n=\'1\'".toList orderDefB 0 "alias n=\'2\'".toList orderDefJ
    (by decide) (by decide) (by decide) (by decide!) (by decide!) (by decide!) (by decide!)
    (by decide!) (by decide!) (by rfl) (by decide!) (by decide!) (by decide!) (by decide!)
    (by decide!) (by decide!) (by decide!)

/-! ## Scenario A: an included file overrides the root's alias -/

theorem scanLine_alias_line (recur : Str → ScanState → Option (ScanState × Option Str))
    (cp : Str) (i : Nat) (line : Str) (st : ScanState) (d : AliasDefinition)
    (ha : IsAliasLine line = true) (hp : AliasParser.ParseLine line cp (i + 1) = some d)
    (hi : incsOf line = []) : scanLine recur cp i line st = some (st.addAlias cp d) := by
  unfold incsOf at hi
  unfold scanLine includeStep aliasStep varStep
  simp only [ha, if_true, hp, IsAliasLine_not_assignment line ha]
  by_cases hil : IsIncludeLine line = true
  · simp only [hil, if_true] at hi
    simp [hil, hi, scanIncludes]
  · simp [hil]

theorem scanLine_include_line (recur : Str → ScanState → Option (ScanState × Option Str))
    (cp : Str) (i : Nat) (line : Str) (st : ScanState) (inc : ParseResult) (target : Str)
    (ha : IsAliasLine line = false) (hinc : incsOf line = [inc])
    (hres : st.pathResolver.ResolvePath inc.Path = some target) :
    scanLine recur cp i line st
      = (recur target (st.addInclude cp inc.Path)).map
          (fun r => varStep line (afterInclude inc target r)) := by
  unfold incsOf at hinc
  by_cases hil : IsIncludeLine line = true
  · simp only [hil, if_true] at hinc
    have hres2 : (st.addInclude cp inc.Path).pathResolver.ResolvePath inc.Path = some target :=
      hres
    have hal : aliasStep cp i line st = st := by
      unfold aliasStep
      simp [ha]
    unfold scanLine includeStep
    rw [hal]
    simp only [hil, if_true, hinc, scanIncludes, hres2]
    cases recur target (st.addInclude cp inc.Path) <;> simp
  · simp [hil] at hinc

theorem afterInclude_plain (inc : ParseResult) (target : Str) (st : ScanState)
    (h : inc.Conditional = false) : afterInclude inc target (st, none) = st := by
  simp [afterInclude, h]

theorem Adds_of_silent {st st1 : ScanState} (h : Silent st st1) : Adds st st1 [] :=
  Adds_silent h.1

/-- C6 (Scenario A): the root file consists of an alias line that defines `N` and a direct
`source` line that resolves to a different, existing, readable file, which consists of an
alias line that defines `N` again.  Then `ScanShellFiles` returns an alias table with
exactly one entry, that of `N`: its active value, location and type are those of the
included file's definition, it is overridden, and its definitions are the root's and then
the included file's. -/
theorem included_file_overrides_root (fs : FileSystem) (s : Scanner) (shell root : Str)
    (R1 l1 l2 B1 l3 : Str) (inc : ParseResult) (d1 d2 : AliasDefinition)
    (hroot : s.pathResolver.ResolvePath root = some R1)
    (hRe : FileExists fs (canonOf fs R1) = true)
    (hRr : FileReadable fs (canonOf fs R1) = true)
    (hRl : ReadLines fs (canonOf fs R1) = .ok [l1, l2])
    (h1a : IsAliasLine l1 = true)
    (h1p : AliasParser.ParseLine l1 (canonOf fs R1) 1 = some d1)
    (h1i : incsOf l1 = [])
    (h2i : incsOf l2 = [inc]) (h2c : inc.Conditional = false)
    (hres : s.pathResolver.ResolvePath inc.Path = some B1)
    (hne : canonOf fs B1 ≠ canonOf fs R1)
    (hBe : FileExists fs (canonOf fs B1) = true)
    (hBr : FileReadable fs (canonOf fs B1) = true)
    (hBl : ReadLines fs (canonOf fs B1) = .ok [l3])
    (h3a : IsAliasLine l3 = true)
    (h3p : AliasParser.ParseLine l3 (canonOf fs B1) 1 = some d2)
    (h3i : incsOf l3 = [])
    (hname : d2.Name = d1.Name) :
    ∃ r, ScanShellFiles fs s shell [root] = some r ∧
      r.1.Aliases = [(d1.Name,
        { Name := d1.Name, Typ := d2.Typ, ActiveValue := d2.Value,
          ActiveLocation := d2.Location, Definitions := [d1, d2], IsOverridden := true })] := by
  have h2a : IsAliasLine l2 = false :=
    direct_include_not_alias l2 inc (by rw [h2i]; simp) h2c
  -- the states of the scan
  let st0 := initialState s shell [root]
  let stE := st0.enter (canonOf fs R1) (newSourceFile fs (canonOf fs R1))
  let sA := stE.addAlias (canonOf fs R1) d1
  let sI := sA.addInclude (canonOf fs R1) inc.Path
  let sE := sI.enter (canonOf fs B1) (newSourceFile fs (canonOf fs B1))
  let sB := sE.addAlias (canonOf fs B1) d2
  -- the included file, entered at depth 1
  have hBscan : scanFile fs maxDepth B1 (0 + 1) sI = some (sB, none) := by
    have hv : canonOf fs B1 ∉ sI.visited := by
      show canonOf fs B1 ∉ [canonOf fs R1]
      simp [hne]
    show scanFileBody fs _ B1 (0 + 1) sI = some (sB, none)
    rw [scanFileBody_read fs _ B1 (0 + 1) sI (by decide) hv hBe hBr [l3] hBl]
    simp only [scanLines, scanLine_alias_line _ _ 0 l3 _ d2 h3a h3p h3i, Option.some_bind,
      Option.map_some']
  -- the root file
  have hRscan : scanFile fs (maxDepth + 1) R1 0 st0
      = some (varStep l2 sB, none) := by
    have hv : canonOf fs R1 ∉ st0.visited := by
      show canonOf fs R1 ∉ []
      simp
    show scanFileBody fs _ R1 0 st0 = some (varStep l2 sB, none)
    rw [scanFileBody_read fs _ R1 0 st0 (by decide) hv hRe hRr [l1, l2] hRl]
    have hresA : sA.pathResolver.ResolvePath inc.Path = some B1 := hres
    simp only [scanLines, scanLine_alias_line _ _ 0 l1 _ d1 h1a h1p h1i, Option.some_bind,
      scanLine_include_line _ _ (0 + 1) l2 _ inc B1 h2a h2i hresA]
    show Option.map (fun st2 => (st2, (none : Option Str)))
      ((Option.map (fun r => varStep l2 (afterInclude inc B1 r))
        (scanFile fs maxDepth B1 (0 + 1) sI)).bind fun a => some a) = some (varStep l2 sB, none)
    rw [hBscan]
    simp [afterInclude_plain inc B1 _ h2c]
  refine ⟨((varStep l2 sB).result, { pathResolver := (varStep l2 sB).pathResolver }), ?_, ?_⟩
  · have hr0 : st0.pathResolver.ResolvePath root = some R1 := hroot
    simp only [ScanShellFiles, ScanShellFilesFuel, scanRoots, scanRoot]
    simp only [hr0, hRscan, Option.map_some', Option.some_bind, afterRoot]
  · have h1 : (varStep l2 sB).result.Aliases = sB.result.Aliases := (Silent_varStep l2 sB).1
    have h2 : Adds st0 sB ([d1] ++ [d2]) := by
      have a1 : Adds st0 sA ([] ++ [d1]) :=
        Adds_trans (@Adds_silent st0 stE rfl)
          (Adds_addAlias stE (canonOf fs R1) d1)
      have a2 : Adds sA sB ([] ++ [d2]) :=
        Adds_trans (@Adds_silent sA sE rfl)
          (Adds_addAlias sE (canonOf fs B1) d2)
      exact Adds_trans a1 a2
    show (varStep l2 sB).result.Aliases = _
    rw [h1, h2]
    simp [st0, initialState, NewScanResult, ScanResult.AddAlias, mapGet, mapSet, mapModify,
      hname, AliasEntry.AddDefinition]

set_option maxRecDepth 100000 in
/-- C6, at Scenario A: `~/.bashrc` defines `ll='ls -la'` and sources `~/.aliases`, which
defines `ll='ls -lah'`. -/
theorem included_file_overrides_root_witness :
    ∃ r, ScanShellFiles fsScenarioA scanner0 "bash".toList ["~/.bashrc".toList] = some r ∧
      r.1.Aliases = [("ll".toList,
        { Name := "ll".toList, Typ := AliasType.normal, ActiveValue := "ls -lah".toList,
          ActiveLocation := scenarioADef2.Location,
          Definitions := [scenarioADef1, scenarioADef2], IsOverridden := true })] :=
  included_file_overrides_root fsScenarioA scanner0 "bash".toList "~/.bashrc".toList
    "/home/u/.bashrc".toList "alias ll=\'ls -la\'".toList "source ~/.aliases".toList
    "/home/u/.aliases".toList "alias ll=\'ls -lah\'".toList
    { Path := "~/.aliases".toList, Conditional := false } scenarioADef1 scenarioADef2
    (by decide!) (by decide!) (by decide!) (by rfl) (by decide!) (by decide!) (by decide!)
    (by decide!) (by decide!) (by decide!) (by decide!) (by decide!) (by decide!) (by rfl)
    (by decide!) (by decide!) (by decide!) (by decide!)

/-! ## Where the code departs from the specification -/

set_option maxRecDepth 100000 in
/-- C5 (code): a second `ScanShellFiles` on the same `Scanner` with the same roots and
files does not give the same alias table.  In `fsRescan` the first scan cannot resolve
`$D/rc` and finds no alias; it leaves `D=/a` in the scanner's resolver, so the second scan
resolves the include and finds the alias `x`. -/
theorem rescan_depends_on_first_scan :
    (ScanShellFiles fsRescan scanner0 "bash".toList ["/r".toList]).map
        (fun r => (mapGet r.1.Aliases "x".toList, r.1.UnresolvedPaths, r.2.pathResolver.customVars))
      = some (none, ["$D/rc".toList], [("D".toList, "/a".toList)]) ∧
    ((ScanShellFiles fsRescan scanner0 "bash".toList ["/r".toList]).bind
        (fun r => ScanShellFiles fsRescan r.2 "bash".toList ["/r".toList])).map
        (fun r => ((mapGet r.1.Aliases "x".toList).map (fun e => e.ActiveValue),
          r.1.UnresolvedPaths))
      = some (some "1".toList, []) := by
  constructor <;> decide!

set_option maxRecDepth 100000 in
/-- C8 (code): the target of a guarded include is looked up in `Files` under the resolved
path, but it is stored under its canonical path.  In `fsLink` the guarded include of
`/link` is followed, the file is recorded as `/real`, and its `Conditional` flag stays
false. -/
theorem conditional_mark_misses_canonical_path :
    IncludeParser.ParseLine "[ -f /link ] && source /link".toList
      = [{ Path := "/link".toList, Conditional := true }] ∧
    scanner0.pathResolver.ResolvePath "/link".toList = some "/link".toList ∧
    canonOf fsLink "/link".toList = "/real".toList ∧
    (ScanShellFiles fsLink scanner0 "bash".toList ["/r".toList]).map
        (fun r => (r.1.Files.map Prod.fst,
          (mapGet r.1.Files "/real".toList).map (fun sf => sf.Conditional)))
      = some (["/r".toList, "/real".toList], some false) := by
  refine ⟨by decide!, by decide!, by decide!, by decide!⟩

set_option maxRecDepth 100000 in
/-- C9 (code): the include parser reads the guarded dot include `[ -f /b ] && . /b`, but
`IsIncludeLine` rejects the line, so the scanner never parses it: nothing is recorded in
the file's `Includes` and `/b` is not visited, while the `source` spelling of the same
line records the include, visits `/b` and marks it conditional. -/
theorem guarded_dot_include_is_skipped :
    IncludeParser.ParseLine "[ -f /b ] && . /b".toList
      = [{ Path := "/b".toList, Conditional := true }] ∧
    IsIncludeLine "[ -f /b ] && . /b".toList = false ∧
    (ScanShellFiles fsDot scanner0 "bash".toList ["/r".toList]).map
        (fun r => (r.1.Files.map Prod.fst,
          (mapGet r.1.Files "/r".toList).map (fun sf => sf.Includes)))
      = some (["/r".toList], some []) ∧
    (ScanShellFiles fsSource scanner0 "bash".toList ["/r".toList]).map
        (fun r => (r.1.Files.map Prod.fst,
          (mapGet r.1.Files "/r".toList).map (fun sf => sf.Includes),
          (mapGet r.1.Files "/b".toList).map (fun sf => sf.Conditional)))
      = some (["/r".toList, "/b".toList], some ["/b".toList], some true) := by
  refine ⟨by decide!, by decide!, by decide!, by decide!⟩

/-! ## A read failure part-way through a file -/

theorem byteLen_replicate_a (n : Nat) : byteLen (List.replicate n 'a') = n := by
  induction n with
  | zero => rfl
  | succ n ih =>
    have h : byteLen (List.replicate (n + 1) 'a') = Char.utf8Size 'a' + byteLen (List.replicate n 'a') := by
      simp [byteLen, List.replicate_succ]
    rw [h, ih]
    have h1 : Char.utf8Size 'a' = 1 := by decide
    rw [h1]
    omega

theorem bufioScan_long (line : Str) (rest : List Str) (readErr : Option Str)
    (h : byteLen line ≥ maxCapacity) :
    bufioScan (line :: rest) readErr = ([], some "bufio.Scanner: token too long".toList) := by
  simp [bufioScan, h]

theorem bufioScan_short (line : Str) (rest : List Str) (readErr : Option Str)
    (h : ¬ byteLen line ≥ maxCapacity) :
    (bufioScan (line :: rest) readErr).2 = (bufioScan rest readErr).2 := by
  simp [bufioScan, h]

theorem ReadLines_error (fs : FileSystem) (p : Str) (file : FileContent) (e : Str)
    (hopen : fs.Open p = .ok file) (h : (bufioScan file.lines file.readErr).2 = some e) :
    ReadLines fs p = .error e := by
  unfold ReadLines
  rw [hopen]
  simp only [h]

theorem ReadLines_fsBig :
    ReadLines fsBig "/big".toList = .error "bufio.Scanner: token too long".toList := by
  have hopen : fsBig.Open "/big".toList
      = .ok { lines := ["alias a=\'1\'".toList, List.replicate maxCapacity 'a'],
              readErr := none } := rfl
  have h1 : ¬ (byteLen "alias a=\'1\'".toList ≥ maxCapacity) := by decide
  have h2 : byteLen (List.replicate maxCapacity 'a') ≥ maxCapacity := by
    rw [byteLen_replicate_a]
  apply ReadLines_error fsBig _ _ _ hopen
  show (bufioScan ["alias a=\'1\'".toList, List.replicate maxCapacity 'a'] none).2 = _
  rw [bufioScan_short _ _ _ h1, bufioScan_long _ _ _ h2]

/-- The state after the scan of the root `/big` in `fsBig`. -/
theorem scanRoots_fsBig :
    scanRoots fsBig (maxDepth + 1) ["/big".toList]
        (initialState scanner0 "bash".toList ["/big".toList])
      = some ((((initialState scanner0 "bash".toList ["/big".toList]).enter "/big".toList
          (newSourceFile fsBig "/big".toList)).setError "/big".toList
            "bufio.Scanner: token too long".toList).warn
          (rootWarning "/big".toList "bufio.Scanner: token too long".toList)) := by
  have hres : (initialState scanner0 "bash".toList ["/big".toList]).pathResolver.ResolvePath
      "/big".toList = some "/big".toList := by decide!
  have hbody := scanFileBody_readError fsBig
    (fun p s => scanFile fsBig maxDepth p (0 + 1) s) "/big".toList 0
    (initialState scanner0 "bash".toList ["/big".toList]) (by decide)
    (by simp [initialState]) (by decide!) (by decide!) _ ReadLines_fsBig
  have hcanon : canonOf fsBig "/big".toList = "/big".toList := rfl
  rw [hcanon] at hbody
  have hfile : scanFile fsBig (maxDepth + 1) "/big".toList 0
      (initialState scanner0 "bash".toList ["/big".toList])
      = some (((initialState scanner0 "bash".toList ["/big".toList]).enter "/big".toList
            (newSourceFile fsBig "/big".toList)).setError "/big".toList
              "bufio.Scanner: token too long".toList,
          some "bufio.Scanner: token too long".toList) := hbody
  simp only [scanRoots, scanRoot, hres, hfile, Option.map_some', Option.some_bind, afterRoot]

set_option maxRecDepth 100000 in
/-- C10 (as stated) fails: in `fsBig` line 1 of `/big` is an alias line and line 2 exceeds
the 1 MiB bound, so `ReadLines` fails part-way; the definition of line 1 is neither in the
file's `Aliases` nor in the alias table of the result `bigResult`, while the error is in
the file's `Error` field and in `Warnings`. -/
theorem read_failure_loses_earlier_aliases :
    (AliasParser.ParseLine "alias a=\'1\'".toList "/big".toList 1).map
        (fun d => (d.Name, d.Value)) = some ("a".toList, "1".toList) ∧
    IsAliasLine "alias a=\'1\'".toList = true ∧
    ReadLines fsBig "/big".toList = .error "bufio.Scanner: token too long".toList ∧
    ScanShellFiles fsBig scanner0 "bash".toList ["/big".toList] = some (bigResult, scanner0) ∧
    mapGet bigResult.Aliases "a".toList = none ∧
    (mapGet bigResult.Files "/big".toList).map (fun sf => (sf.Aliases, sf.Error))
      = some ([], "bufio.Scanner: token too long".toList) := by
  refine ⟨by decide!, by decide!, ReadLines_fsBig, ?_, by decide!, by decide!⟩
  simp only [ScanShellFiles, ScanShellFilesFuel, scanRoots_fsBig, Option.map_some']
  decide!

/-- C10 (as amended): when a file that exists and can be opened is entered by `scanFile`
and `ReadLines` fails (part-way or not), no line of the file is parsed: `scanFile` returns
the error, the alias table is unchanged, the file's entry has empty `Aliases` and
`Includes` and the error in `Error`, and the caller (`ScanShellFiles` for a root, `scanFile`
for an include) appends a warning with the error. -/
theorem read_failure_drops_the_file (fs : FileSystem) (fuel : Nat) (filePath : Str)
    (depth : Nat) (st : ScanState) (e : Str) (hfuel : 1 ≤ fuel) (hd : depth < maxDepth)
    (hv : canonOf fs filePath ∉ st.visited)
    (he : FileExists fs (canonOf fs filePath) = true)
    (hr : FileReadable fs (canonOf fs filePath) = true)
    (hl : ReadLines fs (canonOf fs filePath) = .error e) :
    ∃ st1, scanFile fs fuel filePath depth st = some (st1, some e) ∧
      st1.result.Aliases = st.result.Aliases ∧
      mapGet st1.result.Files (canonOf fs filePath)
        = some { Path := canonOf fs filePath, Exists := true, Readable := true,
                 Conditional := false, Aliases := [], Includes := [], Error := e } ∧
      (afterRoot filePath (st1, some e)).result.Warnings
        = st.result.Warnings ++ [rootWarning filePath e] ∧
      ∀ inc, (afterInclude inc filePath (st1, some e)).result.Warnings
        = st.result.Warnings ++ [includeWarning filePath e] := by
  obtain ⟨fuel1, rfl⟩ : ∃ m, fuel = m + 1 := ⟨fuel - 1, by omega⟩
  refine ⟨(st.enter (canonOf fs filePath) (newSourceFile fs (canonOf fs filePath))).setError
    (canonOf fs filePath) e, ?_, ?_, ?_, ?_, ?_⟩
  · simp only [scanFile]
    exact scanFileBody_readError fs _ filePath depth st hd hv he hr e hl
  · rfl
  · simp [ScanState.setError, ScanState.modifyFile, ScanState.enter, mapGet_mapModify,
      mapGet_mapSet, newSourceFile, he, hr]
  · rfl
  · intro inc
    unfold afterInclude
    simp only
    split <;> rfl


set_option maxRecDepth 100000 in
/-- C10 (as amended), at the file `/big` of `fsBig`, entered as a root. -/
theorem read_failure_drops_the_file_witness :
    ∃ st1, scanFile fsBig (maxDepth + 1) "/big".toList 0
        (initialState scanner0 "bash".toList ["/big".toList])
          = some (st1, some "bufio.Scanner: token too long".toList) ∧
      st1.result.Aliases = [] ∧
      mapGet st1.result.Files "/big".toList
        = some { Path := "/big".toList, Exists := true, Readable := true,
                 Conditional := false, Aliases := [], Includes := [],
                 Error := "bufio.Scanner: token too long".toList } ∧
      (afterRoot "/big".toList (st1, some "bufio.Scanner: token too long".toList)).result.Warnings
        = [] ++ [rootWarning "/big".toList "bufio.Scanner: token too long".toList] ∧
      ∀ inc, (afterInclude inc "/big".toList
          (st1, some "bufio.Scanner: token too long".toList)).result.Warnings
        = [] ++ [includeWarning "/big".toList "bufio.Scanner: token too long".toList] :=
  read_failure_drops_the_file fsBig (maxDepth + 1) "/big".toList 0
    (initialState scanner0 "bash".toList ["/big".toList])
    "bufio.Scanner: token too long".toList (by decide) (by decide)
    (by simp [initialState]) (by decide!) (by decide!) ReadLines_fsBig

/-! ## Trimming -/

theorem trimLeftBy_append_of_all (p : Char → Bool) (w s : Str) (hw : ∀ c ∈ w, p c = true) :
    trimLeftBy p (w ++ s) = trimLeftBy p s := by
  induction w with
  | nil => rfl
  | cons c w ih =>
    have hc : p c = true := hw c (List.mem_cons_self _ _)
    simp only [List.cons_append, trimLeftBy, hc, if_true]
    exact ih (fun x hx => hw x (List.mem_cons_of_mem _ hx))

theorem trimLeftBy_all (p : Char → Bool) (w : Str) (hw : ∀ c ∈ w, p c = true) :
    trimLeftBy p w = [] := by
  have := trimLeftBy_append_of_all p w [] hw
  simpa [trimLeftBy] using this

theorem trimLeftBy_cons_of_not (p : Char → Bool) (c : Char) (s : Str) (h : p c = false) :
    trimLeftBy p (c :: s) = c :: s := by
  simp [trimLeftBy, h]

theorem trimRightBy_append_of_all (p : Char → Bool) (s w : Str) (hw : ∀ c ∈ w, p c = true) :
    trimRightBy p (s ++ w) = trimRightBy p s := by
  unfold trimRightBy
  rw [List.reverse_append, trimLeftBy_append_of_all p w.reverse s.reverse]
  intro c hc
  exact hw c (List.mem_reverse.mp hc)

theorem trimRightBy_concat_of_not (p : Char → Bool) (s : Str) (c : Char) (h : p c = false) :
    trimRightBy p (s ++ [c]) = s ++ [c] := by
  unfold trimRightBy
  rw [List.reverse_append, List.reverse_singleton, List.singleton_append,
    trimLeftBy_cons_of_not p c _ h, List.reverse_cons, List.reverse_reverse]

/-- Trimming on the right keeps a first character that is not trimmed. -/
theorem trimRightBy_cons_of_not (p : Char → Bool) (c : Char) (s : Str) (h : p c = false) :
    ∃ t, trimRightBy p (c :: s) = c :: t := by
  induction s using List.reverseRecOn with
  | nil => exact ⟨[], trimRightBy_concat_of_not p [] c h⟩
  | append_singleton s d ih =>
    cases hd : p d with
    | true =>
      obtain ⟨t, ht⟩ := ih
      refine ⟨t, ?_⟩
      rw [← List.cons_append, trimRightBy_append_of_all p (c :: s) [d] (by simpa using hd)]
      exact ht
    | false =>
      exact ⟨s ++ [d], by rw [← List.cons_append, trimRightBy_concat_of_not p _ d hd]⟩

theorem TrimSpace_append_spaces (s w : Str) (hw : ∀ c ∈ w, isSpace c = true) :
    TrimSpace (s ++ w) = TrimSpace s := by
  induction s with
  | nil =>
    unfold TrimSpace
    rw [List.nil_append, trimLeftBy_all isSpace w hw]
    rfl
  | cons c s ih =>
    cases hc : isSpace c with
    | true =>
      unfold TrimSpace at ih ⊢
      simp only [List.cons_append, trimLeftBy, hc, if_true]
      exact ih
    | false =>
      unfold TrimSpace
      rw [List.cons_append, trimLeftBy_cons_of_not _ _ _ hc, trimLeftBy_cons_of_not _ _ _ hc,
        ← List.cons_append, trimRightBy_append_of_all _ _ _ hw]

theorem TrimSpace_spaces_append (w s : Str) (hw : ∀ c ∈ w, isSpace c = true) :
    TrimSpace (w ++ s) = TrimSpace s := by
  unfold TrimSpace
  rw [trimLeftBy_append_of_all _ _ _ hw]

theorem TrimSpace_spaces (w : Str) (hw : ∀ c ∈ w, isSpace c = true) : TrimSpace w = [] := by
  unfold TrimSpace
  rw [trimLeftBy_all _ _ hw]
  rfl

/-- A text that neither starts nor ends with white space is left as it is. -/
theorem TrimSpace_id (c : Char) (s : Str) (hc : isSpace c = false)
    (hl : ∀ d, (c :: s).getLast? = some d → isSpace d = false) : TrimSpace (c :: s) = c :: s := by
  unfold TrimSpace
  rw [trimLeftBy_cons_of_not _ _ _ hc]
  induction s using List.reverseRecOn with
  | nil => exact trimRightBy_concat_of_not isSpace [] c hc
  | append_singleton s d _ =>
    have hd : isSpace d = false := hl d (by rw [← List.cons_append, List.getLast?_concat])
    rw [← List.cons_append, trimRightBy_concat_of_not _ _ _ hd]

/-- After trimming, a text that starts with a character that is not white space still
starts with it. -/
theorem TrimSpace_cons_of_not (c : Char) (s : Str) (hc : isSpace c = false) :
    ∃ t, TrimSpace (c :: s) = c :: t := by
  unfold TrimSpace
  rw [trimLeftBy_cons_of_not _ _ _ hc]
  exact trimRightBy_cons_of_not _ _ _ hc

/-! ## The comment scan of the alias parser -/

/-- When the scan of `L` has stopped at a comment, what follows `L` is not read. -/
theorem removeInlineCommentLoop_append_none (L s : Str) (sq dq esc : Bool)
    (h : quoteScan L sq dq esc = none) :
    removeInlineCommentLoop (L ++ s) sq dq esc = removeInlineCommentLoop L sq dq esc := by
  induction L generalizing sq dq esc with
  | nil => simp [quoteScan] at h
  | cons ch L ih =>
    simp only [quoteScan] at h
    simp only [List.cons_append, removeInlineCommentLoop]
    split_ifs at h ⊢ <;> first | rfl | exact congrArg _ (ih _ _ _ h)

/-- When the scan of `L` ends in the state `st`, the scan goes on after `L` in that state. -/
theorem removeInlineCommentLoop_append_some (L s : Str) (sq dq esc : Bool)
    (st : Bool × Bool × Bool) (h : quoteScan L sq dq esc = some st) :
    removeInlineCommentLoop (L ++ s) sq dq esc =
      removeInlineCommentLoop L sq dq esc ++ removeInlineCommentLoop s st.1 st.2.1 st.2.2 := by
  induction L generalizing sq dq esc with
  | nil =>
    simp only [quoteScan, Option.some.injEq] at h
    subst h
    rfl
  | cons ch L ih =>
    simp only [quoteScan] at h
    simp only [List.cons_append, removeInlineCommentLoop]
    split_ifs at h ⊢ <;> exact congrArg _ (ih _ _ _ h)

/-- Characters that are inert in the state `sq`, `dq` are copied. -/
theorem removeInlineCommentLoop_inert (w s : Str) (sq dq : Bool) (hw : ∀ c ∈ w, inert sq dq c) :
    removeInlineCommentLoop (w ++ s) sq dq false = w ++ removeInlineCommentLoop s sq dq false := by
  induction w with
  | nil => rfl
  | cons c w ih =>
    obtain ⟨h1, h2, h3, h4⟩ := hw c (List.mem_cons_self _ _)
    have hq1 : ¬ (c = '\'' ∧ ¬ dq = true) := fun h => h.2 (h2 h.1)
    have hq2 : ¬ (c = '"' ∧ ¬ sq = true) := fun h => h.2 (h3 h.1)
    have hq3 : ¬ (c = '#' ∧ ¬ sq = true ∧ ¬ dq = true) := fun h =>
      (h4 h.1).elim h.2.1 h.2.2
    simp only [List.cons_append, removeInlineCommentLoop, h1, hq1, hq2, hq3, if_false,
      Bool.false_eq_true]
    exact congrArg _ (ih (fun x hx => hw x (List.mem_cons_of_mem _ hx)))

/-- A text without `#` is copied whole. -/
theorem removeInlineCommentLoop_no_hash (s : Str) (sq dq esc : Bool) (h : '#' ∉ s) :
    removeInlineCommentLoop s sq dq esc = s := by
  induction s generalizing sq dq esc with
  | nil => rfl
  | cons c s ih =>
    have hc : c ≠ '#' := fun e => h (by simp [e])
    have hs : '#' ∉ s := fun e => h (List.mem_cons_of_mem _ e)
    simp only [removeInlineCommentLoop, hc, false_and, if_false]
    split_ifs <;> simp [ih _ _ _ hs]

/-- Leading white space is copied, and the scan stops at a `#` that follows it. -/
theorem isSpace_inert (c : Char) (h : isSpace c = true) : inert false false c := by
  refine ⟨?_, ?_, ?_, ?_⟩ <;> (intro e; subst e; revert h; decide)

/-! ## Comments and blank lines -/

theorem removeInlineComment_comment (L C : Str) (h : Balanced L) :
    removeInlineComment (L ++ " #".toList ++ C) = removeInlineComment L := by
  unfold removeInlineComment
  rw [List.append_assoc]
  cases hq : quoteScan L false false false with
  | none => rw [removeInlineCommentLoop_append_none L _ false false false hq]
  | some st =>
    have hst := h st hq
    subst hst
    rw [removeInlineCommentLoop_append_some L _ false false false _ hq]
    have hloop : removeInlineCommentLoop (" #".toList ++ C) false false false = [' '] := by
      simp [removeInlineCommentLoop]
    simp only [hloop]
    exact TrimSpace_append_spaces _ [' '] (by simp [isSpace])

/-- The parse of a line depends on the line only through the text left by
`removeInlineComment` (the raw line apart). -/
theorem parsed_congr (L1 L2 fp : Str) (n : Nat)
    (h : removeInlineComment L1 = removeInlineComment L2) :
    parsed (AliasParser.ParseLine L1 fp n) = parsed (AliasParser.ParseLine L2 fp n) := by
  unfold AliasParser.ParseLine
  simp only [h]
  split
  · rfl
  · split
    · rfl
    · split <;> rfl

/-- C16: an inline comment does not change the parse.  For every line `L` whose quotes are
balanced and which does not end in an unfinished backslash escape, and every comment text
`C`, `ParseLine (L + " #" + C)` has the same found flag, name, value and type as
`ParseLine L`. -/
theorem inline_comment_keeps_parse (L C fp : Str) (n : Nat) (h : Balanced L) :
    parsed (AliasParser.ParseLine (L ++ " #".toList ++ C) fp n)
      = parsed (AliasParser.ParseLine L fp n) :=
  parsed_congr _ _ fp n (removeInlineComment_comment L C h)

theorem inline_comment_keeps_parse_witness :
    Balanced "alias gs=\'git status\'".toList ∧
    parsed (AliasParser.ParseLine ("alias gs=\'git status\'".toList ++ " #".toList ++
        "short status".toList) "/rc".toList 3)
      = some ("gs".toList, "git status".toList, AliasType.normal) :=
  ⟨by intro st h; revert h; simp [quoteScan]; intro h; exact h.symm,
   (inline_comment_keeps_parse "alias gs=\'git status\'".toList "short status".toList
      "/rc".toList 3 (by intro st h; revert h; simp [quoteScan]; intro h; exact h.symm)).trans
      (by decide!)⟩

theorem removeInlineComment_hash (w rest : Str) (hw : ∀ c ∈ w, isSpace c = true) :
    removeInlineComment (w ++ '#' :: rest) = [] := by
  unfold removeInlineComment
  rw [removeInlineCommentLoop_inert w _ false false (fun c hc => isSpace_inert c (hw c hc))]
  have : removeInlineCommentLoop ('#' :: rest) false false false = [] := by
    simp [removeInlineCommentLoop]
  rw [this, List.append_nil]
  exact TrimSpace_spaces w hw

theorem removeInlineComment_spaces (w : Str) (hw : ∀ c ∈ w, isSpace c = true) :
    removeInlineComment w = [] := by
  unfold removeInlineComment
  have := removeInlineCommentLoop_inert w [] false false
    (fun c hc => isSpace_inert c (hw c hc))
  rw [List.append_nil] at this
  rw [this]
  simp only [removeInlineCommentLoop, List.append_nil]
  exact TrimSpace_spaces w hw

theorem AliasParser_ParseLine_of_empty (line fp : Str) (n : Nat)
    (h : removeInlineComment line = []) : AliasParser.ParseLine line fp n = none := by
  unfold AliasParser.ParseLine
  simp [h]

theorem IncludeParser_ParseLine_hash (w rest : Str) (hw : ∀ c ∈ w, isSpace c = true) :
    IncludeParser.ParseLine (w ++ '#' :: rest) = [] := by
  unfold IncludeParser.ParseLine
  obtain ⟨t, ht⟩ := TrimSpace_cons_of_not '#' rest (by decide)
  simp only [TrimSpace_spaces_append w _ hw, ht]
  simp [HasPrefix]

theorem IncludeParser_ParseLine_spaces (w : Str) (hw : ∀ c ∈ w, isSpace c = true) :
    IncludeParser.ParseLine w = [] := by
  unfold IncludeParser.ParseLine
  simp [TrimSpace_spaces w hw]

/-- C20: comment lines and blank lines are ignored by both parsers.  For a line whose first
character after white space `w` is `#`, and for a line `w` of white space only (possibly
empty), `AliasParser.ParseLine` finds nothing and `IncludeParser.ParseLine` returns the
empty sequence. -/
theorem comment_and_blank_lines_ignored (w rest fp : Str) (n : Nat)
    (hw : ∀ c ∈ w, isSpace c = true) :
    (AliasParser.ParseLine (w ++ '#' :: rest) fp n = none ∧
      IncludeParser.ParseLine (w ++ '#' :: rest) = []) ∧
    (AliasParser.ParseLine w fp n = none ∧ IncludeParser.ParseLine w = []) :=
  ⟨⟨AliasParser_ParseLine_of_empty _ fp n (removeInlineComment_hash w rest hw),
    IncludeParser_ParseLine_hash w rest hw⟩,
   ⟨AliasParser_ParseLine_of_empty _ fp n (removeInlineComment_spaces w hw),
    IncludeParser_ParseLine_spaces w hw⟩⟩

theorem comment_and_blank_lines_ignored_witness :
    (∀ c ∈ " \t".toList, isSpace c = true) ∧
    (AliasParser.ParseLine (" \t".toList ++ '#' :: " alias a=b".toList) "/rc".toList 1 = none ∧
      IncludeParser.ParseLine (" \t".toList ++ '#' :: " alias a=b".toList) = []) ∧
    (AliasParser.ParseLine " \t".toList "/rc".toList 1 = none ∧
      IncludeParser.ParseLine " \t".toList = []) :=
  ⟨by decide, comment_and_blank_lines_ignored " \t".toList " alias a=b".toList "/rc".toList 1
    (by decide)⟩

/-! ## The matching engine -/

section Engine

open Regex

variable {α : Type}

theorem HasPrefix_append (t s : Str) : HasPrefix (t ++ s) t = true := by
  induction t with
  | nil => cases s <;> rfl
  | cons a t ih => simp [HasPrefix, ih]

/-- A literal matches exactly when the text starts with it. -/
theorem run_lit (n : Nat) (t s : Str) (c : Caps) (k : Str → Caps → Option α) :
    run n (lit t) s c k = if HasPrefix s t = true then k (s.drop t.length) c else none := by
  induction t generalizing s with
  | nil => cases s <;> simp [lit, run, HasPrefix]
  | cons a t ih =>
    cases s with
    | nil => simp [lit, run, HasPrefix]
    | cons x xs =>
      simp only [lit, run, HasPrefix, decide_eq_true_eq, Bool.and_eq_true, List.length_cons,
        List.drop_succ_cons]
      by_cases hx : x = a
      · simp [hx, ih]
      · simp [hx]

theorem run_char_cons (n : Nat) (p : Char → Bool) (x : Char) (xs : Str) (c : Caps)
    (k : Str → Caps → Option α) :
    run n (char p) (x :: xs) c k = if p x = true then k xs c else none := rfl

theorem run_lit_append (n : Nat) (t s : Str) (c : Caps) (k : Str → Caps → Option α) :
    run n (lit t) (t ++ s) c k = k s c := by
  rw [run_lit, HasPrefix_append]
  simp

/-- A repetition of a character class stops at once before a character outside the class
and at the end of the text. -/
theorem starLoop_char_stop (n : Nat) (p : Char → Bool) (g : Bool) (fuel : Nat) (b : Str)
    (c : Caps) (k : Str → Caps → Option α) (hb : ∀ y ys, b = y :: ys → p y = false) :
    starLoop (fun s1 c1 k1 => run n (char p) s1 c1 k1) g fuel b c k = k b c := by
  cases fuel with
  | zero => rfl
  | succ fuel =>
    have hmore : run n (char p) b c
        (fun s1 c1 => if s1.length < b.length then
          starLoop (fun s1 c1 k1 => run n (char p) s1 c1 k1) g fuel s1 c1 k else none) = none := by
      cases b with
      | nil => rfl
      | cons y ys => simp [run, hb y ys rfl]
    simp only [starLoop, hmore]
    cases g <;> cases k b c <;> rfl

/-- A greedy repetition of a character class takes the longest run of characters of the
class when the rest of the expression matches after it. -/
theorem starLoop_char_greedy (n : Nat) (p : Char → Bool) (a b : Str) (c : Caps)
    (k : Str → Caps → Option α) (r : α) (ha : ∀ x ∈ a, p x = true)
    (hb : ∀ y ys, b = y :: ys → p y = false) (hk : k b c = some r) (fuel : Nat)
    (hf : a.length < fuel) :
    starLoop (fun s1 c1 k1 => run n (char p) s1 c1 k1) true fuel (a ++ b) c k = some r := by
  induction a generalizing fuel with
  | nil => rw [List.nil_append, starLoop_char_stop n p true fuel b c k hb, hk]
  | cons x a ih =>
    cases fuel with
    | zero => simp at hf
    | succ fuel =>
      have hx : p x = true := ha x (List.mem_cons_self _ _)
      have hf1 : a.length < fuel := by
        simp only [List.length_cons] at hf
        omega
      have := ih (fun y hy => ha y (List.mem_cons_of_mem _ hy)) fuel hf1
      show (run n (char p) (x :: (a ++ b)) c (fun s1 c1 =>
          if s1.length < (x :: (a ++ b)).length then
            starLoop (fun s1 c1 k1 => run n (char p) s1 c1 k1) true fuel s1 c1 k
          else none)).orElse (fun _ => k (x :: (a ++ b)) c) = some r
      rw [run_char_cons, if_pos hx, if_pos (by simp), this]
      rfl

theorem run_star_greedy (n : Nat) (p : Char → Bool) (a b : Str) (c : Caps)
    (k : Str → Caps → Option α) (r : α) (ha : ∀ x ∈ a, p x = true)
    (hb : ∀ y ys, b = y :: ys → p y = false) (hk : k b c = some r) :
    run n (star (char p) true) (a ++ b) c k = some r := by
  simp only [run]
  exact starLoop_char_greedy n p a b c k r ha hb hk _ (by simp only [List.length_append]; omega)

theorem run_star_stop (n : Nat) (p : Char → Bool) (g : Bool) (b : Str) (c : Caps)
    (k : Str → Caps → Option α) (hb : ∀ y ys, b = y :: ys → p y = false) :
    run n (star (char p) g) b c k = k b c := by
  simp only [run]
  exact starLoop_char_stop n p g _ b c k hb

/-- The group `([p][q]*)` captures the longest text `x :: xs` of its shape when the rest of
the expression matches after it. -/
theorem run_group_class (n i : Nat) (p q : Char → Bool) (x : Char) (xs b : Str) (c : Caps)
    (k : Str → Caps → Option α) (r : α) (hx : p x = true) (hxs : ∀ y ∈ xs, q y = true)
    (hb : ∀ y ys, b = y :: ys → q y = false) (hk : k b (c.set i (some (x :: xs))) = some r) :
    run n (group i (seq (char p) (star (char q) true))) (x :: xs ++ b) c k = some r := by
  simp only [run, List.cons_append, hx, if_true]
  apply starLoop_char_greedy n q xs b c _ r hxs hb _ _
    (by simp only [List.length_append]; omega)
  have : (xs ++ b).length + 1 - b.length = xs.length + 1 := by
    simp only [List.length_append]
    omega
  simp only [List.length_cons, this, List.take_succ_cons, List.take_left']
  exact hk

/-- The group `(.+)` captures a non-empty text without a newline up to its end when the
rest of the expression matches there. -/
theorem run_group_rest (n i : Nat) (x : Char) (xs : Str) (c : Caps)
    (k : Str → Caps → Option α) (r : α) (hv : ∀ y ∈ x :: xs, dot y = true)
    (hk : k [] (c.set i (some (x :: xs))) = some r) :
    run n (group i (plus (char dot) true)) (x :: xs) c k = some r := by
  have h := run_group_class n i dot dot x xs [] c k r (hv x (List.mem_cons_self _ _))
    (fun y hy => hv y (List.mem_cons_of_mem _ hy)) (by simp) hk
  simpa [plus] using h

end Engine

/-! ## Character classes -/

section Classes

open Regex

theorem ws_cases (c : Char) (h : ws c = true) :
    c = '\t' ∨ c = '\n' ∨ c = Char.ofNat 0x0C ∨ c = '\r' ∨ c = ' ' := by
  simpa [ws, or_assoc] using h

theorem ws_isSpace (c : Char) (h : ws c = true) : isSpace c = true := by
  rcases ws_cases c h with e | e | e | e | e <;> (subst e; decide)

theorem not_ws_of_not_isSpace (c : Char) (h : isSpace c = false) : ws c = false := by
  cases hw : ws c with
  | false => rfl
  | true => rw [ws_isSpace c hw] at h; exact absurd h (by simp)

theorem nameRest_not_ws (c : Char) (h : nameRest c = true) : ws c = false := by
  cases hw : ws c with
  | false => rfl
  | true =>
    rcases ws_cases c hw with e | e | e | e | e <;> (subst e; revert h; decide)

theorem nameFirst_nameRest (c : Char) (h : nameFirst c = true) : nameRest c = true := by
  simp only [nameFirst, nameRest, Bool.or_eq_true] at h ⊢
  tauto

theorem nameFirst_not_digit (c : Char) (h : nameFirst c = true) : digit c = false := by
  cases hd : digit c with
  | false => rfl
  | true =>
    exfalso
    simp only [nameFirst, lower, upper, digit, Bool.or_eq_true, Bool.and_eq_true,
      decide_eq_true_eq] at h hd
    have h1 : '0'.toNat = 48 := by decide
    have h2 : '9'.toNat = 57 := by decide
    have h3 : 'a'.toNat = 97 := by decide
    have h4 : 'A'.toNat = 65 := by decide
    have h5 : '_'.toNat = 95 := by decide
    have h6 : '.'.toNat = 46 := by decide
    have h7 : '-'.toNat = 45 := by decide
    rcases h with (((h | h) | h) | h) | h
    · omega
    · omega
    · rw [h] at hd; omega
    · rw [h] at hd; omega
    · rw [h] at hd; omega

theorem varRest_nameRest (c : Char) (h : varRest c = true) : nameRest c = true := by
  simp only [varRest, nameRest, Bool.or_eq_true] at h ⊢
  tauto

theorem varFirst_varRest (c : Char) (h : varFirst c = true) : varRest c = true := by
  simp only [varFirst, varRest, Bool.or_eq_true] at h ⊢
  tauto

theorem validName_cases (N : Str) (h : validName N = true) :
    ∃ x xs, N = x :: xs ∧ nameFirst x = true ∧ ∀ y ∈ xs, nameRest y = true := by
  cases N with
  | nil => simp [validName] at h
  | cons x xs =>
    simp only [validName, Bool.and_eq_true, List.all_eq_true] at h
    exact ⟨x, xs, rfl, h.1, h.2⟩

theorem dot_of_ne (c : Char) (h : c ≠ '\n') : dot c = true := by
  simp [dot, h]

end Classes

/-! ## The alias expressions on a well-formed alias line -/

section AliasMatch

open Regex

/-- The common tail `([a-zA-Z_.\-][a-zA-Z0-9_.\-]*)=(.+)` of the two alias expressions on a
text `N=V`. -/
theorem run_name_value {α : Type} (n : Nat) (x : Char) (xs : Str) (v : Char) (vs : Str)
    (c : Caps) (k : Str → Caps → Option α) (r : α)
    (hx : nameFirst x = true) (hxs : ∀ y ∈ xs, nameRest y = true)
    (hv : ∀ y ∈ v :: vs, y ≠ '\n')
    (hk : k [] ((c.set 1 (some (x :: xs))).set 2 (some (v :: vs))) = some r) :
    run n (seqs [group 1 (seq (char nameFirst) (star (char nameRest) true)), lit "=".toList,
      group 2 (plus (char dot) true)]) (x :: xs ++ '=' :: v :: vs) c k = some r := by
  show run n (group 1 (seq (char nameFirst) (star (char nameRest) true)))
    (x :: xs ++ '=' :: v :: vs) c
    (fun s1 c1 => run n (lit "=".toList) s1 c1
      (fun s2 c2 => run n (group 2 (plus (char dot) true)) s2 c2 k)) = some r
  apply run_group_class n 1 nameFirst nameRest x xs _ c _ r hx hxs
  · intro y ys h
    simp only [List.cons.injEq] at h
    rw [← h.1]
    decide
  · show run n (lit "=".toList) ("=".toList ++ v :: vs) _ _ = some r
    rw [run_lit_append]
    exact run_group_rest n 2 v vs _ k r (fun y hy => dot_of_ne y (hv y hy)) hk

/-- The start `^\s*alias\s+` of the two alias expressions on a text `alias X` where `X`
starts with a character that is no white space. -/
theorem run_alias_head {α : Type} (n : Nat) (b : Str) (c : Caps) (k : Str → Caps → Option α)
    (X : Regex) (hn : ("alias ".toList ++ b).length = n)
    (hb : ∀ y ys, b = y :: ys → ws y = false) :
    run n (seqs [bol, star (char ws) true, lit "alias".toList, plus (char ws) true, X])
        ("alias ".toList ++ b) c k
      = run n X b c k := by
  show run n bol ("alias ".toList ++ b) c (fun s1 c1 => run n (star (char ws) true) s1 c1
    (fun s2 c2 => run n (lit "alias".toList) s2 c2
      (fun s3 c3 => run n (char ws) s3 c3
        (fun s4 c4 => run n (star (char ws) true) s4 c4
          (fun s5 c5 => run n X s5 c5 k))))) = _
  rw [show ∀ (K : Str → Caps → Option α), run n bol
      ("alias ".toList ++ b) c K = K ("alias ".toList ++ b) c from fun K => by
        simp only [run, hn, if_true]]
  rw [run_star_stop _ ws true ("alias ".toList ++ b) c _
    (by intro y ys h; simp only [String.toList, List.cons_append, List.cons.injEq] at h
        rw [← h.1]; decide)]
  rw [show "alias ".toList ++ b = "alias".toList ++ (' ' :: b) from rfl, run_lit_append,
    run_char_cons, if_pos (by decide), run_star_stop _ ws true b c _ hb]

/-- A match at the front of the text is the leftmost match. -/
theorem findFrom_of_run (re : Regex) (groups n : Nat) (s : Str) (m : Match)
    (h : run n re s (List.replicate (groups + 1) none) (fun s1 c1 => some ⟨s, s1, c1⟩) = some m) :
    findFrom re groups n s = some m := by
  cases s with
  | nil => exact h
  | cons x xs =>
    show (run n re (x :: xs) _ _).orElse _ = some m
    rw [h]
    rfl

/-- On `alias N=V` the expression for a normal alias matches, with the groups `N` and `V`. -/
theorem normalAliasPattern_match (x : Char) (xs : Str) (v : Char) (vs : Str)
    (hx : nameFirst x = true) (hxs : ∀ y ∈ xs, nameRest y = true)
    (hv : ∀ y ∈ v :: vs, y ≠ '\n') :
    FindStringSubmatch normalAliasPattern 2 ("alias ".toList ++ (x :: xs ++ '=' :: v :: vs))
      = some ⟨"alias ".toList ++ (x :: xs ++ '=' :: v :: vs), [],
          [none, some (x :: xs), some (v :: vs)]⟩ := by
  have hrun := run_alias_head ("alias ".toList ++ (x :: xs ++ '=' :: v :: vs)).length
    (x :: xs ++ '=' :: v :: vs) (List.replicate (2 + 1) none)
    (fun s1 c1 => some (Match.mk ("alias ".toList ++ (x :: xs ++ '=' :: v :: vs)) s1 c1))
    (seqs [group 1 (seq (char nameFirst) (star (char nameRest) true)), lit "=".toList,
      group 2 (plus (char dot) true)]) rfl
    (by intro y ys h
        simp only [List.cons_append, List.cons.injEq] at h
        rw [← h.1]
        exact nameRest_not_ws x (nameFirst_nameRest x hx))
  rw [run_name_value _ x xs v vs _ _ _ hx hxs hv rfl] at hrun
  exact findFrom_of_run _ 2 _ _ _ hrun


theorem run_char_none {α : Type} (n : Nat) (p : Char → Bool) (s : Str) (c : Caps)
    (k : Str → Caps → Option α) (h : ∀ y ys, s = y :: ys → p y = false) :
    run n (char p) s c k = none := by
  cases s with
  | nil => rfl
  | cons y ys => rw [run_char_cons, h y ys rfl]; rfl

/-- The part `-g\s+` of the expression for a global alias on a text `-g X` where `X`
starts with a character that is no white space. -/
theorem run_g_head {α : Type} (n : Nat) (b : Str) (c : Caps) (k : Str → Caps → Option α)
    (Y : Regex) (hb : ∀ y ys, b = y :: ys → ws y = false) :
    run n (seqs [lit "-g".toList, plus (char ws) true, Y]) ("-g ".toList ++ b) c k
      = run n Y b c k := by
  show run n (lit "-g".toList) ("-g".toList ++ (' ' :: b)) c
    (fun s1 c1 => run n (char ws) s1 c1 (fun s2 c2 => run n (star (char ws) true) s2 c2
      (fun s3 c3 => run n Y s3 c3 k))) = _
  rw [run_lit_append, run_char_cons, if_pos (by decide), run_star_stop _ ws true _ _ _ hb]

/-- The part `-g\s+` fails on a text whose third character is no white space. -/
theorem run_g_head_none {α : Type} (n : Nat) (s : Str) (c : Caps)
    (k : Str → Caps → Option α) (Y : Regex)
    (hs : ∀ y ys, s.drop 2 = y :: ys → ws y = false) :
    run n (seqs [lit "-g".toList, plus (char ws) true, Y]) s c k = none := by
  show run n (lit "-g".toList) s c
    (fun s1 c1 => run n (char ws) s1 c1 (fun s2 c2 => run n (star (char ws) true) s2 c2
      (fun s3 c3 => run n Y s3 c3 k))) = _
  rw [run_lit]
  split
  · exact run_char_none n ws _ c _ hs
  · rfl

/-- On `alias -g N=V` the expression for a global alias matches, with the groups `N` and
`V`. -/
theorem globalAliasPattern_match (x : Char) (xs : Str) (v : Char) (vs : Str)
    (hx : nameFirst x = true) (hxs : ∀ y ∈ xs, nameRest y = true)
    (hv : ∀ y ∈ v :: vs, y ≠ '\n') :
    FindStringSubmatch globalAliasPattern 2
        ("alias ".toList ++ ("-g ".toList ++ (x :: xs ++ '=' :: v :: vs)))
      = some ⟨"alias ".toList ++ ("-g ".toList ++ (x :: xs ++ '=' :: v :: vs)), [],
          [none, some (x :: xs), some (v :: vs)]⟩ := by
  have hrun := run_alias_head
    ("alias ".toList ++ ("-g ".toList ++ (x :: xs ++ '=' :: v :: vs))).length
    ("-g ".toList ++ (x :: xs ++ '=' :: v :: vs)) (List.replicate (2 + 1) none)
    (fun s1 c1 => some (Match.mk
      ("alias ".toList ++ ("-g ".toList ++ (x :: xs ++ '=' :: v :: vs))) s1 c1))
    (seqs [lit "-g".toList, plus (char ws) true,
      seqs [group 1 (seq (char nameFirst) (star (char nameRest) true)), lit "=".toList,
        group 2 (plus (char dot) true)]]) rfl
    (by intro y ys h
        simp only [String.toList, List.cons_append, List.cons.injEq] at h
        rw [← h.1]
        decide)
  rw [run_g_head _ _ _ _ _
      (by intro y ys h
          simp only [List.cons_append, List.cons.injEq] at h
          rw [← h.1]
          exact nameRest_not_ws x (nameFirst_nameRest x hx)),
    run_name_value _ x xs v vs _ _ _ hx hxs hv rfl] at hrun
  exact findFrom_of_run _ 2 _ _ _ hrun

/-- The expression for a global alias does not match `alias N=V`: after `alias ` it asks
for `-g` and white space, and neither a name nor `=` nor the first character of the value
is white space. -/
theorem globalAliasPattern_none (x : Char) (xs : Str) (v : Char) (vs : Str)
    (hx : nameFirst x = true) (hxs : ∀ y ∈ xs, nameRest y = true) (hv : ws v = false) :
    FindStringSubmatch globalAliasPattern 2 ("alias ".toList ++ (x :: xs ++ '=' :: v :: vs))
      = none := by
  have hx1 : ws x = false := nameRest_not_ws x (nameFirst_nameRest x hx)
  apply FindStringSubmatch_bol_none
  intro k c
  have hhead := run_alias_head ("alias ".toList ++ (x :: xs ++ '=' :: v :: vs)).length
    (x :: xs ++ '=' :: v :: vs) c k
    (seqs [lit "-g".toList, plus (char ws) true,
      seqs [group 1 (seq (char nameFirst) (star (char nameRest) true)), lit "=".toList,
        group 2 (plus (char dot) true)]]) rfl
    (by intro y ys h
        simp only [List.cons_append, List.cons.injEq] at h
        rw [← h.1]
        exact hx1)
  have hbol : ∀ (Y : Regex), run ("alias ".toList ++ (x :: xs ++ '=' :: v :: vs)).length
      (seq bol Y) ("alias ".toList ++ (x :: xs ++ '=' :: v :: vs)) c k
      = run ("alias ".toList ++ (x :: xs ++ '=' :: v :: vs)).length Y
        ("alias ".toList ++ (x :: xs ++ '=' :: v :: vs)) c k := fun Y => by
    simp only [run, if_true]
  refine (hbol _).symm.trans (Eq.trans hhead ?_)
  apply run_g_head_none
  intro y ys h
  cases xs with
  | nil =>
    simp only [List.cons_append, List.nil_append, List.drop_succ_cons, List.drop_zero,
      List.cons.injEq] at h
    rw [← h.1]
    exact hv
  | cons x2 xs =>
    cases xs with
    | nil =>
      simp only [List.cons_append, List.nil_append, List.drop_succ_cons, List.drop_zero,
        List.cons.injEq] at h
      rw [← h.1]
      decide
    | cons x3 xs =>
      simp only [List.cons_append, List.drop_succ_cons, List.drop_zero,
        List.cons.injEq] at h
      rw [← h.1]
      exact nameRest_not_ws x3 (hxs x3 (by simp))

end AliasMatch

/-! ## Well-formed alias lines -/

section AliasLines

open Regex

theorem nameRest_inert (c : Char) (h : nameRest c = true) : inert false false c := by
  refine ⟨?_, ?_, ?_, ?_⟩ <;> (intro e; subst e; revert h; decide)

theorem nameRest_ne_hash (c : Char) (h : nameRest c = true) : c ≠ '#' := by
  intro e; subst e; revert h; decide

theorem closingQuote_plain (quote prev : Char) (V : Str) (h1 : quote ∉ V) (h2 : '\\' ∉ V)
    (hp : prev ≠ '\\') : closingQuote quote prev (V ++ [quote]) = some V := by
  induction V generalizing prev with
  | nil => simp [closingQuote, hp]
  | cons c V ih =>
    have hc : c ≠ quote := fun e => h1 (by simp [e])
    have hb : c ≠ '\\' := fun e => h2 (by simp [e])
    simp only [List.cons_append, closingQuote, hc, if_false]
    have := ih c (fun e => h1 (List.mem_cons_of_mem _ e))
      (fun e => h2 (List.mem_cons_of_mem _ e)) hb
    show Option.map (fun v => c :: v) (closingQuote quote c (V ++ [quote])) = some (c :: V)
    rw [this]
    rfl

theorem isSpace_quote (q : Char) (hq : q = '\'' ∨ q = '"') : isSpace q = false := by
  rcases hq with e | e <;> (subst e; decide)

/-- The value of a remainder `qVq` where `V` holds neither `q` nor a backslash is `V`. -/
theorem extractValue_quoted (q : Char) (V : Str) (hq : q = '\'' ∨ q = '"') (h1 : q ∉ V)
    (h2 : '\\' ∉ V) : extractValue (q :: (V ++ [q])) = V := by
  unfold extractValue
  have ht : TrimSpace (q :: (V ++ [q])) = q :: (V ++ [q]) :=
    TrimSpace_id q _ (isSpace_quote q hq) (by
      intro d hd
      rw [← List.cons_append, List.getLast?_concat] at hd
      simp only [Option.some.injEq] at hd
      rw [← hd]
      exact isSpace_quote q hq)
  have hb : q ≠ '\\' := by rcases hq with e | e <;> (subst e; decide)
  simp only [ht, hq, if_true, closingQuote_plain q q V h1 h2 hb]

theorem splitOnUnescapedCharLoop_no_delim (delim : Char) (s cur : Str) (esc : Bool)
    (h : delim ∉ s) (hne : cur ++ s ≠ []) :
    splitOnUnescapedCharLoop delim s cur esc = [cur ++ s] := by
  induction s generalizing cur esc with
  | nil =>
    have : cur.length > 0 := by
      cases cur with
      | nil => simp at hne
      | cons _ _ => simp
    simp [splitOnUnescapedCharLoop, this]
  | cons c s ih =>
    have hc : c ≠ delim := fun e => h (by simp [e])
    have hs : delim ∉ s := fun e => h (List.mem_cons_of_mem _ e)
    have happ : (cur ++ [c]) ++ s = cur ++ c :: s := by simp
    have hne1 : (cur ++ [c]) ++ s ≠ [] := by simp
    simp only [splitOnUnescapedCharLoop, hc, if_false]
    split_ifs <;> rw [ih _ _ hs hne1, happ]

/-- The value of an unquoted remainder without `#` and without white space at its ends is
the remainder itself. -/
theorem extractValue_plain (v : Char) (vs : Str) (hq : v ≠ '\'' ∧ v ≠ '"')
    (hv : isSpace v = false) (hl : ∀ d, (v :: vs).getLast? = some d → isSpace d = false)
    (hh : '#' ∉ v :: vs) : extractValue (v :: vs) = v :: vs := by
  unfold extractValue
  have ht : TrimSpace (v :: vs) = v :: vs := TrimSpace_id v vs hv hl
  have hs : splitOnUnescapedChar (v :: vs) '#' = [v :: vs] := by
    unfold splitOnUnescapedChar
    rw [splitOnUnescapedCharLoop_no_delim '#' (v :: vs) [] false hh (by simp)]
    rfl
  simp only [ht, hq.1, hq.2, or_self, if_false, hs]

/-- The parse of a line whose text after `removeInlineComment` is `alias N=V`. -/
theorem ParseLine_normal (line fp : Str) (n : Nat) (x : Char) (xs : Str) (v : Char) (vs : Str)
    (hc : removeInlineComment line = "alias ".toList ++ (x :: xs ++ '=' :: v :: vs))
    (hx : nameFirst x = true) (hxs : ∀ y ∈ xs, nameRest y = true)
    (hv : ∀ y ∈ v :: vs, y ≠ '\n') (hw : ws v = false) :
    AliasParser.ParseLine line fp n =
      some { Name := x :: xs, Value := extractValue (v :: vs), Typ := AliasType.normal,
             Location := { FilePath := fp, LineNum := n, RawLine := line } } := by
  unfold AliasParser.ParseLine
  simp only [hc, globalAliasPattern_none x xs v vs hx hxs hw,
    normalAliasPattern_match x xs v vs hx hxs hv]
  rfl

/-- The parse of a line whose text after `removeInlineComment` is `alias -g N=V`. -/
theorem ParseLine_global (line fp : Str) (n : Nat) (x : Char) (xs : Str) (v : Char) (vs : Str)
    (hc : removeInlineComment line
      = "alias ".toList ++ ("-g ".toList ++ (x :: xs ++ '=' :: v :: vs)))
    (hx : nameFirst x = true) (hxs : ∀ y ∈ xs, nameRest y = true)
    (hv : ∀ y ∈ v :: vs, y ≠ '\n') :
    AliasParser.ParseLine line fp n =
      some { Name := x :: xs, Value := extractValue (v :: vs), Typ := AliasType.global,
             Location := { FilePath := fp, LineNum := n, RawLine := line } } := by
  unfold AliasParser.ParseLine
  simp only [hc, globalAliasPattern_match x xs v vs hx hxs hv]
  rfl


theorem inert_of_plain (sq dq : Bool) (c : Char)
    (h : c ≠ '\\' ∧ c ≠ '\'' ∧ c ≠ '"' ∧ c ≠ '#') : inert sq dq c :=
  ⟨h.1, fun e => absurd e h.2.1, fun e => absurd e h.2.2.1, fun e => absurd e h.2.2.2⟩

/-- A quoted text `qVq` where `V` holds neither `q` nor a backslash is copied by the
comment scan, which ends outside quotes. -/
theorem removeInlineCommentLoop_quoted (q : Char) (V : Str) (hq : q = '\'' ∨ q = '"')
    (h1 : q ∉ V) (h2 : '\\' ∉ V) :
    removeInlineCommentLoop (q :: (V ++ [q])) false false false = q :: (V ++ [q]) := by
  have hb : ∀ c ∈ V, c ≠ '\\' := fun c hc e => h2 (e ▸ hc)
  have hn : ∀ c ∈ V, c ≠ q := fun c hc e => h1 (e ▸ hc)
  rcases hq with e | e
  · subst e
    have hin : ∀ c ∈ V, inert true false c := fun c hc =>
      ⟨hb c hc, fun e => absurd e (hn c hc), fun _ => rfl, fun _ => Or.inl rfl⟩
    have := removeInlineCommentLoop_inert V ['\''] true false hin
    simp [removeInlineCommentLoop, this]
  · subst e
    have hin : ∀ c ∈ V, inert false true c := fun c hc =>
      ⟨hb c hc, fun _ => rfl, fun e => absurd e (hn c hc), fun _ => Or.inr rfl⟩
    have := removeInlineCommentLoop_inert V ['"'] false true hin
    simp [removeInlineCommentLoop, this]

/-- The text left by `removeInlineComment` of `w P qVq`, for white space `w` and a text `P`
without quotes, backslashes and `#` that does not start with white space, is `P qVq`. -/
theorem removeInlineComment_quoted (w : Str) (p : Char) (ps V : Str) (q : Char)
    (hw : ∀ c ∈ w, isSpace c = true) (hp : isSpace p = false)
    (hP : ∀ c ∈ p :: ps, inert false false c) (hq : q = '\'' ∨ q = '"')
    (h1 : q ∉ V) (h2 : '\\' ∉ V) :
    removeInlineComment (w ++ ((p :: ps) ++ q :: (V ++ [q]))) = (p :: ps) ++ q :: (V ++ [q]) := by
  unfold removeInlineComment
  rw [removeInlineCommentLoop_inert w _ false false (fun c hc => isSpace_inert c (hw c hc)),
    removeInlineCommentLoop_inert (p :: ps) _ false false hP,
    removeInlineCommentLoop_quoted q V hq h1 h2, TrimSpace_spaces_append w _ hw]
  apply TrimSpace_id p _ hp
  intro d hd
  change (p :: (ps ++ q :: (V ++ [q]))).getLast? = some d at hd
  rw [show p :: (ps ++ q :: (V ++ [q])) = (p :: (ps ++ q :: V)) ++ [q] by simp,
    List.getLast?_concat] at hd
  simp only [Option.some.injEq] at hd
  rw [← hd]
  exact isSpace_quote q hq

/-- C15: quoted-alias round trip.  For every name `N` of the shape
`[a-zA-Z_.\-][a-zA-Z0-9_.\-]*`, every quote character `q` (single or double) and every
value `V` (possibly empty, possibly with `#`, spaces or the other quote character) that
holds neither `q`, a backslash nor a newline, `ParseLine` on `alias N=qVq` after any leading
white space `w` finds the name `N` with the value `V` and the type normal, and on
`alias -g N=qVq` the same name and value with the type global. -/
theorem quoted_alias_round_trip (w N V fp : Str) (q : Char) (n : Nat)
    (hw : ∀ c ∈ w, isSpace c = true) (hN : validName N = true)
    (hq : q = '\'' ∨ q = '"') (hV : q ∉ V ∧ '\\' ∉ V ∧ '\n' ∉ V) :
    parsed (AliasParser.ParseLine (w ++ "alias ".toList ++ N ++ '=' :: q :: (V ++ [q])) fp n)
      = some (N, V, AliasType.normal) ∧
    parsed (AliasParser.ParseLine
        (w ++ "alias -g ".toList ++ N ++ '=' :: q :: (V ++ [q])) fp n)
      = some (N, V, AliasType.global) := by
  obtain ⟨x, xs, rfl, hx, hxs⟩ := validName_cases N hN
  obtain ⟨h1, h2, h3⟩ := hV
  have hnl : ∀ y ∈ q :: (V ++ [q]), y ≠ '\n' := by
    have hqn : q ≠ '\n' := by rcases hq with e | e <;> (subst e; decide)
    intro y hy e
    subst e
    simp only [List.mem_cons, List.mem_append, List.mem_singleton, List.mem_nil_iff,
      or_false] at hy
    rcases hy with e | e | e
    · exact hqn e.symm
    · exact h3 e
    · exact hqn e.symm
  have hN1 : ∀ c ∈ x :: xs, inert false false c := fun c hc => by
    rcases List.mem_cons.mp hc with e | e
    · exact e ▸ nameRest_inert x (nameFirst_nameRest x hx)
    · exact nameRest_inert c (hxs c e)
  have hlit : ∀ c ∈ "alias -g =".toList, c ≠ '\\' ∧ c ≠ '\'' ∧ c ≠ '"' ∧ c ≠ '#' := by decide
  have hP1 : ∀ c ∈ 'a' :: ("lias ".toList ++ (x :: xs) ++ ['=']), inert false false c := by
    intro c hc
    simp only [List.mem_cons, List.mem_append, List.mem_singleton, List.mem_nil_iff,
      or_false] at hc
    rcases hc with e | (e | e) | e
    · exact inert_of_plain _ _ c (hlit c (by rw [e]; decide))
    · exact inert_of_plain _ _ c (hlit c (by
        simp only [String.toList, List.mem_cons, List.mem_nil_iff, or_false] at e ⊢
        tauto))
    · exact hN1 c (by simpa using e)
    · exact inert_of_plain _ _ c (hlit c (by rw [e]; decide))
  have hP2 : ∀ c ∈ 'a' :: ("lias -g ".toList ++ (x :: xs) ++ ['=']), inert false false c := by
    intro c hc
    simp only [List.mem_cons, List.mem_append, List.mem_singleton, List.mem_nil_iff,
      or_false] at hc
    rcases hc with e | (e | e) | e
    · exact inert_of_plain _ _ c (hlit c (by rw [e]; decide))
    · exact inert_of_plain _ _ c (hlit c (by
        simp only [String.toList, List.mem_cons, List.mem_nil_iff, or_false] at e ⊢
        tauto))
    · exact hN1 c (by simpa using e)
    · exact inert_of_plain _ _ c (hlit c (by rw [e]; decide))
  have hc1 := removeInlineComment_quoted w 'a' ("lias ".toList ++ (x :: xs) ++ ['=']) V q hw
    (by decide) hP1 hq h1 h2
  have hc2 := removeInlineComment_quoted w 'a' ("lias -g ".toList ++ (x :: xs) ++ ['=']) V q hw
    (by decide) hP2 hq h1 h2
  have hwq : ws q = false := not_ws_of_not_isSpace q (isSpace_quote q hq)
  constructor
  · have hline : w ++ "alias ".toList ++ (x :: xs) ++ '=' :: q :: (V ++ [q])
        = w ++ ('a' :: ("lias ".toList ++ (x :: xs) ++ ['=']) ++ q :: (V ++ [q])) := by
      simp
    rw [hline, ParseLine_normal _ fp n x xs q (V ++ [q]) (hc1.trans (by simp)) hx hxs hnl hwq]
    simp only [parsed, Option.map_some', extractValue_quoted q V hq h1 h2]
  · have hline : w ++ "alias -g ".toList ++ (x :: xs) ++ '=' :: q :: (V ++ [q])
        = w ++ ('a' :: ("lias -g ".toList ++ (x :: xs) ++ ['=']) ++ q :: (V ++ [q])) := by
      simp
    rw [hline, ParseLine_global _ fp n x xs q (V ++ [q]) (hc2.trans (by simp)) hx hxs hnl]
    simp only [parsed, Option.map_some', extractValue_quoted q V hq h1 h2]

theorem quoted_alias_round_trip_witness :
    (∀ c ∈ " \t".toList, isSpace c = true) ∧ validName "-g".toList = true ∧
    ('\'' ∉ "say \"hi\" # now".toList ∧ '\\' ∉ "say \"hi\" # now".toList ∧
      '\n' ∉ "say \"hi\" # now".toList) ∧
    parsed (AliasParser.ParseLine (" \t".toList ++ "alias ".toList ++ "-g".toList ++
        '=' :: '\'' :: ("say \"hi\" # now".toList ++ ['\''])) "/rc".toList 1)
      = some ("-g".toList, "say \"hi\" # now".toList, AliasType.normal) ∧
    parsed (AliasParser.ParseLine (" \t".toList ++ "alias -g ".toList ++ "-g".toList ++
        '=' :: '\'' :: ("say \"hi\" # now".toList ++ ['\''])) "/rc".toList 1)
      = some ("-g".toList, "say \"hi\" # now".toList, AliasType.global) :=
  ⟨by decide, by decide, by decide,
   quoted_alias_round_trip " \t".toList "-g".toList "say \"hi\" # now".toList "/rc".toList
     '\'' 1 (by decide) (by decide) (Or.inl rfl) (by decide)⟩

/-- C18: unquoted values are taken verbatim.  For every name `N` of the shape
`[a-zA-Z_.\-][a-zA-Z0-9_.\-]*` and every non-empty value `V` that does not start with a
quote character, holds no `#` and no newline and neither starts nor ends with white space,
`ParseLine` on `alias N=V` finds the name `N` with the value `V` and the type normal. -/
theorem unquoted_value_verbatim (N V fp : Str) (n : Nat) (hN : validName N = true)
    (hne : V ≠ [])
    (hh : ∀ c, V.head? = some c → c ≠ '\'' ∧ c ≠ '"' ∧ isSpace c = false)
    (hl : ∀ c, V.getLast? = some c → isSpace c = false)
    (hV : '#' ∉ V ∧ '\n' ∉ V) :
    parsed (AliasParser.ParseLine ("alias ".toList ++ N ++ '=' :: V) fp n)
      = some (N, V, AliasType.normal) := by
  obtain ⟨x, xs, rfl, hx, hxs⟩ := validName_cases N hN
  cases V with
  | nil => exact absurd rfl hne
  | cons v vs =>
    obtain ⟨hq1, hq2, hsp⟩ := hh v rfl
    have hnl : ∀ y ∈ v :: vs, y ≠ '\n' := fun y hy e => hV.2 (e ▸ hy)
    have hhash : '#' ∉ "alias ".toList ++ (x :: xs) ++ '=' :: v :: vs := by
      intro hm
      simp only [List.mem_append, List.mem_cons] at hm
      rcases hm with (hm | hm | hm) | hm | hm
      · revert hm; decide
      · exact nameRest_ne_hash x (nameFirst_nameRest x hx) hm.symm
      · exact nameRest_ne_hash '#' (hxs _ hm) rfl
      · revert hm; decide
      · exact hV.1 (List.mem_cons.mpr hm)
    have hc : removeInlineComment ("alias ".toList ++ (x :: xs) ++ '=' :: v :: vs)
        = "alias ".toList ++ (x :: xs ++ '=' :: v :: vs) := by
      unfold removeInlineComment
      rw [removeInlineCommentLoop_no_hash _ _ _ _ hhash]
      have := TrimSpace_id 'a' ("lias ".toList ++ (x :: xs) ++ '=' :: v :: vs) (by decide) (by
        intro d hd
        apply hl d
        rw [show 'a' :: ("lias ".toList ++ (x :: xs) ++ '=' :: v :: vs)
          = ('a' :: ("lias ".toList ++ (x :: xs) ++ ['='])) ++ (v :: vs) by simp,
          List.getLast?_append_of_ne_nil _ (by simp)] at hd
        exact hd)
      simpa using this
    rw [ParseLine_normal _ fp n x xs v vs hc hx hxs hnl (not_ws_of_not_isSpace v hsp)]
    simp only [parsed, Option.map_some', extractValue_plain v vs ⟨hq1, hq2⟩ hsp hl hV.1]

theorem unquoted_value_verbatim_witness :
    validName "..".toList = true ∧ "cd ..".toList ≠ [] ∧
    (∀ c, "cd ..".toList.head? = some c → c ≠ '\'' ∧ c ≠ '"' ∧ isSpace c = false) ∧
    (∀ c, "cd ..".toList.getLast? = some c → isSpace c = false) ∧
    ('#' ∉ "cd ..".toList ∧ '\n' ∉ "cd ..".toList) ∧
    parsed (AliasParser.ParseLine ("alias ".toList ++ "..".toList ++ '=' :: "cd ..".toList)
        "/rc".toList 1)
      = some ("..".toList, "cd ..".toList, AliasType.normal) :=
  ⟨by decide, by decide, by simp [isSpace], by simp [isSpace], by decide,
   unquoted_value_verbatim "..".toList "cd ..".toList "/rc".toList 1 (by decide) (by decide)
     (by simp [isSpace]) (by simp [isSpace]) (by decide)⟩

end AliasLines

/-! ## What a match tells about the matched text -/

section Sound

open Regex

variable {α : Type}

theorem capsFrame_refl (G : List Nat) (c : Caps) : capsFrame G c c := ⟨rfl, fun _ _ => rfl⟩

theorem capsFrame_trans {G1 G2 G : List Nat} {c c1 c2 : Caps} (h1 : capsFrame G1 c c1)
    (h2 : capsFrame G2 c1 c2) (hG1 : ∀ i, i ∈ G1 → i ∈ G) (hG2 : ∀ i, i ∈ G2 → i ∈ G) :
    capsFrame G c c2 :=
  ⟨h2.1.trans h1.1, fun i hi =>
    (h2.2 i (fun h => hi (hG2 i h))).trans (h1.2 i (fun h => hi (hG1 i h)))⟩

theorem orElse_eq_some {β : Type} (a : Option β) (f : Unit → Option β) (r : β)
    (h : a.orElse f = some r) : a = some r ∨ (a = none ∧ f () = some r) := by
  cases a with
  | none => exact Or.inr ⟨rfl, h⟩
  | some v => exact Or.inl h

theorem starLoop_some (G : List Nat) (m : Str → Caps → (Str → Caps → Option α) → Option α)
    (hm : ∀ s c k res, m s c k = some res → ∃ s1 c1, k s1 c1 = some res ∧ capsFrame G c c1)
    (g : Bool) (fuel : Nat) (s : Str) (c : Caps) (k : Str → Caps → Option α) (res : α)
    (h : starLoop m g fuel s c k = some res) :
    ∃ s1 c1, k s1 c1 = some res ∧ capsFrame G c c1 := by
  induction fuel generalizing s c with
  | zero => exact ⟨s, c, h, capsFrame_refl G c⟩
  | succ fuel ih =>
    have hmore : m s c (fun s1 c1 => if s1.length < s.length then starLoop m g fuel s1 c1 k
        else none) = some res → ∃ s1 c1, k s1 c1 = some res ∧ capsFrame G c c1 := by
      intro h1
      obtain ⟨s1, c1, hk, hf⟩ := hm _ _ _ _ h1
      split at hk
      · obtain ⟨s2, c2, hk2, hf2⟩ := ih s1 c1 hk
        exact ⟨s2, c2, hk2, capsFrame_trans hf hf2 (fun _ h => h) (fun _ h => h)⟩
      · exact absurd hk (by simp)
    simp only [starLoop] at h
    cases g with
    | true =>
      simp only [if_true] at h
      rcases orElse_eq_some _ _ _ h with h1 | ⟨_, h1⟩
      · exact hmore h1
      · exact ⟨s, c, h1, capsFrame_refl G c⟩
    | false =>
      simp only [Bool.false_eq_true, if_false] at h
      rcases orElse_eq_some _ _ _ h with h1 | ⟨_, h1⟩
      · exact ⟨s, c, h1, capsFrame_refl G c⟩
      · exact hmore h1

/-- A successful match has called its continuation, with captures that differ from the
given ones only in the groups of the expression. -/
theorem run_some (n : Nat) (r : Regex) (s : Str) (c : Caps) (k : Str → Caps → Option α)
    (res : α) (h : run n r s c k = some res) :
    ∃ s1 c1, k s1 c1 = some res ∧ capsFrame (groupsOf r) c c1 := by
  induction r generalizing s c k res with
  | empty => exact ⟨s, c, h, capsFrame_refl _ c⟩
  | char p =>
    cases s with
    | nil => simp [run] at h
    | cons x xs =>
      rw [run_char_cons] at h
      split at h
      · exact ⟨xs, c, h, capsFrame_refl _ c⟩
      · exact absurd h (by simp)
  | bol =>
    simp only [run] at h
    split at h
    · exact ⟨s, c, h, capsFrame_refl _ c⟩
    · exact absurd h (by simp)
  | eol =>
    simp only [run] at h
    split at h
    · exact ⟨s, c, h, capsFrame_refl _ c⟩
    · exact absurd h (by simp)
  | seq a b iha ihb =>
    obtain ⟨s1, c1, h1, hf1⟩ := iha s c _ res h
    obtain ⟨s2, c2, h2, hf2⟩ := ihb s1 c1 k res h1
    exact ⟨s2, c2, h2, capsFrame_trans hf1 hf2
      (fun i hi => List.mem_append_left _ hi) (fun i hi => List.mem_append_right _ hi)⟩
  | alt a b iha ihb =>
    rcases orElse_eq_some _ _ _ h with h1 | ⟨_, h1⟩
    · obtain ⟨s1, c1, hk, hf⟩ := iha s c k res h1
      exact ⟨s1, c1, hk, capsFrame_trans (capsFrame_refl [] c) hf (fun _ h => absurd h (by simp))
        (fun i hi => List.mem_append_left _ hi)⟩
    · obtain ⟨s1, c1, hk, hf⟩ := ihb s c k res h1
      exact ⟨s1, c1, hk, capsFrame_trans (capsFrame_refl [] c) hf (fun _ h => absurd h (by simp))
        (fun i hi => List.mem_append_right _ hi)⟩
  | star a g iha =>
    exact starLoop_some (groupsOf a) _ (fun s c k res h => iha s c k res h) g _ s c k res h
  | group i a iha =>
    obtain ⟨s1, c1, hk, hf⟩ := iha s c _ res h
    refine ⟨s1, _, hk, ?_, ?_⟩
    · rw [List.length_set]
      exact hf.1
    · intro j hj
      simp only [groupsOf, List.mem_cons, not_or] at hj
      have := hf.2 j hj.2
      rw [List.get?_eq_getElem?] at this ⊢
      rw [List.getElem?_set_ne (Ne.symm hj.1)]
      exact this

/-- A repetition of a character class has matched characters of the class. -/
theorem starLoop_char_some (n : Nat) (q : Char → Bool) (g : Bool) (fuel : Nat) (s : Str)
    (c : Caps) (k : Str → Caps → Option α) (res : α)
    (h : starLoop (fun s1 c1 k1 => run n (char q) s1 c1 k1) g fuel s c k = some res) :
    ∃ xs rest, s = xs ++ rest ∧ (∀ y ∈ xs, q y = true) ∧ k rest c = some res := by
  induction fuel generalizing s with
  | zero => exact ⟨[], s, rfl, by simp, h⟩
  | succ fuel ih =>
    have hmore : run n (char q) s c (fun s1 c1 => if s1.length < s.length then
          starLoop (fun s1 c1 k1 => run n (char q) s1 c1 k1) g fuel s1 c1 k else none)
        = some res → ∃ xs rest, s = xs ++ rest ∧ (∀ y ∈ xs, q y = true) ∧ k rest c = some res := by
      intro h1
      cases s with
      | nil => simp [run] at h1
      | cons x s =>
        rw [run_char_cons] at h1
        split at h1
        · rename_i hx
          rw [if_pos (by simp)] at h1
          obtain ⟨xs, rest, e, hxs, hk⟩ := ih s h1
          refine ⟨x :: xs, rest, by rw [e]; rfl, ?_, hk⟩
          intro y hy
          rcases List.mem_cons.mp hy with e1 | e1
          · rw [e1]; exact hx
          · exact hxs y e1
        · exact absurd h1 (by simp)
    have hstop : k s c = some res →
        ∃ xs rest, s = xs ++ rest ∧ (∀ y ∈ xs, q y = true) ∧ k rest c = some res :=
      fun h1 => ⟨[], s, rfl, by simp, h1⟩
    simp only [starLoop] at h
    cases g with
    | true =>
      simp only [if_true] at h
      rcases orElse_eq_some _ _ _ h with h1 | ⟨_, h1⟩
      · exact hmore h1
      · exact hstop h1
    | false =>
      simp only [Bool.false_eq_true, if_false] at h
      rcases orElse_eq_some _ _ _ h with h1 | ⟨_, h1⟩
      · exact hstop h1
      · exact hmore h1

/-- A group `([p][q]*)` that has matched has captured a text of its shape. -/
theorem run_group_class_some (n i : Nat) (p q : Char → Bool) (g : Bool) (s : Str) (c : Caps)
    (k : Str → Caps → Option α) (res : α)
    (h : run n (group i (seq (char p) (star (char q) g))) s c k = some res) :
    ∃ x xs rest, s = x :: xs ++ rest ∧ p x = true ∧ (∀ y ∈ xs, q y = true) ∧
      k rest (c.set i (some (x :: xs))) = some res := by
  cases s with
  | nil => simp [run] at h
  | cons x s =>
    change run n (char p) (x :: s) c (fun s1 c1 =>
      starLoop (fun s2 c2 k2 => run n (char q) s2 c2 k2) g (s1.length + 1) s1 c1
        (fun s3 c3 => k s3 (c3.set i (some ((x :: s).take ((x :: s).length - s3.length)))))) =
      some res at h
    rw [run_char_cons] at h
    split at h
    · rename_i hx
      obtain ⟨xs, rest, e, hxs, hk⟩ := starLoop_char_some n q g _ s c _ res h
      refine ⟨x, xs, rest, by rw [e]; rfl, hx, hxs, ?_⟩
      have hlen : (x :: s).length - rest.length = xs.length + 1 := by
        rw [e]
        simp only [List.length_cons, List.length_append]
        omega
      rw [hlen, e] at hk
      simpa [List.take_left'] using hk
    · exact absurd h (by simp)

/-- A match found in a text is a match at the front of some part of the text. -/
theorem findFrom_some (re : Regex) (groups n : Nat) (s : Str) (m : Match)
    (h : findFrom re groups n s = some m) :
    ∃ t, run n re t (List.replicate (groups + 1) none) (fun s1 c1 => some ⟨t, s1, c1⟩)
      = some m := by
  induction s with
  | nil => exact ⟨[], h⟩
  | cons x xs ih =>
    rcases orElse_eq_some _ _ _ h with h1 | ⟨_, h1⟩
    · exact ⟨x :: xs, h1⟩
    · exact ih h1


theorem seqs_cons (a : Regex) (l : List Regex) (h : l ≠ []) : seqs (a :: l) = seq a (seqs l) := by
  cases l with
  | nil => exact absurd rfl h
  | cons b l => rfl

/-- A match of `r1 ... rn` is a match of any non-empty tail of the sequence, after the
front of it. -/
theorem run_seqs_peel (n : Nat) (pre rest : List Regex) (hrest : rest ≠ []) (s : Str)
    (c : Caps) (k : Str → Caps → Option α) (res : α)
    (h : run n (seqs (pre ++ rest)) s c k = some res) :
    ∃ s1 c1, run n (seqs rest) s1 c1 k = some res ∧ c1.length = c.length := by
  induction pre generalizing s c with
  | nil => exact ⟨s, c, h, rfl⟩
  | cons a pre ih =>
    rw [List.cons_append, seqs_cons a _ (by simp [hrest])] at h
    obtain ⟨s1, c1, h1, hf⟩ := run_some n a s c _ res h
    obtain ⟨s2, c2, h2, hl⟩ := ih s1 c1 h1
    exact ⟨s2, c2, h2, hl.trans hf.1⟩

/-- In a match of an expression that ends in `([a-zA-Z_.\-][a-zA-Z0-9_.\-]*)=(.+)`, the
first group is a name of that shape. -/
theorem match_name (n : Nat) (pre : List Regex) (s t : Str) (c : Caps) (m : Match)
    (hc : c.length = 3)
    (h : run n (seqs (pre ++ [group 1 (seq (char nameFirst) (star (char nameRest) true)),
        lit "=".toList, group 2 (plus (char dot) true)])) s c
      (fun s1 c1 => some ⟨t, s1, c1⟩) = some m) :
    validName (m.sub 1) = true := by
  obtain ⟨s1, c1, h1, hl⟩ := run_seqs_peel n pre _ (by simp) s c _ m h
  change run n (group 1 (seq (char nameFirst) (star (char nameRest) true))) s1 c1
    (fun s2 c2 => run n (seq (lit "=".toList) (group 2 (plus (char dot) true))) s2 c2
      (fun s3 c3 => some ⟨t, s3, c3⟩)) = some m at h1
  obtain ⟨x, xs, rest, _, hx, hxs, hk⟩ := run_group_class_some n 1 _ _ true s1 c1 _ m h1
  obtain ⟨s2, c2, h2, hf⟩ := run_some n _ rest _ _ m hk
  simp only [Option.some.injEq] at h2
  have hget : c2.get? 1 = some (some (x :: xs)) := by
    rw [hf.2 1 (by decide), List.get?_eq_getElem?, List.getElem?_set_self (by rw [hl, hc]; decide)]
  rw [← h2]
  simp only [Match.sub, hget, Option.getD_some, validName, hx, Bool.true_and,
    List.all_eq_true]
  exact hxs

/-- C19: whenever `AliasParser.ParseLine` finds a definition, its name is non-empty,
consists only of letters, digits, underscore, dot and dash, and its first character is not
a digit. -/
theorem parsed_name_is_well_formed (line fp : Str) (n : Nat) (d : AliasDefinition)
    (h : AliasParser.ParseLine line fp n = some d) :
    d.Name ≠ [] ∧ (∀ c ∈ d.Name, nameRest c = true) ∧
      (∀ c, d.Name.head? = some c → digit c = false) := by
  have hv : validName d.Name = true := by
    unfold AliasParser.ParseLine at h
    simp only at h
    split at h
    · exact absurd h (by simp)
    · split at h
      · rename_i m hm
        obtain ⟨t, ht⟩ := findFrom_some _ _ _ _ _ hm
        simp only [Option.some.injEq] at h
        rw [← h]
        exact match_name _ [bol, star (char ws) true, lit "alias".toList, plus (char ws) true,
          lit "-g".toList, plus (char ws) true] t t (List.replicate (2 + 1) none) m rfl ht
      · split at h
        · rename_i m hm
          obtain ⟨t, ht⟩ := findFrom_some _ _ _ _ _ hm
          simp only [Option.some.injEq] at h
          rw [← h]
          exact match_name _ [bol, star (char ws) true, lit "alias".toList,
            plus (char ws) true] t t (List.replicate (2 + 1) none) m rfl ht
        · exact absurd h (by simp)
  obtain ⟨x, xs, e, hx, hxs⟩ := validName_cases _ hv
  rw [e]
  refine ⟨by simp, ?_, ?_⟩
  · intro c hc
    rcases List.mem_cons.mp hc with e1 | e1
    · rw [e1]; exact nameFirst_nameRest x hx
    · exact hxs c e1
  · intro c hc
    simp only [List.head?_cons, Option.some.injEq] at hc
    rw [← hc]
    exact nameFirst_not_digit x hx

theorem parsed_name_is_well_formed_witness :
    AliasParser.ParseLine "alias ll=\'ls -la\'".toList "/rc".toList 1
      = some { Name := "ll".toList, Value := "ls -la".toList, Typ := AliasType.normal,
               Location := { FilePath := "/rc".toList, LineNum := 1,
                             RawLine := "alias ll=\'ls -la\'".toList } } ∧
    ("ll".toList ≠ [] ∧ (∀ c ∈ "ll".toList, nameRest c = true) ∧
      (∀ c, "ll".toList.head? = some c → digit c = false)) :=
  ⟨by decide!, parsed_name_is_well_formed "alias ll=\'ls -la\'".toList "/rc".toList 1
    { Name := "ll".toList, Value := "ls -la".toList, Typ := AliasType.normal,
      Location := { FilePath := "/rc".toList, LineNum := 1,
                    RawLine := "alias ll=\'ls -la\'".toList } }
    (by decide!)⟩

end Sound

/-! ## The closing quote of a quoted value -/

/-- C17: the value remainder `'a\\'` begins with a single quote and holds a later single
quote that follows two backslashes, an escaped backslash, so that the quote is not escaped.
The text between the opening quote and that quote is `a\\`, but `extractValue` returns
`a\\'`, everything after the opening quote: it takes a quote for escaped whenever the one
character before it is a backslash.  `removeInlineComment`, in the same file, reads the
same quote as the closing quote: it drops the comment that follows it. -/
theorem closing_quote_after_escaped_backslash :
    extractValue "\'a\\\\\'".toList = "a\\\\\'".toList ∧
    removeInlineComment "alias x=\'a\\\\\' # c".toList = "alias x=\'a\\\\\'".toList ∧
    parsed (AliasParser.ParseLine "alias x=\'a\\\\\' # c".toList "/rc".toList 1)
      = some ("x".toList, "a\\\\\'".toList, AliasType.normal) := by
  decide!

/-! ## The include expressions on a plain `source` line -/

section IncludeMatch

open Regex

variable {α : Type}

theorem starLoop_none_of_cont (m : Str → Caps → (Str → Caps → Option α) → Option α)
    (hm : ∀ s c k, (∀ s1 c1, s1 <:+ s → k s1 c1 = none) → m s c k = none)
    (g : Bool) (fuel : Nat) (s : Str) (c : Caps) (k : Str → Caps → Option α)
    (h : ∀ s1 c1, s1 <:+ s → k s1 c1 = none) : starLoop m g fuel s c k = none := by
  induction fuel generalizing s c with
  | zero => exact h s c (List.suffix_refl s)
  | succ fuel ih =>
    have hmore : m s c (fun s1 c1 => if s1.length < s.length then starLoop m g fuel s1 c1 k
        else none) = none := by
      apply hm
      intro s1 c1 hs1
      split
      · exact ih s1 c1 (fun s2 c2 hs2 => h s2 c2 (hs2.trans hs1))
      · rfl
    simp only [starLoop, hmore, h s c (List.suffix_refl s)]
    cases g <;> rfl

/-- An expression fails when its continuation fails on every rest of the text. -/
theorem run_none_of_cont (n : Nat) (r : Regex) (s : Str) (c : Caps)
    (k : Str → Caps → Option α) (h : ∀ s1 c1, s1 <:+ s → k s1 c1 = none) :
    run n r s c k = none := by
  induction r generalizing s c k with
  | empty => exact h s c (List.suffix_refl s)
  | char p =>
    cases s with
    | nil => rfl
    | cons x xs =>
      rw [run_char_cons]
      split
      · exact h xs c (List.suffix_cons x xs)
      · rfl
  | bol =>
    simp only [run]
    split
    · exact h s c (List.suffix_refl s)
    · rfl
  | eol =>
    simp only [run]
    split
    · exact h s c (List.suffix_refl s)
    · rfl
  | seq a b iha ihb =>
    exact iha s c _ (fun s1 c1 hs1 => ihb s1 c1 k (fun s2 c2 hs2 => h s2 c2 (hs2.trans hs1)))
  | alt a b iha ihb =>
    show (run n a s c k).orElse (fun _ => run n b s c k) = none
    rw [iha s c k h, ihb s c k h]
    rfl
  | star a g iha =>
    exact starLoop_none_of_cont _ (fun s c k hk => iha s c k hk) g _ s c k h
  | group i a iha =>
    exact iha s c _ (fun s1 c1 hs1 => h s1 _ hs1)

theorem findFrom_none (re : Regex) (groups n : Nat) (s : Str)
    (h : ∀ t, t <:+ s → ∀ (c : Caps) (k : Str → Caps → Option Match), run n re t c k = none) :
    findFrom re groups n s = none := by
  induction s with
  | nil => exact h [] (List.suffix_refl _) _ _
  | cons x xs ih =>
    show (run n re (x :: xs) _ _).orElse _ = none
    rw [h (x :: xs) (List.suffix_refl _), ih (fun t ht => h t (ht.trans (List.suffix_cons x xs)))]
    rfl

theorem HasPrefix_singleton_false (s : Str) (a : Char) (h : a ∉ s) : HasPrefix s [a] = false := by
  cases s with
  | nil => rfl
  | cons x xs =>
    have : x ≠ a := fun e => h (by simp [e])
    simp [HasPrefix, this]

/-- An expression that needs the character `a` after a first part finds nothing in a text
without `a`. -/
theorem findFrom_needs_char (A B : Regex) (a : Char) (groups n : Nat) (s : Str) (h : a ∉ s) :
    findFrom (seq A (seq (lit [a]) B)) groups n s = none := by
  apply findFrom_none
  intro t ht c k
  apply run_none_of_cont n A t c
  intro s1 c1 hs1
  show run n (lit [a]) s1 c1 _ = none
  rw [run_lit, HasPrefix_singleton_false s1 a (fun hm => h ((hs1.trans ht).subset hm))]
  rfl

theorem conditionalPattern_none (s : Str) (h : '[' ∉ s) :
    FindStringSubmatch conditionalPattern 2 s = none :=
  findFrom_needs_char _ _ '[' 2 s.length s h

theorem pathChar_cases (c : Char) (h : pathChar c = true) :
    isSpace c = false ∧ c ≠ '[' ∧ c ≠ '#' ∧ c ≠ '\'' ∧ c ≠ '"' ∧ c ≠ '\\' ∧ c ≠ ';' := by
  simpa [pathChar, and_assoc] using h

theorem pathChar_ne_newline (c : Char) (h : pathChar c = true) : c ≠ '\n' := by
  intro e; subst e; revert h; decide

/-- The expression for a direct include on a text `source X` where `X` starts with a
character that is no white space. -/
theorem run_source_head (n : Nat) (b : Str) (c : Caps) (k : Str → Caps → Option α)
    (X : Regex) (hn : ("source ".toList ++ b).length = n)
    (hb : ∀ y ys, b = y :: ys → ws y = false) :
    run n (seqs [bol, star (char ws) true,
        group 1 (alt (lit "source".toList) (lit ".".toList)), plus (char ws) true, X])
        ("source ".toList ++ b) c k
      = run n X b (c.set 1 (some "source".toList)) k := by
  show run n bol ("source ".toList ++ b) c (fun s1 c1 => run n (star (char ws) true) s1 c1
    (fun s2 c2 => run n (group 1 (alt (lit "source".toList) (lit ".".toList))) s2 c2
      (fun s3 c3 => run n (char ws) s3 c3
        (fun s4 c4 => run n (star (char ws) true) s4 c4
          (fun s5 c5 => run n X s5 c5 k))))) = _
  rw [show ∀ (K : Str → Caps → Option α), run n bol
      ("source ".toList ++ b) c K = K ("source ".toList ++ b) c from fun K => by
        simp only [run, hn, if_true]]
  rw [run_star_stop _ ws true ("source ".toList ++ b) c _
    (by intro y ys h; simp only [String.toList, List.cons_append, List.cons.injEq] at h
        rw [← h.1]; decide)]
  have hg : ∀ (K : Str → Caps → Option α),
      run n (group 1 (alt (lit "source".toList) (lit ".".toList)))
        ("source ".toList ++ b) c K = K (' ' :: b) (c.set 1 (some "source".toList)) := by
    intro K
    show (run n (lit "source".toList) ("source".toList ++ (' ' :: b)) c _).orElse
      (fun _ => run n (lit ".".toList) ("source".toList ++ (' ' :: b)) c _) = _
    rw [run_lit_append, run_lit]
    have h1 : HasPrefix ("source".toList ++ (' ' :: b)) ".".toList = false := rfl
    have h2 : (("source ".toList ++ b).length - (' ' :: b).length) = 6 := by
      simp
    have h3 : List.take 6 ("source ".toList ++ b) = "source".toList := rfl
    simp only [h1, h2, h3, Bool.false_eq_true, if_false]
    cases K (' ' :: b) (c.set 1 (some "source".toList)) <;> rfl
  rw [hg, run_char_cons, if_pos (by decide), run_star_stop _ ws true b _ _ hb]

/-- On `source P` the expression for a direct include matches, with the groups `source`
and `P`. -/
theorem sourcePattern_match (p : Char) (ps : Str) (hp : ws p = false)
    (hd : ∀ y ∈ p :: ps, y ≠ '\n') :
    FindStringSubmatch sourcePattern 2 ("source ".toList ++ p :: ps)
      = some ⟨"source ".toList ++ p :: ps, [],
          [none, some "source".toList, some (p :: ps)]⟩ := by
  have hrun := run_source_head ("source ".toList ++ p :: ps).length (p :: ps)
    (List.replicate (2 + 1) none)
    (fun s1 c1 => some (Match.mk ("source ".toList ++ p :: ps) s1 c1))
    (group 2 (plus (char dot) true)) rfl
    (by intro y ys h; simp only [List.cons.injEq] at h; rw [← h.1]; exact hp)
  rw [run_group_rest _ 2 p ps _ _ _ (fun y hy => dot_of_ne y (hd y hy)) rfl] at hrun
  exact findFrom_of_run _ 2 _ _ _ hrun

theorem removeTrailingCommentLoop_inert (s : Str) (sq dq : Bool)
    (h : ∀ c ∈ s, inert sq dq c) : removeTrailingCommentLoop s sq dq false = none := by
  induction s with
  | nil => rfl
  | cons c s ih =>
    obtain ⟨h1, h2, h3, h4⟩ := h c (List.mem_cons_self _ _)
    have hq1 : ¬ (c = '\'' ∧ ¬ dq = true) := fun h => h.2 (h2 h.1)
    have hq2 : ¬ (c = '"' ∧ ¬ sq = true) := fun h => h.2 (h3 h.1)
    have hq3 : ¬ (c = '#' ∧ ¬ sq = true ∧ ¬ dq = true) := fun h =>
      (h4 h.1).elim h.2.1 h.2.2
    simp only [removeTrailingCommentLoop, h1, hq1, hq2, hq3, if_false, Bool.false_eq_true,
      ih (fun x hx => h x (List.mem_cons_of_mem _ hx)), Option.map_none']

theorem pathChar_inert (c : Char) (h : pathChar c = true) : inert false false c := by
  obtain ⟨_, _, h3, h4, h5, h6, _⟩ := pathChar_cases c h
  exact inert_of_plain _ _ c ⟨h6, h4, h5, h3⟩

/-- A plain path is extracted as it is. -/
theorem extractPath_plain (p : Char) (ps : Str) (h : ∀ c ∈ p :: ps, pathChar c = true) :
    extractPath (p :: ps) = p :: ps := by
  have hsp : ∀ d, (p :: ps).getLast? = some d → isSpace d = false := fun d hd =>
    (pathChar_cases d (h d (List.mem_of_mem_getLast? hd))).1
  have ht : TrimSpace (p :: ps) = p :: ps :=
    TrimSpace_id p ps (pathChar_cases p (h p (List.mem_cons_self _ _))).1 hsp
  have hr : removeTrailingComment (p :: ps) = p :: ps := by
    unfold removeTrailingComment
    rw [removeTrailingCommentLoop_inert _ _ _ (fun c hc => pathChar_inert c (h c hc))]
  have hsemi : TrimRight (p :: ps) ";".toList = p :: ps := by
    unfold TrimRight
    induction ps using List.reverseRecOn with
    | nil =>
      apply trimRightBy_concat_of_not _ [] p
      have := (pathChar_cases p (h p (List.mem_cons_self _ _))).2.2.2.2.2.2
      simpa using this
    | append_singleton ps d _ =>
      rw [← List.cons_append]
      apply trimRightBy_concat_of_not
      have := (pathChar_cases d (h d (by simp))).2.2.2.2.2.2
      simpa using this
  unfold extractPath
  rw [ht, hr, hsemi, ht]

end IncludeMatch

/-! ## Plain `source` lines, variable references and assignments -/

section VarMatch

open Regex

variable {α : Type}

theorem getLast?_append_cons (s : Str) (p : Char) (ps : Str) :
    (s ++ p :: ps).getLast? = (p :: ps).getLast? :=
  List.getLast?_append_of_ne_nil s (by simp)

theorem TrimSpace_source (p : Char) (ps : Str) (h : ∀ c ∈ p :: ps, pathChar c = true) :
    TrimSpace ("source ".toList ++ p :: ps) = "source ".toList ++ p :: ps := by
  apply TrimSpace_id 's' _ (by decide)
  intro d hd
  have hd1 : ("source ".toList ++ p :: ps).getLast? = some d := hd
  rw [getLast?_append_cons] at hd1
  exact (pathChar_cases d (h d (List.mem_of_mem_getLast? hd1))).1

/-- The include parser on a line `source P` with a plain path `P`: one direct include. -/
theorem IncludeParser_ParseLine_source (p : Char) (ps : Str)
    (h : ∀ c ∈ p :: ps, pathChar c = true) :
    IncludeParser.ParseLine ("source ".toList ++ p :: ps)
      = [{ Path := p :: ps, Conditional := false }] := by
  have hb : '[' ∉ "source ".toList ++ p :: ps := by
    intro hm
    rcases List.mem_append.mp hm with hm | hm
    · revert hm; decide
    · exact (pathChar_cases _ (h _ hm)).2.1 rfl
  have hws : ws p = false :=
    not_ws_of_not_isSpace p (pathChar_cases p (h p (List.mem_cons_self _ _))).1
  unfold IncludeParser.ParseLine
  simp only [TrimSpace_source p ps h, conditionalPattern_none _ hb,
    sourcePattern_match p ps hws (fun y hy => pathChar_ne_newline y (h y hy))]
  have hsub : (Match.mk ("source ".toList ++ p :: ps) []
      [none, some "source".toList, some (p :: ps)]).sub 2 = p :: ps := rfl
  rw [hsub, extractPath_plain p ps h]
  simp [HasPrefix]

theorem IsIncludeLine_source (p : Char) (ps : Str) (h : ∀ c ∈ p :: ps, pathChar c = true) :
    IsIncludeLine ("source ".toList ++ p :: ps) = true := by
  have h1 : HasPrefix ("source ".toList ++ p :: ps) "#".toList = false := rfl
  have h2 : HasPrefix ("source ".toList ++ p :: ps) "source ".toList = true :=
    HasPrefix_append _ _
  unfold IsIncludeLine
  simp only [TrimSpace_source p ps h, h1, h2, Bool.false_eq_true, if_false, Bool.true_or]

theorem IsAliasLine_source (p : Char) (ps : Str) (h : ∀ c ∈ p :: ps, pathChar c = true) :
    IsAliasLine ("source ".toList ++ p :: ps) = false := by
  unfold IsAliasLine
  rw [TrimSpace_source p ps h]
  rfl

theorem ParseVariableAssignment_source (p : Char) (ps : Str)
    (h : ∀ c ∈ p :: ps, pathChar c = true) :
    ParseVariableAssignment ("source ".toList ++ p :: ps) = none := by
  have e : "source ".toList ++ p :: ps = 's' :: ("ource ".toList ++ p :: ps) := rfl
  unfold ParseVariableAssignment
  rw [TrimSpace_source p ps h, e, assignPattern_eq,
    FindStringSubmatch_bol_none _ 2 's' ("ource ".toList ++ p :: ps)]
  intro k c
  have hv : varFirst 's' = false := by decide
  simp [seqs, run, hv]

theorem run_opt_lit_skip (n : Nat) (a : Char) (s : Str) (c : Caps)
    (k : Str → Caps → Option α) (h : ∀ y ys, s = y :: ys → y ≠ a) :
    run n (opt (lit [a])) s c k = k s c := by
  show (run n (lit [a]) s c k).orElse (fun _ => run n empty s c k) = k s c
  have hp : HasPrefix s [a] = false := by
    cases s with
    | nil => rfl
    | cons y ys => simp [HasPrefix, h y ys rfl]
  rw [run_lit, hp]
  rfl

theorem findAllFrom_none (re : Regex) (groups n fuel : Nat) (s : Str)
    (h : findFrom re groups n s = none) : findAllFrom re groups n fuel s = [] := by
  cases fuel with
  | zero => rfl
  | succ fuel => simp [findAllFrom, h]

theorem varRest_ne_dollar (c : Char) (h : varRest c = true) : c ≠ '$' := by
  intro e; subst e; revert h; decide

end VarMatch

/-! ## Resolving a path that starts with a variable reference -/

section Resolve

open Regex

theorem isSpace_cases (c : Char) (h : isSpace c = true) :
    c.toNat < 45 ∨ 122 < c.toNat := by
  simp only [isSpace, Bool.or_eq_true, decide_eq_true_eq, Bool.and_eq_true, or_assoc] at h
  rcases h with h | h | h | h | h | h | h | h | h | h | h | h | h | h | h
  all_goals first
    | (subst h; decide)
    | (right; have := h.1; omega)

theorem nameRest_not_isSpace (c : Char) (h : nameRest c = true) : isSpace c = false := by
  cases hs : isSpace c with
  | false => rfl
  | true =>
    exfalso
    have hc := isSpace_cases c hs
    simp only [nameRest, lower, upper, digit, Bool.or_eq_true, Bool.and_eq_true,
      decide_eq_true_eq] at h
    have h1 : '0'.toNat = 48 := by decide
    have h2 : '9'.toNat = 57 := by decide
    have h3 : 'a'.toNat = 97 := by decide
    have h4 : 'z'.toNat = 122 := by decide
    have h5 : 'A'.toNat = 65 := by decide
    have h6 : 'Z'.toNat = 90 := by decide
    rcases h with ((((h | h) | h) | h) | h) | h
    · omega
    · omega
    · omega
    · subst h; revert hs; decide
    · subst h; revert hs; decide
    · subst h; revert hs; decide

theorem varRest_not_isSpace (c : Char) (h : varRest c = true) : isSpace c = false :=
  nameRest_not_isSpace c (varRest_nameRest c h)

theorem removeQuotes_id (c : Char) (s : Str) (hc : isSpace c = false)
    (hl : ∀ d, (c :: s).getLast? = some d → isSpace d = false)
    (hq : c ≠ '"' ∧ c ≠ '\'') : removeQuotes (c :: s) = c :: s := by
  unfold removeQuotes
  simp only [TrimSpace_id c s hc hl, List.head?_cons, Option.some.injEq, hq.1, hq.2,
    false_and, or_self, and_false, if_false]

theorem ReplaceFirst_front (c : Char) (s t new : Str) :
    ReplaceFirst (c :: s ++ t) (c :: s) new = new ++ t := by
  have h : HasPrefix (c :: (s ++ t)) (c :: s) = true := HasPrefix_append (c :: s) t
  show (if HasPrefix (c :: (s ++ t)) (c :: s) = true then
    new ++ (c :: (s ++ t)).drop (c :: s).length else _) = _
  rw [if_pos h]
  simp

theorem IsAbs_Clean (s : Str) : IsAbs (Clean ('/' :: s)) = true := by
  unfold Clean IsAbs
  simp [HasPrefix]

end Resolve

/-! ## An include through an unknown variable -/

section UnknownVar

open Regex

/-- The loop body on a line whose one include does not resolve: the raw path is recorded
in the file's includes and in the unresolved paths, and nothing else happens. -/
theorem scanLine_unresolved (recur : Str → ScanState → Option (ScanState × Option Str))
    (cp : Str) (i : Nat) (line : Str) (st : ScanState) (inc : ParseResult)
    (ha : IsAliasLine line = false) (hi : IsIncludeLine line = true)
    (hinc : IncludeParser.ParseLine line = [inc])
    (hres : st.pathResolver.ResolvePath inc.Path = none)
    (hv : ParseVariableAssignment line = none) :
    scanLine recur cp i line st = some ((st.addInclude cp inc.Path).unresolved inc.Path) := by
  have hal : aliasStep cp i line st = st := by
    unfold aliasStep
    simp [ha]
  have hres2 : (st.addInclude cp inc.Path).pathResolver.ResolvePath inc.Path = none := hres
  unfold scanLine includeStep
  rw [hal]
  simp only [hi, if_true, hinc, scanIncludes, hres2, Option.map_some', varStep, hv]

end UnknownVar

/-! ## Assignment lines -/

section Assign

open Regex

theorem assignPattern_match (x : Char) (xs : Str) (v : Char) (vs : Str)
    (hx : varFirst x = true) (hxs : ∀ y ∈ xs, varRest y = true)
    (hv : ∀ y ∈ v :: vs, y ≠ '\n') :
    FindStringSubmatch assignPattern 2 (x :: xs ++ '=' :: v :: vs)
      = some ⟨x :: xs ++ '=' :: v :: vs, [], [none, some (x :: xs), some (v :: vs)]⟩ := by
  apply findFrom_of_run
  show run (x :: xs ++ '=' :: v :: vs).length bol (x :: xs ++ '=' :: v :: vs) _
    (fun s1 c1 => run (x :: xs ++ '=' :: v :: vs).length
      (group 1 (seq (char varFirst) (star (char varRest) true))) s1 c1
      (fun s2 c2 => run (x :: xs ++ '=' :: v :: vs).length (lit ['=']) s2 c2
        (fun s3 c3 => run (x :: xs ++ '=' :: v :: vs).length (group 2 (plus (char dot) true))
          s3 c3 (fun s4 c4 => run (x :: xs ++ '=' :: v :: vs).length eol s4 c4
            (fun s5 c5 => some (Match.mk (x :: xs ++ '=' :: v :: vs) s5 c5)))))) = _
  rw [show ∀ (K : Str → Caps → Option Match), run (x :: xs ++ '=' :: v :: vs).length bol
      (x :: xs ++ '=' :: v :: vs) (List.replicate (2 + 1) none) K
        = K (x :: xs ++ '=' :: v :: vs) (List.replicate (2 + 1) none) from fun K => by
        simp only [run, if_true]]
  apply run_group_class _ 1 varFirst varRest x xs _ _ _ _ hx hxs
    (by intro y ys h; simp only [List.cons.injEq] at h; rw [← h.1]; decide)
  show run _ (lit ['=']) (['='] ++ v :: vs) _ _ = _
  rw [run_lit_append]
  exact run_group_rest _ 2 v vs _ _ _ (fun y hy => dot_of_ne y (hv y hy)) rfl

end Assign

/-! ## The order of an assignment and the include that uses it -/

section AssignOrder

open Regex

end AssignOrder

/-! ## Invariants of a scan -/

theorem scanIncludes_inv (fs : FileSystem) (I : ScanState → Prop) (hI : StepInv fs I)
    (recur : Str → ScanState → Option (ScanState × Option Str))
    (hrec : ∀ p st r, recur p st = some r → I st → I r.1) (cp : Str)
    (he : FileExists fs cp = true) (hr : FileReadable fs cp = true)
    (incs : List ParseResult) (st st1 : ScanState)
    (h : scanIncludes recur cp incs st = some st1) (hst : I st) : I st1 := by
  induction incs generalizing st with
  | nil =>
    simp only [scanIncludes, Option.some.injEq] at h
    exact h ▸ hst
  | cons inc rest ih =>
    simp only [scanIncludes] at h
    have h1 : I (st.addInclude cp inc.Path) := hI.addInclude st cp inc.Path he hr hst
    cases hres : (st.addInclude cp inc.Path).pathResolver.ResolvePath inc.Path with
    | none =>
      simp only [hres] at h
      exact ih _ h (hI.unresolved _ _ h1)
    | some target =>
      simp only [hres] at h
      obtain ⟨r, hr1, h2⟩ := Option.bind_eq_some.mp h
      refine ih _ h2 ?_
      have h3 : I r.1 := hrec _ _ _ hr1 h1
      obtain ⟨r1, r2⟩ := r
      cases r2 with
      | none =>
        cases hc : inc.Conditional with
        | false => simpa [afterInclude, hc] using h3
        | true => simpa [afterInclude, hc] using hI.markConditional _ target h3
      | some e =>
        cases hc : inc.Conditional with
        | false => simpa [afterInclude, hc] using hI.warn _ (includeWarning target e) h3
        | true =>
          simpa [afterInclude, hc] using
            hI.markConditional _ target (hI.warn _ (includeWarning target e) h3)

theorem aliasStep_inv (fs : FileSystem) (I : ScanState → Prop) (hI : StepInv fs I) (cp : Str)
    (he : FileExists fs cp = true) (hr : FileReadable fs cp = true) (i : Nat) (line : Str)
    (st : ScanState) (hst : I st) : I (aliasStep cp i line st) := by
  unfold aliasStep
  split
  · split
    · rename_i d hd
      exact hI.addAlias st cp d he hr (by rw [ParseLine_location _ _ _ _ hd]) hst
    · exact hst
  · exact hst

theorem varStep_inv (fs : FileSystem) (I : ScanState → Prop) (hI : StepInv fs I) (line : Str)
    (st : ScanState) (hst : I st) : I (varStep line st) := by
  unfold varStep
  split
  · exact hI.setVariable _ _ _ hst
  · exact hst

theorem scanLines_inv (fs : FileSystem) (I : ScanState → Prop) (hI : StepInv fs I)
    (recur : Str → ScanState → Option (ScanState × Option Str))
    (hrec : ∀ p st r, recur p st = some r → I st → I r.1) (cp : Str)
    (he : FileExists fs cp = true) (hr : FileReadable fs cp = true)
    (lines : List Str) (i : Nat) (st st1 : ScanState)
    (h : scanLines recur cp lines i st = some st1) (hst : I st) : I st1 := by
  induction lines generalizing st i with
  | nil =>
    simp only [scanLines, Option.some.injEq] at h
    exact h ▸ hst
  | cons line rest ih =>
    simp only [scanLines] at h
    obtain ⟨s1, hs1, h2⟩ := Option.bind_eq_some.mp h
    refine ih _ _ h2 ?_
    unfold scanLine at hs1
    obtain ⟨s0, hs0, hv⟩ := Option.map_eq_some'.mp hs1
    rw [← hv]
    apply varStep_inv fs I hI
    have ha := aliasStep_inv fs I hI cp he hr i line st hst
    unfold includeStep at hs0
    split at hs0
    · exact scanIncludes_inv fs I hI recur hrec cp he hr _ _ _ hs0 ha
    · simp only [Option.some.injEq] at hs0
      exact hs0 ▸ ha

theorem scanFileBody_inv (fs : FileSystem) (I : ScanState → Prop) (hI : StepInv fs I)
    (recur : Str → ScanState → Option (ScanState × Option Str))
    (hrec : ∀ p st r, recur p st = some r → I st → I r.1) (filePath : Str) (depth : Nat)
    (st : ScanState) (r : ScanState × Option Str)
    (h : scanFileBody fs recur filePath depth st = some r) (hst : I st) : I r.1 := by
  by_cases hd : depth < maxDepth
  · by_cases hv : canonOf fs filePath ∈ st.visited
    · rw [scanFileBody_visited fs recur filePath depth st hd hv] at h
      simp only [Option.some.injEq] at h
      exact h ▸ hst
    · cases he : FileExists fs (canonOf fs filePath) with
      | false =>
        rw [scanFileBody_missing fs recur filePath depth st hd hv he] at h
        simp only [Option.some.injEq] at h
        exact h ▸ hI.missing st _ hv he hst
      | true =>
        cases hr : FileReadable fs (canonOf fs filePath) with
        | false =>
          rw [scanFileBody_unreadable fs recur filePath depth st hd hv he hr] at h
          simp only [Option.some.injEq] at h
          exact h ▸ hI.unreadable st _ hv he hr hst
        | true =>
          cases hl : ReadLines fs (canonOf fs filePath) with
          | error e =>
            rw [scanFileBody_readError fs recur filePath depth st hd hv he hr e hl] at h
            simp only [Option.some.injEq] at h
            exact h ▸ hI.readError st _ e hv he hr hl hst
          | ok lines =>
            rw [scanFileBody_read fs recur filePath depth st hd hv he hr lines hl] at h
            obtain ⟨st2, hst2, hr2⟩ := Option.map_eq_some'.mp h
            rw [← hr2]
            exact scanLines_inv fs I hI recur hrec _ he hr lines 0 _ st2 hst2
              (hI.enter st _ hv he hr hst)
  · rw [scanFileBody_at_ceiling fs recur filePath depth st (Nat.not_lt.mp hd)] at h
    simp only [Option.some.injEq] at h
    exact h ▸ hI.warn _ _ hst

theorem scanFile_inv (fs : FileSystem) (I : ScanState → Prop) (hI : StepInv fs I) (fuel : Nat) :
    ∀ (depth : Nat) (p : Str) (st : ScanState) (r : ScanState × Option Str),
      scanFile fs fuel p depth st = some r → I st → I r.1 := by
  induction fuel with
  | zero =>
    intro depth p st r h
    simp [scanFile] at h
  | succ fuel ih =>
    intro depth p st r h hst
    exact scanFileBody_inv fs I hI _ (ih (depth + 1)) p depth st r h hst

/-- A predicate kept by every step is kept by the scan of the roots. -/
theorem scanRoots_inv (fs : FileSystem) (I : ScanState → Prop) (hI : StepInv fs I) (fuel : Nat)
    (roots : List Str) (st st1 : ScanState) (h : scanRoots fs fuel roots st = some st1)
    (hst : I st) : I st1 := by
  induction roots generalizing st with
  | nil =>
    simp only [scanRoots, Option.some.injEq] at h
    exact h ▸ hst
  | cons root rest ih =>
    simp only [scanRoots] at h
    obtain ⟨s1, hs1, h2⟩ := Option.bind_eq_some.mp h
    refine ih _ h2 ?_
    unfold scanRoot at hs1
    split at hs1
    · simp only [Option.some.injEq] at hs1
      exact hs1 ▸ hI.unresolved _ _ hst
    · obtain ⟨r, hr, hs⟩ := Option.map_eq_some'.mp hs1
      have h3 := scanFile_inv fs I hI fuel 0 _ st r hr hst
      rw [← hs]
      unfold afterRoot
      split
      · exact hI.warn _ _ h3
      · exact h3

/-! ## Files that do not exist or are not readable -/

theorem AddAlias_Files (r : ScanResult) (d : AliasDefinition) : (r.AddAlias d).Files = r.Files := by
  unfold ScanResult.AddAlias
  split <;> rfl

theorem FilesOK_congr (fs : FileSystem) (st st1 : ScanState)
    (h : st1.result.Files = st.result.Files) (hst : FilesOK fs st) : FilesOK fs st1 := by
  intro q sf hq
  rw [h] at hq
  exact hst q sf hq

theorem FilesOK_modifyFile (fs : FileSystem) (st : ScanState) (key : Str)
    (f : SourceFile → SourceFile)
    (h1 : ∀ sf, (f sf).Path = sf.Path ∧ (f sf).Exists = sf.Exists ∧
      (f sf).Readable = sf.Readable)
    (h2 : ¬ (FileExists fs key = true ∧ FileReadable fs key = true) →
      ∀ c, f (deadFile fs key c) = deadFile fs key (f (deadFile fs key c)).Conditional)
    (hst : FilesOK fs st) : FilesOK fs (st.modifyFile key f) := by
  intro q sf hq
  simp only [ScanState.modifyFile, mapGet_mapModify] at hq
  by_cases hk : key = q
  · subst hk
    simp only [if_true] at hq
    obtain ⟨sf0, hsf0, hf⟩ := Option.map_eq_some'.mp hq
    obtain ⟨a, b, c, d⟩ := hst key sf0 hsf0
    obtain ⟨a1, b1, c1⟩ := h1 sf0
    rw [← hf]
    refine ⟨a1.trans a, b1.trans b, c1.trans c, fun hdead => ?_⟩
    have := h2 hdead sf0.Conditional
    rw [← d hdead] at this
    exact this
  · simp only [hk, if_false] at hq
    exact hst q sf hq

theorem FilesOK_enter (fs : FileSystem) (st : ScanState) (cp : Str) (e : Str)
    (he : ¬ (FileExists fs cp = true ∧ FileReadable fs cp = true) →
      e = (deadFile fs cp false).Error)
    (hst : FilesOK fs st) :
    FilesOK fs ((st.enter cp (newSourceFile fs cp)).setError cp e) := by
  intro q sf hq
  simp only [ScanState.setError, ScanState.modifyFile, ScanState.enter, mapGet_mapModify,
    mapGet_mapSet] at hq
  by_cases hk : cp = q
  · subst hk
    simp only [if_true, Option.map_some', Option.some.injEq] at hq
    rw [← hq]
    refine ⟨rfl, rfl, rfl, fun hdead => ?_⟩
    rw [he hdead]
    rfl
  · simp only [hk, if_false] at hq
    exact hst q sf hq

theorem FilesOK_step (fs : FileSystem) : StepInv fs (FilesOK fs) where
  warn := fun st _ h => FilesOK_congr fs st _ rfl h
  unresolved := fun st _ h => FilesOK_congr fs st _ rfl h
  setVariable := fun st _ _ h => FilesOK_congr fs st _ rfl h
  markConditional := fun st p h =>
    FilesOK_modifyFile fs st p _ (fun _ => ⟨rfl, rfl, rfl⟩) (fun _ _ => rfl) h
  addInclude := fun st cp p he hr h =>
    FilesOK_modifyFile fs st cp _ (fun _ => ⟨rfl, rfl, rfl⟩)
      (fun hd => absurd ⟨he, hr⟩ hd) h
  addAlias := fun st cp d he hr _ h =>
    FilesOK_congr fs (st.modifyFile cp (fun sf => { sf with Aliases := sf.Aliases ++ [d] })) _
      (AddAlias_Files _ d)
      (FilesOK_modifyFile fs st cp _ (fun _ => ⟨rfl, rfl, rfl⟩) (fun hd => absurd ⟨he, hr⟩ hd) h)
  missing := fun st cp _ he h =>
    FilesOK_enter fs st cp _ (fun _ => by simp [deadFile, he]) h
  unreadable := fun st cp _ he _ h =>
    FilesOK_enter fs st cp _ (fun _ => by simp [deadFile, he]) h
  readError := fun st cp e _ he hr _ h =>
    FilesOK_enter fs st cp e (fun hd => absurd ⟨he, hr⟩ hd) h
  enter := fun st cp _ he hr h => by
    intro q sf hq
    simp only [ScanState.enter, mapGet_mapSet] at hq
    by_cases hk : cp = q
    · subst hk
      simp only [if_true, Option.some.injEq] at hq
      rw [← hq]
      exact ⟨rfl, rfl, rfl, fun hd => absurd ⟨he, hr⟩ hd⟩
    · simp only [hk, if_false] at hq
      exact h q sf hq

/-- The call of `scanFile` for a path, not yet visited, that does not exist or is not
readable: the file is entered, its error is set, and no error is returned. -/
theorem scanFile_dead (fs : FileSystem) (fuel : Nat) (filePath : Str) (depth : Nat)
    (st : ScanState) (hd : depth < maxDepth) (hv : canonOf fs filePath ∉ st.visited)
    (hdead : ¬ (FileExists fs (canonOf fs filePath) = true ∧
      FileReadable fs (canonOf fs filePath) = true)) :
    scanFile fs (fuel + 1) filePath depth st
      = some ((st.enter (canonOf fs filePath) (newSourceFile fs (canonOf fs filePath))).setError
          (canonOf fs filePath) (deadFile fs (canonOf fs filePath) false).Error, none) := by
  show scanFileBody fs _ filePath depth st = _
  cases he : FileExists fs (canonOf fs filePath) with
  | false =>
    rw [scanFileBody_missing fs _ filePath depth st hd hv he]
    simp [deadFile, he]
  | true =>
    cases hr : FileReadable fs (canonOf fs filePath) with
    | false =>
      rw [scanFileBody_unreadable fs _ filePath depth st hd hv he hr]
      simp [deadFile, he]
    | true => exact absurd ⟨he, hr⟩ hdead

theorem deadFile_Error_ne (fs : FileSystem) (q : Str) (c : Bool) : (deadFile fs q c).Error ≠ [] := by
  unfold deadFile
  simp only
  split <;> decide

theorem hasFile_modifyFile (st : ScanState) (key : Str) (f : SourceFile → SourceFile) (q : Str)
    (h : (mapGet st.result.Files q).isSome = true) :
    (mapGet (st.modifyFile key f).result.Files q).isSome = true := by
  rw [(SameShape_modifyFile st key f).1 q]
  exact h

/-- A recorded file stays recorded. -/
theorem hasFile_step (fs : FileSystem) (q : Str) :
    StepInv fs (fun st => (mapGet st.result.Files q).isSome = true) where
  warn := fun _ _ h => h
  unresolved := fun _ _ h => h
  setVariable := fun _ _ _ h => h
  markConditional := fun st p h => hasFile_modifyFile st p _ q h
  addInclude := fun st cp p _ _ h => hasFile_modifyFile st cp _ q h
  addAlias := fun st cp d _ _ _ h => by
    show (mapGet ((st.modifyFile cp _).result.AddAlias d).Files q).isSome = true
    rw [AddAlias_Files]
    exact hasFile_modifyFile st cp _ q h
  missing := fun st cp _ _ h =>
    hasFile_modifyFile _ cp _ q ((mapGet_enter_isSome st cp _ q).mpr (Or.inr h))
  unreadable := fun st cp _ _ _ h =>
    hasFile_modifyFile _ cp _ q ((mapGet_enter_isSome st cp _ q).mpr (Or.inr h))
  readError := fun st cp _ _ _ _ _ h =>
    hasFile_modifyFile _ cp _ q ((mapGet_enter_isSome st cp _ q).mpr (Or.inr h))
  enter := fun st cp _ _ _ h => (mapGet_enter_isSome st cp _ q).mpr (Or.inr h)

/-- C13 (as amended): a file that does not exist, or exists but is not readable.  (1) When
`scanFile` is called, below the depth ceiling, for a path whose canonical path is such a
file and is not yet visited, the state after the call holds a `SourceFile` under the canonical path
with the flags `Exists` and `Readable` of the file system, a non-empty `Error` and empty
`Aliases` and `Includes`; no error is returned, the warnings, the unresolved paths and the
alias table are as before; the loop over the roots and the loop over the includes of a line
go on with what follows.  (2) A recorded file stays recorded in all that follows: the
calls of `scanFile`, the loops over includes and lines of a readable file, the loop over
the roots.  (3) In the result of every scan, the `SourceFile` of every recorded path that
does not exist or is not readable is of this form. -/
theorem missing_file_is_recorded (fs : FileSystem) :
    (∀ (fuel : Nat) (filePath : Str) (depth : Nat) (st : ScanState),
      depth < maxDepth → canonOf fs filePath ∉ st.visited →
      ¬ (FileExists fs (canonOf fs filePath) = true ∧
        FileReadable fs (canonOf fs filePath) = true) →
      ∃ st1, scanFile fs (fuel + 1) filePath depth st = some (st1, none) ∧
        mapGet st1.result.Files (canonOf fs filePath)
          = some (deadFile fs (canonOf fs filePath) false) ∧
        (deadFile fs (canonOf fs filePath) false).Error ≠ [] ∧
        st1.result.Warnings = st.result.Warnings ∧
        st1.result.UnresolvedPaths = st.result.UnresolvedPaths ∧
        st1.result.Aliases = st.result.Aliases ∧
        (∀ root rest, depth = 0 → st.pathResolver.ResolvePath root = some filePath →
          scanRoots fs (fuel + 1) (root :: rest) st = scanRoots fs (fuel + 1) rest st1) ∧
        (∀ cp0 inc rest st0, st = st0.addInclude cp0 inc.Path →
          st0.pathResolver.ResolvePath inc.Path = some filePath →
          scanIncludes (fun p s => scanFile fs (fuel + 1) p depth s) cp0 (inc :: rest) st0
            = scanIncludes (fun p s => scanFile fs (fuel + 1) p depth s) cp0 rest
                (if inc.Conditional then st1.markConditional filePath else st1))) ∧
    (∀ (q : Str) (fuel : Nat),
      (∀ p depth st r, scanFile fs fuel p depth st = some r →
        (mapGet st.result.Files q).isSome = true → (mapGet r.1.result.Files q).isSome = true) ∧
      (∀ cp depth incs st st1, FileExists fs cp = true → FileReadable fs cp = true →
        scanIncludes (fun p s => scanFile fs fuel p depth s) cp incs st = some st1 →
        (mapGet st.result.Files q).isSome = true → (mapGet st1.result.Files q).isSome = true) ∧
      (∀ cp depth lines i st st1, FileExists fs cp = true → FileReadable fs cp = true →
        scanLines (fun p s => scanFile fs fuel p depth s) cp lines i st = some st1 →
        (mapGet st.result.Files q).isSome = true → (mapGet st1.result.Files q).isSome = true) ∧
      (∀ roots st st1, scanRoots fs fuel roots st = some st1 →
        (mapGet st.result.Files q).isSome = true →
        (mapGet st1.result.Files q).isSome = true)) ∧
    (∀ (s : Scanner) (shell : Str) (roots : List Str) (r : ScanResult × Scanner),
      ScanShellFiles fs s shell roots = some r →
      ∀ q sf, mapGet r.1.Files q = some sf →
        ¬ (FileExists fs q = true ∧ FileReadable fs q = true) →
        sf = deadFile fs q sf.Conditional) := by
  refine ⟨?_, ?_, ?_⟩
  · intro fuel filePath depth st hd hv hdead
    have hcall := scanFile_dead fs fuel filePath depth st hd hv hdead
    refine ⟨_, hcall, ?_, deadFile_Error_ne fs _ false, rfl, rfl, rfl, ?_, ?_⟩
    · simp [ScanState.setError, ScanState.modifyFile, ScanState.enter, mapGet_mapModify,
        mapGet_mapSet, newSourceFile, deadFile]
    · intro root rest h0 hres
      subst h0
      simp only [scanRoots, scanRoot, hres, hcall, Option.map_some', Option.some_bind,
        afterRoot]
    · intro cp0 inc rest st0 hst hres
      have hres1 : (st0.addInclude cp0 inc.Path).pathResolver.ResolvePath inc.Path
          = some filePath := hres
      rw [hst] at hcall
      simp only [scanIncludes, hres1, hcall, Option.some_bind, afterInclude]
      rw [hst]
  · intro q fuel
    have hI := hasFile_step fs q
    exact ⟨fun p depth st r h hq => scanFile_inv fs _ hI fuel depth p st r h hq,
      fun cp depth incs st st1 he hr h hq =>
        scanIncludes_inv fs _ hI _ (fun p st r h hq => scanFile_inv fs _ hI fuel depth p st r h hq)
          cp he hr incs st st1 h hq,
      fun cp depth lines i st st1 he hr h hq =>
        scanLines_inv fs _ hI _ (fun p st r h hq => scanFile_inv fs _ hI fuel depth p st r h hq)
          cp he hr lines i st st1 h hq,
      fun roots st st1 h hq => scanRoots_inv fs _ hI fuel roots st st1 h hq⟩
  · intro s shell roots r h q sf hq hdead
    unfold ScanShellFiles ScanShellFilesFuel at h
    obtain ⟨stF, hF, hr⟩ := Option.map_eq_some'.mp h
    have hok : FilesOK fs stF :=
      scanRoots_inv fs (FilesOK fs) (FilesOK_step fs) _ roots _ stF hF
        (by intro q sf hq; simp [initialState, NewScanResult, mapGet] at hq)
    rw [← hr] at hq
    exact (hok q sf hq).2.2.2 hdead

/-- The scan of the roots `/gone` (missing), `/locked` (not readable) and `/rc` (which
sources the missing `/nope` and defines an alias): four files are recorded, the three dead
ones with their error, no warning, no unresolved path, and the alias is found. -/
theorem missing_file_is_recorded_witness :
    (ScanShellFiles fsDead scanner0 "zsh".toList
        ["/gone".toList, "/locked".toList, "/rc".toList]).map
        (fun r => (r.1.Files.map (fun f => (f.1, f.2.Exists, f.2.Readable, f.2.Error,
            f.2.Aliases.length, f.2.Includes)),
          r.1.Warnings, r.1.UnresolvedPaths, r.1.Aliases.map Prod.fst))
      = some ([("/gone".toList, false, false, "file does not exist".toList, 0, []),
          ("/locked".toList, true, false, "permission denied".toList, 0, []),
          ("/rc".toList, true, true, [], 1, ["/nope".toList]),
          ("/nope".toList, false, false, "file does not exist".toList, 0, [])],
        [], [], ["a".toList]) ∧
    ∃ st1, scanFile fsDead (0 + 1) "/locked".toList 0
        (initialState scanner0 "zsh".toList ["/locked".toList]) = some (st1, none) ∧
      mapGet st1.result.Files (canonOf fsDead "/locked".toList)
        = some (deadFile fsDead (canonOf fsDead "/locked".toList) false) :=
  ⟨by rfl,
   ((missing_file_is_recorded fsDead).1 0 "/locked".toList 0
      (initialState scanner0 "zsh".toList ["/locked".toList]) (by decide)
      (by simp [initialState]) (by decide)).imp (fun _ h => ⟨h.1, h.2.1⟩)⟩

/-! ## The scan does not read the unresolved paths, the shell tag and the root list -/

section Reframe

variable (u : List Str) (sh : Str) (rf : List Str)

theorem reframe_unresolved (st : ScanState) (p : Str) :
    (st.reframe u sh rf).unresolved p = (st.unresolved p).reframe u sh rf := by
  simp [ScanState.reframe, ScanState.unresolved]

theorem reframe_addAlias (st : ScanState) (cp : Str) (d : AliasDefinition) :
    (st.reframe u sh rf).addAlias cp d = (st.addAlias cp d).reframe u sh rf := by
  simp only [ScanState.reframe, ScanState.addAlias, ScanState.modifyFile,
    ScanResult.AddAlias]
  split <;> rfl

theorem reframe_afterInclude (inc : ParseResult) (p : Str) (r : ScanState × Option Str) :
    afterInclude inc p (r.1.reframe u sh rf, r.2) = (afterInclude inc p r).reframe u sh rf := by
  obtain ⟨r1, r2⟩ := r
  cases r2 <;> cases hc : inc.Conditional <;> simp [afterInclude, hc] <;> rfl

theorem reframe_scanIncludes (recur : Str → ScanState → Option (ScanState × Option Str))
    (hrec : ∀ p st, recur p (st.reframe u sh rf)
      = (recur p st).map (fun r => (r.1.reframe u sh rf, r.2)))
    (cp : Str) (incs : List ParseResult) (st : ScanState) :
    scanIncludes recur cp incs (st.reframe u sh rf)
      = (scanIncludes recur cp incs st).map (ScanState.reframe u sh rf) := by
  induction incs generalizing st with
  | nil => rfl
  | cons inc rest ih =>
    have h1 : (st.reframe u sh rf).addInclude cp inc.Path
        = (st.addInclude cp inc.Path).reframe u sh rf := rfl
    have h2 : ((st.addInclude cp inc.Path).reframe u sh rf).pathResolver
        = (st.addInclude cp inc.Path).pathResolver := rfl
    simp only [scanIncludes, h1, h2]
    cases (st.addInclude cp inc.Path).pathResolver.ResolvePath inc.Path with
    | none =>
      simp only [reframe_unresolved]
      exact ih _
    | some target =>
      simp only [hrec]
      cases recur target (st.addInclude cp inc.Path) with
      | none => rfl
      | some r =>
        simp only [Option.map_some', Option.some_bind, reframe_afterInclude]
        exact ih _

theorem reframe_aliasStep (cp : Str) (i : Nat) (line : Str) (st : ScanState) :
    aliasStep cp i line (st.reframe u sh rf) = (aliasStep cp i line st).reframe u sh rf := by
  unfold aliasStep
  split
  · split
    · exact reframe_addAlias u sh rf st cp _
    · rfl
  · rfl

theorem reframe_varStep (line : Str) (st : ScanState) :
    varStep line (st.reframe u sh rf) = (varStep line st).reframe u sh rf := by
  unfold varStep
  split <;> rfl

theorem reframe_scanLine (recur : Str → ScanState → Option (ScanState × Option Str))
    (hrec : ∀ p st, recur p (st.reframe u sh rf)
      = (recur p st).map (fun r => (r.1.reframe u sh rf, r.2)))
    (cp : Str) (i : Nat) (line : Str) (st : ScanState) :
    scanLine recur cp i line (st.reframe u sh rf)
      = (scanLine recur cp i line st).map (ScanState.reframe u sh rf) := by
  unfold scanLine includeStep
  rw [reframe_aliasStep]
  split
  · rw [reframe_scanIncludes u sh rf recur hrec]
    cases scanIncludes recur cp (IncludeParser.ParseLine line) (aliasStep cp i line st) with
    | none => rfl
    | some s1 => simp [reframe_varStep]
  · simp [reframe_varStep]

theorem reframe_scanLines (recur : Str → ScanState → Option (ScanState × Option Str))
    (hrec : ∀ p st, recur p (st.reframe u sh rf)
      = (recur p st).map (fun r => (r.1.reframe u sh rf, r.2)))
    (cp : Str) (lines : List Str) (i : Nat) (st : ScanState) :
    scanLines recur cp lines i (st.reframe u sh rf)
      = (scanLines recur cp lines i st).map (ScanState.reframe u sh rf) := by
  induction lines generalizing st i with
  | nil => rfl
  | cons line rest ih =>
    simp only [scanLines, reframe_scanLine u sh rf recur hrec]
    cases scanLine recur cp i line st with
    | none => rfl
    | some s1 =>
      simp only [Option.map_some', Option.some_bind]
      exact ih _ _

theorem reframe_scanFileBody (fs : FileSystem)
    (recur : Str → ScanState → Option (ScanState × Option Str))
    (hrec : ∀ p st, recur p (st.reframe u sh rf)
      = (recur p st).map (fun r => (r.1.reframe u sh rf, r.2)))
    (filePath : Str) (depth : Nat) (st : ScanState) :
    scanFileBody fs recur filePath depth (st.reframe u sh rf)
      = (scanFileBody fs recur filePath depth st).map (fun r => (r.1.reframe u sh rf, r.2)) := by
  have hvis : (st.reframe u sh rf).visited = st.visited := rfl
  by_cases hd : depth < maxDepth
  · by_cases hv : canonOf fs filePath ∈ st.visited
    · rw [scanFileBody_visited fs recur filePath depth st hd hv,
        scanFileBody_visited fs recur filePath depth _ hd (by rw [hvis]; exact hv)]
      rfl
    · have hv1 : canonOf fs filePath ∉ (st.reframe u sh rf).visited := by rw [hvis]; exact hv
      cases he : FileExists fs (canonOf fs filePath) with
      | false =>
        rw [scanFileBody_missing fs recur filePath depth st hd hv he,
          scanFileBody_missing fs recur filePath depth _ hd hv1 he]
        rfl
      | true =>
        cases hr : FileReadable fs (canonOf fs filePath) with
        | false =>
          rw [scanFileBody_unreadable fs recur filePath depth st hd hv he hr,
            scanFileBody_unreadable fs recur filePath depth _ hd hv1 he hr]
          rfl
        | true =>
          cases hl : ReadLines fs (canonOf fs filePath) with
          | error e =>
            rw [scanFileBody_readError fs recur filePath depth st hd hv he hr e hl,
              scanFileBody_readError fs recur filePath depth _ hd hv1 he hr e hl]
            rfl
          | ok lines =>
            rw [scanFileBody_read fs recur filePath depth st hd hv he hr lines hl,
              scanFileBody_read fs recur filePath depth _ hd hv1 he hr lines hl]
            have henter : (st.reframe u sh rf).enter (canonOf fs filePath)
                (newSourceFile fs (canonOf fs filePath))
                = (st.enter (canonOf fs filePath)
                    (newSourceFile fs (canonOf fs filePath))).reframe u sh rf := rfl
            rw [henter, reframe_scanLines u sh rf recur hrec]
            cases scanLines recur (canonOf fs filePath) lines 0
              (st.enter (canonOf fs filePath) (newSourceFile fs (canonOf fs filePath))) <;> rfl
  · rw [scanFileBody_at_ceiling fs recur filePath depth st (Nat.not_lt.mp hd),
      scanFileBody_at_ceiling fs recur filePath depth _ (Nat.not_lt.mp hd)]
    rfl

theorem reframe_scanFile (fs : FileSystem) (fuel : Nat) :
    ∀ (depth : Nat) (p : Str) (st : ScanState),
      scanFile fs fuel p depth (st.reframe u sh rf)
        = (scanFile fs fuel p depth st).map (fun r => (r.1.reframe u sh rf, r.2)) := by
  induction fuel with
  | zero => intro depth p st; rfl
  | succ fuel ih =>
    intro depth p st
    exact reframe_scanFileBody u sh rf fs _ (fun p st => ih (depth + 1) p st) p depth st

theorem reframe_afterRoot (p : Str) (r : ScanState × Option Str) :
    afterRoot p (r.1.reframe u sh rf, r.2) = (afterRoot p r).reframe u sh rf := by
  obtain ⟨r1, r2⟩ := r
  cases r2 <;> rfl

/-- The scan of the roots commutes with a change of the parts of the result that it never
reads. -/
theorem reframe_scanRoots (fs : FileSystem) (fuel : Nat) (roots : List Str) (st : ScanState) :
    scanRoots fs fuel roots (st.reframe u sh rf)
      = (scanRoots fs fuel roots st).map (ScanState.reframe u sh rf) := by
  induction roots generalizing st with
  | nil => rfl
  | cons root rest ih =>
    have hres : (st.reframe u sh rf).pathResolver = st.pathResolver := rfl
    simp only [scanRoots, scanRoot, hres]
    cases st.pathResolver.ResolvePath root with
    | none =>
      simp only [Option.some_bind, reframe_unresolved]
      exact ih _
    | some expanded =>
      simp only [reframe_scanFile u sh rf fs fuel 0 expanded st]
      cases scanFile fs fuel expanded 0 st with
      | none => rfl
      | some r =>
        simp only [Option.map_some', Option.some_bind, reframe_afterRoot]
        exact ih _

end Reframe

/-! ## A root path that does not resolve -/

theorem scanRoots_append (fs : FileSystem) (fuel : Nat) (a b : List Str) (st : ScanState) :
    scanRoots fs fuel (a ++ b) st = (scanRoots fs fuel a st).bind (scanRoots fs fuel b) := by
  induction a generalizing st with
  | nil => rfl
  | cons root rest ih =>
    simp only [List.cons_append, scanRoots]
    cases scanRoot fs fuel root st with
    | none => rfl
    | some s1 => simpa using ih s1

/-- C12: a root path that does not resolve.  For every root list `pre ++ post`, putting a
path `bad` between `pre` and `post` that does not resolve when its turn comes (an empty or
a relative path, or one with a variable unknown at that point) leaves the aliases, the
files and the warnings of the result as they are, as well as the resolver of the scanner,
and adds that raw string once to the unresolved paths, at its place. -/
theorem unresolvable_root_is_only_recorded (fs : FileSystem) (s : Scanner) (shell : Str)
    (pre post : List Str) (bad : Str)
    (hbad : ∀ st1, scanRoots fs (maxDepth + 1) pre (initialState s shell (pre ++ bad :: post))
      = some st1 → st1.pathResolver.ResolvePath bad = none) :
    ∃ r r1 u1 u2, ScanShellFiles fs s shell (pre ++ post) = some r ∧
      ScanShellFiles fs s shell (pre ++ bad :: post) = some r1 ∧
      r1.1.Aliases = r.1.Aliases ∧ r1.1.Files = r.1.Files ∧ r1.1.Warnings = r.1.Warnings ∧
      r.1.UnresolvedPaths = u1 ++ u2 ∧ r1.1.UnresolvedPaths = u1 ++ bad :: u2 ∧
      r1.2 = r.2 := by
  obtain ⟨a1, ha1⟩ := Option.isSome_iff_exists.mp
    (scanRoots_isSome fs (maxDepth + 1) (le_refl _) pre (initialState s shell (pre ++ post)))
  have hB0 : initialState s shell (pre ++ bad :: post)
      = (initialState s shell (pre ++ post)).reframe [] shell (pre ++ bad :: post) := rfl
  have hb1 : scanRoots fs (maxDepth + 1) pre (initialState s shell (pre ++ bad :: post))
      = some (a1.reframe [] shell (pre ++ bad :: post)) := by
    rw [hB0, reframe_scanRoots, ha1]
    rfl
  have hres : (a1.reframe [] shell (pre ++ bad :: post)).pathResolver.ResolvePath bad = none :=
    hbad _ hb1
  obtain ⟨c, hc⟩ : ∃ c : ScanState,
      c = { a1 with result := { a1.result with UnresolvedPaths := [] } } := ⟨_, rfl⟩
  have hca : a1 = c.reframe a1.result.UnresolvedPaths a1.result.Shell a1.result.RootFiles := by
    rw [hc]
    simp [ScanState.reframe]
  have hcb : (a1.reframe [] shell (pre ++ bad :: post)).unresolved bad
      = c.reframe (a1.result.UnresolvedPaths ++ [bad]) shell (pre ++ bad :: post) := by
    rw [hc]
    simp [ScanState.reframe, ScanState.unresolved]
  obtain ⟨c2, hc2⟩ := Option.isSome_iff_exists.mp
    (scanRoots_isSome fs (maxDepth + 1) (le_refl _) post c)
  have hA : scanRoots fs (maxDepth + 1) (pre ++ post) (initialState s shell (pre ++ post))
      = some (c2.reframe a1.result.UnresolvedPaths a1.result.Shell a1.result.RootFiles) := by
    rw [scanRoots_append, ha1, Option.some_bind]
    conv_lhs => rw [hca]
    rw [reframe_scanRoots, hc2]
    rfl
  have hB : scanRoots fs (maxDepth + 1) (pre ++ bad :: post)
      (initialState s shell (pre ++ bad :: post))
      = some (c2.reframe (a1.result.UnresolvedPaths ++ [bad]) shell (pre ++ bad :: post)) := by
    rw [scanRoots_append, hb1, Option.some_bind]
    simp only [scanRoots, scanRoot, hres, Option.some_bind]
    rw [hcb, reframe_scanRoots, hc2]
    rfl
  have hrA : ScanShellFiles fs s shell (pre ++ post)
      = some ((c2.reframe a1.result.UnresolvedPaths a1.result.Shell a1.result.RootFiles).result,
          { pathResolver := c2.pathResolver }) := by
    unfold ScanShellFiles ScanShellFilesFuel
    rw [hA]
    rfl
  have hrB : ScanShellFiles fs s shell (pre ++ bad :: post)
      = some ((c2.reframe (a1.result.UnresolvedPaths ++ [bad]) shell
          (pre ++ bad :: post)).result, { pathResolver := c2.pathResolver }) := by
    unfold ScanShellFiles ScanShellFilesFuel
    rw [hB]
    rfl
  refine ⟨_, _, a1.result.UnresolvedPaths, c2.result.UnresolvedPaths, hrA, hrB, rfl, rfl, rfl,
    rfl, ?_, rfl⟩
  simp [ScanState.reframe]

/-- The roots `/gone`, `/rc` of `fsDead` with the relative path `rel/x` put between them:
the scan with it differs from the scan without it by that one unresolved path. -/
theorem unresolvable_root_is_only_recorded_witness :
    ∃ r r1 u1 u2, ScanShellFiles fsDead scanner0 "zsh".toList
        (["/gone".toList] ++ ["/rc".toList]) = some r ∧
      ScanShellFiles fsDead scanner0 "zsh".toList
        (["/gone".toList] ++ "rel/x".toList :: ["/rc".toList]) = some r1 ∧
      r1.1.Aliases = r.1.Aliases ∧ r1.1.Files = r.1.Files ∧ r1.1.Warnings = r.1.Warnings ∧
      r.1.UnresolvedPaths = u1 ++ u2 ∧ r1.1.UnresolvedPaths = u1 ++ "rel/x".toList :: u2 ∧
      r1.2 = r.2 :=
  unresolvable_root_is_only_recorded fsDead scanner0 "zsh".toList ["/gone".toList]
    ["/rc".toList] "rel/x".toList
    (fun st1 h => by
      have h1 : scanRoots fsDead (maxDepth + 1) ["/gone".toList]
          (initialState scanner0 "zsh".toList (["/gone".toList] ++ "rel/x".toList ::
            ["/rc".toList]))
          = some (((initialState scanner0 "zsh".toList (["/gone".toList] ++ "rel/x".toList ::
              ["/rc".toList])).enter "/gone".toList (newSourceFile fsDead "/gone".toList)).setError
              "/gone".toList "file does not exist".toList) := by rfl
      rw [h1] at h
      simp only [Option.some.injEq] at h
      rw [← h]
      rfl)

/-! ## The alias parser as a function of the line -/

/-- C21: `AliasParser.ParseLine` classifies by the line only.  For every line and all
`(filePath1, lineNum1)`, `(filePath2, lineNum2)` the two calls agree on the found flag, the
name, the value and the type; and when a call finds a definition, its location is exactly
the file path and the line number of the call and the original line, with the comment that
was stripped for matching. -/
theorem ParseLine_depends_on_line_only (line fp1 fp2 : Str) (n1 n2 : Nat) :
    parsed (AliasParser.ParseLine line fp1 n1) = parsed (AliasParser.ParseLine line fp2 n2) ∧
    (∀ d, AliasParser.ParseLine line fp1 n1 = some d →
      d.Location = { FilePath := fp1, LineNum := n1, RawLine := line }) := by
  constructor
  · unfold AliasParser.ParseLine
    simp only
    split
    · rfl
    · split
      · rfl
      · split <;> rfl
  · intro d h
    exact ParseLine_location line fp1 n1 d h

/-- The line `alias gs='git status' # short`, parsed for two places. -/
theorem ParseLine_depends_on_line_only_witness :
    parsed (AliasParser.ParseLine "alias gs=\'git status\' # short".toList "/a".toList 1)
      = parsed (AliasParser.ParseLine "alias gs=\'git status\' # short".toList "/b".toList 7) ∧
    (AliasParser.ParseLine "alias gs=\'git status\' # short".toList "/a".toList 1).map
        AliasDefinition.Location
      = some { FilePath := "/a".toList, LineNum := 1,
               RawLine := "alias gs=\'git status\' # short".toList } :=
  ⟨(ParseLine_depends_on_line_only "alias gs=\'git status\' # short".toList "/a".toList
      "/b".toList 1 7).1, by decide!⟩

/-! ## `filepath.Clean` -/

theorem splitSlash_ne_nil (s : Str) : splitSlash s ≠ [] := by
  cases s with
  | nil => simp [splitSlash]
  | cons c cs =>
    simp only [splitSlash]
    split <;> split <;> simp

theorem splitSlash_cons (c : Char) (cs : Str) :
    ∃ seg segs, splitSlash cs = seg :: segs ∧
      splitSlash (c :: cs) = if c = '/' then [] :: seg :: segs else (c :: seg) :: segs := by
  cases h : splitSlash cs with
  | nil => exact absurd h (splitSlash_ne_nil cs)
  | cons seg segs =>
    refine ⟨seg, segs, rfl, ?_⟩
    simp only [splitSlash, h]

/-- The segments hold no slash, and only characters of the text. -/
theorem splitSlash_mem (s : Str) :
    ∀ seg ∈ splitSlash s, '/' ∉ seg ∧ ∀ c ∈ seg, c ∈ s := by
  induction s with
  | nil =>
    intro seg hseg
    simp only [splitSlash, List.mem_singleton] at hseg
    subst hseg
    simp
  | cons c cs ih =>
    obtain ⟨seg0, segs, h0, h1⟩ := splitSlash_cons c cs
    rw [h1]
    rw [h0] at ih
    intro seg hseg
    by_cases hc : c = '/'
    · simp only [hc, if_true, List.mem_cons] at hseg
      rcases hseg with e | e | e
      · subst e; simp
      · subst e
        have := ih seg (by simp)
        exact ⟨this.1, fun x hx => List.mem_cons_of_mem _ (this.2 x hx)⟩
      · have := ih seg (by simp [e])
        exact ⟨this.1, fun x hx => List.mem_cons_of_mem _ (this.2 x hx)⟩
    · simp only [hc, if_false, List.mem_cons] at hseg
      rcases hseg with e | e
      · subst e
        have := ih seg0 (by simp)
        refine ⟨?_, ?_⟩
        · intro hm
          rcases List.mem_cons.mp hm with e1 | e1
          · exact hc e1.symm
          · exact this.1 e1
        · intro x hx
          rcases List.mem_cons.mp hx with e1 | e1
          · rw [e1]; exact List.mem_cons_self _ _
          · exact List.mem_cons_of_mem _ (this.2 x e1)
      · have := ih seg (by simp [e])
        exact ⟨this.1, fun x hx => List.mem_cons_of_mem _ (this.2 x hx)⟩

/-- A step of `Clean` keeps only segments that it was given. -/
theorem cleanStep_mem (rooted : Bool) (stack : List Str) (seg x : Str)
    (h : x ∈ cleanStep rooted stack seg) : x ∈ stack ∨ (x = seg ∧ seg ≠ [] ∧ seg ≠ ['.']) := by
  unfold cleanStep at h
  split at h
  · exact Or.inl h
  · rename_i h1
    simp only [Bool.or_eq_true, decide_eq_true_eq, not_or] at h1
    split at h
    · split at h
      · split at h
        · simp at h
        · simp only [List.mem_singleton] at h
          exact Or.inr ⟨h, h1.1, h1.2⟩
      · split at h
        · rcases List.mem_cons.mp h with e | e
          · exact Or.inr ⟨e, h1.1, h1.2⟩
          · exact Or.inl e
        · exact Or.inl (List.mem_cons_of_mem _ h)
    · rcases List.mem_cons.mp h with e | e
      · exact Or.inr ⟨e, h1.1, h1.2⟩
      · exact Or.inl e

theorem foldl_cleanStep_mem (rooted : Bool) (segs : List Str) (stack : List Str) (x : Str)
    (h : x ∈ segs.foldl (cleanStep rooted) stack) :
    x ∈ stack ∨ (x ∈ segs ∧ x ≠ [] ∧ x ≠ ['.']) := by
  induction segs generalizing stack with
  | nil => exact Or.inl h
  | cons seg segs ih =>
    rcases ih _ h with h1 | h1
    · rcases cleanStep_mem rooted stack seg x h1 with h2 | h2
      · exact Or.inl h2
      · exact Or.inr ⟨by rw [h2.1]; exact List.mem_cons_self _ _, by rw [h2.1]; exact h2.2.1,
          by rw [h2.1]; exact h2.2.2⟩
    · exact Or.inr ⟨List.mem_cons_of_mem _ h1.1, h1.2⟩

/-- At the root a step of `Clean` keeps no `..`. -/
theorem cleanStep_rooted (stack : List Str) (seg : Str)
    (hs : ∀ x ∈ stack, x ≠ ['.', '.']) : ∀ x ∈ cleanStep true stack seg, x ≠ ['.', '.'] := by
  intro x hx
  unfold cleanStep at hx
  split at hx
  · exact hs x hx
  · split at hx
    · split at hx
      · simp at hx
      · rename_i top below
        have htop : top ≠ ['.', '.'] := hs top (by simp)
        simp only [htop, if_false] at hx
        exact hs x (List.mem_cons_of_mem _ hx)
    · rename_i h2
      rcases List.mem_cons.mp hx with e | e
      · rw [e]; exact h2
      · exact hs x e

theorem foldl_cleanStep_rooted (segs : List Str) (stack : List Str)
    (hs : ∀ x ∈ stack, x ≠ ['.', '.']) :
    ∀ x ∈ segs.foldl (cleanStep true) stack, x ≠ ['.', '.'] := by
  induction segs generalizing stack with
  | nil => exact hs
  | cons seg segs ih => exact ih _ (cleanStep_rooted stack seg hs)

/-- The segments that `Clean` keeps of a path: segments of the path, none of them empty or
`.`, and none of them `..` when the path is rooted. -/
theorem kept_segments (rooted : Bool) (path : Str) :
    ∀ x ∈ ((splitSlash path).foldl (cleanStep rooted) []).reverse,
      x ∈ splitSlash path ∧ x ≠ [] ∧ x ≠ ['.'] ∧ (rooted = true → x ≠ ['.', '.']) := by
  intro x hx
  rw [List.mem_reverse] at hx
  rcases foldl_cleanStep_mem rooted _ [] x hx with h | h
  · simp at h
  · refine ⟨h.1, h.2.1, h.2.2, fun hr => ?_⟩
    subst hr
    exact foldl_cleanStep_rooted _ [] (by simp) x hx

theorem Clean_cons_slash (s : Str) :
    Clean ('/' :: s) = '/' :: joinSlash ((splitSlash ('/' :: s)).foldl (cleanStep true) []).reverse := by
  unfold Clean
  simp [HasPrefix]

/-- The clean form of a rooted path is absolute and normalised. -/
theorem Clean_rooted (s : Str) : NormalAbs (Clean ('/' :: s)) := by
  refine ⟨((splitSlash ('/' :: s)).foldl (cleanStep true) []).reverse, Clean_cons_slash s, ?_⟩
  · intro seg hseg
    obtain ⟨h1, h2, h3, h4⟩ := kept_segments true ('/' :: s) seg hseg
    exact ⟨h2, h3, h4 rfl, (splitSlash_mem _ seg h1).1⟩

theorem joinSlash_head (seg : Str) (segs : List Str) (c : Char) (t : Str)
    (h : joinSlash (seg :: segs) = c :: t) (hne : seg ≠ []) : ∃ t1, seg = c :: t1 := by
  cases seg with
  | nil => exact absurd rfl hne
  | cons x xs =>
    cases segs with
    | nil =>
      simp only [joinSlash, List.cons.injEq] at h
      exact ⟨xs, by rw [h.1]⟩
    | cons s2 segs =>
      simp only [joinSlash, List.cons_append, List.cons.injEq] at h
      exact ⟨xs, by rw [h.1]⟩

/-- The clean form of a path that does not start with a slash is not absolute. -/
theorem Clean_not_rooted (p : Str) (h : HasPrefix p ['/'] = false) : IsAbs (Clean p) = false := by
  unfold Clean
  by_cases hp : p = []
  · simp [hp, IsAbs, HasPrefix]
  · simp only [hp, if_false, h, Bool.false_eq_true]
    split
    · simp [IsAbs, HasPrefix]
    · rename_i hk
      cases hj : ((splitSlash p).foldl (cleanStep false) []).reverse with
      | nil => exact absurd hj hk
      | cons seg segs =>
        have hmem := kept_segments false p seg (by rw [hj]; exact List.mem_cons_self _ _)
        have hns := (splitSlash_mem p seg hmem.1).1
        cases hc : joinSlash (seg :: segs) with
        | nil => simp [IsAbs, HasPrefix]
        | cons c t =>
          obtain ⟨t1, ht1⟩ := joinSlash_head seg segs c t hc hmem.2.1
          have hcs : c ≠ '/' := by
            intro e
            apply hns
            rw [ht1, e]
            exact List.mem_cons_self _ _
          simp [IsAbs, HasPrefix, hcs]

/-- The characters of a clean form: those of the path, the slash and the dot. -/
theorem Clean_chars (p : Str) (c : Char) (h : c ∈ Clean p) : c ∈ p ∨ c = '/' ∨ c = '.' := by
  have hjoin : ∀ (segs : List Str), (∀ seg ∈ segs, ∀ x ∈ seg, x ∈ p) → c ∈ joinSlash segs →
      c ∈ p ∨ c = '/' ∨ c = '.' := by
    intro segs
    induction segs with
    | nil => intro _ hc; simp [joinSlash] at hc
    | cons seg segs ih =>
      intro hs hc
      cases segs with
      | nil =>
        simp only [joinSlash] at hc
        exact Or.inl (hs seg (by simp) c hc)
      | cons s2 segs =>
        simp only [joinSlash, List.mem_append, List.mem_cons] at hc
        rcases hc with e | e | e
        · exact Or.inl (hs seg (by simp) c e)
        · exact Or.inr (Or.inl e)
        · exact ih (fun x hx => hs x (List.mem_cons_of_mem _ hx)) e
  have hkept : ∀ rooted, ∀ seg ∈ ((splitSlash p).foldl (cleanStep rooted) []).reverse,
      ∀ x ∈ seg, x ∈ p := fun rooted seg hseg x hx =>
    (splitSlash_mem p seg (kept_segments rooted p seg hseg).1).2 x hx
  unfold Clean at h
  split at h
  · simp only [List.mem_singleton] at h
    exact Or.inr (Or.inr h)
  · simp only at h
    split at h
    · rcases List.mem_cons.mp h with e | e
      · exact Or.inr (Or.inl e)
      · exact hjoin _ (hkept _) e
    · split at h
      · simp only [List.mem_singleton] at h
        exact Or.inr (Or.inr h)
      · exact hjoin _ (hkept _) h

theorem Clean_no_dollar (p : Str) (h : '$' ∉ p) : '$' ∉ Clean p := by
  intro hm
  rcases Clean_chars p '$' hm with e | e | e
  · exact h e
  · exact absurd e (by decide)
  · exact absurd e (by decide)

theorem splitSlash_no_slash (s : Str) (h : '/' ∉ s) : splitSlash s = [s] := by
  induction s with
  | nil => rfl
  | cons c cs ih =>
    have hc : c ≠ '/' := fun e => h (by rw [e]; exact List.mem_cons_self _ _)
    have := ih (fun hm => h (List.mem_cons_of_mem _ hm))
    simp only [splitSlash, this, hc, if_false]

theorem splitSlash_append (a b : Str) :
    splitSlash (a ++ '/' :: b) = splitSlash a ++ splitSlash b := by
  induction a with
  | nil =>
    obtain ⟨seg, segs, h0, h1⟩ := splitSlash_cons '/' b
    show splitSlash ('/' :: b) = [[]] ++ splitSlash b
    rw [h1, h0]
    rfl
  | cons c cs ih =>
    obtain ⟨seg, segs, h0, h1⟩ := splitSlash_cons c cs
    obtain ⟨seg2, segs2, h2, h3⟩ := splitSlash_cons c (cs ++ '/' :: b)
    show splitSlash (c :: (cs ++ '/' :: b)) = _
    rw [h3, h1]
    rw [ih, h0] at h2
    simp only [List.cons_append, List.cons.injEq] at h2
    rw [← h2.1, ← h2.2]
    split <;> rfl

theorem splitSlash_joinSlash (seg : Str) (segs : List Str)
    (h : ∀ x ∈ seg :: segs, '/' ∉ x) : splitSlash (joinSlash (seg :: segs)) = seg :: segs := by
  induction segs generalizing seg with
  | nil => exact splitSlash_no_slash seg (h seg (List.mem_cons_self _ _))
  | cons s2 segs ih =>
    show splitSlash (seg ++ '/' :: joinSlash (s2 :: segs)) = _
    rw [splitSlash_append, splitSlash_no_slash seg (h seg (List.mem_cons_self _ _)),
      ih s2 (fun x hx => h x (List.mem_cons_of_mem _ hx))]
    rfl

theorem cleanStep_normal (rooted : Bool) (stack : List Str) (seg : Str) (h : normalSeg seg) :
    cleanStep rooted stack seg = seg :: stack := by
  obtain ⟨h1, h2, h3, _⟩ := h
  simp [cleanStep, h1, h2, h3]

theorem foldl_cleanStep_normal (rooted : Bool) (segs : List Str) (stack : List Str)
    (h : ∀ seg ∈ segs, normalSeg seg) :
    segs.foldl (cleanStep rooted) stack = segs.reverse ++ stack := by
  induction segs generalizing stack with
  | nil => rfl
  | cons seg segs ih =>
    rw [List.foldl_cons, cleanStep_normal rooted stack seg (h seg (List.mem_cons_self _ _)),
      ih _ (fun x hx => h x (List.mem_cons_of_mem _ hx))]
    simp

/-- A normalised absolute path is its own clean form. -/
theorem Clean_normal (p : Str) (h : NormalAbs p) : Clean p = p := by
  obtain ⟨segs, hp, hs⟩ := h
  subst hp
  cases segs with
  | nil => decide
  | cons seg segs =>
    have hsplit : splitSlash ('/' :: joinSlash (seg :: segs)) = [] :: seg :: segs := by
      have := splitSlash_append [] (joinSlash (seg :: segs))
      rw [splitSlash_joinSlash seg segs (fun x hx => (hs x hx).2.2.2)] at this
      exact this
    rw [Clean_cons_slash, hsplit, List.foldl_cons]
    have h0 : cleanStep true [] [] = [] := rfl
    rw [h0, foldl_cleanStep_normal true _ [] hs]
    simp

theorem Clean_idem (s : Str) : Clean (Clean ('/' :: s)) = Clean ('/' :: s) :=
  Clean_normal _ (Clean_rooted s)

/-- A slash at the end of a path is dropped. -/
theorem Clean_trailing_slash (s : Str) : Clean ('/' :: s ++ ['/']) = Clean ('/' :: s) := by
  have h := splitSlash_append ('/' :: s) []
  show Clean ('/' :: (s ++ ['/'])) = _
  simp only [List.cons_append] at h
  rw [Clean_cons_slash, Clean_cons_slash, h]
  simp only [List.foldl_append, splitSlash, List.foldl_cons, List.foldl_nil]
  have h0 : ∀ st, cleanStep true st [] = st := fun st => rfl
  rw [h0]

/-! ## Variable references -/

section Refs

open Regex

variable {α : Type}

theorem dropWhile_head (p : Char → Bool) (l : Str) :
    ∀ y ys, l.dropWhile p = y :: ys → p y = false := by
  induction l with
  | nil => intro y ys h; simp at h
  | cons a l ih =>
    intro y ys h
    by_cases ha : p a = true
    · rw [List.dropWhile_cons_of_pos ha] at h
      exact ih y ys h
    · rw [List.dropWhile_cons_of_neg ha] at h
      simp only [List.cons.injEq] at h
      rw [← h.1]
      simpa using ha

theorem skipChar_split (a : Char) (t : Str) :
    ∃ pre, t = pre ++ skipChar a t ∧ (pre = [] ∨ pre = [a]) := by
  cases t with
  | nil => exact ⟨[], rfl, Or.inl rfl⟩
  | cons y ys =>
    by_cases h : y = a
    · exact ⟨[a], by simp [skipChar, h], Or.inr rfl⟩
    · exact ⟨[], by simp [skipChar, h], Or.inl rfl⟩

theorem skipChar_of_ne (a : Char) (t : Str) (h : ∀ y ys, t = y :: ys → y ≠ a) :
    skipChar a t = t := by
  cases t with
  | nil => rfl
  | cons y ys => simp [skipChar, h y ys rfl]

theorem nameAt_split (u name rest : Str) (h : nameAt u = some (name, rest)) :
    u = name ++ rest ∧ validVar name = true := by
  cases u with
  | nil => simp [nameAt] at h
  | cons x t =>
    simp only [nameAt] at h
    split at h
    · rename_i hx
      simp only [Option.some.injEq, Prod.mk.injEq] at h
      rw [← h.1, ← h.2]
      refine ⟨by simp, ?_⟩
      simp only [validVar, hx, Bool.true_and, List.all_eq_true]
      exact fun y hy => List.mem_takeWhile_imp hy
    · simp at h

/-- The name of a variable at the front of a text that does not go on the name. -/
theorem nameAt_name (x : Char) (xs b : Str) (hx : varFirst x = true)
    (hxs : ∀ y ∈ xs, varRest y = true) (hb : ∀ y ys, b = y :: ys → varRest y = false) :
    nameAt (x :: xs ++ b) = some (x :: xs, b) := by
  have h1 : (xs ++ b).takeWhile varRest = xs := by
    induction xs with
    | nil =>
      cases b with
      | nil => rfl
      | cons y ys => simp [List.takeWhile, hb y ys rfl]
    | cons a xs ih =>
      show List.takeWhile varRest (a :: (xs ++ b)) = a :: xs
      rw [List.takeWhile_cons_of_pos (hxs a (List.mem_cons_self _ _)),
        ih (fun y hy => hxs y (List.mem_cons_of_mem _ hy))]
  have h2 : (xs ++ b).dropWhile varRest = b := by
    have := List.takeWhile_append_dropWhile varRest (xs ++ b)
    rw [h1] at this
    exact List.append_cancel_left this
  simp only [List.cons_append, nameAt, hx, if_true, h1, h2]

/-- A reference is `$`, some text and the text after the reference. -/
theorem refAt_split (s name rest : Str) (h : refAt s = some (name, rest)) :
    ∃ f, s = '$' :: f ++ rest ∧ validVar name = true := by
  cases s with
  | nil => simp [refAt] at h
  | cons d t =>
    simp only [refAt] at h
    split at h
    · rename_i hd
      split at h
      · rename_i name0 rest0 hn
        simp only [Option.some.injEq, Prod.mk.injEq] at h
        obtain ⟨pre1, h1, _⟩ := skipChar_split (Char.ofNat 0x7b) t
        obtain ⟨pre2, h2, _⟩ := skipChar_split (Char.ofNat 0x7d) rest0
        obtain ⟨h3, h4⟩ := nameAt_split _ _ _ hn
        refine ⟨pre1 ++ name0 ++ pre2, ?_, by rw [← h.1]; exact h4⟩
        rw [hd, ← h.2]
        conv_lhs => rw [h1, h3, h2]
        simp
      · simp at h
    · simp at h

theorem run_opt_lit_some (n : Nat) (a : Char) (s : Str) (c : Caps) (f : Str → Caps → α) :
    run n (opt (lit [a])) s c (fun s1 c1 => some (f s1 c1)) = some (f (skipChar a s) c) := by
  show (run n (lit [a]) s c _).orElse (fun _ => run n empty s c _) = _
  rw [run_lit]
  cases s with
  | nil => rfl
  | cons y ys =>
    by_cases h : y = a
    · simp [HasPrefix, skipChar, h]
    · simp [HasPrefix, skipChar, h, run]

/-- The group of the name, when the rest of the expression matches wherever the name
ends. -/
theorem run_group_name (n i : Nat) (s : Str) (c : Caps) (f : Str → Caps → α) :
    run n (group i (seq (char varFirst) (star (char varRest) true))) s c
        (fun s1 c1 => some (f s1 c1))
      = (nameAt s).map (fun p => f p.2 (c.set i (some p.1))) := by
  cases s with
  | nil => rfl
  | cons x t =>
    by_cases hx : varFirst x = true
    · have ht := List.takeWhile_append_dropWhile varRest t
      have h := run_group_class n i varFirst varRest x (t.takeWhile varRest)
        (t.dropWhile varRest) c (fun s1 c1 => some (f s1 c1)) _ hx
        (fun y hy => List.mem_takeWhile_imp hy) (dropWhile_head varRest t) rfl
      simp only [List.cons_append, ht] at h
      rw [h]
      simp [nameAt, hx]
    · simp [run, nameAt, hx]

/-- The expression of a variable reference at the front of a text. -/
theorem run_varPattern (n : Nat) (s : Str) (c : Caps) (f : Str → Caps → α) :
    run n varPattern s c (fun s1 c1 => some (f s1 c1))
      = (refAt s).map (fun p => f p.2 (c.set 1 (some p.1))) := by
  show run n (lit ['$']) s c
    (fun s1 c1 => run n (opt (lit [Char.ofNat 0x7b])) s1 c1
      (fun s2 c2 => run n (group 1 (seq (char varFirst) (star (char varRest) true))) s2 c2
        (fun s3 c3 => run n (opt (lit [Char.ofNat 0x7d])) s3 c3
          (fun s1 c1 => some (f s1 c1))))) = _
  rw [run_lit]
  cases s with
  | nil => rfl
  | cons d t =>
    by_cases hd : d = '$'
    · subst hd
      have hk : ∀ (s2 : Str) (c2 : Caps),
          run n (group 1 (seq (char varFirst) (star (char varRest) true))) s2 c2
            (fun s3 c3 => run n (opt (lit [Char.ofNat 0x7d])) s3 c3
              (fun s1 c1 => some (f s1 c1)))
          = (nameAt s2).map (fun p => f (skipChar (Char.ofNat 0x7d) p.2) (c2.set 1 (some p.1))) := by
        intro s2 c2
        have : (fun s3 c3 => run n (opt (lit [Char.ofNat 0x7d])) s3 c3
              (fun s1 c1 => some (f s1 c1)))
            = (fun s3 c3 => some (f (skipChar (Char.ofNat 0x7d) s3) c3)) := by
          funext s3 c3
          exact run_opt_lit_some n _ s3 c3 f
        rw [this]
        exact run_group_name n 1 s2 c2 (fun s3 c3 => f (skipChar (Char.ofNat 0x7d) s3) c3)
      simp only [hk, HasPrefix, decide_True, Bool.true_and, if_true, List.length_singleton,
        List.drop_succ_cons, List.drop_zero]
      have hopt : run n (opt (lit [Char.ofNat 0x7b])) t c
          (fun s2 c2 => (nameAt s2).map
            (fun p => f (skipChar (Char.ofNat 0x7d) p.2) (c2.set 1 (some p.1))))
          = (nameAt (skipChar (Char.ofNat 0x7b) t)).map
            (fun p => f (skipChar (Char.ofNat 0x7d) p.2) (c.set 1 (some p.1))) := by
        show (run n (lit [Char.ofNat 0x7b]) t c _).orElse (fun _ => run n empty t c _) = _
        rw [run_lit]
        cases t with
        | nil => rfl
        | cons y ys =>
          by_cases hy : y = Char.ofNat 0x7b
          · subst hy
            have hno : nameAt (Char.ofNat 0x7b :: ys) = none := by
              simp only [nameAt]
              rw [if_neg (by decide)]
            simp only [HasPrefix, decide_True, Bool.true_and, if_true, List.length_singleton,
              List.drop_succ_cons, List.drop_zero, skipChar, run, hno, Option.map_none']
            cases (nameAt ys) <;> rfl
          · simp [HasPrefix, skipChar, hy, run]
      rw [hopt]
      simp only [refAt, if_true]
      cases nameAt (skipChar (Char.ofNat 0x7b) t) with
      | none => rfl
      | some p => rfl
    · simp [HasPrefix, refAt, hd]

theorem findFrom_cons (re : Regex) (groups n : Nat) (x : Char) (xs : Str) :
    findFrom re groups n (x :: xs)
      = (run n re (x :: xs) (List.replicate (groups + 1) none)
          (fun s1 c1 => some ⟨x :: xs, s1, c1⟩)).orElse (fun _ => findFrom re groups n xs) := rfl

theorem findFrom_varPattern_nil (n : Nat) : findFrom varPattern 1 n [] = none := by
  show run n varPattern [] _ (fun s1 c1 => some (Match.mk [] s1 c1)) = none
  rw [run_varPattern]
  rfl

/-- The search for a reference in a text whose first character starts one. -/
theorem findFrom_varPattern_ref (n : Nat) (s name rest : Str)
    (h : refAt s = some (name, rest)) :
    findFrom varPattern 1 n s = some ⟨s, rest, [none, some name]⟩ := by
  apply findFrom_of_run
  rw [run_varPattern, h]
  rfl

/-- The search for a reference goes over a character that starts none. -/
theorem findFrom_varPattern_next (n : Nat) (x : Char) (xs : Str) (h : refAt (x :: xs) = none) :
    findFrom varPattern 1 n (x :: xs) = findFrom varPattern 1 n xs := by
  rw [findFrom_cons, run_varPattern, h]
  rfl

theorem refAt_ne_dollar (x : Char) (xs : Str) (h : x ≠ '$') : refAt (x :: xs) = none := by
  simp [refAt, h]

theorem findFrom_varPattern_skip (n : Nat) (u t : Str) (h : '$' ∉ u) :
    findFrom varPattern 1 n (u ++ t) = findFrom varPattern 1 n t := by
  induction u with
  | nil => rfl
  | cons x u ih =>
    show findFrom varPattern 1 n (x :: (u ++ t)) = _
    rw [findFrom_varPattern_next n x _ (refAt_ne_dollar x _
      (fun e => h (by rw [e]; exact List.mem_cons_self _ _))),
      ih (fun hm => h (List.mem_cons_of_mem _ hm))]

theorem findFrom_varPattern_none (n : Nat) (s : Str) (h : '$' ∉ s) :
    findFrom varPattern 1 n s = none := by
  have := findFrom_varPattern_skip n s [] h
  rw [List.append_nil] at this
  rw [this, findFrom_varPattern_nil]

/-- A text without `$` holds no reference. -/
theorem FindAll_varPattern_none (s : Str) (h : '$' ∉ s) :
    FindAllStringSubmatch varPattern 1 s = [] :=
  findAllFrom_none _ _ _ _ _ (findFrom_varPattern_none _ s h)

/-- A text that starts with a reference and has no `$` after it holds that one reference. -/
theorem FindAll_varPattern_single (s name rest : Str) (h : refAt s = some (name, rest))
    (hd : '$' ∉ rest) :
    FindAllStringSubmatch varPattern 1 s = [⟨s, rest, [none, some name]⟩] := by
  obtain ⟨f, hs, _⟩ := refAt_split s name rest h
  have hlt : rest.length < s.length := by
    rw [hs]
    simp only [List.length_cons, List.length_append, List.cons_append]
    omega
  show findAllFrom varPattern 1 s.length (s.length + 1) s = _
  rw [findAllFrom]
  simp only [findFrom_varPattern_ref _ s name rest h]
  rw [if_pos hlt, findAllFrom_none _ _ _ _ _ (findFrom_varPattern_none _ rest hd)]

theorem expandStep_valueOf (r : PathResolver) (acc : Str × Bool) (m : Match) :
    expandStep r acc m = match r.valueOf (m.sub 1) with
      | some v => (ReplaceFirst acc.1 m.full v, acc.2)
      | none => (acc.1, true) := by
  unfold expandStep PathResolver.valueOf
  simp only
  split
  · rfl
  · split
    · rfl
    · rfl

theorem Match_full_append (f rest : Str) (caps : Caps) :
    (Match.mk (f ++ rest) rest caps).full = f := by
  unfold Match.full
  simp

theorem ReplaceFirst_append (f t new : Str) (hf : f ≠ []) :
    ReplaceFirst (f ++ t) f new = new ++ t := by
  cases f with
  | nil => exact absurd rfl hf
  | cons c s => exact ReplaceFirst_front c s t new

/-- The expansion of a text that starts with a reference and has no `$` after it. -/
theorem expandVariables_single (r : PathResolver) (f rest name : Str)
    (h : refAt ('$' :: f ++ rest) = some (name, rest)) (hd : '$' ∉ rest) :
    r.expandVariables ('$' :: f ++ rest) = (r.valueOf name).map (fun v => v ++ rest) := by
  unfold PathResolver.expandVariables
  rw [FindAll_varPattern_single _ name rest h hd]
  simp only [List.foldl_cons, List.foldl_nil, expandStep_valueOf]
  have hs : (Match.mk ('$' :: f ++ rest) rest [none, some name]).sub 1 = name := rfl
  rw [hs, Match_full_append]
  cases r.valueOf name with
  | none => rfl
  | some v =>
    simp only [ReplaceFirst_append ('$' :: f) rest v (by simp)]
    rfl

end Refs

/-! ## `ResolvePath` by the shape of the path -/

section Resolve2

open Regex

theorem removeQuotes_nil : removeQuotes [] = [] := by decide

theorem ne_nil_of_removeQuotes (p : Str) (c : Char) (q : Str) (h : removeQuotes p = c :: q) :
    p ≠ [] := by
  intro e
  rw [e, removeQuotes_nil] at h
  exact absurd h (by simp)

/-- A text in one pair of quotes loses the two quotes, and nothing else. -/
theorem removeQuotes_quoted (q : Char) (p : Str) (hq : q = '"' ∨ q = '\'') :
    removeQuotes (q :: p ++ [q]) = p := by
  have hs : isSpace q = false := by rcases hq with e | e <;> subst e <;> decide
  have ht : TrimSpace (q :: (p ++ [q])) = q :: (p ++ [q]) := by
    apply TrimSpace_id q _ hs
    intro d hd
    rw [← List.cons_append, List.getLast?_concat] at hd
    simp only [Option.some.injEq] at hd
    rw [← hd]
    exact hs
  unfold removeQuotes
  simp only [List.cons_append, ht]
  have hl : (q :: (p ++ [q])).getLast? = some q := by
    rw [← List.cons_append, List.getLast?_concat]
  have hlen : (q :: (p ++ [q])).length - 2 = p.length := by simp
  rw [if_pos]
  · simp [hlen]
  · refine ⟨by simp, ?_⟩
    rcases hq with e | e
    · left; rw [hl, e]; exact ⟨rfl, rfl⟩
    · right; rw [hl, e]; exact ⟨rfl, rfl⟩

/-- A text without `$` is its own expansion. -/
theorem expandVariables_no_dollar (r : PathResolver) (p : Str) (h : '$' ∉ p) :
    r.expandVariables p = some p := by
  unfold PathResolver.expandVariables
  rw [FindAll_varPattern_none p h]
  rfl

/-- The resolution of a path by what is left of it without quotes, when that starts with
a reference and has no `$` after the reference. -/
theorem ResolvePath_ref (r : PathResolver) (p f rest name : Str)
    (hq : removeQuotes p = '$' :: f ++ rest)
    (href : refAt ('$' :: f ++ rest) = some (name, rest)) (hd : '$' ∉ rest) :
    r.ResolvePath p = (r.valueOf name).bind
      (fun v => if IsAbs (Clean (v ++ rest)) = true then some (Clean (v ++ rest)) else none) := by
  have hp := ne_nil_of_removeQuotes p _ _ hq
  unfold PathResolver.ResolvePath
  rw [if_neg hp]
  simp only [hq]
  have h1 : HasPrefix ('$' :: f ++ rest) "~/".toList = false := rfl
  have h2 : ('$' :: f ++ rest) ≠ "~".toList := by
    intro e
    simp only [String.toList, List.cons_append, List.cons.injEq] at e
    exact absurd e.1 (by decide)
  rw [if_neg (by rw [h1]; simp), if_neg h2, expandVariables_single r f rest name href hd]
  cases r.valueOf name with
  | none => rfl
  | some v =>
    simp only [Option.map_some', Option.some_bind]
    by_cases ha : IsAbs (Clean (v ++ rest)) = true
    · simp [ha]
    · simp [ha]

/-- The resolution of a path that is, without quotes, `~/S` for a text `S` without `$`, in
an absolute home directory without `$`. -/
theorem ResolvePath_tilde (r : PathResolver) (p h S : Str)
    (hq : removeQuotes p = '~' :: '/' :: S) (hH : r.homeDir = '/' :: h) (hd : '$' ∉ h)
    (hS : '$' ∉ S) : r.ResolvePath p = some (Clean ('/' :: h ++ '/' :: S)) := by
  have hp := ne_nil_of_removeQuotes p _ _ hq
  have hj : Join [r.homeDir, S] = Clean ('/' :: h ++ '/' :: S) := by
    rw [hH]
    cases S with
    | nil =>
      have : Join ['/' :: h, []] = Clean ('/' :: h) := by simp [Join, joinSlash]
      rw [this, Clean_trailing_slash]
    | cons c cs => simp [Join, joinSlash]
  have hno : '$' ∉ Clean ('/' :: h ++ '/' :: S) := by
    apply Clean_no_dollar
    intro hm
    simp only [List.cons_append, List.mem_cons, List.mem_append] at hm
    rcases hm with e | e | e | e
    · exact absurd e (by decide)
    · exact hd e
    · exact absurd e (by decide)
    · exact hS e
  unfold PathResolver.ResolvePath
  rw [if_neg hp]
  simp only [hq]
  have h1 : HasPrefix ('~' :: '/' :: S) "~/".toList = true := by simp [HasPrefix]
  rw [if_pos h1]
  have h2 : ('~' :: '/' :: S).drop 2 = S := rfl
  rw [h2, hj, expandVariables_no_dollar r _ hno]
  simp only [List.cons_append, Clean_idem, IsAbs_Clean]
  simp

/-- The resolution of `~` -/
theorem ResolvePath_tilde_only (r : PathResolver) (h : Str) (hH : r.homeDir = '/' :: h)
    (hd : '$' ∉ h) : r.ResolvePath ['~'] = some (Clean ('/' :: h)) := by
  have hno : '$' ∉ '/' :: h := by
    intro hm
    rcases List.mem_cons.mp hm with e | e
    · exact absurd e (by decide)
    · exact hd e
  unfold PathResolver.ResolvePath
  have hq : removeQuotes ['~'] = ['~'] := by decide
  rw [if_neg (by simp)]
  simp only [hq]
  have h1 : HasPrefix ['~'] "~/".toList = false := rfl
  rw [if_neg (by rw [h1]; simp)]
  have h2 : (['~'] : Str) = "~".toList := rfl
  rw [if_pos h2, hH, expandVariables_no_dollar r _ hno]
  simp only [IsAbs_Clean]
  simp

/-- A path that, without quotes, does not start with `/`, `~` or `~/` and has no `$` does
not resolve. -/
theorem ResolvePath_relative (r : PathResolver) (p : Str)
    (h1 : HasPrefix (removeQuotes p) ['/'] = false) (h2 : removeQuotes p ≠ ['~'])
    (h3 : HasPrefix (removeQuotes p) "~/".toList = false) (h4 : '$' ∉ removeQuotes p) :
    r.ResolvePath p = none := by
  unfold PathResolver.ResolvePath
  split
  · rfl
  · simp only
    have h5 : removeQuotes p ≠ "~".toList := h2
    rw [if_neg (by rw [h3]; simp), if_neg h5, expandVariables_no_dollar r _ h4]
    simp only [Clean_not_rooted _ h1]
    simp

/-- What resolves is the clean form of a rooted text. -/
theorem ResolvePath_some (r : PathResolver) (p out : Str) (h : r.ResolvePath p = some out) :
    ∃ e, out = Clean ('/' :: e) := by
  unfold PathResolver.ResolvePath at h
  split at h
  · simp at h
  · simp only at h
    split at h
    · simp at h
    · rename_i expanded _
      split at h
      · simp at h
      · rename_i habs
        simp only [Option.some.injEq] at h
        cases expanded with
        | nil =>
          exfalso
          apply habs
          decide
        | cons c e =>
          by_cases hc : c = '/'
          · exact ⟨e, by rw [← h, hc]⟩
          · exfalso
            apply habs
            have := Clean_not_rooted (c :: e) (by simp [HasPrefix, hc])
            simp [this]

end Resolve2

/-! ## The result of `ResolvePath` -/

section ResolveClaims

open Regex

theorem refAt_plain (x : Char) (xs b : Str) (hx : varFirst x = true)
    (hxs : ∀ y ∈ xs, varRest y = true)
    (hb : ∀ y ys, b = y :: ys → varRest y = false ∧ y ≠ Char.ofNat 0x7d) :
    refAt ('$' :: (x :: xs ++ b)) = some (x :: xs, b) := by
  have h0 : skipChar (Char.ofNat 0x7b) (x :: xs ++ b) = x :: xs ++ b := by
    apply skipChar_of_ne
    intro y ys h e
    simp only [List.cons_append, List.cons.injEq] at h
    rw [← h.1] at e
    subst e
    revert hx
    decide
  simp only [refAt, if_true, h0, nameAt_name x xs b hx hxs (fun y ys h => (hb y ys h).1),
    skipChar_of_ne _ b (fun y ys h => (hb y ys h).2)]

theorem refAt_brace (x : Char) (xs b : Str) (hx : varFirst x = true)
    (hxs : ∀ y ∈ xs, varRest y = true) :
    refAt ('$' :: Char.ofNat 0x7b :: (x :: xs ++ Char.ofNat 0x7d :: b)) = some (x :: xs, b) := by
  have h0 : skipChar (Char.ofNat 0x7b) (Char.ofNat 0x7b :: (x :: xs ++ Char.ofNat 0x7d :: b))
      = x :: xs ++ Char.ofNat 0x7d :: b := by simp [skipChar]
  have h1 : skipChar (Char.ofNat 0x7d) (Char.ofNat 0x7d :: b) = b := by simp [skipChar]
  simp only [refAt, if_true, h0, nameAt_name x xs (Char.ofNat 0x7d :: b) hx hxs
    (by intro y ys h
        simp only [List.cons.injEq] at h
        rw [← h.1]
        decide), h1]

theorem validVar_cons (V : Str) (h : validVar V = true) :
    ∃ x xs, V = x :: xs ∧ varFirst x = true ∧ ∀ y ∈ xs, varRest y = true := by
  cases V with
  | nil => simp [validVar] at h
  | cons x xs =>
    simp only [validVar, Bool.and_eq_true, List.all_eq_true] at h
    exact ⟨x, xs, rfl, h.1, h.2⟩

theorem slash_tail (R : Str) :
    ∀ y ys, '/' :: R = y :: ys → varRest y = false ∧ y ≠ Char.ofNat 0x7d := by
  intro y ys h
  simp only [List.cons.injEq] at h
  rw [← h.1]
  exact ⟨by decide, by decide⟩

theorem not_mem_slash (R : Str) (h : '$' ∉ R) : '$' ∉ '/' :: R := by
  intro hm
  rcases List.mem_cons.mp hm with e | e
  · exact absurd e (by decide)
  · exact h e

/-- A text `c P / R` that starts with a character that is neither white space nor a quote
and ends with a text `R` that has no white space at its end is left as it is. -/
theorem removeQuotes_slash (c : Char) (P R : Str) (hc : isSpace c = false)
    (hq : c ≠ '"' ∧ c ≠ '\'') (hl : ∀ d, R.getLast? = some d → isSpace d = false) :
    removeQuotes (c :: (P ++ '/' :: R)) = c :: (P ++ '/' :: R) := by
  apply removeQuotes_id c _ hc _ hq
  intro d hd
  have hd1 : ((c :: P) ++ '/' :: R).getLast? = some d := hd
  rw [getLast?_append_cons] at hd1
  cases R with
  | nil =>
    simp only [List.getLast?_singleton, Option.some.injEq] at hd1
    rw [← hd1]
    decide
  | cons a R =>
    rw [List.getLast?_cons_cons] at hd1
    exact hl d hd1

/-- The resolution of a path that is, without quotes, `$V/R` for a variable name `V` and a
text `R` without `$`. -/
theorem ResolvePath_plain_ref (r : PathResolver) (p V R : Str) (hV : validVar V = true)
    (hq : removeQuotes p = '$' :: (V ++ '/' :: R)) (hR : '$' ∉ R) :
    r.ResolvePath p = (r.valueOf V).bind (fun v =>
      if IsAbs (Clean (v ++ '/' :: R)) = true then some (Clean (v ++ '/' :: R)) else none) := by
  obtain ⟨x, xs, e, hx, hxs⟩ := validVar_cons V hV
  subst e
  exact ResolvePath_ref r p (x :: xs) ('/' :: R) (x :: xs) hq
    (refAt_plain x xs _ hx hxs (slash_tail R)) (not_mem_slash R hR)

/-- The resolution of a path that is, without quotes, `$\x7bV\x7d/R` for a variable name
`V` and a text `R` without `$`. -/
theorem ResolvePath_brace_ref (r : PathResolver) (p V R : Str) (hV : validVar V = true)
    (hq : removeQuotes p = '$' :: Char.ofNat 0x7b :: (V ++ Char.ofNat 0x7d :: '/' :: R))
    (hR : '$' ∉ R) :
    r.ResolvePath p = (r.valueOf V).bind (fun v =>
      if IsAbs (Clean (v ++ '/' :: R)) = true then some (Clean (v ++ '/' :: R)) else none) := by
  obtain ⟨x, xs, e, hx, hxs⟩ := validVar_cons V hV
  subst e
  have hq2 : removeQuotes p
      = '$' :: (Char.ofNat 0x7b :: (x :: xs ++ [Char.ofNat 0x7d])) ++ '/' :: R := by
    rw [hq]
    simp
  have href : refAt ('$' :: (Char.ofNat 0x7b :: (x :: xs ++ [Char.ofNat 0x7d])) ++ '/' :: R)
      = some (x :: xs, '/' :: R) := by
    have := refAt_brace x xs ('/' :: R) hx hxs
    simpa using this
  exact ResolvePath_ref r p _ ('/' :: R) (x :: xs) hq2 href (not_mem_slash R hR)

theorem valueOf_HOME (r : PathResolver) : r.valueOf "HOME".toList = some r.homeDir := rfl

theorem valueOf_custom (r : PathResolver) (V : Str) (h1 : V ≠ "HOME".toList)
    (h2 : V ≠ "XDG_CONFIG_HOME".toList) : r.valueOf V = mapGet r.customVars V := by
  unfold PathResolver.valueOf
  rw [if_neg h1, if_neg h2]

theorem valueOf_SetVariable (r : PathResolver) (V A : Str) (h1 : V ≠ "HOME".toList)
    (h2 : V ≠ "XDG_CONFIG_HOME".toList) : (r.SetVariable V A).valueOf V = some A := by
  rw [valueOf_custom _ V h1 h2]
  simp [PathResolver.SetVariable, mapGet_mapSet]

end ResolveClaims

/-- C27: whenever `ResolvePath` returns a path, the path is absolute and lexically
normalised: a slash followed by segments joined by slashes, none of them empty, `.` or `..`;
and an input that is empty, or that after `removeQuotes` (trimming and quote stripping)
does not start with `/`, is not `~`, does not start with `~/` and holds no `$`, has no
result. -/
theorem resolved_path_is_absolute_and_normalised (r : PathResolver) (p : Str) :
    (∀ out, r.ResolvePath p = some out → IsAbs out = true ∧ NormalAbs out) ∧
    ((p = [] ∨ (HasPrefix (removeQuotes p) ['/'] = false ∧ removeQuotes p ≠ ['~'] ∧
        HasPrefix (removeQuotes p) "~/".toList = false ∧ '$' ∉ removeQuotes p)) →
      r.ResolvePath p = none) := by
  constructor
  · intro out h
    obtain ⟨e, he⟩ := ResolvePath_some r p out h
    rw [he]
    exact ⟨IsAbs_Clean e, Clean_rooted e⟩
  · intro h
    rcases h with h | ⟨h1, h2, h3, h4⟩
    · rw [h]
      rfl
    · exact ResolvePath_relative r p h1 h2 h3 h4

/-- The path `/a/./b/../c//d/` resolves to the normalised `/a/c/d`, and `a/b` does not
resolve. -/
theorem resolved_path_is_absolute_and_normalised_witness :
    (IsAbs "/a/c/d".toList = true ∧ NormalAbs "/a/c/d".toList) ∧
    (NewPathResolver "/home/u".toList []).ResolvePath "a/b".toList = none :=
  ⟨(resolved_path_is_absolute_and_normalised (NewPathResolver "/home/u".toList [])
      "/a/./b/../c//d/".toList).1 "/a/c/d".toList (by decide!),
   (resolved_path_is_absolute_and_normalised (NewPathResolver "/home/u".toList [])
      "a/b".toList).2 (Or.inr ⟨by decide!, by decide!, by decide!, by decide!⟩)⟩

/-! ## Spellings of one path -/

/-- The three spellings `~/S`, `$HOME/S` and `$\x7bHOME\x7d/S`, as what is left of a path
without its quotes. -/
theorem ResolvePath_home_spelling (r : PathResolver) (h S p q : Str) (hH : r.homeDir = '/' :: h)
    (hd : '$' ∉ h) (hS : '$' ∉ S)
    (hq : q ∈ ["~/".toList ++ S, "$HOME/".toList ++ S, "$\x7bHOME\x7d/".toList ++ S])
    (hp : removeQuotes p = q) : r.ResolvePath p = some (Clean (r.homeDir ++ '/' :: S)) := by
  have habs : IsAbs (Clean (r.homeDir ++ '/' :: S)) = true := by
    rw [hH]
    exact IsAbs_Clean _
  simp only [List.mem_cons, List.mem_singleton, List.not_mem_nil, or_false] at hq
  rcases hq with e | e | e
  · rw [hH]
    exact ResolvePath_tilde r p h S (hp.trans e) hH hd hS
  · rw [ResolvePath_plain_ref r p "HOME".toList S (by decide) (hp.trans e) hS, valueOf_HOME]
    simp only [Option.some_bind, habs, if_true]
  · rw [ResolvePath_brace_ref r p "HOME".toList S (by decide) (hp.trans e) hS, valueOf_HOME]
    simp only [Option.some_bind, habs, if_true]

/-- C28: equivalent spellings of a home-relative path.  With an absolute home directory
without `$`, for every suffix `S` without `$` and without white space at its end,
`ResolvePath` on `~/S`, `$HOME/S`, `$\x7bHOME\x7d/S` and on each of them in one pair of double
or single quotes returns the same path, the clean form of the home directory, `/` and `S`;
and `ResolvePath` on `~` returns the clean form of the home directory. -/
theorem home_spellings_agree (r : PathResolver) (h S : Str) (hH : r.homeDir = '/' :: h)
    (hd : '$' ∉ h) (hS : '$' ∉ S) (hl : ∀ d, S.getLast? = some d → isSpace d = false) :
    (∀ p ∈ ["~/".toList ++ S, "$HOME/".toList ++ S, "$\x7bHOME\x7d/".toList ++ S],
      r.ResolvePath p = some (Clean (r.homeDir ++ '/' :: S)) ∧
      r.ResolvePath ('"' :: p ++ ['"']) = some (Clean (r.homeDir ++ '/' :: S)) ∧
      r.ResolvePath ('\'' :: p ++ ['\'']) = some (Clean (r.homeDir ++ '/' :: S))) ∧
    r.ResolvePath "~".toList = some (Clean r.homeDir) := by
  refine ⟨fun p hp => ⟨?_, ?_, ?_⟩, ?_⟩
  · apply ResolvePath_home_spelling r h S p p hH hd hS hp
    simp only [List.mem_cons, List.mem_singleton, List.not_mem_nil, or_false] at hp
    rcases hp with e | e | e
    · rw [e]
      exact removeQuotes_slash '~' [] S (by decide) ⟨by decide, by decide⟩ hl
    · rw [e]
      exact removeQuotes_slash '$' "HOME".toList S (by decide) ⟨by decide, by decide⟩ hl
    · rw [e]
      exact removeQuotes_slash '$' "\x7bHOME\x7d".toList S (by decide) ⟨by decide, by decide⟩ hl
  · exact ResolvePath_home_spelling r h S _ p hH hd hS hp (removeQuotes_quoted '"' p (Or.inl rfl))
  · exact ResolvePath_home_spelling r h S _ p hH hd hS hp (removeQuotes_quoted '\'' p (Or.inr rfl))
  · rw [hH]
    exact ResolvePath_tilde_only r h hH hd

/-- The spellings of `.config/../.zshrc` under the home directory `/home/u`. -/
theorem home_spellings_agree_witness :
    (∀ p ∈ ["~/".toList ++ ".config/../.zshrc".toList, "$HOME/".toList ++ ".config/../.zshrc".toList,
        "$\x7bHOME\x7d/".toList ++ ".config/../.zshrc".toList],
      (NewPathResolver "/home/u".toList []).ResolvePath p
        = some (Clean ((NewPathResolver "/home/u".toList []).homeDir ++ '/' :: ".config/../.zshrc".toList)) ∧
      (NewPathResolver "/home/u".toList []).ResolvePath ('"' :: p ++ ['"'])
        = some (Clean ((NewPathResolver "/home/u".toList []).homeDir ++ '/' :: ".config/../.zshrc".toList)) ∧
      (NewPathResolver "/home/u".toList []).ResolvePath ('\'' :: p ++ ['\''])
        = some (Clean ((NewPathResolver "/home/u".toList []).homeDir ++ '/' :: ".config/../.zshrc".toList))) ∧
    (NewPathResolver "/home/u".toList []).ResolvePath "~".toList
      = some (Clean (NewPathResolver "/home/u".toList []).homeDir) :=
  home_spellings_agree (NewPathResolver "/home/u".toList []) "home/u".toList
    ".config/../.zshrc".toList rfl (by decide) (by decide)
    (fun d hd => by cases (Option.some.inj hd); decide)

/-- C29, as written, at `V = /a` and the suffix `rc ` that ends with a blank: `$V/rc `
resolves to `/a/rc`, which is not the clean form `/a/rc ` of the value, `/` and the
suffix. -/
theorem registered_variable_suffix_is_trimmed :
    ((NewPathResolver "/home/u".toList []).SetVariable "V".toList "/a".toList).ResolvePath
        "$V/rc ".toList = some "/a/rc".toList ∧
    Clean ("/a".toList ++ '/' :: "rc ".toList) = "/a/rc ".toList ∧
    ((NewPathResolver "/home/u".toList []).SetVariable "V".toList "/a".toList).ResolvePath
        "$V/rc ".toList ≠ some (Clean ("/a".toList ++ '/' :: "rc ".toList)) := by
  decide!

/-- C29, amended: for every variable name `V` of the shape `[A-Z_][A-Z0-9_]*` other than
`HOME` and `XDG_CONFIG_HOME` that is not set in the resolver, every absolute value `A` and
every suffix `R` without `$` and without white space at its end: `$V/R` does not resolve
before `SetVariable(V, A)`, and after it `$V/R` and `$\x7bV\x7d/R` resolve to the clean form
of `A`, `/` and `R`. -/
theorem registered_variable_resolves (r : PathResolver) (V A R : Str)
    (hV : validVar V = true) (h1 : V ≠ "HOME".toList) (h2 : V ≠ "XDG_CONFIG_HOME".toList)
    (h3 : mapGet r.customVars V = none) (hA : IsAbs A = true) (hR : '$' ∉ R)
    (hl : ∀ d, R.getLast? = some d → isSpace d = false) :
    r.ResolvePath ('$' :: V ++ '/' :: R) = none ∧
    (r.SetVariable V A).ResolvePath ('$' :: V ++ '/' :: R) = some (Clean (A ++ '/' :: R)) ∧
    (r.SetVariable V A).ResolvePath ("$\x7b".toList ++ V ++ "\x7d/".toList ++ R)
      = some (Clean (A ++ '/' :: R)) := by
  have hq1 : removeQuotes ('$' :: V ++ '/' :: R) = '$' :: (V ++ '/' :: R) :=
    removeQuotes_slash '$' V R (by decide) ⟨by decide, by decide⟩ hl
  have hq2 : removeQuotes ("$\x7b".toList ++ V ++ "\x7d/".toList ++ R)
      = '$' :: Char.ofNat 0x7b :: (V ++ Char.ofNat 0x7d :: '/' :: R) := by
    have := removeQuotes_slash '$' (Char.ofNat 0x7b :: (V ++ [Char.ofNat 0x7d])) R (by decide)
      ⟨by decide, by decide⟩ hl
    have e : "$\x7b".toList ++ V ++ "\x7d/".toList ++ R
        = '$' :: (Char.ofNat 0x7b :: (V ++ [Char.ofNat 0x7d]) ++ '/' :: R) := by
      simp
    rw [e, this]
    simp
  have habs : IsAbs (Clean (A ++ '/' :: R)) = true := by
    cases A with
    | nil => exact IsAbs_Clean _
    | cons a A =>
      have : a = '/' := by simpa [IsAbs, HasPrefix] using hA
      rw [this]
      exact IsAbs_Clean _
  refine ⟨?_, ?_, ?_⟩
  · rw [ResolvePath_plain_ref r _ V R hV hq1 hR, valueOf_custom r V h1 h2, h3]
    rfl
  · rw [ResolvePath_plain_ref _ _ V R hV hq1 hR, valueOf_SetVariable r V A h1 h2]
    simp only [Option.some_bind, habs, if_true]
  · rw [ResolvePath_brace_ref _ _ V R hV hq2 hR, valueOf_SetVariable r V A h1 h2]
    simp only [Option.some_bind, habs, if_true]

/-- The variable `MYVAR`, set to `/custom/path`, and the suffix `sub/../file`. -/
theorem registered_variable_resolves_witness :
    (NewPathResolver "/home/u".toList []).ResolvePath
        ('$' :: "MYVAR".toList ++ '/' :: "sub/../file".toList) = none ∧
    ((NewPathResolver "/home/u".toList []).SetVariable "MYVAR".toList
        "/custom/path".toList).ResolvePath ('$' :: "MYVAR".toList ++ '/' :: "sub/../file".toList)
      = some (Clean ("/custom/path".toList ++ '/' :: "sub/../file".toList)) ∧
    ((NewPathResolver "/home/u".toList []).SetVariable "MYVAR".toList
        "/custom/path".toList).ResolvePath
          ("$\x7b".toList ++ "MYVAR".toList ++ "\x7d/".toList ++ "sub/../file".toList)
      = some (Clean ("/custom/path".toList ++ '/' :: "sub/../file".toList)) :=
  registered_variable_resolves (NewPathResolver "/home/u".toList []) "MYVAR".toList
    "/custom/path".toList "sub/../file".toList (by decide) (by decide) (by decide) rfl
    (by decide) (by decide) (fun d hd => by cases (Option.some.inj hd); decide)

/-- C30, as written, at the example of the claim: with `D` set to `$HOME/x`, the path
`$D/rc` does not resolve, and its expansion is `$HOME/x/rc`, the nested reference still in
it. -/
theorem nested_reference_example :
    ((NewPathResolver "/home/u".toList []).SetVariable "D".toList "$HOME/x".toList).ResolvePath
        "$D/rc".toList = none ∧
    ((NewPathResolver "/home/u".toList []).SetVariable "D".toList
        "$HOME/x".toList).expandVariables "$D/rc".toList = some "$HOME/x/rc".toList := by
  decide!

/-- C30, amended: no nested expansion.  When a variable `V` (a name of the shape
`[A-Z_][A-Z0-9_]*` other than `HOME` and `XDG_CONFIG_HOME`) is set to a literal value that
starts with a reference, that is with `$`, a path `$V/R` (`R` without `$` and without white
space at its end) is expanded to the literal value followed by `/R`, the nested reference
is left as it is, and the path does not resolve. -/
theorem nested_reference_is_not_expanded (r : PathResolver) (V w R : Str)
    (hV : validVar V = true) (h1 : V ≠ "HOME".toList) (h2 : V ≠ "XDG_CONFIG_HOME".toList)
    (hR : '$' ∉ R) (hl : ∀ d, R.getLast? = some d → isSpace d = false) :
    (r.SetVariable V ('$' :: w)).expandVariables ('$' :: V ++ '/' :: R)
      = some ('$' :: w ++ '/' :: R) ∧
    (r.SetVariable V ('$' :: w)).ResolvePath ('$' :: V ++ '/' :: R) = none := by
  have hq1 : removeQuotes ('$' :: V ++ '/' :: R) = '$' :: (V ++ '/' :: R) :=
    removeQuotes_slash '$' V R (by decide) ⟨by decide, by decide⟩ hl
  obtain ⟨x, xs, e, hx, hxs⟩ := validVar_cons V hV
  constructor
  · subst e
    have := expandVariables_single (r.SetVariable (x :: xs) ('$' :: w)) (x :: xs) ('/' :: R)
      (x :: xs) (refAt_plain x xs _ hx hxs (slash_tail R)) (not_mem_slash R hR)
    rw [valueOf_SetVariable r _ _ h1 h2] at this
    exact this
  · rw [ResolvePath_plain_ref _ _ V R hV hq1 hR, valueOf_SetVariable r V _ h1 h2]
    have : IsAbs (Clean ('$' :: w ++ '/' :: R)) = false :=
      Clean_not_rooted _ (by simp [HasPrefix])
    simp only [Option.some_bind, this]
    rfl

/-- The variable `D`, set to `$HOME/x`, in the path `$D/rc`. -/
theorem nested_reference_is_not_expanded_witness :
    ((NewPathResolver "/home/u".toList []).SetVariable "D".toList
        ('$' :: "HOME/x".toList)).expandVariables ('$' :: "D".toList ++ '/' :: "rc".toList)
      = some ('$' :: "HOME/x".toList ++ '/' :: "rc".toList) ∧
    ((NewPathResolver "/home/u".toList []).SetVariable "D".toList
        ('$' :: "HOME/x".toList)).ResolvePath ('$' :: "D".toList ++ '/' :: "rc".toList) = none :=
  nested_reference_is_not_expanded (NewPathResolver "/home/u".toList []) "D".toList
    "HOME/x".toList "rc".toList (by decide) (by decide) (by decide) (by decide)
    (fun d hd => by cases (Option.some.inj hd); decide)

/-! ## Lazy repetition, greedy repetition that gives back, and sequences -/

section Engine2

open Regex

variable {α : Type}

theorem run_seqs_cons (n : Nat) (a b : Regex) (l : List Regex) (s : Str) (c : Caps)
    (k : Str → Caps → Option α) :
    run n (seqs (a :: b :: l)) s c k = run n a s c (fun s1 c1 => run n (seqs (b :: l)) s1 c1 k) :=
  rfl

theorem run_seq (n : Nat) (a b : Regex) (s : Str) (c : Caps) (k : Str → Caps → Option α) :
    run n (seq a b) s c k = run n a s c (fun s1 c1 => run n b s1 c1 k) := rfl

theorem run_alt (n : Nat) (a b : Regex) (s : Str) (c : Caps) (k : Str → Caps → Option α) :
    run n (alt a b) s c k = (run n a s c k).orElse (fun _ => run n b s c k) := rfl

theorem run_opt_some (n : Nat) (a : Regex) (s : Str) (c : Caps) (k : Str → Caps → Option α)
    (r : α) (h : run n a s c k = some r) : run n (opt a) s c k = some r := by
  show (run n a s c k).orElse _ = some r
  rw [h]
  rfl

theorem run_lit_none (n : Nat) (t s : Str) (c : Caps) (k : Str → Caps → Option α)
    (h : HasPrefix s t = false) : run n (lit t) s c k = none := by
  rw [run_lit, h]
  rfl

/-- One or more characters of a class, at a text that starts with none. -/
theorem run_plus_none (n : Nat) (p : Char → Bool) (g : Bool) (s : Str) (c : Caps)
    (k : Str → Caps → Option α) (h : ∀ y ys, s = y :: ys → p y = false) :
    run n (plus (char p) g) s c k = none := by
  cases s with
  | nil => rfl
  | cons y ys =>
    show run n (char p) (y :: ys) c (fun s1 c1 => run n (star (char p) g) s1 c1 k) = none
    rw [run_char_cons, if_neg (by rw [h y ys rfl]; simp)]

/-- White space, one or more, at one blank before a text that starts with none. -/
theorem run_plus_ws_blank (n : Nat) (rest : Str) (c : Caps) (k : Str → Caps → Option α)
    (h : ∀ y ys, rest = y :: ys → ws y = false) :
    run n (plus (char ws) true) (' ' :: rest) c k = k rest c := by
  show run n (char ws) (' ' :: rest) c (fun s1 c1 => run n (star (char ws) true) s1 c1 k) = _
  rw [run_char_cons, if_pos (by decide), run_star_stop n ws true rest c k h]

theorem starLoop_char_none (n : Nat) (p : Char → Bool) (g : Bool) (fuel : Nat) (s : Str)
    (c : Caps) (k : Str → Caps → Option α) (h : ∀ t, t <:+ s → k t c = none) :
    starLoop (fun s1 c1 k1 => run n (char p) s1 c1 k1) g fuel s c k = none := by
  induction fuel generalizing s with
  | zero => exact h s (List.suffix_refl s)
  | succ fuel ih =>
    have hmore : run n (char p) s c
        (fun s1 c1 => if s1.length < s.length then
          starLoop (fun s1 c1 k1 => run n (char p) s1 c1 k1) g fuel s1 c1 k else none) = none := by
      cases s with
      | nil => rfl
      | cons y ys =>
        rw [run_char_cons]
        split
        · rw [if_pos (by simp)]
          exact ih ys (fun t ht => h t (ht.trans (List.suffix_cons y ys)))
        · rfl
    simp only [starLoop, hmore, h s (List.suffix_refl s)]
    cases g <;> rfl

/-- A lazy repetition of a character class stops at the first place where the rest of the
expression matches. -/
theorem starLoop_char_lazy (n : Nat) (p : Char → Bool) (a b : Str) (c : Caps)
    (k : Str → Caps → Option α) (r : α) (ha : ∀ x ∈ a, p x = true)
    (hfail : ∀ a1 a2, a = a1 ++ a2 → a2 ≠ [] → k (a2 ++ b) c = none)
    (hk : k b c = some r) (fuel : Nat) (hf : a.length < fuel) :
    starLoop (fun s1 c1 k1 => run n (char p) s1 c1 k1) false fuel (a ++ b) c k = some r := by
  induction a generalizing fuel with
  | nil =>
    cases fuel with
    | zero => simp at hf
    | succ fuel =>
      simp only [starLoop, List.nil_append, hk]
      rfl
  | cons x a ih =>
    cases fuel with
    | zero => simp at hf
    | succ fuel =>
      have hx : p x = true := ha x (List.mem_cons_self _ _)
      have hf1 : a.length < fuel := by
        simp only [List.length_cons] at hf
        omega
      have h0 : k (x :: (a ++ b)) c = none := hfail [] (x :: a) rfl (by simp)
      have := ih (fun y hy => ha y (List.mem_cons_of_mem _ hy))
        (fun a1 a2 e hne => hfail (x :: a1) a2 (by rw [e]; rfl) hne) fuel hf1
      show (k (x :: (a ++ b)) c).orElse (fun _ => run n (char p) (x :: (a ++ b)) c (fun s1 c1 =>
          if s1.length < (x :: (a ++ b)).length then
            starLoop (fun s1 c1 k1 => run n (char p) s1 c1 k1) false fuel s1 c1 k
          else none)) = some r
      rw [h0, run_char_cons, if_pos hx, if_pos (by simp), this]
      rfl

/-- The group `(p+?)` captures the shortest text `x :: xs` after which the rest of the
expression matches. -/
theorem run_group_lazy (n i : Nat) (p : Char → Bool) (x : Char) (xs b : Str) (c : Caps)
    (k : Str → Caps → Option α) (r : α) (hx : p x = true) (hxs : ∀ y ∈ xs, p y = true)
    (hfail : ∀ a1 a2, xs = a1 ++ a2 → a2 ≠ [] → ∀ c1, k (a2 ++ b) c1 = none)
    (hk : k b (c.set i (some (x :: xs))) = some r) :
    run n (group i (plus (char p) false)) (x :: xs ++ b) c k = some r := by
  show run n (char p) (x :: (xs ++ b)) c (fun s1 c1 =>
    starLoop (fun s2 c2 k2 => run n (char p) s2 c2 k2) false (s1.length + 1) s1 c1
      (fun s3 c3 => k s3 (c3.set i (some ((x :: (xs ++ b)).take
        ((x :: (xs ++ b)).length - s3.length)))))) = some r
  rw [run_char_cons, if_pos hx]
  refine starLoop_char_lazy n p xs b c (fun s3 c3 => k s3 (c3.set i (some
    ((x :: (xs ++ b)).take ((x :: (xs ++ b)).length - s3.length))))) r hxs
    (fun a1 a2 e hne => hfail a1 a2 e hne _) ?_ _ (by simp only [List.length_append]; omega)
  have : (x :: (xs ++ b)).length - b.length = xs.length + 1 := by
    simp only [List.length_cons, List.length_append]
    omega
  simp only [this, List.take_succ_cons, List.take_left']
  exact hk

/-- A greedy repetition of a character class gives back characters down to the last place
where the rest of the expression matches. -/
theorem starLoop_char_back (n : Nat) (p : Char → Bool) (a b : Str) (c : Caps)
    (k : Str → Caps → Option α) (r : α) (ha : ∀ x ∈ a, p x = true)
    (hfail : ∀ t, t <:+ b → t.length < b.length → k t c = none)
    (hk : k b c = some r) (fuel : Nat) (hf : a.length < fuel) :
    starLoop (fun s1 c1 k1 => run n (char p) s1 c1 k1) true fuel (a ++ b) c k = some r := by
  induction a generalizing fuel with
  | nil =>
    cases fuel with
    | zero => simp at hf
    | succ fuel =>
      have hmore : run n (char p) b c
          (fun s1 c1 => if s1.length < b.length then
            starLoop (fun s1 c1 k1 => run n (char p) s1 c1 k1) true fuel s1 c1 k else none)
          = none := by
        cases b with
        | nil => rfl
        | cons y ys =>
          rw [run_char_cons]
          split
          · rw [if_pos (by simp)]
            apply starLoop_char_none
            intro t ht
            exact hfail t (ht.trans (List.suffix_cons y ys))
              (by have := ht.length_le; simp only [List.length_cons]; omega)
          · rfl
      simp only [starLoop, List.nil_append, hmore, hk]
      rfl
  | cons x a ih =>
    cases fuel with
    | zero => simp at hf
    | succ fuel =>
      have hx : p x = true := ha x (List.mem_cons_self _ _)
      have hf1 : a.length < fuel := by
        simp only [List.length_cons] at hf
        omega
      have := ih (fun y hy => ha y (List.mem_cons_of_mem _ hy)) fuel hf1
      show (run n (char p) (x :: (a ++ b)) c (fun s1 c1 =>
          if s1.length < (x :: (a ++ b)).length then
            starLoop (fun s1 c1 k1 => run n (char p) s1 c1 k1) true fuel s1 c1 k
          else none)).orElse (fun _ => k (x :: (a ++ b)) c) = some r
      rw [run_char_cons, if_pos hx, if_pos (by simp), this]
      rfl

theorem run_star_back (n : Nat) (p : Char → Bool) (a b : Str) (c : Caps)
    (k : Str → Caps → Option α) (r : α) (ha : ∀ x ∈ a, p x = true)
    (hfail : ∀ t, t <:+ b → t.length < b.length → k t c = none)
    (hk : k b c = some r) : run n (star (char p) true) (a ++ b) c k = some r := by
  simp only [run]
  exact starLoop_char_back n p a b c k r ha hfail hk _
    (by simp only [List.length_append]; omega)

theorem HasPrefix_iff (s t : Str) : HasPrefix s t = true ↔ ∃ u, s = t ++ u := by
  induction t generalizing s with
  | nil => cases s <;> simp [HasPrefix]
  | cons a t ih =>
    cases s with
    | nil => simp [HasPrefix]
    | cons x xs =>
      simp only [HasPrefix, Bool.and_eq_true, decide_eq_true_eq, ih, List.cons_append,
        List.cons.injEq]
      constructor
      · rintro ⟨e, u, hu⟩
        exact ⟨u, e, hu⟩
      · rintro ⟨u, e, hu⟩
        exact ⟨e, u, hu⟩

/-- A key word `source` or `.` with white space after it is not found at a text in which
neither word is followed by white space. -/
theorem run_keyword_none (n : Nat) (t : Str) (c : Caps) (k : Str → Caps → Option α)
    (h : ∀ kw, kw = "source".toList ∨ kw = ".".toList →
      ∀ y ys, t = kw ++ y :: ys → ws y = false) :
    run n (alt (lit "source".toList) (lit ".".toList)) t c
      (fun s1 c1 => run n (plus (char ws) true) s1 c1 k) = none := by
  have hone : ∀ kw, kw = "source".toList ∨ kw = ".".toList →
      run n (lit kw) t c (fun s1 c1 => run n (plus (char ws) true) s1 c1 k) = none := by
    intro kw hkw
    rw [run_lit]
    split
    · rename_i hp
      obtain ⟨u, hu⟩ := (HasPrefix_iff t kw).mp hp
      rw [hu, List.drop_left']
      · exact run_plus_none n ws true u c k (fun y ys e => h kw hkw y ys (by rw [hu, e]))
      · rfl
    · rfl
  rw [run_alt, hone _ (Or.inl rfl), hone _ (Or.inr rfl)]
  rfl

end Engine2

/-! ## Direct includes -/

section Direct

open Regex

variable {α : Type}

theorem suffix_append_cases (s A B : Str) (h : s <:+ A ++ B) :
    s <:+ B ∨ ∃ a A1, s = a :: A1 ∧ a ∈ A := by
  induction A with
  | nil => exact Or.inl h
  | cons x A ih =>
    rcases List.suffix_cons_iff.mp h with e | e
    · exact Or.inr ⟨x, A ++ B, e, List.mem_cons_self _ _⟩
    · rcases ih e with h1 | ⟨a, A1, h1, h2⟩
      · exact Or.inl h1
      · exact Or.inr ⟨a, A1, h1, List.mem_cons_of_mem _ h2⟩

/-- The expression for a guarded include finds nothing in a text whose every `[` is in a
last part without white space. -/
theorem conditionalPattern_none_of (A B : Str) (hA : '[' ∉ A) (hB : ∀ c ∈ B, ws c = false) :
    FindStringSubmatch conditionalPattern 2 (A ++ B) = none := by
  apply findFrom_none
  intro t ht c k
  unfold conditionalPattern
  rw [run_seqs_cons]
  apply run_none_of_cont
  intro s1 c1 hs1
  rw [run_seqs_cons, run_lit]
  split
  · rename_i hp
    obtain ⟨s2, e2⟩ := (HasPrefix_iff s1 _).mp hp
    have hsuf : s2 <:+ B := by
      rcases suffix_append_cases s1 A B (hs1.trans ht) with h1 | ⟨a, A1, h1, h2⟩
      · exact (List.suffix_cons '[' s2).trans (by rw [e2] at h1; exact h1)
      · exfalso
        rw [e2] at h1
        simp only [String.toList, List.cons_append, List.nil_append, List.cons.injEq] at h1
        exact hA (by rw [h1.1]; exact h2)
    rw [e2]
    simp only [String.toList, List.cons_append, List.nil_append, List.length_singleton,
      List.drop_succ_cons, List.drop_zero]
    rw [run_seqs_cons]
    apply run_none_of_cont
    intro s3 c3 hs3
    rw [run_seqs_cons]
    apply run_plus_none
    intro y ys e
    exact hB y ((hs3.trans hsuf).subset (by rw [e]; exact List.mem_cons_self _ _))
  · rfl

/-- The expression for a direct include on a text `. X` where `X` starts with a character
that is no white space. -/
theorem run_dot_head (n : Nat) (b : Str) (c : Caps) (k : Str → Caps → Option α)
    (X : Regex) (hn : (". ".toList ++ b).length = n)
    (hb : ∀ y ys, b = y :: ys → ws y = false) :
    run n (seqs [bol, star (char ws) true,
        group 1 (alt (lit "source".toList) (lit ".".toList)), plus (char ws) true, X])
        (". ".toList ++ b) c k
      = run n X b (c.set 1 (some ".".toList)) k := by
  show run n bol (". ".toList ++ b) c (fun s1 c1 => run n (star (char ws) true) s1 c1
    (fun s2 c2 => run n (group 1 (alt (lit "source".toList) (lit ".".toList))) s2 c2
      (fun s3 c3 => run n (char ws) s3 c3
        (fun s4 c4 => run n (star (char ws) true) s4 c4
          (fun s5 c5 => run n X s5 c5 k))))) = _
  rw [show ∀ (K : Str → Caps → Option α), run n bol
      (". ".toList ++ b) c K = K (". ".toList ++ b) c from fun K => by
        simp only [run, hn, if_true]]
  rw [run_star_stop _ ws true (". ".toList ++ b) c _
    (by intro y ys h; simp only [String.toList, List.cons_append, List.cons.injEq] at h
        rw [← h.1]; decide)]
  have hg : ∀ (K : Str → Caps → Option α),
      run n (group 1 (alt (lit "source".toList) (lit ".".toList)))
        (". ".toList ++ b) c K = K (' ' :: b) (c.set 1 (some ".".toList)) := by
    intro K
    show (run n (lit "source".toList) (". ".toList ++ b) c (fun s1 c1 => K s1 (c1.set 1
        (some ((". ".toList ++ b).take ((". ".toList ++ b).length - s1.length)))))).orElse
      (fun _ => run n (lit ".".toList) (".".toList ++ (' ' :: b)) c (fun s1 c1 => K s1 (c1.set 1
        (some ((". ".toList ++ b).take ((". ".toList ++ b).length - s1.length)))))) = _
    have h1 : HasPrefix (". ".toList ++ b) "source".toList = false := rfl
    rw [run_lit_none n "source".toList (". ".toList ++ b) _ _ h1, run_lit_append]
    have h2 : ((". ".toList ++ b).length - (' ' :: b).length) = 1 := by
      simp
    have h3 : List.take 1 (". ".toList ++ b) = ".".toList := rfl
    simp only [h2, h3]
    rfl
  rw [hg, run_char_cons, if_pos (by decide), run_star_stop _ ws true b _ _ hb]

/-- On `source P` and on `. P` the expression for a direct include matches, with the key
word and `P` as the groups. -/
theorem sourcePattern_match_keyword (kw : Str) (p : Char) (ps : Str)
    (hkw : kw = "source".toList ∨ kw = ".".toList) (hp : ws p = false)
    (hd : ∀ y ∈ p :: ps, y ≠ '\n') :
    FindStringSubmatch sourcePattern 2 (kw ++ ' ' :: p :: ps)
      = some ⟨kw ++ ' ' :: p :: ps, [], [none, some kw, some (p :: ps)]⟩ := by
  have hb : ∀ y ys, p :: ps = y :: ys → ws y = false := by
    intro y ys h
    simp only [List.cons.injEq] at h
    rw [← h.1]
    exact hp
  rcases hkw with e | e
  · subst e
    exact sourcePattern_match p ps hp hd
  · subst e
    have hrun := run_dot_head (". ".toList ++ p :: ps).length (p :: ps)
      (List.replicate (2 + 1) none)
      (fun s1 c1 => some (Match.mk (". ".toList ++ p :: ps) s1 c1))
      (group 2 (plus (char dot) true)) rfl hb
    rw [run_group_rest _ 2 p ps _ _ _ (fun y hy => dot_of_ne y (hd y hy)) rfl] at hrun
    exact findFrom_of_run _ 2 _ _ _ hrun

theorem removeTrailingCommentLoop_no_hash (s : Str) (sq dq esc : Bool) (h : '#' ∉ s) :
    removeTrailingCommentLoop s sq dq esc = none := by
  induction s generalizing sq dq esc with
  | nil => rfl
  | cons c s ih =>
    have hc : c ≠ '#' := fun e => h (by rw [e]; exact List.mem_cons_self _ _)
    have hs : '#' ∉ s := fun hm => h (List.mem_cons_of_mem _ hm)
    simp only [removeTrailingCommentLoop, ih _ _ _ hs, Option.map_none', hc, false_and,
      if_false, ite_self]

theorem trimRightBy_id (p : Char → Bool) (s : Str)
    (h : ∀ d, s.getLast? = some d → p d = false) : trimRightBy p s = s := by
  induction s using List.reverseRecOn with
  | nil => rfl
  | append_singleton s d _ =>
    exact trimRightBy_concat_of_not p s d (h d (List.getLast?_concat _))

theorem tokenChar_cases (c : Char) (h : tokenChar c = true) :
    isSpace c = false ∧ c ≠ '#' ∧ c ≠ ';' ∧ c ≠ '\\' := by
  simpa [tokenChar, and_assoc] using h

theorem TrimSpace_of_ends (s : Str) (h1 : ∀ c cs, s = c :: cs → isSpace c = false)
    (h2 : ∀ d, s.getLast? = some d → isSpace d = false) : TrimSpace s = s := by
  cases s with
  | nil => rfl
  | cons c cs => exact TrimSpace_id c cs (h1 c cs rfl) h2

/-- A path token, with or without a `;` after it, is extracted as it is. -/
theorem extractPath_token (P sc : Str) (hPc : ∀ c ∈ P, tokenChar c = true)
    (hsc : sc = [] ∨ sc = ";".toList) : extractPath (P ++ sc) = P := by
  have hPs : TrimSpace P = P :=
    TrimSpace_of_ends P
      (fun c cs e => (tokenChar_cases c (hPc c (by rw [e]; exact List.mem_cons_self _ _))).1)
      (fun d hd => (tokenChar_cases d (hPc d (List.mem_of_mem_getLast? hd))).1)
  have hsemi : ∀ c ∈ sc, c = ';' := by
    intro c hc
    rcases hsc with e | e
    · rw [e] at hc; simp at hc
    · rw [e] at hc; simpa using hc
  have hmem : ∀ c ∈ P ++ sc, isSpace c = false ∧ c ≠ '#' := by
    intro c hc
    rcases List.mem_append.mp hc with h | h
    · exact ⟨(tokenChar_cases c (hPc c h)).1, (tokenChar_cases c (hPc c h)).2.1⟩
    · rw [hsemi c h]
      exact ⟨by decide, by decide⟩
  have ht : TrimSpace (P ++ sc) = P ++ sc :=
    TrimSpace_of_ends _
      (fun c cs e => (hmem c (by rw [e]; exact List.mem_cons_self _ _)).1)
      (fun d hd => (hmem d (List.mem_of_mem_getLast? hd)).1)
  have hr : removeTrailingComment (P ++ sc) = P ++ sc := by
    unfold removeTrailingComment
    rw [removeTrailingCommentLoop_no_hash _ _ _ _ (fun hm => (hmem _ hm).2 rfl)]
  have hcut : TrimRight (P ++ sc) ";".toList = P := by
    unfold TrimRight
    rw [trimRightBy_append_of_all _ _ _ (by intro c hc; rw [hsemi c hc]; decide)]
    apply trimRightBy_id
    intro d hd
    have := (tokenChar_cases d (hPc d (List.mem_of_mem_getLast? hd))).2.2.1
    simpa using this
  unfold extractPath
  rw [ht, hr, hcut, hPs]

/-- The include parser on a direct include of a path token. -/
theorem ParseLine_direct (W kw P sc : Str) (hW : ∀ c ∈ W, isSpace c = true)
    (hkw : kw = "source".toList ∨ kw = ".".toList) (hP : P ≠ [])
    (hPc : ∀ c ∈ P, tokenChar c = true) (hsc : sc = [] ∨ sc = ";".toList) :
    IncludeParser.ParseLine (W ++ kw ++ ' ' :: P ++ sc)
      = [{ Path := P, Conditional := false }] := by
  have hsemi : ∀ c ∈ sc, c = ';' := by
    intro c hc
    rcases hsc with e | e
    · rw [e] at hc; simp at hc
    · rw [e] at hc; simpa using hc
  have hmem : ∀ c ∈ P ++ sc, isSpace c = false := by
    intro c hc
    rcases List.mem_append.mp hc with h | h
    · exact (tokenChar_cases c (hPc c h)).1
    · rw [hsemi c h]
      decide
  obtain ⟨p, ps, hpp⟩ : ∃ p ps, P ++ sc = p :: ps := by
    cases P with
    | nil => exact absurd rfl hP
    | cons p ps => exact ⟨p, ps ++ sc, rfl⟩
  have hline : W ++ kw ++ ' ' :: P ++ sc = W ++ (kw ++ ' ' :: p :: ps) := by
    rw [← hpp]
    simp
  have hk0 : ∃ k0 ks, kw = k0 :: ks ∧ isSpace k0 = false ∧ k0 ≠ '#' := by
    rcases hkw with e | e
    · exact ⟨'s', "ource".toList, e, by decide, by decide⟩
    · exact ⟨'.', [], e, by decide, by decide⟩
  obtain ⟨k0, ks, hk, hk1, hk2⟩ := hk0
  have htrim : TrimSpace (W ++ (kw ++ ' ' :: p :: ps)) = kw ++ ' ' :: p :: ps := by
    rw [TrimSpace_spaces_append _ _ hW, hk]
    apply TrimSpace_id k0 _ hk1
    intro d hd
    have hd1 : ((k0 :: ks) ++ ' ' :: p :: ps).getLast? = some d := hd
    rw [getLast?_append_cons, List.getLast?_cons_cons] at hd1
    exact hmem d (by rw [hpp]; exact List.mem_of_mem_getLast? hd1)
  have hcond : FindStringSubmatch conditionalPattern 2 (kw ++ ' ' :: p :: ps) = none := by
    have := conditionalPattern_none_of (kw ++ [' ']) (p :: ps)
      (by rcases hkw with e | e <;> subst e <;> decide)
      (fun c hc => not_ws_of_not_isSpace c (hmem c (by rw [hpp]; exact hc)))
    simpa using this
  have hne : kw ++ ' ' :: p :: ps ≠ [] := by rw [hk]; simp
  have hhash : HasPrefix (kw ++ ' ' :: p :: ps) "#".toList = false := by
    rw [hk]
    simp [HasPrefix, hk2]
  have hsrc := sourcePattern_match_keyword kw p ps hkw
    (not_ws_of_not_isSpace p (hmem p (by rw [hpp]; exact List.mem_cons_self _ _)))
    (fun y hy e => by
      have := hmem y (by rw [hpp]; exact hy)
      rw [e] at this
      revert this
      decide)
  have hsub : (Match.mk (kw ++ ' ' :: p :: ps) [] [none, some kw, some (p :: ps)]).sub 2
      = p :: ps := rfl
  rw [hline]
  unfold IncludeParser.ParseLine
  simp only [htrim, hne, hhash, hcond, hsrc, hsub, false_or, Bool.false_eq_true, if_false]
  rw [← hpp, extractPath_token P sc hPc hsc]
  simp [hP]

end Direct

/-- C22: direct includes.  For every non-empty path token `P` without white space, `#`,
`;` or backslash, `IncludeParser.ParseLine` on `source P` and on `. P`, with any leading
white space and with an optional `;` at the end, returns exactly one result, with the path
`P` and not conditional; and so it does for `P` in one pair of double or single quotes,
where the quotes are kept in the path. -/
theorem direct_include_is_parsed (W kw P sc : Str) (hW : ∀ c ∈ W, isSpace c = true)
    (hkw : kw = "source".toList ∨ kw = ".".toList) (hP : P ≠ [])
    (hPc : ∀ c ∈ P, tokenChar c = true) (hsc : sc = [] ∨ sc = ";".toList) :
    IncludeParser.ParseLine (W ++ kw ++ ' ' :: P ++ sc)
      = [{ Path := P, Conditional := false }] ∧
    ∀ q, q = '"' ∨ q = '\'' →
      IncludeParser.ParseLine (W ++ kw ++ ' ' :: (q :: P ++ [q]) ++ sc)
        = [{ Path := q :: P ++ [q], Conditional := false }] := by
  refine ⟨ParseLine_direct W kw P sc hW hkw hP hPc hsc, fun q hq => ?_⟩
  apply ParseLine_direct W kw (q :: P ++ [q]) sc hW hkw (by simp) _ hsc
  intro c hc
  simp only [List.cons_append, List.mem_cons, List.mem_append, List.mem_singleton,
    List.not_mem_nil, or_false] at hc
  rcases hc with e | e | e
  · rcases hq with h | h <;> rw [e, h] <;> decide
  · exact hPc c e
  · rcases hq with h | h <;> rw [e, h] <;> decide

/-- The line `  . ~/.zsh/aliases[1].zsh;`, plain and with the path in quotes. -/
theorem direct_include_is_parsed_witness :
    IncludeParser.ParseLine ("  ".toList ++ ".".toList ++ ' ' :: "~/.zsh/aliases[1].zsh".toList
        ++ ";".toList)
      = [{ Path := "~/.zsh/aliases[1].zsh".toList, Conditional := false }] ∧
    ∀ q, q = '"' ∨ q = '\'' →
      IncludeParser.ParseLine ("  ".toList ++ ".".toList ++
          ' ' :: (q :: "~/.zsh/aliases[1].zsh".toList ++ [q]) ++ ";".toList)
        = [{ Path := q :: "~/.zsh/aliases[1].zsh".toList ++ [q], Conditional := false }] :=
  direct_include_is_parsed "  ".toList ".".toList "~/.zsh/aliases[1].zsh".toList ";".toList
    (by decide) (Or.inr rfl) (by decide) (by decide) (Or.inr rfl)

/-! ## Guarded includes -/

section Guarded

open Regex

variable {α : Type}

theorem guardChar_cases (c : Char) (h : guardChar c = true) :
    isSpace c = false ∧ ws c = false ∧ dot c = true ∧ c ≠ ';' ∧ c ≠ ']' ∧ c ≠ '#' ∧
      c ≠ '\\' := by
  have hn : nameRest c = true ∨ c = '~' ∨ c = '/' := by
    simp only [guardChar, Bool.or_eq_true, decide_eq_true_eq] at h
    simp only [nameRest, Bool.or_eq_true, decide_eq_true_eq]
    tauto
  have hs : isSpace c = false := by
    rcases hn with h1 | h1 | h1
    · exact nameRest_not_isSpace c h1
    · rw [h1]; decide
    · rw [h1]; decide
  refine ⟨hs, not_ws_of_not_isSpace c hs, ?_, ?_, ?_, ?_, ?_⟩
  · apply dot_of_ne
    intro e; subst e; revert hs; decide
  all_goals (intro e; subst e; revert h; decide)

theorem guardChar_tokenChar (c : Char) (h : guardChar c = true) : tokenChar c = true := by
  obtain ⟨h1, _, _, h4, _, h6, h7⟩ := guardChar_cases c h
  simp [tokenChar, h1, h4, h6, h7]

theorem blankAfterSemi_tail (x : Char) (Z : Str) (h : blankAfterSemi (x :: Z) = true) :
    blankAfterSemi Z = true := by
  cases Z with
  | nil => rfl
  | cons y rest =>
    simp only [blankAfterSemi, Bool.and_eq_true] at h
    exact h.2

theorem blankAfterSemi_suffix (t Z : Str) (h : t <:+ Z) (hZ : blankAfterSemi Z = true) :
    blankAfterSemi t = true := by
  induction Z with
  | nil =>
    rw [List.suffix_nil.mp h]
    rfl
  | cons x Z ih =>
    rcases List.suffix_cons_iff.mp h with e | e
    · rw [e]; exact hZ
    · exact ih e (blankAfterSemi_tail x Z hZ)

theorem blankAfterSemi_append (P E : Str) (hP : ∀ c ∈ P, ws c = false)
    (hE : blankAfterSemi E = true) (hE0 : ∀ y ys, E = y :: ys → ws y = false) :
    blankAfterSemi (P ++ E) = true := by
  induction P with
  | nil => exact hE
  | cons x P ih =>
    have ih1 := ih (fun c hc => hP c (List.mem_cons_of_mem _ hc))
    show blankAfterSemi (x :: (P ++ E)) = true
    cases hPE : P ++ E with
    | nil => rfl
    | cons y rest =>
      have hy : ws y = false := by
        cases P with
        | nil => exact hE0 y rest hPE
        | cons p P1 =>
          simp only [List.cons_append, List.cons.injEq] at hPE
          rw [← hPE.1]
          exact hP p (by simp)
      rw [hPE] at ih1
      simp only [blankAfterSemi, hy, Bool.not_false, Bool.true_or, Bool.true_and]
      exact ih1

/-- In such a text a word that does not end in `;` is not followed by white space. -/
theorem blankAfterSemi_word (kw : Str) (a y : Char) (ys t : Str)
    (ht : blankAfterSemi t = true) (e : t = kw ++ a :: y :: ys) (ha : a ≠ ';') :
    ws y = false := by
  induction kw generalizing t with
  | nil =>
    rw [e] at ht
    simp only [List.nil_append, blankAfterSemi, Bool.and_eq_true, Bool.or_eq_true,
      Bool.not_eq_true', decide_eq_true_eq] at ht
    rcases ht.1 with h | h
    · exact h
    · exact absurd h ha
  | cons k kw ih =>
    rw [e] at ht
    exact ih (kw ++ a :: y :: ys) (blankAfterSemi_tail k _ ht) rfl

/-- The key words are not followed by white space in such a text. -/
theorem keyword_not_in (t : Str) (ht : blankAfterSemi t = true) :
    ∀ kw, kw = "source".toList ∨ kw = ".".toList →
      ∀ y ys, t = kw ++ y :: ys → ws y = false := by
  intro kw hkw y ys e
  rcases hkw with h | h
  · exact blankAfterSemi_word "sourc".toList 'e' y ys t ht (by rw [e, h]; rfl) (by decide)
  · exact blankAfterSemi_word [] '.' y ys t ht (by rw [e, h]; rfl) (by decide)

/-- The places after the front of `kw Z`: inside the key word, where the text starts with
neither `s` nor `.`, or in `Z`. -/
theorem keyword_suffix_cases (kw Z t : Str) (hkw : kw = "source".toList ∨ kw = ".".toList)
    (h : t <:+ kw ++ ' ' :: Z) (hl : t.length < (kw ++ ' ' :: Z).length) :
    t <:+ Z ∨ ∃ c cs, t = c :: cs ∧ c ≠ 's' ∧ c ≠ '.' := by
  have hne : t ≠ kw ++ ' ' :: Z := fun e => by rw [e] at hl; exact absurd hl (lt_irrefl _)
  rcases hkw with e | e
  · subst e
    rcases List.suffix_cons_iff.mp h with h | h
    · exact absurd h hne
    rcases List.suffix_cons_iff.mp h with h | h
    · exact Or.inr ⟨_, _, h, by decide, by decide⟩
    rcases List.suffix_cons_iff.mp h with h | h
    · exact Or.inr ⟨_, _, h, by decide, by decide⟩
    rcases List.suffix_cons_iff.mp h with h | h
    · exact Or.inr ⟨_, _, h, by decide, by decide⟩
    rcases List.suffix_cons_iff.mp h with h | h
    · exact Or.inr ⟨_, _, h, by decide, by decide⟩
    rcases List.suffix_cons_iff.mp h with h | h
    · exact Or.inr ⟨_, _, h, by decide, by decide⟩
    rcases List.suffix_cons_iff.mp h with h | h
    · exact Or.inr ⟨_, _, h, by decide, by decide⟩
    exact Or.inl h
  · subst e
    rcases List.suffix_cons_iff.mp h with h | h
    · exact absurd h hne
    rcases List.suffix_cons_iff.mp h with h | h
    · exact Or.inr ⟨_, _, h, by decide, by decide⟩
    exact Or.inl h

/-- The key word at the front of a text, when the rest of the expression matches after
it. -/
theorem run_keyword (n : Nat) (kw rest : Str) (c : Caps) (k : Str → Caps → Option α) (r : α)
    (hkw : kw = "source".toList ∨ kw = ".".toList) (hk : k rest c = some r) :
    run n (alt (lit "source".toList) (lit ".".toList)) (kw ++ rest) c k = some r := by
  rw [run_alt]
  rcases hkw with e | e
  · subst e
    rw [run_lit_append, hk]
    rfl
  · subst e
    have h1 : HasPrefix (".".toList ++ rest) "source".toList = false := rfl
    rw [run_lit_none n _ _ _ _ h1, run_lit_append, hk]
    rfl

/-- The end `(?:\s*;|\s*$)` of the expression after a path, before a `;` or at the end of
the text. -/
theorem run_cond_end (n : Nat) (E : Str) (c : Caps) (f : Str → Caps → α)
    (hE : E = "; fi".toList ∨ E = []) :
    run n (alt (seq (star (char ws) true) (lit ";".toList)) (seq (star (char ws) true) eol))
        E c (fun s1 c1 => some (f s1 c1))
      = some (f (E.drop 1) c) := by
  rcases hE with e | e
  · subst e
    rw [run_alt, run_seq, run_star_stop n ws true _ c _
      (by intro y ys h
          simp only [String.toList, List.cons.injEq] at h
          rw [← h.1]
          decide)]
    rfl
  · subst e
    rfl

/-- Inside the path the end of the expression does not match. -/
theorem run_cond_end_none (n : Nat) (y : Char) (ys : Str) (c : Caps)
    (k : Str → Caps → Option α) (h1 : ws y = false) (h2 : y ≠ ';') :
    run n (alt (seq (star (char ws) true) (lit ";".toList)) (seq (star (char ws) true) eol))
        (y :: ys) c k = none := by
  have hb : ∀ z zs, y :: ys = z :: zs → ws z = false := by
    intro z zs e
    simp only [List.cons.injEq] at e
    rw [← e.1]
    exact h1
  rw [run_alt, run_seq, run_seq, run_star_stop n ws true _ c _ hb,
    run_star_stop n ws true _ c _ hb, run_lit_none n _ _ _ _ (by simp [HasPrefix, h2])]
  rfl

/-- The second half of the expression for a guarded include, from `.*` on, on a text
`M kw P E`: the path `P` is the second group. -/
theorem run_cond_tail (n : Nat) (M kw : Str) (p : Char) (ps E : Str) (c : Caps)
    (f : Str → Caps → α) (hM : ∀ x ∈ M, dot x = true)
    (hkw : kw = "source".toList ∨ kw = ".".toList)
    (hP : ∀ x ∈ p :: ps, guardChar x = true) (hE : E = "; fi".toList ∨ E = []) :
    run n (seqs [star (char dot) true, alt (lit "source".toList) (lit ".".toList),
        plus (char ws) true, group 2 (plus (char dot) false),
        alt (seq (star (char ws) true) (lit ";".toList)) (seq (star (char ws) true) eol)])
        (M ++ (kw ++ ' ' :: (p :: ps ++ E))) c (fun s1 c1 => some (f s1 c1))
      = some (f (E.drop 1) (c.set 2 (some (p :: ps)))) := by
  have hE0 : ∀ y ys, E = y :: ys → ws y = false := by
    intro y ys e
    rcases hE with h | h
    · rw [h] at e
      simp only [String.toList, List.cons.injEq] at e
      rw [← e.1]
      decide
    · rw [h] at e
      exact absurd e (by simp)
  have hgood : blankAfterSemi (p :: ps ++ E) = true :=
    blankAfterSemi_append _ _ (fun x hx => (guardChar_cases x (hP x hx)).2.1)
      (by rcases hE with h | h <;> rw [h] <;> decide) hE0
  have hp0 : ∀ y ys, p :: ps ++ E = y :: ys → ws y = false := by
    intro y ys e
    simp only [List.cons_append, List.cons.injEq] at e
    rw [← e.1]
    exact (guardChar_cases p (hP p (List.mem_cons_self _ _))).2.1
  rw [run_seqs_cons]
  apply run_star_back n dot M _ c _ _ hM
  · intro t ht hl
    rw [run_seqs_cons]
    rcases keyword_suffix_cases kw _ t hkw ht hl with h | ⟨x, xs, h1, h2, h3⟩
    · exact run_keyword_none n t c _ (keyword_not_in t (blankAfterSemi_suffix t _ h hgood))
    · rw [h1, run_alt, run_lit_none n _ _ _ _ (by simp [HasPrefix, h2]),
        run_lit_none n _ _ _ _ (by simp [HasPrefix, h3])]
      rfl
  · rw [run_seqs_cons]
    apply run_keyword n kw _ c _ _ hkw
    rw [run_seqs_cons, run_plus_ws_blank n _ c _ hp0, run_seqs_cons]
    apply run_group_lazy n 2 dot p ps E c _ _
      (guardChar_cases p (hP p (List.mem_cons_self _ _))).2.2.1
      (fun y hy => (guardChar_cases y (hP y (List.mem_cons_of_mem _ hy))).2.2.1)
    · intro a1 a2 e hne c1
      cases a2 with
      | nil => exact absurd rfl hne
      | cons y ys =>
        have hy : guardChar y = true :=
          hP y (List.mem_cons_of_mem _ (by rw [e]; simp))
        exact run_cond_end_none n y (ys ++ E) c1 _ (guardChar_cases y hy).2.1
          (guardChar_cases y hy).2.2.2.1
    · exact run_cond_end n E _ f hE

end Guarded

section GuardedHead

open Regex

variable {α : Type}

/-- The first half of the expression for a guarded include on `if [ -f T ]R`: the tested
path `T` is the first group. -/
theorem run_cond_head_if (n : Nat) (x : Char) (xs R : Str) (c : Caps)
    (k : Str → Caps → Option α) (r : α) (hT : ∀ y ∈ x :: xs, guardChar y = true)
    (hR : ∀ y ys, R = y :: ys → y ≠ ']')
    (h : run n (seqs [star (char dot) true, alt (lit "source".toList) (lit ".".toList),
        plus (char ws) true, group 2 (plus (char dot) false),
        alt (seq (star (char ws) true) (lit ";".toList)) (seq (star (char ws) true) eol)])
        R (c.set 1 (some (x :: xs))) k = some r) :
    run n conditionalPattern ("if".toList ++ (' ' :: ("[".toList ++ (' ' :: ("-f".toList ++
      (' ' :: (x :: xs ++ (' ' :: ("]".toList ++ R))))))))) c k = some r := by
  have hx := guardChar_cases x (hT x (List.mem_cons_self _ _))
  unfold conditionalPattern
  rw [run_seqs_cons]
  apply run_opt_some
  rw [run_seq, run_lit_append, run_plus_ws_blank n _ c _
    (by intro y ys e
        simp only [String.toList, List.cons_append, List.cons.injEq] at e
        rw [← e.1]; decide)]
  rw [run_seqs_cons, run_lit_append, run_seqs_cons]
  refine Eq.trans (run_opt_lit_skip n '[' _ c _
    (by intro y ys e
        simp only [List.cons.injEq] at e
        rw [← e.1]; decide)) ?_
  rw [run_seqs_cons, run_plus_ws_blank n _ c _
    (by intro y ys e
        simp only [String.toList, List.cons_append, List.cons.injEq] at e
        rw [← e.1]; decide)]
  rw [run_seqs_cons, run_lit_append, run_seqs_cons, run_plus_ws_blank n _ c _
    (by intro y ys e
        simp only [List.cons_append, List.cons.injEq] at e
        rw [← e.1]; exact hx.2.1)]
  rw [run_seqs_cons]
  apply run_group_lazy n 1 dot x xs _ c _ r hx.2.2.1
    (fun y hy => (guardChar_cases y (hT y (List.mem_cons_of_mem _ hy))).2.2.1)
  · intro a1 a2 e hne c1
    rw [run_seqs_cons]
    apply run_plus_none
    intro y ys e2
    cases a2 with
    | nil => exact absurd rfl hne
    | cons z zs =>
      simp only [List.cons_append, List.cons.injEq] at e2
      rw [← e2.1]
      exact (guardChar_cases z (hT z (List.mem_cons_of_mem _ (by rw [e]; simp)))).2.1
  · rw [run_seqs_cons, run_plus_ws_blank n _ _ _
      (by intro y ys e
          simp only [String.toList, List.cons_append, List.cons.injEq] at e
          rw [← e.1]; decide)]
    rw [run_seqs_cons, run_lit_append, run_seqs_cons]
    exact Eq.trans (run_opt_lit_skip n ']' _ _ _ hR) h

/-- The first half of the expression for a guarded include on `[[ -f T ]]R`: the tested
path `T` is the first group. -/
theorem run_cond_head_brackets (n : Nat) (x : Char) (xs R : Str) (c : Caps)
    (k : Str → Caps → Option α) (r : α) (hT : ∀ y ∈ x :: xs, guardChar y = true)
    (h : run n (seqs [star (char dot) true, alt (lit "source".toList) (lit ".".toList),
        plus (char ws) true, group 2 (plus (char dot) false),
        alt (seq (star (char ws) true) (lit ";".toList)) (seq (star (char ws) true) eol)])
        R (c.set 1 (some (x :: xs))) k = some r) :
    run n conditionalPattern ("[".toList ++ ("[".toList ++ (' ' :: ("-f".toList ++
      (' ' :: (x :: xs ++ (' ' :: ("]".toList ++ ("]".toList ++ R))))))))) c k = some r := by
  have hx := guardChar_cases x (hT x (List.mem_cons_self _ _))
  unfold conditionalPattern
  rw [run_seqs_cons]
  have hskip : ∀ (K : Str → Caps → Option α) (s : Str),
      run n (opt (seq (lit "if".toList) (plus (char ws) true))) ("[".toList ++ s) c K
        = K ("[".toList ++ s) c := by
    intro K s
    show (run n (seq (lit "if".toList) (plus (char ws) true)) ("[".toList ++ s) c K).orElse
      (fun _ => K ("[".toList ++ s) c) = _
    have h1 : HasPrefix ("[".toList ++ s) "if".toList = false := rfl
    rw [run_seq, run_lit_none n _ _ _ _ h1]
    rfl
  rw [hskip, run_seqs_cons, run_lit_append, run_seqs_cons]
  apply run_opt_some
  rw [run_lit_append, run_seqs_cons, run_plus_ws_blank n _ c _
    (by intro y ys e
        simp only [String.toList, List.cons_append, List.cons.injEq] at e
        rw [← e.1]; decide)]
  rw [run_seqs_cons, run_lit_append, run_seqs_cons, run_plus_ws_blank n _ c _
    (by intro y ys e
        simp only [List.cons_append, List.cons.injEq] at e
        rw [← e.1]; exact hx.2.1)]
  rw [run_seqs_cons]
  apply run_group_lazy n 1 dot x xs _ c _ r hx.2.2.1
    (fun y hy => (guardChar_cases y (hT y (List.mem_cons_of_mem _ hy))).2.2.1)
  · intro a1 a2 e hne c1
    rw [run_seqs_cons]
    apply run_plus_none
    intro y ys e2
    cases a2 with
    | nil => exact absurd rfl hne
    | cons z zs =>
      simp only [List.cons_append, List.cons.injEq] at e2
      rw [← e2.1]
      exact (guardChar_cases z (hT z (List.mem_cons_of_mem _ (by rw [e]; simp)))).2.1
  · rw [run_seqs_cons, run_plus_ws_blank n _ _ _
      (by intro y ys e
          simp only [String.toList, List.cons_append, List.cons.injEq] at e
          rw [← e.1]; decide)]
    rw [run_seqs_cons, run_lit_append, run_seqs_cons]
    apply run_opt_some
    rw [run_lit_append]
    exact h

end GuardedHead

section GuardedLines

open Regex

/-- The include parser on a line in which the expression for a guarded include matches
with a path token as the second group. -/
theorem ParseLine_conditional (line P : Str) (m : Match)
    (hfind : FindStringSubmatch conditionalPattern 2 line = some m) (hsub : m.sub 2 = P)
    (htrim : TrimSpace line = line) (hne : line ≠ [])
    (hhash : HasPrefix line "#".toList = false) (hP : P ≠ [])
    (hPc : ∀ c ∈ P, tokenChar c = true) :
    IncludeParser.ParseLine line = [{ Path := P, Conditional := true }] := by
  have he : extractPath P = P := by
    have := extractPath_token P [] hPc (Or.inl rfl)
    rwa [List.append_nil] at this
  unfold IncludeParser.ParseLine
  simp only [htrim, hne, hhash, hfind, hsub, he, false_or, Bool.false_eq_true, if_false]
  simp [hP]

theorem guarded_if_line (x : Char) (xs kw : Str) (p : Char) (ps : Str)
    (hTc : ∀ c ∈ x :: xs, guardChar c = true) (hPc : ∀ c ∈ p :: ps, guardChar c = true)
    (hkw : kw = "source".toList ∨ kw = ".".toList) :
    IncludeParser.ParseLine ("if [ -f ".toList ++ (x :: xs) ++ " ]; then ".toList ++ kw ++
        ' ' :: (p :: ps) ++ "; fi".toList)
      = [{ Path := p :: ps, Conditional := true }] := by
  obtain ⟨R, hR⟩ : ∃ R, R = "; then ".toList ++ (kw ++ ' ' :: (p :: ps ++ "; fi".toList)) :=
    ⟨_, rfl⟩
  obtain ⟨L, hL⟩ : ∃ L, L = "if".toList ++ (' ' :: ("[".toList ++ (' ' :: ("-f".toList ++
      (' ' :: (x :: xs ++ (' ' :: ("]".toList ++ R)))))))) :=
    ⟨_, rfl⟩
  have hline : "if [ -f ".toList ++ (x :: xs) ++ " ]; then ".toList ++ kw ++
      ' ' :: (p :: ps) ++ "; fi".toList = L := by
    rw [hL, hR]
    simp
  have hlast : L.getLast? = some 'i' := by
    have e : L = ("if [ -f ".toList ++ (x :: xs) ++ " ]; then ".toList ++ kw ++
        ' ' :: (p :: ps) ++ "; f".toList) ++ ['i'] := by
      rw [hL, hR]
      simp
    rw [e, List.getLast?_concat]
  have hhead : ∃ cs, L = 'i' :: cs := ⟨_, hL⟩
  have htail := run_cond_tail L.length "; then ".toList kw p ps "; fi".toList
    ((List.replicate (2 + 1) none).set 1 (some (x :: xs)))
    (fun s1 c1 => Match.mk L s1 c1) (by decide) hkw hPc (Or.inl rfl)
  rw [← hR] at htail
  have hrun := run_cond_head_if L.length x xs R (List.replicate (2 + 1) none)
    (fun s1 c1 => some (Match.mk L s1 c1)) _ hTc
    (by intro y ys e
        rw [hR] at e
        simp only [String.toList, List.cons_append, List.cons.injEq] at e
        rw [← e.1]; decide)
    htail
  rw [← hL] at hrun
  rw [hline]
  obtain ⟨cs, hcs⟩ := hhead
  apply ParseLine_conditional L (p :: ps) _ (findFrom_of_run _ 2 _ _ _ hrun) rfl _
    (by rw [hcs]; simp) (by rw [hcs]; rfl) (by simp)
    (fun c hc => guardChar_tokenChar c (hPc c hc))
  rw [hcs]
  apply TrimSpace_id 'i' _ (by decide)
  intro d hd
  rw [← hcs, hlast] at hd
  simp only [Option.some.injEq] at hd
  rw [← hd]
  decide

theorem guarded_brackets_line (x : Char) (xs kw : Str) (p : Char) (ps : Str)
    (hTc : ∀ c ∈ x :: xs, guardChar c = true) (hPc : ∀ c ∈ p :: ps, guardChar c = true)
    (hkw : kw = "source".toList ∨ kw = ".".toList) :
    IncludeParser.ParseLine ("[[ -f ".toList ++ (x :: xs) ++ " ]] && ".toList ++ kw ++
        ' ' :: (p :: ps))
      = [{ Path := p :: ps, Conditional := true }] := by
  obtain ⟨R, hR⟩ : ∃ R, R = " && ".toList ++ (kw ++ ' ' :: (p :: ps ++ [])) := ⟨_, rfl⟩
  obtain ⟨L, hL⟩ : ∃ L, L = "[".toList ++ ("[".toList ++ (' ' :: ("-f".toList ++
      (' ' :: (x :: xs ++ (' ' :: ("]".toList ++ ("]".toList ++ R)))))))) :=
    ⟨_, rfl⟩
  have hline : "[[ -f ".toList ++ (x :: xs) ++ " ]] && ".toList ++ kw ++ ' ' :: (p :: ps)
      = L := by
    rw [hL, hR]
    simp
  have hlast : L.getLast? = (p :: ps).getLast? := by
    have e : L = ("[[ -f ".toList ++ (x :: xs) ++ " ]] && ".toList ++ kw ++ [' ']) ++
        p :: ps := by
      rw [hL, hR]
      simp
    rw [e, getLast?_append_cons]
  have hhead : ∃ cs, L = '[' :: cs := ⟨_, hL⟩
  have htail := run_cond_tail L.length " && ".toList kw p ps []
    ((List.replicate (2 + 1) none).set 1 (some (x :: xs)))
    (fun s1 c1 => Match.mk L s1 c1) (by decide) hkw hPc (Or.inr rfl)
  rw [← hR] at htail
  have hrun := run_cond_head_brackets L.length x xs R (List.replicate (2 + 1) none)
    (fun s1 c1 => some (Match.mk L s1 c1)) _ hTc htail
  rw [← hL] at hrun
  rw [hline]
  obtain ⟨cs, hcs⟩ := hhead
  apply ParseLine_conditional L (p :: ps) _ (findFrom_of_run _ 2 _ _ _ hrun) rfl _
    (by rw [hcs]; simp) (by rw [hcs]; rfl) (by simp)
    (fun c hc => guardChar_tokenChar c (hPc c hc))
  rw [hcs]
  apply TrimSpace_id '[' _ (by decide)
  intro d hd
  rw [← hcs, hlast] at hd
  exact (guardChar_cases d (hPc d (List.mem_of_mem_getLast? hd))).1

end GuardedLines

/-- C24: guarded includes.  For all non-empty path tokens `T` and `P` made of path
characters (letters, digits, `~`, `/`, `.`, `_`, `-`), `IncludeParser.ParseLine` on
`if [ -f T ]; then source P; fi` and on `[[ -f T ]] && source P`, and on the same lines
with `.` in place of `source`, returns exactly one result, with the path `P` and
conditional, whether or not `T` equals `P`. -/
theorem guarded_include_is_parsed (T P kw : Str) (hT : T ≠ []) (hP : P ≠ [])
    (hTc : ∀ c ∈ T, guardChar c = true) (hPc : ∀ c ∈ P, guardChar c = true)
    (hkw : kw = "source".toList ∨ kw = ".".toList) :
    IncludeParser.ParseLine
        ("if [ -f ".toList ++ T ++ " ]; then ".toList ++ kw ++ ' ' :: P ++ "; fi".toList)
      = [{ Path := P, Conditional := true }] ∧
    IncludeParser.ParseLine ("[[ -f ".toList ++ T ++ " ]] && ".toList ++ kw ++ ' ' :: P)
      = [{ Path := P, Conditional := true }] := by
  cases T with
  | nil => exact absurd rfl hT
  | cons x xs =>
    cases P with
    | nil => exact absurd rfl hP
    | cons p ps =>
      exact ⟨guarded_if_line x xs kw p ps hTc hPc hkw,
        guarded_brackets_line x xs kw p ps hTc hPc hkw⟩

/-- The guard on `~/.a.source` before `. ~/.zsh/source.zsh`. -/
theorem guarded_include_is_parsed_witness :
    IncludeParser.ParseLine ("if [ -f ".toList ++ "~/.a.source".toList ++ " ]; then ".toList ++
        ".".toList ++ ' ' :: "~/.zsh/source.zsh".toList ++ "; fi".toList)
      = [{ Path := "~/.zsh/source.zsh".toList, Conditional := true }] ∧
    IncludeParser.ParseLine ("[[ -f ".toList ++ "~/.a.source".toList ++ " ]] && ".toList ++
        ".".toList ++ ' ' :: "~/.zsh/source.zsh".toList)
      = [{ Path := "~/.zsh/source.zsh".toList, Conditional := true }] :=
  guarded_include_is_parsed "~/.a.source".toList "~/.zsh/source.zsh".toList ".".toList
    (by decide) (by decide) (by decide) (by decide) (Or.inr rfl)

/-! ## Where the include parser and the resolver leave their own rules -/

/-- C23: the line `source /a # [ -f /x ] && source /y` is a direct include of `/a` with an
inline comment, yet the include parser returns the guarded include `/y` that the comment
names: the expression for guarded includes is tried on the whole line, the comment
included.  With text that has no guard in it, as in `source /a # comment`, the comment is
dropped and the result is the direct include `/a`. -/
theorem comment_is_read_as_guarded_include :
    IncludeParser.ParseLine "source /a # [ -f /x ] && source /y".toList
      = [{ Path := "/y".toList, Conditional := true }] ∧
    IncludeParser.ParseLine "source /a # comment".toList
      = [{ Path := "/a".toList, Conditional := false }] := by
  decide!

/-- C25: with the home directory `/home/u` and no variable set, the path
`~/$UNKNOWN/../x` resolves to `/home/u/x`: the join that expands the tilde cleans the
reference to the unknown variable away, together with the `..` after it, before the
variables are looked at.  The same text behind `$HOME` or behind the home directory
written out does not resolve. -/
theorem unknown_variable_is_cleaned_away :
    (NewPathResolver "/home/u".toList []).ResolvePath "~/$UNKNOWN/../x".toList
      = some "/home/u/x".toList ∧
    (NewPathResolver "/home/u".toList []).ResolvePath "$HOME/$UNKNOWN/../x".toList = none ∧
    (NewPathResolver "/home/u".toList []).ResolvePath "/home/u/$UNKNOWN/../x".toList = none := by
  decide!

/-! ## No `$` is left in a resolved path -/

section NoDollar

open Regex

theorem first_occurrence (a : Char) (s : Str) (h : a ∈ s) :
    ∃ u t, s = u ++ a :: t ∧ a ∉ u := by
  induction s with
  | nil => simp at h
  | cons c s ih =>
    by_cases hc : c = a
    · exact ⟨[], s, by rw [hc]; rfl, by simp⟩
    · rcases List.mem_cons.mp h with e | e
      · exact absurd e.symm hc
      · obtain ⟨u, t, h1, h2⟩ := ih e
        refine ⟨c :: u, t, by rw [h1]; rfl, ?_⟩
        intro hm
        rcases List.mem_cons.mp hm with e1 | e1
        · exact hc e1.symm
        · exact h2 e1

/-- In a text of references only, a reference starts at every `$`. -/
theorem refsOnly_at (u t : Str) (h : refsOnly (u ++ '$' :: t) = true) :
    (refAt ('$' :: t)).isSome = true := by
  induction u with
  | nil =>
    simp only [List.nil_append, refsOnly, Bool.and_eq_true, Bool.or_eq_true] at h
    rcases h.1 with h1 | h1
    · exact absurd h1 (by decide)
    · exact h1
  | cons c u ih =>
    simp only [List.cons_append, refsOnly, Bool.and_eq_true] at h
    exact ih h.2

theorem refsOnly_of_at (s : Str)
    (h : ∀ u t, s = u ++ '$' :: t → (refAt ('$' :: t)).isSome = true) : refsOnly s = true := by
  induction s with
  | nil => rfl
  | cons c s ih =>
    simp only [refsOnly, Bool.and_eq_true, Bool.or_eq_true]
    refine ⟨?_, ih (fun u t e => h (c :: u) t (by rw [e]; rfl))⟩
    by_cases hc : c = '$'
    · right
      rw [hc]
      exact h [] s (by rw [hc]; rfl)
    · left
      simpa using hc

theorem refsOnly_suffix (a b : Str) (h : refsOnly (a ++ b) = true) : refsOnly b = true := by
  apply refsOnly_of_at
  intro u t e
  apply refsOnly_at (a ++ u) t
  rw [List.append_assoc, ← e]
  exact h

theorem refsOnly_of_no_dollar (s : Str) (h : '$' ∉ s) : refsOnly s = true := by
  apply refsOnly_of_at
  intro u t e
  exfalso
  apply h
  rw [e]
  simp

/-- Whether a reference starts at a `$` shows in the text right after it. -/
theorem refAt_isSome (t : Str) :
    (refAt ('$' :: t)).isSome = (nameAt (skipChar (Char.ofNat 0x7b) t)).isSome := by
  simp only [refAt, if_true]
  cases nameAt (skipChar (Char.ofNat 0x7b) t) <;> rfl

theorem nameAt_isSome (t : Str) :
    (nameAt t).isSome = true ↔ ∃ x xs, t = x :: xs ∧ varFirst x = true := by
  cases t with
  | nil => simp [nameAt]
  | cons x xs =>
    by_cases hx : varFirst x = true
    · simp [nameAt, hx]
    · simp [nameAt, hx]

theorem refAt_isSome_append (t b : Str) (h : (refAt ('$' :: t)).isSome = true) :
    (refAt ('$' :: (t ++ b))).isSome = true := by
  rw [refAt_isSome] at h ⊢
  obtain ⟨x, xs, e, hx⟩ := (nameAt_isSome _).mp h
  apply (nameAt_isSome _).mpr
  cases t with
  | nil => simp [skipChar] at e
  | cons y ys =>
    by_cases hy : y = Char.ofNat 0x7b
    · simp only [skipChar, hy, if_true] at e
      refine ⟨x, xs ++ b, ?_, hx⟩
      simp [skipChar, hy, e]
    · simp only [skipChar, hy, if_false, List.cons.injEq] at e
      obtain ⟨e1, e2⟩ := e
      subst e1
      subst e2
      exact ⟨y, ys ++ b, by simp [skipChar, hy], hx⟩

/-- A text after a reference that starts with neither a name character nor an opening
brace has no part in whether the reference is one. -/
theorem refAt_isSome_of_append (t b : Str)
    (hb : ∀ y ys, b = y :: ys → varFirst y = false ∧ y ≠ Char.ofNat 0x7b)
    (h : (refAt ('$' :: (t ++ b))).isSome = true) : (refAt ('$' :: t)).isSome = true := by
  rw [refAt_isSome] at h ⊢
  obtain ⟨x, xs, e, hx⟩ := (nameAt_isSome _).mp h
  apply (nameAt_isSome _).mpr
  cases t with
  | nil =>
    exfalso
    cases b with
    | nil => simp [skipChar] at e
    | cons y ys =>
      have hy := hb y ys rfl
      simp only [List.nil_append, skipChar, hy.2, if_false, List.cons.injEq] at e
      rw [e.1, hx] at hy
      exact absurd hy.1 (by simp)
  | cons y ys =>
    by_cases hy : y = Char.ofNat 0x7b
    · simp only [List.cons_append, skipChar, hy, if_true] at e
      cases ys with
      | nil =>
        exfalso
        cases b with
        | nil => simp at e
        | cons z zs =>
          have hz := hb z zs rfl
          simp only [List.nil_append, List.cons.injEq] at e
          rw [e.1, hx] at hz
          exact absurd hz.1 (by simp)
      | cons z zs =>
        simp only [List.cons_append, List.cons.injEq] at e
        exact ⟨x, zs, by simp [skipChar, hy, e.1], hx⟩
    · simp only [List.cons_append, skipChar, hy, if_false, List.cons.injEq] at e
      obtain ⟨e1, _⟩ := e
      subst e1
      exact ⟨y, ys, by simp [skipChar, hy], hx⟩

theorem refsOnly_append (a b : Str) (ha : refsOnly a = true) (hb : refsOnly b = true) :
    refsOnly (a ++ b) = true := by
  apply refsOnly_of_at
  intro u t e
  rcases List.append_eq_append_iff.mp e with ⟨a1, h1, h2⟩ | ⟨c1, h1, h2⟩
  · exact refsOnly_at a1 t (by rw [← h2]; exact hb)
  · cases c1 with
    | nil =>
      simp only [List.append_nil, List.nil_append] at h1 h2
      exact refsOnly_at [] t (by rw [List.nil_append, h2]; exact hb)
    | cons d c1 =>
      simp only [List.cons_append, List.cons.injEq] at h2
      rw [h2.2]
      apply refAt_isSome_append
      apply refsOnly_at u c1
      rw [h2.1, ← h1]
      exact ha

theorem refsOnly_front (a b : Str)
    (hb : ∀ y ys, b = y :: ys → varFirst y = false ∧ y ≠ Char.ofNat 0x7b)
    (h : refsOnly (a ++ b) = true) : refsOnly a = true := by
  apply refsOnly_of_at
  intro u t e
  apply refAt_isSome_of_append t b hb
  apply refsOnly_at u (t ++ b)
  have : u ++ '$' :: (t ++ b) = a ++ b := by rw [e]; simp
  rw [this]
  exact h


theorem ReplaceFirst_skip (u f rest v : Str) (hu : '$' ∉ u) :
    ReplaceFirst (u ++ ('$' :: f ++ rest)) ('$' :: f) v = u ++ (v ++ rest) := by
  induction u with
  | nil => exact ReplaceFirst_append ('$' :: f) rest v (by simp)
  | cons c u ih =>
    have hc : c ≠ '$' := fun e => hu (by rw [e]; exact List.mem_cons_self _ _)
    have hp : HasPrefix (c :: (u ++ ('$' :: f ++ rest))) ('$' :: f) = false := by
      simp [HasPrefix, hc]
    show (if HasPrefix (c :: (u ++ ('$' :: f ++ rest))) ('$' :: f) = true then _
      else c :: ReplaceFirst (u ++ ('$' :: f ++ rest)) ('$' :: f) v) = _
    rw [hp, ih (fun hm => hu (List.mem_cons_of_mem _ hm))]
    rfl

/-- Once an unknown variable is met, the expansion stays failed. -/
theorem foldl_expandStep_unknown (r : PathResolver) (ms : List Match) (x : Str) :
    (ms.foldl (expandStep r) (x, true)).2 = true := by
  induction ms generalizing x with
  | nil => rfl
  | cons m ms ih =>
    rw [List.foldl_cons, expandStep_valueOf]
    cases r.valueOf (m.sub 1) with
    | none => exact ih x
    | some v => exact ih _

/-- The loop of `expandVariables` over a text of references only: when no variable is
unknown, every reference is replaced and no `$` is left. -/
theorem foldl_expandStep_no_dollar (r : PathResolver)
    (hval : ∀ name v, r.valueOf name = some v → '$' ∉ v) (n fuel : Nat) (s E : Str)
    (flag : Bool) (hs : refsOnly s = true) (hE : '$' ∉ E) (hf : s.length < fuel)
    (hok : ((findAllFrom varPattern 1 n fuel s).foldl (expandStep r) (E ++ s, flag)).2 = false) :
    '$' ∉ ((findAllFrom varPattern 1 n fuel s).foldl (expandStep r) (E ++ s, flag)).1 := by
  induction fuel generalizing s E flag with
  | zero => simp at hf
  | succ fuel ih =>
    by_cases hd : '$' ∈ s
    · obtain ⟨u, t, e, hu⟩ := first_occurrence '$' s hd
      have hsome := refsOnly_at u t (by rw [← e]; exact hs)
      obtain ⟨⟨name, rest⟩, href⟩ := Option.isSome_iff_exists.mp hsome
      obtain ⟨f, hsplit, _⟩ := refAt_split _ name rest href
      have hfind : findFrom varPattern 1 n s = some ⟨'$' :: t, rest, [none, some name]⟩ := by
        rw [e, findFrom_varPattern_skip n u _ hu]
        exact findFrom_varPattern_ref n _ name rest href
      have hlt : rest.length < s.length := by
        rw [e, hsplit]
        simp only [List.length_append, List.length_cons, List.cons_append]
        omega
      have hlist : findAllFrom varPattern 1 n (fuel + 1) s
          = ⟨'$' :: t, rest, [none, some name]⟩ :: findAllFrom varPattern 1 n fuel rest := by
        rw [findAllFrom]
        simp only [hfind]
        rw [if_pos hlt]
      have hrest : refsOnly rest = true := by
        apply refsOnly_suffix (u ++ '$' :: f) rest
        rw [List.append_assoc, ← hsplit, ← e]
        exact hs
      have hsub : (Match.mk ('$' :: t) rest [none, some name]).sub 1 = name := rfl
      have hfull : (Match.mk ('$' :: t) rest [none, some name]).full = '$' :: f := by
        rw [hsplit]
        exact Match_full_append ('$' :: f) rest _
      rw [hlist, List.foldl_cons, expandStep_valueOf, hsub, hfull] at hok ⊢
      cases hv : r.valueOf name with
      | none =>
        rw [hv] at hok
        simp only at hok
        rw [foldl_expandStep_unknown] at hok
        exact absurd hok (by simp)
      | some v =>
        rw [hv] at hok
        simp only at hok ⊢
        have hrep : ReplaceFirst (E ++ s) ('$' :: f) v = (E ++ u ++ v) ++ rest := by
          have := ReplaceFirst_skip (E ++ u) f rest v (by
            intro hm
            rcases List.mem_append.mp hm with h1 | h1
            · exact hE h1
            · exact hu h1)
          rw [e, hsplit]
          simp only [List.append_assoc] at this ⊢
          exact this
        rw [hrep] at hok ⊢
        apply ih rest (E ++ u ++ v) flag hrest _ (by omega) hok
        intro hm
        simp only [List.mem_append] at hm
        rcases hm with (h1 | h1) | h1
        · exact hE h1
        · exact hu h1
        · exact hval name v hv h1
    · have hnone : findAllFrom varPattern 1 n (fuel + 1) s = [] :=
        findAllFrom_none _ _ _ _ _ (findFrom_varPattern_none n s hd)
      rw [hnone]
      intro hm
      rcases List.mem_append.mp hm with h1 | h1
      · exact hE h1
      · exact hd h1

theorem expandVariables_no_dollar_left (r : PathResolver)
    (hval : ∀ name v, r.valueOf name = some v → '$' ∉ v) (p e : Str)
    (hp : refsOnly p = true) (h : r.expandVariables p = some e) : '$' ∉ e := by
  unfold PathResolver.expandVariables at h
  simp only at h
  split at h
  · simp at h
  · rename_i hflag
    simp only [Option.some.injEq] at h
    rw [← h]
    have := foldl_expandStep_no_dollar r hval p.length (p.length + 1) p [] false hp (by simp)
      (by omega)
    simp only [List.nil_append] at this
    exact this (by simpa using hflag)

theorem trimLeftBy_split (p : Char → Bool) (s : Str) : ∃ w, s = w ++ trimLeftBy p s := by
  induction s with
  | nil => exact ⟨[], rfl⟩
  | cons c s ih =>
    by_cases hc : p c = true
    · obtain ⟨w, hw⟩ := ih
      refine ⟨c :: w, ?_⟩
      simp only [trimLeftBy, hc, if_true, List.cons_append]
      rw [← hw]
    · exact ⟨[], by simp [trimLeftBy, hc]⟩

theorem trimRightBy_split (p : Char → Bool) (s : Str) :
    ∃ w, s = trimRightBy p s ++ w ∧ ∀ c ∈ w, p c = true := by
  induction s using List.reverseRecOn with
  | nil => exact ⟨[], rfl, by simp⟩
  | append_singleton s d ih =>
    by_cases hd : p d = true
    · obtain ⟨w, hw, hall⟩ := ih
      refine ⟨w ++ [d], ?_, ?_⟩
      · rw [trimRightBy_append_of_all p s [d] (by simpa using hd), ← List.append_assoc, ← hw]
      · intro c hc
        rcases List.mem_append.mp hc with h | h
        · exact hall c h
        · rw [List.mem_singleton.mp h]
          exact hd
    · exact ⟨[], by rw [trimRightBy_concat_of_not p s d (by simpa using hd)]; simp, by simp⟩

theorem isSpace_not_name (y : Char) (h : isSpace y = true) :
    varFirst y = false ∧ y ≠ Char.ofNat 0x7b := by
  constructor
  · cases hv : varFirst y with
    | false => rfl
    | true =>
      have := varRest_not_isSpace y (varFirst_varRest y hv)
      rw [h] at this
      exact absurd this (by simp)
  · intro e
    rw [e] at h
    revert h
    decide

theorem refsOnly_TrimSpace (s : Str) (h : refsOnly s = true) : refsOnly (TrimSpace s) = true := by
  unfold TrimSpace
  obtain ⟨w1, h1⟩ := trimLeftBy_split isSpace s
  obtain ⟨w2, h2, hall⟩ := trimRightBy_split isSpace (trimLeftBy isSpace s)
  have hl : refsOnly (trimLeftBy isSpace s) = true := by
    apply refsOnly_suffix w1
    rw [← h1]
    exact h
  apply refsOnly_front _ w2 _ (by rw [← h2]; exact hl)
  intro y ys e
  exact isSpace_not_name y (hall y (by rw [e]; exact List.mem_cons_self _ _))

theorem refsOnly_removeQuotes (s : Str) (h : refsOnly s = true) :
    refsOnly (removeQuotes s) = true := by
  have ht := refsOnly_TrimSpace s h
  unfold removeQuotes
  simp only
  split
  · rename_i hq
    obtain ⟨hlen, hq⟩ := hq
    cases hts : TrimSpace s with
    | nil => rw [hts] at hlen; simp at hlen
    | cons c rest1 =>
      rw [hts] at hq ht hlen
      have hne : rest1 ≠ [] := by
        intro e
        rw [e] at hlen
        simp at hlen
      obtain ⟨mid, d, hmid⟩ : ∃ mid d, rest1 = mid ++ [d] :=
        ⟨rest1.dropLast, rest1.getLast hne, (List.dropLast_append_getLast hne).symm⟩
      have hlast : (c :: rest1).getLast? = some d := by
        rw [hmid, ← List.cons_append, List.getLast?_concat]
      have hd : d = '"' ∨ d = '\'' := by
        rw [hlast] at hq
        simp only [Option.some.injEq] at hq
        rcases hq with h1 | h1
        · exact Or.inl h1.2
        · exact Or.inr h1.2
      have htake : (List.drop 1 (c :: rest1)).take ((c :: rest1).length - 2) = mid := by
        rw [hmid]
        simp
      rw [htake]
      apply refsOnly_front mid [d]
      · intro y ys e
        simp only [List.cons.injEq] at e
        rw [← e.1]
        rcases hd with h1 | h1 <;> rw [h1] <;> exact ⟨by decide, by decide⟩
      · apply refsOnly_suffix [c]
        rw [← hmid]
        exact ht
  · exact ht

theorem joinSlash_splitSlash (p : Str) : joinSlash (splitSlash p) = p := by
  induction p with
  | nil => rfl
  | cons c cs ih =>
    obtain ⟨seg, segs, h0, h1⟩ := splitSlash_cons c cs
    rw [h1]
    rw [h0] at ih
    by_cases hc : c = '/'
    · simp only [hc, if_true]
      show [] ++ '/' :: joinSlash (seg :: segs) = _
      rw [ih]
      rfl
    · simp only [hc, if_false]
      cases segs with
      | nil =>
        simp only [joinSlash] at ih ⊢
        rw [ih]
      | cons s2 segs =>
        show (c :: seg) ++ '/' :: joinSlash (s2 :: segs) = _
        have : seg ++ '/' :: joinSlash (s2 :: segs) = cs := ih
        rw [List.cons_append, this]

theorem joinSlash_mem (segs : List Str) (seg : Str) (h : seg ∈ segs) :
    ∃ a b, joinSlash segs = a ++ (seg ++ b) ∧ ∀ y ys, b = y :: ys → y = '/' := by
  induction segs with
  | nil => simp at h
  | cons s1 segs ih =>
    cases segs with
    | nil =>
      simp only [List.mem_singleton] at h
      exact ⟨[], [], by simp [joinSlash, h], by simp⟩
    | cons s2 segs =>
      rcases List.mem_cons.mp h with e | e
      · refine ⟨[], '/' :: joinSlash (s2 :: segs), by rw [e]; rfl, ?_⟩
        intro y ys e1
        simp only [List.cons.injEq] at e1
        exact e1.1.symm
      · obtain ⟨a, b, h1, h2⟩ := ih e
        refine ⟨s1 ++ '/' :: a, b, ?_, h2⟩
        show s1 ++ '/' :: joinSlash (s2 :: segs) = _
        rw [h1]
        simp

theorem refsOnly_segment (p seg : Str) (hp : refsOnly p = true) (h : seg ∈ splitSlash p) :
    refsOnly seg = true := by
  obtain ⟨a, b, h1, h2⟩ := joinSlash_mem _ seg h
  rw [joinSlash_splitSlash] at h1
  apply refsOnly_front seg b
  · intro y ys e
    rw [h2 y ys e]
    exact ⟨by decide, by decide⟩
  · apply refsOnly_suffix a
    rw [← h1]
    exact hp

theorem refsOnly_joinSlash (segs : List Str) (h : ∀ seg ∈ segs, refsOnly seg = true) :
    refsOnly (joinSlash segs) = true := by
  induction segs with
  | nil => rfl
  | cons s1 segs ih =>
    cases segs with
    | nil => exact h s1 (by simp)
    | cons s2 segs =>
      show refsOnly (s1 ++ '/' :: joinSlash (s2 :: segs)) = true
      apply refsOnly_append _ _ (h s1 (by simp))
      exact refsOnly_append ['/'] _ (by decide)
        (ih (fun seg hseg => h seg (List.mem_cons_of_mem _ hseg)))

theorem refsOnly_Clean (p : Str) (hp : refsOnly p = true) : refsOnly (Clean p) = true := by
  have hkept : ∀ rooted, refsOnly (joinSlash
      ((splitSlash p).foldl (cleanStep rooted) []).reverse) = true := by
    intro rooted
    apply refsOnly_joinSlash
    intro seg hseg
    exact refsOnly_segment p seg hp (kept_segments rooted p seg hseg).1
  unfold Clean
  split
  · decide
  · simp only
    split
    · exact refsOnly_append ['/'] _ (by decide) (hkept _)
    · split
      · decide
      · exact hkept _

theorem refsOnly_Join (H S : Str) (hH : '$' ∉ H) (hS : refsOnly S = true) :
    refsOnly (Join [H, S]) = true := by
  have h1 := refsOnly_of_no_dollar H hH
  unfold Join
  cases H with
  | nil =>
    cases S with
    | nil => decide
    | cons c S =>
      simp only [List.filter, ne_eq, not_true_eq_false, decide_False, decide_True,
        reduceCtorEq, not_false_eq_true]
      exact refsOnly_Clean _ hS
  | cons a H =>
    cases S with
    | nil =>
      simp only [List.filter, ne_eq, not_true_eq_false, decide_False, decide_True,
        reduceCtorEq, not_false_eq_true]
      exact refsOnly_Clean _ h1
    | cons c S =>
      simp only [List.filter, ne_eq, not_true_eq_false, decide_False, decide_True,
        reduceCtorEq, not_false_eq_true]
      apply refsOnly_Clean
      show refsOnly ((a :: H) ++ '/' :: (c :: S)) = true
      exact refsOnly_append _ _ h1 (refsOnly_append ['/'] _ (by decide) hS)

end NoDollar

/-- C26, as written, at the lowercase reference of the claim: with the home directory
`/home/u` and no variable set, `/a/$foo` resolves, to `/a/$foo`, a path with `$` in it. -/
theorem lowercase_reference_is_kept :
    '$' ∉ (NewPathResolver "/home/u".toList []).homeDir ∧
    '$' ∉ (NewPathResolver "/home/u".toList []).xdgConfigHome ∧
    (NewPathResolver "/home/u".toList []).ResolvePath "/a/$foo".toList = some "/a/$foo".toList ∧
    '$' ∈ "/a/$foo".toList := by
  decide!

/-- C26, amended: no partial substitution of the references that the resolver reads.  When
the home directory, the XDG directory and all set values hold no `$`, and every `$` of the
input starts a reference `$V` or `$\x7bV\x7d` to a name `V` of the shape `[A-Z_][A-Z0-9_]*`,
every path that `ResolvePath` returns holds no `$`. -/
theorem no_dollar_in_resolved_path (r : PathResolver) (p out : Str)
    (hH : '$' ∉ r.homeDir) (hX : '$' ∉ r.xdgConfigHome)
    (hV : ∀ k v, mapGet r.customVars k = some v → '$' ∉ v)
    (hp : refsOnly p = true) (h : r.ResolvePath p = some out) : '$' ∉ out := by
  have hval : ∀ name v, r.valueOf name = some v → '$' ∉ v := by
    intro name v hv
    unfold PathResolver.valueOf at hv
    split at hv
    · simp only [Option.some.injEq] at hv
      rw [← hv]
      exact hH
    · split at hv
      · simp only [Option.some.injEq] at hv
        rw [← hv]
        exact hX
      · exact hV name v hv
  have hq := refsOnly_removeQuotes p hp
  unfold PathResolver.ResolvePath at h
  split at h
  · simp at h
  · simp only at h
    split at h
    · simp at h
    · rename_i expanded hexp
      split at h
      · simp at h
      · simp only [Option.some.injEq] at h
        rw [← h]
        apply Clean_no_dollar
        apply expandVariables_no_dollar_left r hval _ expanded _ hexp
        split
        · apply refsOnly_Join _ _ hH
          have e := List.take_append_drop 2 (removeQuotes p)
          apply refsOnly_suffix ((removeQuotes p).take 2)
          rw [e]
          exact hq
        · split
          · exact refsOnly_of_no_dollar _ hH
          · exact hq

/-- The path `$\x7bZDOTDIR\x7d/$HOME/rc` with `ZDOTDIR` set to `/z`. -/
theorem no_dollar_in_resolved_path_witness :
    '$' ∉ "/z/home/u/rc".toList :=
  no_dollar_in_resolved_path
    ((NewPathResolver "/home/u".toList []).SetVariable "ZDOTDIR".toList "/z".toList)
    "$\x7bZDOTDIR\x7d/$HOME/rc".toList "/z/home/u/rc".toList
    (by decide) (by decide)
    (by intro k v h
        simp only [NewPathResolver, PathResolver.SetVariable, mapSet, mapGet] at h
        split at h
        · simp only [Option.some.injEq] at h
          rw [← h]
          decide
        · simp at h)
    (by decide) (by decide!)

/-! ## A reference to an unknown variable -/

section Unknown

open Regex

theorem skipChar_pre_no_dollar (a : Char) (pre : Str) (ha : a ≠ '$')
    (h : pre = [] ∨ pre = [a]) : '$' ∉ pre := by
  rcases h with e | e
  · rw [e]; simp
  · rw [e]
    simp only [List.mem_singleton]
    exact fun e1 => ha e1.symm

/-- The text of a reference holds no `$` after its first character. -/
theorem refAt_split_no_dollar (s name rest : Str) (h : refAt s = some (name, rest)) :
    ∃ f, s = '$' :: f ++ rest ∧ '$' ∉ f := by
  cases s with
  | nil => simp [refAt] at h
  | cons d t =>
    simp only [refAt] at h
    split at h
    · rename_i hd
      split at h
      · rename_i name0 rest0 hn
        simp only [Option.some.injEq, Prod.mk.injEq] at h
        obtain ⟨pre1, h1, hp1⟩ := skipChar_split (Char.ofNat 0x7b) t
        obtain ⟨pre2, h2, hp2⟩ := skipChar_split (Char.ofNat 0x7d) rest0
        obtain ⟨h3, h4⟩ := nameAt_split _ _ _ hn
        obtain ⟨x, xs, e, hx, hxs⟩ := validVar_cons name0 h4
        refine ⟨pre1 ++ name0 ++ pre2, ?_, ?_⟩
        · rw [hd, ← h.2]
          conv_lhs => rw [h1, h3, h2]
          simp
        · intro hm
          simp only [List.mem_append] at hm
          rcases hm with (hm | hm) | hm
          · exact skipChar_pre_no_dollar _ pre1 (by decide) hp1 hm
          · rw [e] at hm
            rcases List.mem_cons.mp hm with e1 | e1
            · rw [← e1] at hx
              revert hx
              decide
            · exact varRest_ne_dollar _ (hxs _ e1) rfl
          · exact skipChar_pre_no_dollar _ pre2 (by decide) hp2 hm
      · simp at h
    · simp at h

/-- A search that finds a reference leaves a shorter text. -/
theorem findFrom_varPattern_shorter (n : Nat) (s : Str) (m : Match)
    (h : findFrom varPattern 1 n s = some m) : m.rest.length < s.length := by
  induction s with
  | nil =>
    rw [findFrom_varPattern_nil] at h
    exact absurd h (by simp)
  | cons x xs ih =>
    cases href : refAt (x :: xs) with
    | none =>
      rw [findFrom_varPattern_next n x xs href] at h
      have := ih h
      simp only [List.length_cons]
      omega
    | some p =>
      obtain ⟨name, rest⟩ := p
      rw [findFrom_varPattern_ref n _ name rest href] at h
      simp only [Option.some.injEq] at h
      obtain ⟨f, hs, _⟩ := refAt_split _ name rest href
      rw [← h, hs]
      simp only [List.cons_append, List.length_cons, List.length_append]
      omega

theorem findAllFrom_varPattern_step (n fuel : Nat) (s : Str) :
    findAllFrom varPattern 1 n (fuel + 1) s
      = match findFrom varPattern 1 n s with
        | none => []
        | some m => m :: findAllFrom varPattern 1 n fuel m.rest := by
  rw [findAllFrom]
  cases h : findFrom varPattern 1 n s with
  | none => rfl
  | some m =>
    simp only
    rw [if_pos (findFrom_varPattern_shorter n s m h)]

/-- Every reference of a text is among the references that `expandVariables` goes
through. -/
theorem findAllFrom_varPattern_mem (n : Nat) (V rest t : Str)
    (href : refAt ('$' :: t) = some (V, rest)) :
    ∀ (len : Nat) (s u : Str) (fuel : Nat), s.length = len → s = u ++ '$' :: t →
      s.length < fuel → ∃ m ∈ findAllFrom varPattern 1 n fuel s, m.sub 1 = V := by
  intro len
  induction len using Nat.strong_induction_on with
  | _ len ih =>
    intro s u fuel hlen hs hf
    cases fuel with
    | zero => simp at hf
    | succ fuel =>
      obtain ⟨u1, t1, e1, hu1⟩ := first_occurrence '$' s (by rw [hs]; simp)
      have hcases : (u = u1 ∧ t = t1) ∨ ∃ u2, t1 = u2 ++ '$' :: t := by
        have e : u ++ '$' :: t = u1 ++ '$' :: t1 := by rw [← hs, e1]
        rcases List.append_eq_append_iff.mp e with ⟨a1, h1, h2⟩ | ⟨c1, h1, h2⟩
        · cases a1 with
          | nil =>
            simp only [List.append_nil, List.nil_append, List.cons.injEq, true_and] at h1 h2
            exact Or.inl ⟨h1.symm, h2⟩
          | cons d a1 =>
            exfalso
            simp only [List.cons_append, List.cons.injEq] at h2
            apply hu1
            rw [h1, ← h2.1]
            simp
        · cases c1 with
          | nil =>
            simp only [List.append_nil, List.nil_append, List.cons.injEq, true_and] at h1 h2
            exact Or.inl ⟨h1, h2.symm⟩
          | cons d c1 =>
            simp only [List.cons_append, List.cons.injEq] at h2
            exact Or.inr ⟨c1, h2.2⟩
      rw [findAllFrom_varPattern_step, e1, findFrom_varPattern_skip n u1 _ hu1]
      cases href1 : refAt ('$' :: t1) with
      | some p =>
        obtain ⟨n1, r1⟩ := p
        rw [findFrom_varPattern_ref n _ n1 r1 href1]
        simp only
        rcases hcases with ⟨_, ht⟩ | ⟨u2, ht⟩
        · rw [← ht, href] at href1
          simp only [Option.some.injEq, Prod.mk.injEq] at href1
          exact ⟨_, List.mem_cons_self _ _, href1.1.symm⟩
        · obtain ⟨f1, hsplit, hno⟩ := refAt_split_no_dollar _ n1 r1 href1
          have e2 : f1 ++ r1 = u2 ++ '$' :: t := by
            rw [ht] at hsplit
            simp only [List.cons_append, List.cons.injEq, true_and] at hsplit
            exact hsplit.symm
          have hr1 : ∃ u3, r1 = u3 ++ '$' :: t := by
            rcases List.append_eq_append_iff.mp e2 with ⟨a1, h1, h2⟩ | ⟨c1, h1, h2⟩
            · exact ⟨a1, h2⟩
            · cases c1 with
              | nil =>
                simp only [List.nil_append] at h2
                exact ⟨[], by rw [← h2]; rfl⟩
              | cons d c1 =>
                exfalso
                simp only [List.cons_append, List.cons.injEq] at h2
                apply hno
                rw [h1, ← h2.1]
                simp
          obtain ⟨u3, hu3⟩ := hr1
          have hshort : r1.length < len := by
            rw [← hlen, e1, hsplit]
            simp only [List.cons_append, List.length_cons, List.length_append]
            omega
          obtain ⟨m, hm, hv⟩ := ih r1.length hshort r1 u3 fuel rfl hu3 (by omega)
          exact ⟨m, List.mem_cons_of_mem _ hm, hv⟩
      | none =>
        rcases hcases with ⟨_, ht⟩ | ⟨u2, ht⟩
        · rw [← ht, href] at href1
          exact absurd href1 (by simp)
        · rw [findFrom_varPattern_next n '$' t1 href1]
          have hshort : t1.length < len := by
            rw [← hlen, e1]
            simp only [List.length_cons, List.length_append]
            omega
          have hlen1 : t1.length < fuel + 1 := by omega
          obtain ⟨m, hm, hv⟩ := ih t1.length hshort t1 u2 (fuel + 1) rfl ht hlen1
          rw [findAllFrom_varPattern_step] at hm
          exact ⟨m, hm, hv⟩

/-- A reference to a variable without a value makes the expansion fail. -/
theorem foldl_expandStep_mem_unknown (r : PathResolver) (ms : List Match) (m : Match)
    (hm : m ∈ ms) (hv : r.valueOf (m.sub 1) = none) (acc : Str × Bool) :
    (ms.foldl (expandStep r) acc).2 = true := by
  induction ms generalizing acc with
  | nil => simp at hm
  | cons m1 ms ih =>
    rw [List.foldl_cons]
    rcases List.mem_cons.mp hm with e | e
    · rw [← e, expandStep_valueOf, hv]
      exact foldl_expandStep_unknown r ms _
    · exact ih e _

/-- The expansion of a text with a reference to a variable that has no value fails. -/
theorem expandVariables_unknown (r : PathResolver) (u t V rest : Str)
    (href : refAt ('$' :: t) = some (V, rest)) (hV : r.valueOf V = none) :
    r.expandVariables (u ++ '$' :: t) = none := by
  obtain ⟨m, hm, hv⟩ := findAllFrom_varPattern_mem (u ++ '$' :: t).length V rest t href _
    (u ++ '$' :: t) u ((u ++ '$' :: t).length + 1) rfl rfl (by omega)
  unfold PathResolver.expandVariables
  have := foldl_expandStep_mem_unknown r _ m hm (by rw [hv]; exact hV) (u ++ '$' :: t, false)
  simp only [FindAllStringSubmatch, this, if_true]

/-- A path that does not start with `~/` and holds, anywhere, a reference to a variable
that is neither `HOME` nor `XDG_CONFIG_HOME` nor set in the resolver does not resolve. -/
theorem ResolvePath_unknown_reference (r : PathResolver) (p u t V rest : Str)
    (hq : removeQuotes p = u ++ '$' :: t)
    (htilde : HasPrefix (removeQuotes p) "~/".toList = false)
    (href : refAt ('$' :: t) = some (V, rest)) (hV : r.valueOf V = none) :
    r.ResolvePath p = none := by
  unfold PathResolver.ResolvePath
  split
  · rfl
  · simp only
    have hne : removeQuotes p ≠ "~".toList := by
      intro e
      have : '$' ∈ removeQuotes p := by rw [hq]; simp
      rw [e] at this
      revert this
      decide
    rw [if_neg (by rw [htilde]; simp), if_neg hne, hq, expandVariables_unknown r u t V rest href hV]

end Unknown

/-! ## A direct include with an inline comment -/

section CommentInclude

open Regex

theorem trimRightBy_append_keep (p : Char → Bool) (A Y : Str)
    (hA : ∀ d, A.getLast? = some d → p d = false) :
    trimRightBy p (A ++ Y) = A ++ trimRightBy p Y := by
  induction Y using List.reverseRecOn with
  | nil =>
    rw [List.append_nil, trimRightBy_id p A hA]
    show A = A ++ trimRightBy p []
    simp [trimRightBy, trimLeftBy]
  | append_singleton Y d ih =>
    by_cases hd : p d = true
    · rw [← List.append_assoc, trimRightBy_append_of_all p (A ++ Y) [d] (by simpa using hd),
        trimRightBy_append_of_all p Y [d] (by simpa using hd), ih]
    · rw [← List.append_assoc, trimRightBy_concat_of_not p (A ++ Y) d (by simpa using hd),
        trimRightBy_concat_of_not p Y d (by simpa using hd), List.append_assoc]

theorem trimRightBy_subset (p : Char → Bool) (s : Str) : ∀ c ∈ trimRightBy p s, c ∈ s := by
  obtain ⟨w, hw, _⟩ := trimRightBy_split p s
  intro c hc
  rw [hw]
  exact List.mem_append_left _ hc

/-- The loop of `removeTrailingComment` stops at the first `#` after plain text. -/
theorem removeTrailingCommentLoop_hash (a Y : Str) (sq dq : Bool) (hs : sq = false)
    (hd : dq = false) (ha : ∀ c ∈ a, inert sq dq c) :
    removeTrailingCommentLoop (a ++ '#' :: Y) sq dq false = some a := by
  induction a with
  | nil =>
    subst hs
    subst hd
    simp [removeTrailingCommentLoop]
  | cons c a ih =>
    obtain ⟨h1, h2, h3, h4⟩ := ha c (List.mem_cons_self _ _)
    have hq1 : ¬ (c = '\'' ∧ ¬ dq = true) := fun h => h.2 (h2 h.1)
    have hq2 : ¬ (c = '"' ∧ ¬ sq = true) := fun h => h.2 (h3 h.1)
    have hq3 : ¬ (c = '#' ∧ ¬ sq = true ∧ ¬ dq = true) := fun h =>
      (h4 h.1).elim h.2.1 h.2.2
    have ih1 := ih (fun x hx => ha x (List.mem_cons_of_mem _ hx))
    show removeTrailingCommentLoop (c :: (a ++ '#' :: Y)) sq dq false = some (c :: a)
    simp only [removeTrailingCommentLoop, h1, hq1, hq2, hq3, if_false, Bool.false_eq_true,
      ih1, Option.map_some']

/-- A plain path with a comment after it is extracted without the comment. -/
theorem extractPath_comment (p : Char) (ps Y : Str) (h : ∀ c ∈ p :: ps, pathChar c = true) :
    extractPath (p :: ps ++ ' ' :: '#' :: Y) = p :: ps := by
  have hplain := extractPath_plain p ps h
  have hsp : ∀ d, (p :: ps).getLast? = some d → isSpace d = false := fun d hd =>
    (pathChar_cases d (h d (List.mem_of_mem_getLast? hd))).1
  have hP : TrimSpace (p :: ps) = p :: ps :=
    TrimSpace_id p ps (pathChar_cases p (h p (List.mem_cons_self _ _))).1 hsp
  have ht : TrimSpace (p :: ps ++ ' ' :: '#' :: Y)
      = (p :: ps ++ [' ']) ++ '#' :: trimRightBy isSpace Y := by
    unfold TrimSpace
    rw [List.cons_append, trimLeftBy_cons_of_not _ _ _
      (pathChar_cases p (h p (List.mem_cons_self _ _))).1]
    have e : p :: (ps ++ ' ' :: '#' :: Y) = (p :: ps ++ [' ', '#']) ++ Y := by simp
    rw [e, trimRightBy_append_keep isSpace _ Y
      (by intro d hd
          have e2 : p :: ps ++ [' ', '#'] = (p :: ps ++ [' ']) ++ ['#'] := by simp
          rw [e2, List.getLast?_concat] at hd
          simp only [Option.some.injEq] at hd
          rw [← hd]
          decide)]
    simp
  have hr : removeTrailingComment ((p :: ps ++ [' ']) ++ '#' :: trimRightBy isSpace Y)
      = p :: ps := by
    unfold removeTrailingComment
    rw [removeTrailingCommentLoop_hash _ _ false false rfl rfl (by
      intro c hc
      rcases List.mem_append.mp hc with h1 | h1
      · exact pathChar_inert c (h c h1)
      · rw [List.mem_singleton.mp h1]
        exact isSpace_inert ' ' (by decide))]
    simp only
    rw [TrimSpace_append_spaces (p :: ps) [' '] (by decide), hP]
  have hsemi : TrimRight (p :: ps) ";".toList = p :: ps := by
    unfold TrimRight
    apply trimRightBy_id
    intro d hd
    have := (pathChar_cases d (h d (List.mem_of_mem_getLast? hd))).2.2.2.2.2.2
    simpa using this
  unfold extractPath
  rw [ht, hr, hsemi, hP]

/-- On `source P` followed by more text the expression for a direct include matches up to
the end of the line, with the key word and the rest of the line as the groups. -/
theorem sourcePattern_match_line (p : Char) (ps b : Str) (hp : ws p = false)
    (hd : ∀ y ∈ p :: ps, dot y = true) (hb : ∀ y ys, b = y :: ys → dot y = false) :
    FindStringSubmatch sourcePattern 2 ("source ".toList ++ (p :: ps ++ b))
      = some ⟨"source ".toList ++ (p :: ps ++ b), b,
          [none, some "source".toList, some (p :: ps)]⟩ := by
  have hrun := run_source_head ("source ".toList ++ (p :: ps ++ b)).length (p :: ps ++ b)
    (List.replicate (2 + 1) none)
    (fun s1 c1 => some (Match.mk ("source ".toList ++ (p :: ps ++ b)) s1 c1))
    (group 2 (plus (char dot) true)) rfl
    (by intro y ys h; simp only [List.cons_append, List.cons.injEq] at h; rw [← h.1]; exact hp)
  have hg := run_group_class ("source ".toList ++ (p :: ps ++ b)).length 2 dot dot p ps b
    ((List.replicate (2 + 1) none).set 1 (some "source".toList))
    (fun s1 c1 => some (Match.mk ("source ".toList ++ (p :: ps ++ b)) s1 c1)) _
    (hd p (List.mem_cons_self _ _)) (fun y hy => hd y (List.mem_cons_of_mem _ hy)) hb rfl
  rw [show group 2 (plus (char dot) true) = group 2 (seq (char dot) (star (char dot) true))
    from rfl, hg] at hrun
  exact findFrom_of_run _ 2 _ _ _ hrun

/-- The include parser on `source P # C` for a plain path `P` and a comment `C` without
`[`: the direct include of `P`. -/
theorem IncludeParser_ParseLine_comment (p : Char) (ps C : Str)
    (h : ∀ c ∈ p :: ps, pathChar c = true) (hC : '[' ∉ C) :
    IncludeParser.ParseLine ("source ".toList ++ (p :: ps) ++ " # ".toList ++ C)
      = [{ Path := p :: ps, Conditional := false }] := by
  obtain ⟨Y, hY⟩ : ∃ Y, Y = trimRightBy isSpace (' ' :: C) := ⟨_, rfl⟩
  have hYmem : ∀ c ∈ Y, c ∈ ' ' :: C := by
    rw [hY]
    exact trimRightBy_subset isSpace _
  have htrim : TrimSpace ("source ".toList ++ (p :: ps) ++ " # ".toList ++ C)
      = "source ".toList ++ ((p :: ps ++ [' ', '#']) ++ Y) := by
    unfold TrimSpace
    have e0 : "source ".toList ++ (p :: ps) ++ " # ".toList ++ C
        = 's' :: ("ource ".toList ++ (p :: ps) ++ " # ".toList ++ C) := rfl
    rw [e0, trimLeftBy_cons_of_not _ _ _ (by decide)]
    have e : 's' :: ("ource ".toList ++ (p :: ps) ++ " # ".toList ++ C)
        = ("source ".toList ++ (p :: ps ++ [' ', '#'])) ++ (' ' :: C) := by simp
    rw [e, trimRightBy_append_keep isSpace _ _
      (by intro d hd
          have e2 : "source ".toList ++ (p :: ps ++ [' ', '#'])
              = ("source ".toList ++ (p :: ps ++ [' '])) ++ ['#'] := by simp
          rw [e2, List.getLast?_concat] at hd
          simp only [Option.some.injEq] at hd
          rw [← hd]
          decide), ← hY]
    simp
  obtain ⟨Y1, Y2, hY12, hY1, hY2⟩ : ∃ Y1 Y2, Y = Y1 ++ Y2 ∧ (∀ y ∈ Y1, dot y = true) ∧
      ∀ y ys, Y2 = y :: ys → dot y = false :=
    ⟨Y.takeWhile dot, Y.dropWhile dot, (List.takeWhile_append_dropWhile dot Y).symm,
      fun y hy => List.mem_takeWhile_imp hy, dropWhile_head dot Y⟩
  have hline : "source ".toList ++ ((p :: ps ++ [' ', '#']) ++ Y)
      = "source ".toList ++ (p :: (ps ++ ' ' :: '#' :: Y1) ++ Y2) := by
    rw [hY12]
    simp
  have hb : '[' ∉ "source ".toList ++ (p :: (ps ++ ' ' :: '#' :: Y1) ++ Y2) := by
    rw [← hline]
    intro hm
    rcases List.mem_append.mp hm with hm | hm
    · revert hm; decide
    rcases List.mem_append.mp hm with hm | hm
    · rcases List.mem_append.mp hm with hm | hm
      · exact (pathChar_cases _ (h _ hm)).2.1 rfl
      · revert hm; decide
    · rcases List.mem_cons.mp (hYmem _ hm) with e | e
      · exact absurd e (by decide)
      · exact hC e
  have hsrc := sourcePattern_match_line p (ps ++ ' ' :: '#' :: Y1) Y2
    (not_ws_of_not_isSpace p (pathChar_cases p (h p (List.mem_cons_self _ _))).1)
    (by intro y hy
        simp only [List.mem_cons, List.mem_append] at hy
        rcases hy with e | e | e | e | e
        · rw [e]; exact dot_of_ne p (pathChar_ne_newline p (h p (List.mem_cons_self _ _)))
        · exact dot_of_ne y (pathChar_ne_newline y (h y (List.mem_cons_of_mem _ e)))
        · rw [e]; decide
        · rw [e]; decide
        · exact hY1 y e)
    hY2
  have hsub : (Match.mk ("source ".toList ++ (p :: (ps ++ ' ' :: '#' :: Y1) ++ Y2)) Y2
      [none, some "source".toList, some (p :: (ps ++ ' ' :: '#' :: Y1))]).sub 2
      = p :: ps ++ ' ' :: '#' :: Y1 := rfl
  unfold IncludeParser.ParseLine
  simp only [htrim]
  rw [hline]
  simp only [conditionalPattern_none _ hb, hsrc, hsub, extractPath_comment p ps Y1 h]
  simp [HasPrefix]

end CommentInclude

/-! ## The order of strings and the sort by name -/

theorem strLess_irrefl (a : Str) : strLess a a = false := by
  induction a with
  | nil => rfl
  | cons x xs ih => simp [strLess, ih]

theorem strLess_trans (a b c : Str) (h1 : strLess a b = true) (h2 : strLess b c = true) :
    strLess a c = true := by
  induction a generalizing b c with
  | nil =>
    cases b with
    | nil => simp [strLess] at h1
    | cons y ys =>
      cases c with
      | nil => simp [strLess] at h2
      | cons z zs => rfl
  | cons x xs ih =>
    cases b with
    | nil => simp [strLess] at h1
    | cons y ys =>
      cases c with
      | nil => simp [strLess] at h2
      | cons z zs =>
        simp only [strLess, Bool.or_eq_true, Bool.and_eq_true, decide_eq_true_eq] at h1 h2 ⊢
        rcases h1 with h1 | ⟨e1, h1⟩
        · rcases h2 with h2 | ⟨e2, _⟩
          · exact Or.inl (by omega)
          · exact Or.inl (by rw [← e2]; exact h1)
        · rcases h2 with h2 | ⟨e2, h2⟩
          · exact Or.inl (by rw [e1]; exact h2)
          · exact Or.inr ⟨e1.trans e2, ih ys zs h1 h2⟩

theorem strLess_asymm (a b : Str) (h : strLess a b = true) : strLess b a = false := by
  cases h2 : strLess b a with
  | false => rfl
  | true =>
    have := strLess_trans a b a h h2
    rw [strLess_irrefl] at this
    exact absurd this (by simp)

/-- Two different strings are in order one way or the other. -/
theorem strLess_total (a b : Str) (h : a ≠ b) : strLess a b = true ∨ strLess b a = true := by
  induction a generalizing b with
  | nil =>
    cases b with
    | nil => exact absurd rfl h
    | cons y ys => exact Or.inl rfl
  | cons x xs ih =>
    cases b with
    | nil => exact Or.inr rfl
    | cons y ys =>
      simp only [strLess, Bool.or_eq_true, Bool.and_eq_true, decide_eq_true_eq]
      by_cases hxy : x = y
      · have hne : xs ≠ ys := fun e => h (by rw [hxy, e])
        rcases ih ys hne with h1 | h1
        · exact Or.inl (Or.inr ⟨hxy, h1⟩)
        · exact Or.inr (Or.inr ⟨hxy.symm, h1⟩)
      · have hn : x.toNat ≠ y.toNat := fun e => hxy (by simpa using congrArg Char.ofNat e)
        rcases Nat.lt_or_gt_of_ne hn with h1 | h1
        · exact Or.inl (Or.inl h1)
        · exact Or.inr (Or.inl h1)

theorem insertByName_perm (x : AliasEntry) (l : List AliasEntry) :
    (insertByName x l).Perm (x :: l) := by
  induction l with
  | nil => exact List.Perm.refl _
  | cons y ys ih =>
    simp only [insertByName]
    split
    · exact List.Perm.refl _
    · exact (List.Perm.cons y ih).trans (List.Perm.swap x y ys)

/-- The sort by name rearranges the entries. -/
theorem sortByName_perm (l : List AliasEntry) : (sortByName l).Perm l := by
  have h : ∀ (l acc : List AliasEntry),
      (l.foldl (fun sorted x => insertByName x sorted) acc).Perm (acc ++ l) := by
    intro l
    induction l with
    | nil => intro acc; simp
    | cons x xs ih =>
      intro acc
      rw [List.foldl_cons]
      refine (ih _).trans ?_
      refine ((insertByName_perm x acc).append_right xs).trans ?_
      simp only [List.cons_append]
      exact (List.perm_middle).symm
  simpa [sortByName] using h l []

theorem insertByName_sorted (x : AliasEntry) (l : List AliasEntry)
    (h : l.Pairwise (fun a b => strLess b.Name a.Name = false)) :
    (insertByName x l).Pairwise (fun a b => strLess b.Name a.Name = false) := by
  induction l with
  | nil => simp [insertByName]
  | cons y ys ih =>
    obtain ⟨hy, hys⟩ := List.pairwise_cons.mp h
    simp only [insertByName]
    split
    · rename_i hxy
      refine List.pairwise_cons.mpr ⟨?_, h⟩
      intro z hz
      rcases List.mem_cons.mp hz with e | e
      · rw [e]; exact strLess_asymm _ _ hxy
      · cases hzx : strLess z.Name x.Name with
        | false => rfl
        | true =>
          have := strLess_trans _ _ _ hzx hxy
          rw [hy z e] at this
          exact absurd this (by simp)
    · rename_i hxy
      refine List.pairwise_cons.mpr ⟨?_, ih hys⟩
      intro z hz
      rcases List.mem_cons.mp ((insertByName_perm x ys).subset hz) with e | e
      · rw [e]; simpa using hxy
      · exact hy z e

/-- After the sort by name no entry has a smaller name than an earlier one. -/
theorem sortByName_sorted (l : List AliasEntry) :
    (sortByName l).Pairwise (fun a b => strLess b.Name a.Name = false) := by
  have h : ∀ (l acc : List AliasEntry),
      acc.Pairwise (fun a b => strLess b.Name a.Name = false) →
      (l.foldl (fun sorted x => insertByName x sorted) acc).Pairwise
        (fun a b => strLess b.Name a.Name = false) := by
    intro l
    induction l with
    | nil => intro acc hacc; exact hacc
    | cons x xs ih =>
      intro acc hacc
      exact ih _ (insertByName_sorted x acc hacc)
  exact h l [] List.Pairwise.nil

/-- Entries with different names are strictly ascending after the sort by name. -/
theorem sortByName_strict (l : List AliasEntry) (hnd : (l.map AliasEntry.Name).Nodup) :
    (sortByName l).Pairwise (fun a b => strLess a.Name b.Name = true) := by
  have hp := sortByName_perm l
  have hnd2 : ((sortByName l).map AliasEntry.Name).Nodup :=
    (hp.map AliasEntry.Name).nodup_iff.mpr hnd
  have hne : (sortByName l).Pairwise (fun a b => a.Name ≠ b.Name) :=
    (List.pairwise_map.mp hnd2)
  refine (List.Pairwise.and (sortByName_sorted l) hne).imp ?_
  intro a b hab
  rcases strLess_total a.Name b.Name hab.2 with h | h
  · exact h
  · rw [hab.1] at h
    exact absurd h (by simp)

/-- Two strictly ascending rearrangements of the same entries are the same sequence: the
result of sorting entries with different names does not depend on the procedure. -/
theorem sorted_by_name_unique (l1 l2 : List AliasEntry) (hp : l1.Perm l2)
    (h1 : l1.Pairwise (fun a b => strLess a.Name b.Name = true))
    (h2 : l2.Pairwise (fun a b => strLess a.Name b.Name = true)) : l1 = l2 := by
  induction l1 generalizing l2 with
  | nil => exact (List.nil_perm.mp hp).symm
  | cons x xs ih =>
    cases l2 with
    | nil => exact absurd hp.symm (by simp)
    | cons y ys =>
      obtain ⟨hx, hxs⟩ := List.pairwise_cons.mp h1
      obtain ⟨hy, hys⟩ := List.pairwise_cons.mp h2
      have hxy : x = y := by
        by_contra hne
        have hx2 : x ∈ ys := by
          rcases List.mem_cons.mp (hp.subset (List.mem_cons_self x xs)) with e | e
          · exact absurd e hne
          · exact e
        have hy2 : y ∈ xs := by
          rcases List.mem_cons.mp (hp.symm.subset (List.mem_cons_self y ys)) with e | e
          · exact absurd e.symm hne
          · exact e
        have a1 := hx y hy2
        have a2 := hy x hx2
        rw [strLess_asymm _ _ a1] at a2
        exact absurd a2 (by simp)
      subst hxy
      rw [ih ys (List.Perm.cons_inv hp) hxs hys]

/-! ## The alias table as a map keyed by name -/

theorem mapGet_none_iff {β : Type} (m : List (Str × β)) (k : Str) :
    mapGet m k = none ↔ k ∉ m.map Prod.fst := by
  induction m with
  | nil => simp [mapGet]
  | cons p m ih =>
    obtain ⟨k1, v1⟩ := p
    simp only [mapGet, List.map_cons, List.mem_cons, not_or]
    by_cases h : k1 = k
    · rw [if_pos h]
      exact ⟨fun e => absurd e (by simp), fun e => absurd h.symm e.1⟩
    · rw [if_neg h, ih]
      exact ⟨fun e => ⟨fun e1 => h e1.symm, e⟩, fun e => e.2⟩

theorem mem_of_mapGet {β : Type} (m : List (Str × β)) (k : Str) (v : β)
    (h : mapGet m k = some v) : (k, v) ∈ m := by
  induction m with
  | nil => simp [mapGet] at h
  | cons p m ih =>
    obtain ⟨k1, v1⟩ := p
    by_cases h1 : k1 = k
    · simp only [mapGet, if_pos h1, Option.some.injEq] at h
      rw [h1, h]
      exact List.mem_cons_self _ _
    · simp only [mapGet, if_neg h1] at h
      exact List.mem_cons_of_mem _ (ih h)

theorem mapGet_of_mem {β : Type} (m : List (Str × β)) (k : Str) (v : β)
    (hnd : (m.map Prod.fst).Nodup) (h : (k, v) ∈ m) : mapGet m k = some v := by
  induction m with
  | nil => simp at h
  | cons p m ih =>
    obtain ⟨k1, v1⟩ := p
    simp only [List.map_cons, List.nodup_cons] at hnd
    rcases List.mem_cons.mp h with e | e
    · simp only [Prod.mk.injEq] at e
      simp [mapGet, e.1, e.2]
    · have hk : k ∈ m.map Prod.fst := List.mem_map.mpr ⟨(k, v), e, rfl⟩
      have h1 : ¬ k1 = k := fun e1 => hnd.1 (by rw [e1]; exact hk)
      simp only [mapGet, if_neg h1]
      exact ih hnd.2 e

theorem mapModify_keys {β : Type} (m : List (Str × β)) (k : Str) (f : β → β) :
    (mapModify m k f).map Prod.fst = m.map Prod.fst := by
  induction m with
  | nil => rfl
  | cons p m ih =>
    obtain ⟨k1, v1⟩ := p
    by_cases h : k1 = k
    · simp [mapModify, h]
    · simp [mapModify, h, ih]

theorem mem_mapModify {β : Type} (m : List (Str × β)) (k : Str) (f : β → β) (p : Str × β)
    (h : p ∈ mapModify m k f) : p ∈ m ∨ ∃ v, (k, v) ∈ m ∧ p = (k, f v) := by
  induction m with
  | nil => simp [mapModify] at h
  | cons q m ih =>
    obtain ⟨k1, v1⟩ := q
    by_cases h1 : k1 = k
    · simp only [mapModify, if_pos h1] at h
      subst h1
      rcases List.mem_cons.mp h with e | e
      · exact Or.inr ⟨v1, List.mem_cons_self _ _, e⟩
      · exact Or.inl (List.mem_cons_of_mem _ e)
    · simp only [mapModify, if_neg h1] at h
      rcases List.mem_cons.mp h with e | e
      · exact Or.inl (by rw [e]; exact List.mem_cons_self _ _)
      · rcases ih e with h2 | ⟨v, h2, h3⟩
        · exact Or.inl (List.mem_cons_of_mem _ h2)
        · exact Or.inr ⟨v, List.mem_cons_of_mem _ h2, h3⟩

theorem mapSet_keys_new {β : Type} (m : List (Str × β)) (k : Str) (v : β)
    (h : mapGet m k = none) : mapSet m k v = m ++ [(k, v)] := by
  induction m with
  | nil => rfl
  | cons p m ih =>
    obtain ⟨k1, v1⟩ := p
    by_cases h1 : k1 = k
    · simp [mapGet, h1] at h
    · simp only [mapGet, if_neg h1] at h
      simp [mapSet, h1, ih h]

/-- In a list whose images under `f` are all different, the items with image `N` are one if
`N` is an image, and none otherwise. -/
theorem filter_image_length {α : Type} (f : α → Str) (N : Str) (l : List α)
    (hnd : (l.map f).Nodup) :
    (l.filter (fun a => f a = N)).length = if N ∈ l.map f then 1 else 0 := by
  induction l with
  | nil => simp
  | cons x xs ih =>
    simp only [List.map_cons, List.nodup_cons] at hnd
    by_cases hx : f x = N
    · have hN : N ∉ xs.map f := by rw [← hx]; exact hnd.1
      have h0 := ih hnd.2
      rw [if_neg hN] at h0
      rw [List.filter_cons_of_pos (by simpa using hx), List.length_cons, h0,
        if_pos (by rw [List.map_cons, hx]; exact List.mem_cons_self _ _)]
    · have h0 := ih hnd.2
      rw [List.filter_cons_of_neg (by simpa using hx), h0]
      by_cases hN : N ∈ xs.map f
      · rw [if_pos hN, if_pos (by rw [List.map_cons]; exact List.mem_cons_of_mem _ hN)]
      · rw [if_neg hN, if_neg]
        rw [List.map_cons, List.mem_cons, not_or]
        exact ⟨fun e => hx e.symm, hN⟩

theorem Keyed_nil : Keyed [] := by
  simp [Keyed]

theorem Keyed_AddAlias (r : ScanResult) (d : AliasDefinition) (h : Keyed r.Aliases) :
    Keyed (r.AddAlias d).Aliases := by
  obtain ⟨h1, h2⟩ := h
  unfold ScanResult.AddAlias
  cases hg : mapGet r.Aliases d.Name with
  | some e =>
    simp only
    refine ⟨by rw [mapModify_keys]; exact h1, ?_⟩
    intro p hp
    rcases mem_mapModify _ _ _ _ hp with h3 | ⟨v, h3, h4⟩
    · exact h2 p h3
    · have := h2 _ h3
      rw [h4]
      simp only [AliasEntry.AddDefinition] at this ⊢
      split <;> exact this
  | none =>
    simp only
    rw [mapSet_keys_new _ _ _ hg]
    refine ⟨?_, ?_⟩
    · rw [List.map_append, List.nodup_append]
      refine ⟨h1, by simp, ?_⟩
      intro a ha hb
      simp only [List.map_cons, List.map_nil, List.mem_singleton] at hb
      rw [hb] at ha
      exact (mapGet_none_iff _ _).mp hg ha
    · intro p hp
      rcases List.mem_append.mp hp with h3 | h3
      · exact h2 p h3
      · simp only [List.mem_singleton] at h3
        rw [h3]

theorem Keyed_foldl (new : List AliasDefinition) (r : ScanResult) (h : Keyed r.Aliases) :
    Keyed (new.foldl ScanResult.AddAlias r).Aliases := by
  induction new generalizing r with
  | nil => exact h
  | cons d new ih => exact ih _ (Keyed_AddAlias r d h)

/-- The alias table that a scan returns is a map keyed by name. -/
theorem Keyed_scan (fs : FileSystem) (s : Scanner) (shell : Str) (roots : List Str)
    (r : ScanResult × Scanner) (h : ScanShellFiles fs s shell roots = some r) :
    Keyed r.1.Aliases := by
  unfold ScanShellFiles ScanShellFilesFuel at h
  obtain ⟨st, hst, hr⟩ := Option.map_eq_some'.mp h
  subst hr
  obtain ⟨new, t⟩ := scanRoots_trace fs _ roots _ st hst
  have ht : st.result.Aliases = _ := t.table
  rw [ht]
  exact Keyed_foldl new _ Keyed_nil

/-! ## C33, C34: the export of the aliases -/

/-- The entries that `GetAliasesSorted` returns are the entries of the table, each once, in
the order of the iteration. -/
theorem GetAliasesSorted_perm (ord : List (Str × AliasEntry) → List (Str × AliasEntry))
    (hord : IterOrder ord) (r : ScanResult) :
    (r.GetAliasesSorted ord).Perm (r.Aliases.map Prod.snd) :=
  (hord r.Aliases).map Prod.snd

theorem Keyed_names (m : List (Str × AliasEntry)) (h : Keyed m) :
    (m.map Prod.snd).map AliasEntry.Name = m.map Prod.fst := by
  rw [List.map_map]
  exact List.map_congr_left (fun p hp => h.2 p hp)

/-- The entries that `ExportAliases` converts: a rearrangement of the entries of the table,
strictly ascending by name. -/
theorem export_entries (ord : List (Str × AliasEntry) → List (Str × AliasEntry))
    (hord : IterOrder ord) (r : ScanResult) (hk : Keyed r.Aliases) :
    (sortByName (r.GetAliasesSorted ord)).Perm (r.Aliases.map Prod.snd) ∧
    (sortByName (r.GetAliasesSorted ord)).Pairwise (fun a b => strLess a.Name b.Name = true) := by
  have hp := GetAliasesSorted_perm ord hord r
  refine ⟨(sortByName_perm _).trans hp, sortByName_strict _ ?_⟩
  rw [(hp.map AliasEntry.Name).nodup_iff, Keyed_names _ hk]
  exact hk.1

/-- C33: for a scan result whose alias table was built by `AddAlias` (from any sequence of
definitions) and for every order in which the map iteration may deliver the entries, the
records of `ExportAliases` are strictly ascending by name, every name has one record if it
is in the table and none otherwise, and every record carries the active value, the type,
the file and line of the active location and the overridden flag of the entry of its
name. -/
theorem ExportAliases_records (ord : List (Str × AliasEntry) → List (Str × AliasEntry))
    (hord : IterOrder ord) (r : ScanResult) (defs : List AliasDefinition) (shell : Str)
    (roots : List Str)
    (h : r.Aliases = (defs.foldl ScanResult.AddAlias (NewScanResult shell roots)).Aliases) :
    (ExportAliases ord r).Pairwise (fun a b => strLess a.Name b.Name = true) ∧
    (∀ N, ((ExportAliases ord r).filter (fun a => a.Name = N)).length =
      if (mapGet r.Aliases N).isSome then 1 else 0) ∧
    (∀ a ∈ ExportAliases ord r, ∃ e, mapGet r.Aliases a.Name = some e ∧
      a.Value = e.ActiveValue ∧ a.Typ = e.Typ.toStr ∧ a.File = e.ActiveLocation.FilePath ∧
      a.Line = e.ActiveLocation.LineNum ∧ a.Override = e.IsOverridden) := by
  have hk : Keyed r.Aliases := by
    rw [h]
    exact Keyed_foldl defs _ Keyed_nil
  obtain ⟨hp, hs⟩ := export_entries ord hord r hk
  have hnames : ((ExportAliases ord r).map SimpleAlias.Name).Perm (r.Aliases.map Prod.fst) := by
    have h1 : (ExportAliases ord r).map SimpleAlias.Name
        = (sortByName (r.GetAliasesSorted ord)).map AliasEntry.Name := by
      simp only [ExportAliases, List.map_map]
      rfl
    rw [h1, ← Keyed_names _ hk]
    exact hp.map AliasEntry.Name
  refine ⟨?_, ?_, ?_⟩
  · simp only [ExportAliases]
    exact List.pairwise_map.mpr hs
  · intro N
    have hnd : ((ExportAliases ord r).map SimpleAlias.Name).Nodup :=
      hnames.nodup_iff.mpr hk.1
    rw [filter_image_length SimpleAlias.Name N _ hnd]
    cases hg : mapGet r.Aliases N with
    | none =>
      have h1 : N ∉ (ExportAliases ord r).map SimpleAlias.Name := fun hm =>
        (mapGet_none_iff _ _).mp hg (hnames.subset hm)
      rw [if_neg h1]
      rfl
    | some e =>
      have h1 : N ∈ (ExportAliases ord r).map SimpleAlias.Name :=
        hnames.symm.subset (List.mem_map.mpr ⟨(N, e), mem_of_mapGet _ _ _ hg, rfl⟩)
      rw [if_pos h1]
      rfl
  · intro a ha
    simp only [ExportAliases, List.mem_map] at ha
    obtain ⟨e, he, hae⟩ := ha
    have he2 : e ∈ r.Aliases.map Prod.snd := hp.subset he
    obtain ⟨p, hp1, hp2⟩ := List.mem_map.mp he2
    have hname : p.1 = e.Name := by rw [← hp2]; exact (hk.2 p hp1).symm
    have hget : mapGet r.Aliases e.Name = some e := by
      apply mapGet_of_mem _ _ _ hk.1
      rw [← hname, ← hp2]
      exact hp1
    refine ⟨e, ?_, ?_⟩
    · rw [← hae]
      exact hget
    · rw [← hae]
      exact ⟨rfl, rfl, rfl, rfl, rfl⟩

/-- C33, at a table with the names `b` and `a`, the name `b` defined twice: whichever way
the iteration goes, the record of `a` comes first, and the record of `b` carries the later
definition. -/
theorem ExportAliases_records_witness :
    ExportAliases List.reverse exportResult = exportRecords ∧
    ExportAliases id exportResult = exportRecords ∧
    ((ExportAliases List.reverse exportResult).Pairwise
        (fun a b => strLess a.Name b.Name = true) ∧
      (∀ N, ((ExportAliases List.reverse exportResult).filter (fun a => a.Name = N)).length =
        if (mapGet exportResult.Aliases N).isSome then 1 else 0) ∧
      (∀ a ∈ ExportAliases List.reverse exportResult,
        ∃ e, mapGet exportResult.Aliases a.Name = some e ∧
        a.Value = e.ActiveValue ∧ a.Typ = e.Typ.toStr ∧ a.File = e.ActiveLocation.FilePath ∧
        a.Line = e.ActiveLocation.LineNum ∧ a.Override = e.IsOverridden)) :=
  ⟨by decide!, by decide!,
    ExportAliases_records List.reverse (fun m => List.reverse_perm m) exportResult exportDefs
      "zsh".toList ["/rc".toList] rfl⟩

/-- C34: `GetAliasesSorted` does not sort.  In a table to which `b` was added before `a`,
an iteration that delivers the entries in the order of insertion makes it return the entry
of `b` before the entry of `a`; the sorting is done by its caller `ExportAliases`. -/
theorem GetAliasesSorted_is_not_sorted :
    IterOrder id ∧
    (exportResult.GetAliasesSorted id).map AliasEntry.Name = ["b".toList, "a".toList] ∧
    strLess "b".toList "a".toList = false ∧
    (ExportAliases id exportResult).map SimpleAlias.Name = ["a".toList, "b".toList] :=
  ⟨fun m => List.Perm.refl m, by decide!, by decide!, by decide!⟩

/-! ## C39: the built-in variables -/

/-- Two resolvers with the same home directory, the same XDG directory and the same set
values for every name other than `HOME` and `XDG_CONFIG_HOME` resolve every path alike. -/
theorem ResolvePath_congr (r1 r2 : PathResolver) (hh : r1.homeDir = r2.homeDir)
    (hx : r1.xdgConfigHome = r2.xdgConfigHome)
    (hv : ∀ name, name ≠ "HOME".toList → name ≠ "XDG_CONFIG_HOME".toList →
      mapGet r1.customVars name = mapGet r2.customVars name) (p : Str) :
    r1.ResolvePath p = r2.ResolvePath p := by
  have hstep : expandStep r1 = expandStep r2 := by
    funext acc m
    unfold expandStep
    simp only
    by_cases h1 : m.sub 1 = "HOME".toList
    · rw [if_pos h1, if_pos h1, hh]
    · rw [if_neg h1, if_neg h1]
      by_cases h2 : m.sub 1 = "XDG_CONFIG_HOME".toList
      · rw [if_pos h2, if_pos h2, hx]
      · rw [if_neg h2, if_neg h2, hv _ h1 h2]
  have hexp : ∀ q, r1.expandVariables q = r2.expandVariables q := by
    intro q
    unfold PathResolver.expandVariables
    rw [hstep]
  unfold PathResolver.ResolvePath
  simp only [hh, hexp]

theorem ResolvePath_SetVariable_builtin (r : PathResolver) (n x p : Str)
    (hn : n = "HOME".toList ∨ n = "XDG_CONFIG_HOME".toList) :
    (r.SetVariable n x).ResolvePath p = r.ResolvePath p := by
  refine ResolvePath_congr (r.SetVariable n x) r rfl rfl ?_ p
  intro name h1 h2
  simp only [PathResolver.SetVariable, mapGet_mapSet]
  rw [if_neg]
  intro e
  rcases hn with h | h
  · exact h1 (e.symm.trans h)
  · exact h2 (e.symm.trans h)

/-- C39: for every resolver, value `x` and path `p`, `ResolvePath(p)` is the same after
`SetVariable("HOME", x)` and after `SetVariable("XDG_CONFIG_HOME", x)` as before; and the
variable step of the scanner at a line that assigns to one of the two names leaves the
resolution of every path by the scanner as it was. -/
theorem builtin_bindings_shadow_custom (r : PathResolver) (x p : Str) :
    (r.SetVariable "HOME".toList x).ResolvePath p = r.ResolvePath p ∧
    (r.SetVariable "XDG_CONFIG_HOME".toList x).ResolvePath p = r.ResolvePath p ∧
    ∀ (line : Str) (st : ScanState),
      (ParseVariableAssignment line = some ("HOME".toList, x) ∨
        ParseVariableAssignment line = some ("XDG_CONFIG_HOME".toList, x)) →
      (varStep line st).pathResolver.ResolvePath p = st.pathResolver.ResolvePath p := by
  refine ⟨ResolvePath_SetVariable_builtin r _ x p (Or.inl rfl),
    ResolvePath_SetVariable_builtin r _ x p (Or.inr rfl), ?_⟩
  intro line st h
  unfold varStep
  rcases h with h | h
  · rw [h]
    exact ResolvePath_SetVariable_builtin _ _ x p (Or.inl rfl)
  · rw [h]
    exact ResolvePath_SetVariable_builtin _ _ x p (Or.inr rfl)

/-- C39, at the line `HOME=/tmp`: the scanner records the binding, and `$HOME/rc` still
resolves to `/home/u/rc`. -/
theorem builtin_bindings_shadow_custom_witness :
    ParseVariableAssignment "HOME=/tmp".toList = some ("HOME".toList, "/tmp".toList) ∧
    (varStep "HOME=/tmp".toList (initialState scanner0 "zsh".toList [])).pathResolver.customVars
      = [("HOME".toList, "/tmp".toList)] ∧
    scanner0.pathResolver.ResolvePath "$HOME/rc".toList = some "/home/u/rc".toList ∧
    (varStep "HOME=/tmp".toList
        (initialState scanner0 "zsh".toList [])).pathResolver.ResolvePath "$HOME/rc".toList
      = (initialState scanner0 "zsh".toList []).pathResolver.ResolvePath "$HOME/rc".toList :=
  ⟨by decide!, by decide!, by decide!,
    (builtin_bindings_shadow_custom scanner0.pathResolver "/tmp".toList "$HOME/rc".toList).2.2
      "HOME=/tmp".toList (initialState scanner0 "zsh".toList []) (Or.inl (by decide!))⟩

/-! ## C38: the results of the include parser -/

theorem trimLeftBy_head (p : Char → Bool) (s : Str) (c : Char) (cs : Str)
    (h : trimLeftBy p s = c :: cs) : p c = false := by
  induction s with
  | nil => simp [trimLeftBy] at h
  | cons x xs ih =>
    by_cases hx : p x = true
    · simp only [trimLeftBy, if_pos hx] at h
      exact ih h
    · simp only [trimLeftBy, if_neg hx, List.cons.injEq] at h
      rw [← h.1]
      simpa using hx

theorem trimRightBy_last (p : Char → Bool) (s : Str) (c : Char)
    (h : (trimRightBy p s).getLast? = some c) : p c = false := by
  unfold trimRightBy at h
  rw [List.getLast?_reverse] at h
  cases ht : trimLeftBy p s.reverse with
  | nil => rw [ht] at h; simp at h
  | cons y ys =>
    rw [ht] at h
    simp only [List.head?_cons, Option.some.injEq] at h
    rw [← h]
    exact trimLeftBy_head p _ y ys ht

/-- The text that `strings.TrimSpace` returns neither starts nor ends with white space. -/
theorem TrimSpace_ends (s : Str) (c : Char)
    (h : (TrimSpace s).head? = some c ∨ (TrimSpace s).getLast? = some c) :
    isSpace c = false := by
  rcases h with h | h
  · unfold TrimSpace at h
    obtain ⟨w, hw⟩ := trimRightBy_split isSpace (trimLeftBy isSpace s)
    cases ht : trimRightBy isSpace (trimLeftBy isSpace s) with
    | nil => rw [ht] at h; simp at h
    | cons y ys =>
      rw [ht] at h hw
      simp only [List.head?_cons, Option.some.injEq] at h
      rw [← h]
      exact trimLeftBy_head isSpace s y (ys ++ w) (by rw [hw.1]; rfl)
  · exact trimRightBy_last isSpace _ c h

/-- C38: for every line, `IncludeParser.ParseLine` returns at most one result, and the path
of a returned result is not empty and neither starts nor ends with white space. -/
theorem include_parser_result_shape (line : Str) :
    (IncludeParser.ParseLine line).length ≤ 1 ∧
    ∀ res ∈ IncludeParser.ParseLine line, res.Path ≠ [] ∧
      ∀ c, res.Path.head? = some c ∨ res.Path.getLast? = some c → isSpace c = false := by
  have key : ∀ (x : Str) (b : Bool),
      (if extractPath x ≠ [] then [({ Path := extractPath x, Conditional := b } : ParseResult)]
        else []).length ≤ 1 ∧
      ∀ res ∈ (if extractPath x ≠ [] then
          [({ Path := extractPath x, Conditional := b } : ParseResult)] else []),
        res.Path ≠ [] ∧
        ∀ c, res.Path.head? = some c ∨ res.Path.getLast? = some c → isSpace c = false := by
    intro x b
    by_cases hx : extractPath x ≠ []
    · rw [if_pos hx]
      refine ⟨Nat.le_refl _, ?_⟩
      intro res hres
      rw [List.mem_singleton.mp hres]
      refine ⟨hx, ?_⟩
      intro c hc
      exact TrimSpace_ends _ c hc
    · rw [if_neg hx]
      exact ⟨Nat.zero_le _, fun res hres => absurd hres (List.not_mem_nil res)⟩
  unfold IncludeParser.ParseLine
  simp only
  split
  · exact ⟨Nat.zero_le _, fun res hres => absurd hres (List.not_mem_nil res)⟩
  · split
    · exact key _ true
    · split
      · exact key _ false
      · exact ⟨Nat.zero_le _, fun res hres => absurd hres (List.not_mem_nil res)⟩

/-- C38, at the line `source a; source b`, with two source commands: the one result has
the path `a; source b`. -/
theorem include_parser_result_shape_witness :
    IncludeParser.ParseLine "source a; source b".toList
      = [{ Path := "a; source b".toList, Conditional := false }] ∧
    (({ Path := "a; source b".toList, Conditional := false } : ParseResult).Path ≠ [] ∧
      ∀ c, ({ Path := "a; source b".toList, Conditional := false } : ParseResult).Path.head?
            = some c ∨
          ({ Path := "a; source b".toList, Conditional := false } : ParseResult).Path.getLast?
            = some c → isSpace c = false) :=
  ⟨by decide!,
    (include_parser_result_shape "source a; source b".toList).2
      { Path := "a; source b".toList, Conditional := false } (by decide!)⟩

/-! ## C36: the quick check for alias lines -/

set_option maxRecDepth 100000 in
/-- C36 (code): `IsAliasLine` asks for the word `alias` followed by a blank, while the
patterns of the parser accept any white space after the word.  On the line `alias<TAB>x=y`
the parser finds the alias `x`, the quick check says no, and the scan of a file with this
line finds no alias, where the parser run on every line records it; with a blank in place
of the tab the scan finds the alias. -/
theorem tab_alias_fails_quick_check :
    parsed (AliasParser.ParseLine "alias\tx=y".toList "/rc".toList 1)
      = some ("x".toList, "y".toList, AliasType.normal) ∧
    IsAliasLine "alias\tx=y".toList = false ∧
    (aliasStep "/rc".toList 0 "alias\tx=y".toList
        (initialState scanner0 "zsh".toList [])).result.Aliases.map Prod.fst = [] ∧
    (aliasStepUngated "/rc".toList 0 "alias\tx=y".toList
        (initialState scanner0 "zsh".toList [])).result.Aliases.map Prod.fst = ["x".toList] ∧
    (ScanShellFiles fsTab scanner0 "zsh".toList ["/rc".toList]).map
        (fun r => r.1.Aliases.map Prod.fst) = some [] ∧
    (ScanShellFiles fsBlank scanner0 "zsh".toList ["/rc".toList]).map
        (fun r => r.1.Aliases.map Prod.fst) = some ["x".toList] := by
  refine ⟨by decide!, by decide!, by decide!, by decide!, by decide!, by decide!⟩

/-! ## C31: variable assignments -/

section Assign2

open Regex

/-- A match of an expression that starts with `^` is a match at the start of the text. -/
theorem findFrom_bol_some (X : Regex) (groups : Nat) (s : Str) (m : Match)
    (h : FindStringSubmatch (seq bol X) groups s = some m) :
    run s.length X s (List.replicate (groups + 1) none) (fun s1 c1 => some ⟨s, s1, c1⟩)
      = some m := by
  unfold FindStringSubmatch at h
  cases s with
  | nil =>
    simpa [findFrom, run] using h
  | cons x xs =>
    rcases orElse_eq_some _ _ _ h with h1 | ⟨_, h1⟩
    · simpa [run] using h1
    · rw [findFrom_bol_none X groups (x :: xs).length xs (by simp)] at h1
      exact absurd h1 (by simp)

/-- A match of the assignment expression: the text is a variable name, `=` and a rest, and
the first group is the name. -/
theorem assignPattern_some (s : Str) (m : Match)
    (h : FindStringSubmatch assignPattern 2 s = some m) :
    validVar (m.sub 1) = true ∧ ∃ rest, s = m.sub 1 ++ '=' :: rest := by
  rw [assignPattern_eq] at h
  have h1 := findFrom_bol_some _ 2 s m h
  change run s.length (group 1 (seq (char varFirst) (star (char varRest) true))) s
    (List.replicate (2 + 1) none)
    (fun s2 c2 => run s.length (lit "=".toList) s2 c2
      (fun s3 c3 => run s.length (seq (group 2 (plus (char dot) true)) eol) s3 c3
        (fun s4 c4 => some ⟨s, s4, c4⟩))) = some m at h1
  obtain ⟨x, xs, rest, e, hx, hxs, hk⟩ := run_group_class_some _ 1 _ _ true s _ _ m h1
  rw [run_lit] at hk
  split at hk
  · rename_i hp
    obtain ⟨u, hu⟩ := (HasPrefix_iff rest _).mp hp
    obtain ⟨s2, c2, h2, hf⟩ := run_some _ _ _ _ _ m hk
    simp only [Option.some.injEq] at h2
    have hget : c2.get? 1 = some (some (x :: xs)) := by
      rw [hf.2 1 (by decide), List.get?_eq_getElem?, List.getElem?_set_self (by decide)]
    have hsub : m.sub 1 = x :: xs := by
      rw [← h2]
      simp only [Match.sub, hget, Option.getD_some]
    rw [hsub]
    refine ⟨?_, u, ?_⟩
    · simp only [validVar, hx, Bool.true_and, List.all_eq_true]
      exact hxs
    · rw [e, hu]
      rfl
  · exact absurd hk (by simp)

/-- The assignment matcher, with white space around the assignment: the value is the text
after `=` without its quotes. -/
theorem ParseVariableAssignment_value (W1 W2 : Str) (x : Char) (xs : Str) (v : Char)
    (vs : Str) (hW1 : ∀ c ∈ W1, isSpace c = true) (hW2 : ∀ c ∈ W2, isSpace c = true)
    (hx : varFirst x = true) (hxs : ∀ y ∈ xs, varRest y = true)
    (hv : ∀ y ∈ v :: vs, y ≠ '\n')
    (hl : ∀ d, (v :: vs).getLast? = some d → isSpace d = false) :
    ParseVariableAssignment (W1 ++ (x :: xs ++ '=' :: v :: vs) ++ W2)
      = some (x :: xs, removeQuotes (v :: vs)) := by
  have ht : TrimSpace (W1 ++ (x :: xs ++ '=' :: v :: vs) ++ W2) = x :: xs ++ '=' :: v :: vs := by
    rw [TrimSpace_append_spaces _ _ hW2, TrimSpace_spaces_append _ _ hW1]
    apply TrimSpace_id x _ (varRest_not_isSpace x (varFirst_varRest x hx))
    intro d hd
    have hd1 : ((x :: xs ++ ['=']) ++ v :: vs).getLast? = some d := by
      rw [List.append_assoc]
      exact hd
    rw [getLast?_append_cons] at hd1
    exact hl d hd1
  unfold ParseVariableAssignment
  rw [ht, assignPattern_match x xs v vs hx hxs hv]
  rfl

/-- A text without white space at its ends that is not enclosed in quotes is left as it is
by `removeQuotes`. -/
theorem removeQuotes_not_enclosed (s : Str) (ht : TrimSpace s = s)
    (hq : enclosedInQuotes s = false) : removeQuotes s = s := by
  unfold removeQuotes
  simp only [ht]
  rw [if_neg]
  intro h
  have : enclosedInQuotes s = true := by
    simp only [enclosedInQuotes, Bool.and_eq_true, Bool.or_eq_true, decide_eq_true_eq]
    exact h
  rw [hq] at this
  exact absurd this (by simp)

end Assign2

/-- C31: for every variable name `NAME` of the shape `[A-Z_][A-Z0-9_]*`, every value `V`
that is not empty, holds no newline, neither starts nor ends with white space and is not
enclosed in quotes, and all white space `W1`, `W2` around the assignment,
`ParseVariableAssignment` returns `(NAME, V)` on `NAME=V`, on `NAME="V"` and on `NAME='V'`,
and the variable step of the scanner stores `V` as it is written; and whenever
`ParseVariableAssignment` returns a name, the name has that shape and the trimmed line is
the name, `=` and a rest. -/
theorem assignment_value_is_literal (NAME V W1 W2 : Str) (hN : validVar NAME = true)
    (hV : V ≠ []) (hnl : ∀ c ∈ V, c ≠ '\n')
    (hends : ∀ c, V.head? = some c ∨ V.getLast? = some c → isSpace c = false)
    (hq : enclosedInQuotes V = false)
    (hW1 : ∀ c ∈ W1, isSpace c = true) (hW2 : ∀ c ∈ W2, isSpace c = true) :
    ParseVariableAssignment (W1 ++ (NAME ++ '=' :: V) ++ W2) = some (NAME, V) ∧
    ParseVariableAssignment (W1 ++ (NAME ++ '=' :: ('"' :: V ++ ['"'])) ++ W2)
      = some (NAME, V) ∧
    ParseVariableAssignment (W1 ++ (NAME ++ '=' :: ('\'' :: V ++ ['\''])) ++ W2)
      = some (NAME, V) ∧
    (∀ st : ScanState,
      (varStep (W1 ++ (NAME ++ '=' :: V) ++ W2) st).pathResolver.customVars
        = mapSet st.pathResolver.customVars NAME V) ∧
    (∀ line n v, ParseVariableAssignment line = some (n, v) →
      validVar n = true ∧ ∃ rest, TrimSpace line = n ++ '=' :: rest) := by
  obtain ⟨x, xs, e, hx, hxs⟩ := validVar_cons NAME hN
  subst e
  have hplain : ParseVariableAssignment (W1 ++ (x :: xs ++ '=' :: V) ++ W2)
      = some (x :: xs, V) := by
    cases V with
    | nil => exact absurd rfl hV
    | cons v vs =>
      have hl : ∀ d, (v :: vs).getLast? = some d → isSpace d = false :=
        fun d hd => hends d (Or.inr hd)
      rw [ParseVariableAssignment_value W1 W2 x xs v vs hW1 hW2 hx hxs hnl hl,
        removeQuotes_not_enclosed _ (TrimSpace_id v vs (hends v (Or.inl rfl)) hl) hq]
  have hquoted : ∀ q : Char, q = '"' ∨ q = '\'' →
      ParseVariableAssignment (W1 ++ (x :: xs ++ '=' :: (q :: V ++ [q])) ++ W2)
        = some (x :: xs, V) := by
    intro q hqq
    have hqs : isSpace q = false := by rcases hqq with e | e <;> subst e <;> decide
    have hqn : q ≠ '\n' := by rcases hqq with e | e <;> subst e <;> decide
    have hl : ∀ d, (q :: (V ++ [q])).getLast? = some d → isSpace d = false := by
      intro d hd
      rw [← List.cons_append, List.getLast?_concat] at hd
      simp only [Option.some.injEq] at hd
      rw [← hd]
      exact hqs
    have hv : ∀ y ∈ q :: (V ++ [q]), y ≠ '\n' := by
      intro y hy
      rcases List.mem_cons.mp hy with e | e
      · rw [e]; exact hqn
      · rcases List.mem_append.mp e with e1 | e1
        · exact hnl y e1
        · rw [List.mem_singleton.mp e1]; exact hqn
    have := ParseVariableAssignment_value W1 W2 x xs q (V ++ [q]) hW1 hW2 hx hxs hv hl
    rw [show q :: V ++ [q] = q :: (V ++ [q]) from rfl, this]
    rw [show q :: (V ++ [q]) = q :: V ++ [q] from rfl, removeQuotes_quoted q V hqq]
  refine ⟨hplain, hquoted '"' (Or.inl rfl), hquoted '\'' (Or.inr rfl), ?_, ?_⟩
  · intro st
    unfold varStep
    rw [hplain]
    rfl
  · intro line n v h
    unfold ParseVariableAssignment at h
    split at h
    · exact absurd h (by simp)
    · rename_i m hm
      simp only [Option.some.injEq, Prod.mk.injEq] at h
      rw [← h.1]
      exact assignPattern_some _ m hm

/-- C31, at the name `FOO` and the value `$HOME/x`, with two blanks before the assignment
and a blank and a newline after it: the value is returned with its `$HOME`. -/
theorem assignment_value_is_literal_witness :
    ParseVariableAssignment "  FOO=\"$HOME/x\" \n".toList
      = some ("FOO".toList, "$HOME/x".toList) ∧
    ParseVariableAssignment
        ("  ".toList ++ ("FOO".toList ++ '=' :: "$HOME/x".toList) ++ " \n".toList)
      = some ("FOO".toList, "$HOME/x".toList) ∧
    ParseVariableAssignment
        ("  ".toList ++ ("FOO".toList ++ '=' :: ('"' :: "$HOME/x".toList ++ ['"']))
          ++ " \n".toList)
      = some ("FOO".toList, "$HOME/x".toList) ∧
    ParseVariableAssignment
        ("  ".toList ++ ("FOO".toList ++ '=' :: ('\'' :: "$HOME/x".toList ++ ['\'']))
          ++ " \n".toList)
      = some ("FOO".toList, "$HOME/x".toList) :=
  have h := assignment_value_is_literal "FOO".toList "$HOME/x".toList "  ".toList " \n".toList
    (by decide) (by decide) (by decide)
    (by
      intro c hc
      rcases hc with hc | hc
      · have e : c = '$' := by simpa using hc.symm
        subst e
        decide
      · have e : c = 'x' := by simpa using hc.symm
        subst e
        decide)
    (by decide) (by decide) (by decide)
  ⟨by decide!, h.1, h.2.1, h.2.2.1⟩

/-! ## What a match of an alias expression tells about the text -/

section AliasForm

open Regex

variable {α : Type}

theorem run_bol (n : Nat) (s : Str) (c : Caps) (k : Str → Caps → Option α) :
    run n bol s c k = if s.length = n then k s c else none := rfl

theorem run_lit_some (n : Nat) (t s : Str) (c : Caps) (k : Str → Caps → Option α) (res : α)
    (h : run n (lit t) s c k = some res) : ∃ rest, s = t ++ rest ∧ k rest c = some res := by
  rw [run_lit] at h
  split at h
  · rename_i hp
    obtain ⟨u, hu⟩ := (HasPrefix_iff s t).mp hp
    refine ⟨u, hu, ?_⟩
    rw [hu, List.drop_left' rfl] at h
    exact h
  · exact absurd h (by simp)

theorem run_star_char_some (n : Nat) (p : Char → Bool) (g : Bool) (s : Str) (c : Caps)
    (k : Str → Caps → Option α) (res : α) (h : run n (star (char p) g) s c k = some res) :
    ∃ xs rest, s = xs ++ rest ∧ (∀ y ∈ xs, p y = true) ∧ k rest c = some res :=
  starLoop_char_some n p g _ s c k res h

theorem run_plus_char_some (n : Nat) (p : Char → Bool) (g : Bool) (s : Str) (c : Caps)
    (k : Str → Caps → Option α) (res : α) (h : run n (plus (char p) g) s c k = some res) :
    ∃ x xs rest, s = x :: xs ++ rest ∧ p x = true ∧ (∀ y ∈ xs, p y = true) ∧
      k rest c = some res := by
  cases s with
  | nil => exact absurd h (by simp [plus, run])
  | cons x s =>
    change run n (char p) (x :: s) c (fun s1 c1 => run n (star (char p) g) s1 c1 k)
      = some res at h
    rw [run_char_cons] at h
    split at h
    · rename_i hx
      obtain ⟨xs, rest, e, hxs, hk⟩ := run_star_char_some n p g s c k res h
      exact ⟨x, xs, rest, by rw [e]; rfl, hx, hxs, hk⟩
    · exact absurd h (by simp)

/-- A match of `^\s*alias\s+X`: the text is white space, `alias`, white space and a text
that `X` matches. -/
theorem run_alias_head_some (n : Nat) (s : Str) (c : Caps) (k : Str → Caps → Option α)
    (res : α) (X : Regex)
    (h : run n (seqs [bol, star (char ws) true, lit "alias".toList, plus (char ws) true, X])
      s c k = some res) :
    ∃ W0 w W1 t, s = W0 ++ ("alias".toList ++ (w :: W1 ++ t)) ∧ (∀ y ∈ W0, ws y = true) ∧
      ws w = true ∧ (∀ y ∈ W1, ws y = true) ∧ run n X t c k = some res := by
  change run n bol s c (fun s1 c1 => run n (star (char ws) true) s1 c1
    (fun s2 c2 => run n (lit "alias".toList) s2 c2
      (fun s3 c3 => run n (plus (char ws) true) s3 c3
        (fun s4 c4 => run n X s4 c4 k)))) = some res at h
  rw [run_bol] at h
  split at h
  · obtain ⟨W0, r0, e0, hW0, h0⟩ := run_star_char_some n ws true s c _ res h
    obtain ⟨r1, e1, h1⟩ := run_lit_some n _ r0 c _ res h0
    obtain ⟨w, W1, t, e2, hw, hW1, h2⟩ := run_plus_char_some n ws true r1 c _ res h1
    exact ⟨W0, w, W1, t, by rw [e0, e1, e2], hW0, hw, hW1, h2⟩
  · exact absurd h (by simp)

/-- A match of `([a-zA-Z_.\-][a-zA-Z0-9_.\-]*)=(.+)`: the text is a name, `=` and a text
that starts with a character other than a newline. -/
theorem run_name_value_some (n : Nat) (t : Str) (c : Caps) (k : Str → Caps → Option α)
    (res : α)
    (h : run n (seqs [group 1 (seq (char nameFirst) (star (char nameRest) true)),
      lit "=".toList, group 2 (plus (char dot) true)]) t c k = some res) :
    ∃ x xs v rest, t = x :: xs ++ '=' :: v :: rest ∧ nameFirst x = true ∧
      (∀ y ∈ xs, nameRest y = true) ∧ v ≠ '\n' := by
  change run n (group 1 (seq (char nameFirst) (star (char nameRest) true))) t c
    (fun s1 c1 => run n (lit "=".toList) s1 c1
      (fun s2 c2 => run n (group 2 (seq (char dot) (star (char dot) true))) s2 c2 k))
    = some res at h
  obtain ⟨x, xs, r0, e0, hx, hxs, h0⟩ := run_group_class_some n 1 _ _ true t c _ res h
  obtain ⟨r1, e1, h1⟩ := run_lit_some n _ r0 _ _ res h0
  obtain ⟨v, vs, r2, e2, hv, _, _⟩ := run_group_class_some n 2 _ _ true r1 _ _ res h1
  refine ⟨x, xs, v, vs ++ r2, by rw [e0, e1, e2]; rfl, hx, hxs, ?_⟩
  intro e
  subst e
  exact absurd hv (by decide)

/-- A match of the expression for a normal alias. -/
theorem normalAliasPattern_some (s : Str) (m : Match)
    (h : FindStringSubmatch normalAliasPattern 2 s = some m) :
    ∃ W0 w W1 x xs v rest, s = W0 ++ ("alias".toList ++ (w :: W1 ++ (x :: xs ++ '=' :: v :: rest))) ∧
      (∀ y ∈ W0, ws y = true) ∧ ws w = true ∧ (∀ y ∈ W1, ws y = true) ∧
      nameFirst x = true ∧ (∀ y ∈ xs, nameRest y = true) ∧ v ≠ '\n' := by
  have h1 := findFrom_bol_some (seqs [star (char ws) true, lit "alias".toList,
    plus (char ws) true, group 1 (seq (char nameFirst) (star (char nameRest) true)),
    lit "=".toList, group 2 (plus (char dot) true)]) 2 s m h
  have h2 : run s.length (seqs [bol, star (char ws) true, lit "alias".toList,
      plus (char ws) true,
      seqs [group 1 (seq (char nameFirst) (star (char nameRest) true)), lit "=".toList,
        group 2 (plus (char dot) true)]]) s (List.replicate (2 + 1) none)
      (fun s1 c1 => some (Match.mk s s1 c1)) = some m := by
    rw [run_seqs_cons, run_bol, if_pos rfl]
    exact h1
  obtain ⟨W0, w, W1, t, e, hW0, hw, hW1, h3⟩ := run_alias_head_some _ s _ _ m _ h2
  obtain ⟨x, xs, v, rest, e1, hx, hxs, hv⟩ := run_name_value_some _ t _ _ m h3
  exact ⟨W0, w, W1, x, xs, v, rest, by rw [e, e1], hW0, hw, hW1, hx, hxs, hv⟩

/-- A match of the expression for a global alias. -/
theorem globalAliasPattern_some (s : Str) (m : Match)
    (h : FindStringSubmatch globalAliasPattern 2 s = some m) :
    ∃ W0 w W1 u W2 x xs v rest,
      s = W0 ++ ("alias".toList ++ (w :: W1 ++ ("-g".toList ++
        (u :: W2 ++ (x :: xs ++ '=' :: v :: rest))))) ∧
      (∀ y ∈ W0, ws y = true) ∧ ws w = true ∧ (∀ y ∈ W1, ws y = true) ∧
      ws u = true ∧ (∀ y ∈ W2, ws y = true) ∧
      nameFirst x = true ∧ (∀ y ∈ xs, nameRest y = true) ∧ v ≠ '\n' := by
  have h1 := findFrom_bol_some (seqs [star (char ws) true, lit "alias".toList,
    plus (char ws) true, lit "-g".toList, plus (char ws) true,
    group 1 (seq (char nameFirst) (star (char nameRest) true)),
    lit "=".toList, group 2 (plus (char dot) true)]) 2 s m h
  have h2 : run s.length (seqs [bol, star (char ws) true, lit "alias".toList,
      plus (char ws) true,
      seqs [lit "-g".toList, plus (char ws) true,
        seqs [group 1 (seq (char nameFirst) (star (char nameRest) true)), lit "=".toList,
          group 2 (plus (char dot) true)]]]) s (List.replicate (2 + 1) none)
      (fun s1 c1 => some (Match.mk s s1 c1)) = some m := by
    rw [run_seqs_cons, run_bol, if_pos rfl]
    exact h1
  obtain ⟨W0, w, W1, t, e, hW0, hw, hW1, h3⟩ := run_alias_head_some _ s _ _ m _ h2
  change run s.length (lit "-g".toList) t _ (fun s1 c1 => run s.length (plus (char ws) true)
    s1 c1 (fun s2 c2 => run s.length
      (seqs [group 1 (seq (char nameFirst) (star (char nameRest) true)), lit "=".toList,
        group 2 (plus (char dot) true)]) s2 c2 _)) = some m at h3
  obtain ⟨r1, e1, h4⟩ := run_lit_some _ _ t _ _ m h3
  obtain ⟨u, W2, r2, e2, hu, hW2, h5⟩ := run_plus_char_some _ ws true r1 _ _ m h4
  obtain ⟨x, xs, v, rest, e3, hx, hxs, hv⟩ := run_name_value_some _ r2 _ _ m h5
  exact ⟨W0, w, W1, u, W2, x, xs, v, rest, by rw [e, e1, e2, e3], hW0, hw, hW1, hu, hW2,
    hx, hxs, hv⟩

/-- A text is split in one way only into a run of white space and a rest that does not
start with white space. -/
theorem ws_run_unique (A A1 B B1 : Str) (hA : ∀ y ∈ A, ws y = true)
    (hA1 : ∀ y ∈ A1, ws y = true) (hB : ∀ y ys, B = y :: ys → ws y = false)
    (hB1 : ∀ y ys, B1 = y :: ys → ws y = false) (hBn : B ≠ []) (hB1n : B1 ≠ [])
    (h : A ++ B = A1 ++ B1) : A = A1 ∧ B = B1 := by
  induction A generalizing A1 with
  | nil =>
    cases A1 with
    | nil => exact ⟨rfl, h⟩
    | cons a1 A1 =>
      exfalso
      cases B with
      | nil => exact hBn rfl
      | cons b B =>
        simp only [List.nil_append, List.cons_append, List.cons.injEq] at h
        have := hB b B rfl
        rw [h.1, hA1 a1 (List.mem_cons_self _ _)] at this
        exact absurd this (by simp)
  | cons a A ih =>
    cases A1 with
    | nil =>
      exfalso
      cases B1 with
      | nil => exact hB1n rfl
      | cons b B1 =>
        simp only [List.nil_append, List.cons_append, List.cons.injEq] at h
        have := hB1 b B1 rfl
        rw [← h.1, hA a (List.mem_cons_self _ _)] at this
        exact absurd this (by simp)
    | cons a1 A1 =>
      simp only [List.cons_append, List.cons.injEq] at h
      obtain ⟨e1, e2⟩ := ih A1 (fun y hy => hA y (List.mem_cons_of_mem _ hy))
        (fun y hy => hA1 y (List.mem_cons_of_mem _ hy)) h.2
      exact ⟨by rw [h.1, e1], e2⟩

/-- No text is matched by both alias expressions: after `alias` and the white space the
one asks for a name followed by `=`, the other for `-g` followed by white space. -/
theorem alias_patterns_disjoint (s : Str) (m1 m2 : Match)
    (h1 : FindStringSubmatch globalAliasPattern 2 s = some m1)
    (h2 : FindStringSubmatch normalAliasPattern 2 s = some m2) : False := by
  obtain ⟨W0, w, W1, u, W2, x, xs, v, rest, e, hW0, hw, hW1, hu, hW2, hx, hxs, hv⟩ :=
    globalAliasPattern_some s m1 h1
  obtain ⟨V0, w1, V1, x1, xs1, v1, rest1, e1, hV0, hw1, hV1, hx1, hxs1, hv1⟩ :=
    normalAliasPattern_some s m2 h2
  rw [e] at e1
  have ha : ∀ (B : Str) y ys, "alias".toList ++ B = y :: ys → ws y = false := by
    intro B y ys hy
    simp only [String.toList, List.cons_append, List.cons.injEq] at hy
    rw [← hy.1]
    decide
  obtain ⟨_, e2⟩ := ws_run_unique W0 V0 _ _ hW0 hV0 (ha _) (ha _) (by simp) (by simp) e1
  have e3 := List.append_cancel_left e2
  have e4 : (w :: W1) ++ ("-g".toList ++ (u :: W2 ++ (x :: xs ++ '=' :: v :: rest)))
      = (w1 :: V1) ++ (x1 :: xs1 ++ '=' :: v1 :: rest1) := e3
  obtain ⟨_, e5⟩ := ws_run_unique (w :: W1) (w1 :: V1) _ _
    (fun y hy => by
      rcases List.mem_cons.mp hy with e | e
      · rw [e]; exact hw
      · exact hW1 y e)
    (fun y hy => by
      rcases List.mem_cons.mp hy with e | e
      · rw [e]; exact hw1
      · exact hV1 y e)
    (by intro y ys hy
        simp only [String.toList, List.cons_append, List.cons.injEq] at hy
        rw [← hy.1]
        decide)
    (by intro y ys hy
        simp only [List.cons_append, List.cons.injEq] at hy
        rw [← hy.1]
        exact nameRest_not_ws x1 (nameFirst_nameRest x1 hx1))
    (by simp) (by simp) e4
  have e6 : '-' :: 'g' :: u :: (W2 ++ (x :: xs ++ '=' :: v :: rest))
      = x1 :: (xs1 ++ '=' :: v1 :: rest1) := e5
  simp only [List.cons.injEq] at e6
  obtain ⟨_, e7⟩ := e6
  cases xs1 with
  | nil =>
    simp only [List.nil_append, List.cons.injEq] at e7
    exact absurd e7.1 (by decide)
  | cons y ys =>
    simp only [List.cons_append, List.cons.injEq] at e7
    cases ys with
    | nil =>
      simp only [List.nil_append, List.cons.injEq] at e7
      rw [e7.2.1] at hu
      exact absurd hu (by decide)
    | cons z zs =>
      simp only [List.cons_append, List.cons.injEq] at e7
      have hz := nameRest_not_ws z (hxs1 z (by simp))
      rw [← e7.2.1, hu] at hz
      exact absurd hz (by simp)

theorem run_plus_char_greedy (n : Nat) (p : Char → Bool) (x : Char) (a b : Str) (c : Caps)
    (k : Str → Caps → Option α) (r : α) (hx : p x = true) (ha : ∀ y ∈ a, p y = true)
    (hb : ∀ y ys, b = y :: ys → p y = false) (hk : k b c = some r) :
    run n (plus (char p) true) (x :: a ++ b) c k = some r := by
  show run n (char p) (x :: (a ++ b)) c (fun s1 c1 => run n (star (char p) true) s1 c1 k)
    = some r
  rw [run_char_cons, if_pos hx]
  exact run_star_greedy n p a b c k r ha hb hk

/-- The common tail of the two alias expressions on a text `N=V...`, where the value `V`
ends at a newline or at the end of the text. -/
theorem run_name_value_rest (n : Nat) (x : Char) (xs : Str) (v : Char) (vs b : Str)
    (c : Caps) (k : Str → Caps → Option α) (r : α)
    (hx : nameFirst x = true) (hxs : ∀ y ∈ xs, nameRest y = true)
    (hv : dot v = true) (hvs : ∀ y ∈ vs, dot y = true)
    (hb : ∀ y ys, b = y :: ys → dot y = false)
    (hk : k b ((c.set 1 (some (x :: xs))).set 2 (some (v :: vs))) = some r) :
    run n (seqs [group 1 (seq (char nameFirst) (star (char nameRest) true)), lit "=".toList,
      group 2 (plus (char dot) true)]) (x :: xs ++ '=' :: (v :: vs ++ b)) c k = some r := by
  show run n (group 1 (seq (char nameFirst) (star (char nameRest) true)))
    (x :: xs ++ '=' :: (v :: vs ++ b)) c
    (fun s1 c1 => run n (lit "=".toList) s1 c1
      (fun s2 c2 => run n (group 2 (seq (char dot) (star (char dot) true))) s2 c2 k)) = some r
  apply run_group_class n 1 nameFirst nameRest x xs _ c _ r hx hxs
  · intro y ys h
    simp only [List.cons.injEq] at h
    rw [← h.1]
    decide
  · show run n (lit "=".toList) ("=".toList ++ (v :: vs ++ b)) _ _ = some r
    rw [run_lit_append]
    exact run_group_class n 2 dot dot v vs b _ k r hv hvs hb hk

/-- A text of the form `alias -g NAME=VALUE` is matched by the expression for a global
alias. -/
theorem globalAliasPattern_of_form (s : Str) (h : GlobalAliasForm s) :
    ∃ m, FindStringSubmatch globalAliasPattern 2 s = some m := by
  obtain ⟨W0, W1, W2, N, v, rest, e, hW0, hW1n, hW1, hW2n, hW2, hN, hv⟩ := h
  obtain ⟨x, xs, eN, hx, hxs⟩ := validName_cases N hN
  subst eN
  cases W1 with
  | nil => exact absurd rfl hW1n
  | cons w W1 =>
  cases W2 with
  | nil => exact absurd rfl hW2n
  | cons u W2 =>
  have hsplit : rest = rest.takeWhile dot ++ rest.dropWhile dot :=
    (List.takeWhile_append_dropWhile dot rest).symm
  have hb : ∀ y ys, rest.dropWhile dot = y :: ys → dot y = false := by
    intro y ys hy
    have := List.head_dropWhile_not dot rest (by rw [hy]; simp)
    simpa [hy] using this
  have hvs : ∀ y ∈ rest.takeWhile dot, dot y = true := fun y hy => List.mem_takeWhile_imp hy
  obtain ⟨vs, hvs0⟩ : ∃ vs, vs = rest.takeWhile dot := ⟨_, rfl⟩
  obtain ⟨b, hb0⟩ : ∃ b, b = rest.dropWhile dot := ⟨_, rfl⟩
  rw [← hvs0, ← hb0] at hsplit
  rw [← hvs0] at hvs
  rw [← hb0] at hb
  subst hsplit
  refine ⟨⟨s, b, ((List.replicate (2 + 1) none).set 1 (some (x :: xs))).set 2
    (some (v :: vs))⟩, ?_⟩
  unfold FindStringSubmatch
  apply findFrom_of_run
  show run s.length (seqs [bol, star (char ws) true, lit "alias".toList, plus (char ws) true,
    seqs [lit "-g".toList, plus (char ws) true,
      seqs [group 1 (seq (char nameFirst) (star (char nameRest) true)), lit "=".toList,
        group 2 (plus (char dot) true)]]]) s (List.replicate (2 + 1) none)
    (fun s1 c1 => some (Match.mk s s1 c1)) = _
  rw [run_seqs_cons, run_bol, if_pos rfl, run_seqs_cons]
  rw [e]
  apply run_star_greedy _ ws W0 _ _ _ _ hW0
    (by intro y ys hy
        simp only [String.toList, List.cons_append, List.cons.injEq] at hy
        rw [← hy.1]
        decide)
  rw [run_seqs_cons, run_lit_append, run_seqs_cons]
  apply run_plus_char_greedy _ ws w W1 _ _ _ _ (hW1 w (List.mem_cons_self _ _))
    (fun y hy => hW1 y (List.mem_cons_of_mem _ hy))
    (by intro y ys hy
        simp only [String.toList, List.cons_append, List.cons.injEq] at hy
        rw [← hy.1]
        decide)
  show run _ (seqs [lit "-g".toList, plus (char ws) true,
      seqs [group 1 (seq (char nameFirst) (star (char nameRest) true)), lit "=".toList,
        group 2 (plus (char dot) true)]]) _ _ _ = _
  rw [run_seqs_cons, run_lit_append, run_seqs_cons]
  apply run_plus_char_greedy _ ws u W2 _ _ _ _ (hW2 u (List.mem_cons_self _ _))
    (fun y hy => hW2 y (List.mem_cons_of_mem _ hy))
    (by intro y ys hy
        simp only [List.cons_append, List.cons.injEq] at hy
        rw [← hy.1]
        exact nameRest_not_ws x (nameFirst_nameRest x hx))
  exact run_name_value_rest _ x xs v vs b _ _ _ hx hxs (dot_of_ne v hv) hvs hb rfl

end AliasForm

/-! ## C37: the two alias expressions -/

section Disjoint

open Regex

theorem GlobalAliasForm_of_match (s : Str) (m : Match)
    (h : FindStringSubmatch globalAliasPattern 2 s = some m) : GlobalAliasForm s := by
  obtain ⟨W0, w, W1, u, W2, x, xs, v, rest, e, hW0, hw, hW1, hu, hW2, hx, hxs, hv⟩ :=
    globalAliasPattern_some s m h
  refine ⟨W0, w :: W1, u :: W2, x :: xs, v, rest, e, hW0, by simp, ?_, by simp, ?_, ?_, hv⟩
  · intro c hc
    rcases List.mem_cons.mp hc with e1 | e1
    · rw [e1]; exact hw
    · exact hW1 c e1
  · intro c hc
    rcases List.mem_cons.mp hc with e1 | e1
    · rw [e1]; exact hu
    · exact hW2 c e1
  · simp only [validName, hx, Bool.true_and, List.all_eq_true]
    exact hxs

theorem GlobalAliasForm_ne_nil (s : Str) (h : GlobalAliasForm s) : s ≠ [] := by
  obtain ⟨W0, W1, W2, N, v, rest, e, _⟩ := h
  intro e1
  rw [e1] at e
  have := congrArg List.length e
  simp only [List.length_nil, List.length_append, List.length_cons, String.toList] at this
  omega

/-- The alias parser with the normal expression tried first returns what the alias parser
returns. -/
theorem ParseLineNormalFirst_eq (line fp : Str) (n : Nat) :
    AliasParser.ParseLineNormalFirst line fp n = AliasParser.ParseLine line fp n := by
  unfold AliasParser.ParseLineNormalFirst AliasParser.ParseLine
  simp only
  split
  · rfl
  · cases hg : FindStringSubmatch globalAliasPattern 2 (removeInlineComment line) with
    | none =>
      cases hn : FindStringSubmatch normalAliasPattern 2 (removeInlineComment line) with
      | none => rfl
      | some m2 => rfl
    | some m1 =>
      cases hn : FindStringSubmatch normalAliasPattern 2 (removeInlineComment line) with
      | none => rfl
      | some m2 => exact absurd (alias_patterns_disjoint _ m1 m2 hg hn) id

end Disjoint

/-- C37: no text is matched by both the expression for a global alias and the expression
for a normal alias; `AliasParser.ParseLine` returns a definition of type global exactly
when the line without its comment has the form `alias -g NAME=VALUE`; and the parser that
tries the two expressions in the other order returns the same result on every line. -/
theorem alias_patterns_are_disjoint :
    (∀ s, ¬ ((Regex.FindStringSubmatch globalAliasPattern 2 s).isSome = true ∧
      (Regex.FindStringSubmatch normalAliasPattern 2 s).isSome = true)) ∧
    (∀ line fp n, (∃ d, AliasParser.ParseLine line fp n = some d ∧ d.Typ = AliasType.global) ↔
      GlobalAliasForm (removeInlineComment line)) ∧
    (∀ line fp n,
      AliasParser.ParseLineNormalFirst line fp n = AliasParser.ParseLine line fp n) := by
  refine ⟨?_, ?_, ParseLineNormalFirst_eq⟩
  · intro s h
    obtain ⟨m1, h1⟩ := Option.isSome_iff_exists.mp h.1
    obtain ⟨m2, h2⟩ := Option.isSome_iff_exists.mp h.2
    exact alias_patterns_disjoint s m1 m2 h1 h2
  · intro line fp n
    constructor
    · rintro ⟨d, hd, ht⟩
      unfold AliasParser.ParseLine at hd
      simp only at hd
      split at hd
      · exact absurd hd (by simp)
      · split at hd
        · rename_i m hm
          exact GlobalAliasForm_of_match _ m hm
        · split at hd
          · simp only [Option.some.injEq] at hd
            rw [← hd] at ht
            exact absurd ht (by simp)
          · exact absurd hd (by simp)
    · intro hf
      obtain ⟨m, hm⟩ := globalAliasPattern_of_form _ hf
      refine ⟨AliasDefinition.mk (m.sub 1) (extractValue (m.sub 2)) AliasType.global
        (SourceLocation.mk fp n line), ?_, rfl⟩
      unfold AliasParser.ParseLine
      simp only
      rw [if_neg (GlobalAliasForm_ne_nil _ hf), hm]

/-- C37, at the line `alias -g x=y # c`: the definition is global, and the line without
its comment has the global form. -/
theorem alias_patterns_are_disjoint_witness :
    parsed (AliasParser.ParseLine "alias -g x=y # c".toList "/rc".toList 1)
      = some ("x".toList, "y".toList, AliasType.global) ∧
    parsed (AliasParser.ParseLineNormalFirst "alias -g x=y # c".toList "/rc".toList 1)
      = some ("x".toList, "y".toList, AliasType.global) ∧
    removeInlineComment "alias -g x=y # c".toList = "alias -g x=y".toList ∧
    GlobalAliasForm (removeInlineComment "alias -g x=y # c".toList) :=
  ⟨by decide!, by decide!, by decide!,
    (alias_patterns_are_disjoint.2.1 "alias -g x=y # c".toList "/rc".toList 1).mp
      ⟨{ Name := "x".toList, Value := "y".toList, Typ := AliasType.global,
         Location := { FilePath := "/rc".toList, LineNum := 1,
                       RawLine := "alias -g x=y # c".toList } }, by decide!, rfl⟩⟩

/-! ## C32: lines that start with `export` -/

section Export

open Regex

theorem removeInlineCommentLoop_front (s : Str) (sq dq esc : Bool) :
    removeInlineCommentLoop s sq dq esc <+: s := by
  induction s generalizing sq dq esc with
  | nil => exact List.prefix_refl _
  | cons ch rest ih =>
    unfold removeInlineCommentLoop
    split
    · exact (List.prefix_cons_inj ch).mpr (ih _ _ _)
    · split
      · exact (List.prefix_cons_inj ch).mpr (ih _ _ _)
      · split
        · exact (List.prefix_cons_inj ch).mpr (ih _ _ _)
        · split
          · exact (List.prefix_cons_inj ch).mpr (ih _ _ _)
          · split
            · exact List.nil_prefix
            · exact (List.prefix_cons_inj ch).mpr (ih _ _ _)

/-- The trimmed front part of a text is empty or starts with the character with which the
trimmed text starts. -/
theorem TrimSpace_front_head (P s : Str) (hP : P <+: s) (c : Char) (t : Str)
    (hs : TrimSpace s = c :: t) : TrimSpace P = [] ∨ ∃ t2, TrimSpace P = c :: t2 := by
  induction s generalizing P with
  | nil =>
    rw [List.prefix_nil.mp hP]
    exact Or.inl rfl
  | cons a s ih =>
    cases P with
    | nil => exact Or.inl rfl
    | cons b P =>
      obtain ⟨e1, hP2⟩ := List.cons_prefix_cons.mp hP
      subst e1
      cases hb : isSpace b with
      | true =>
        have h1 : ∀ u, TrimSpace (b :: u) = TrimSpace u := fun u =>
          TrimSpace_spaces_append [b] u (by simpa using hb)
        rw [h1] at hs ⊢
        exact ih P hP2 hs
      | false =>
        obtain ⟨t1, ht1⟩ := TrimSpace_cons_of_not b s hb
        obtain ⟨t2, ht2⟩ := TrimSpace_cons_of_not b P hb
        rw [ht1] at hs
        simp only [List.cons.injEq] at hs
        rw [← hs.1]
        exact Or.inr ⟨t2, ht2⟩

/-- The alias expressions match no text that starts with a character other than `a` and
white space. -/
theorem alias_patterns_none (c : Char) (t : Str) (hc : ws c = false) (ha : c ≠ 'a') :
    FindStringSubmatch globalAliasPattern 2 (c :: t) = none ∧
    FindStringSubmatch normalAliasPattern 2 (c :: t) = none := by
  have key : ∀ (W0 B : Str), (∀ y ∈ W0, ws y = true) →
      c :: t = W0 ++ ("alias".toList ++ B) → False := by
    intro W0 B hW0 e
    cases W0 with
    | nil =>
      simp only [String.toList, List.nil_append, List.cons_append, List.cons.injEq] at e
      exact ha e.1
    | cons w W0 =>
      simp only [List.cons_append, List.cons.injEq] at e
      have := hW0 w (List.mem_cons_self _ _)
      rw [← e.1, hc] at this
      exact absurd this (by simp)
  constructor
  · cases h : FindStringSubmatch globalAliasPattern 2 (c :: t) with
    | none => rfl
    | some m =>
      obtain ⟨W0, w, W1, u, W2, x, xs, v, rest, e, hW0, _⟩ := globalAliasPattern_some _ m h
      exact absurd (key W0 _ hW0 e) id
  · cases h : FindStringSubmatch normalAliasPattern 2 (c :: t) with
    | none => rfl
    | some m =>
      obtain ⟨W0, w, W1, x, xs, v, rest, e, hW0, _⟩ := normalAliasPattern_some _ m h
      exact absurd (key W0 _ hW0 e) id

theorem TrimSpace_subset (s : Str) : ∀ c ∈ TrimSpace s, c ∈ s := by
  intro c hc
  unfold TrimSpace at hc
  have h1 := trimRightBy_subset isSpace _ c hc
  obtain ⟨w, hw⟩ := trimLeftBy_split isSpace s
  rw [hw]
  exact List.mem_append_right _ h1

end Export

/-- C32: on every line whose trimmed text starts with `export ` the assignment matcher and
the alias parser find nothing; and if the line holds no `[`, the include parser returns no
result and the loop body of `scanFile` leaves the scan state as it is. -/
theorem export_line_is_ignored (line : Str)
    (h : HasPrefix (TrimSpace line) "export ".toList = true) :
    ParseVariableAssignment line = none ∧
    (∀ fp n, AliasParser.ParseLine line fp n = none) ∧
    ('[' ∉ line → IncludeParser.ParseLine line = [] ∧
      ∀ (recur : Str → ScanState → Option (ScanState × Option Str)) cp i st,
        scanLine recur cp i line st = some st) := by
  obtain ⟨t, ht⟩ := HasPrefix_cons h
  have hx : Regex.ws 'e' = false := by decide
  have hpva : ParseVariableAssignment line = none := by
    unfold ParseVariableAssignment
    rw [ht, assignPattern_eq, FindStringSubmatch_bol_none]
    intro k c
    have hv : Regex.varFirst 'e' = false := by decide
    simp [Regex.seqs, Regex.run, hv]
  have halias : ∀ fp n, AliasParser.ParseLine line fp n = none := by
    intro fp n
    unfold AliasParser.ParseLine removeInlineComment
    simp only
    rcases TrimSpace_front_head _ line (removeInlineCommentLoop_front line false false false)
      'e' t ht with h1 | ⟨t2, h1⟩
    · rw [h1]
      rfl
    · rw [h1]
      obtain ⟨h2, h3⟩ := alias_patterns_none 'e' t2 hx (by decide)
      rw [if_neg (by simp), h2, h3]
  refine ⟨hpva, halias, ?_⟩
  intro hb
  have hinc : IncludeParser.ParseLine line = [] := by
    unfold IncludeParser.ParseLine
    simp only
    rw [ht]
    have h0 : ¬ ('e' :: t = [] ∨ HasPrefix ('e' :: t) "#".toList = true) := by
      simp [HasPrefix]
    rw [if_neg h0]
    have h1 : Regex.FindStringSubmatch conditionalPattern 2 ('e' :: t) = none := by
      apply conditionalPattern_none
      intro hm
      rw [← ht] at hm
      exact hb (TrimSpace_subset line _ hm)
    have h2 : Regex.FindStringSubmatch sourcePattern 2 ('e' :: t) = none := by
      rw [sourcePattern_eq, FindStringSubmatch_bol_none]
      intro k c
      have e1 : ('e' == 's') = false := by decide
      have e2 : ('e' == '.') = false := by decide
      simp [Regex.seqs, Regex.run, Regex.starLoop, Regex.lit, hx, e1, e2]
    rw [h1, h2]
  refine ⟨hinc, ?_⟩
  intro recur cp i st
  have ha : IsAliasLine line = false := by
    unfold IsAliasLine
    rw [ht]
    rfl
  unfold scanLine includeStep aliasStep varStep
  rw [hpva, hinc]
  simp [ha, scanIncludes]

set_option maxRecDepth 100000 in
/-- C32, at the line `export FOO=bar`: no assignment, no alias and no include is found, and
the loop body leaves the state as it is. -/
theorem export_line_is_ignored_witness :
    ParseVariableAssignment "export FOO=bar".toList = none ∧
    AliasParser.ParseLine "export FOO=bar".toList "/rc".toList 1 = none ∧
    IncludeParser.ParseLine "export FOO=bar".toList = [] ∧
    scanLine (fun _ st => some (st, none)) "/rc".toList 0 "export FOO=bar".toList
        (initialState scanner0 "zsh".toList [])
      = some (initialState scanner0 "zsh".toList []) :=
  have h := export_line_is_ignored "export FOO=bar".toList (by decide!)
  ⟨h.1, h.2.1 _ _, (h.2.2 (by decide)).1, (h.2.2 (by decide)).2 _ _ _ _⟩

/-! ## C35: the provenance of the definitions -/

theorem scanIncludes_linv (fs : FileSystem) (I : ScanState → Prop) (hI : LineInv fs I)
    (recur : Str → ScanState → Option (ScanState × Option Str))
    (hrec : ∀ p st r, recur p st = some r → I st → I r.1) (cp : Str)
    (he : FileExists fs cp = true) (hr : FileReadable fs cp = true)
    (incs : List ParseResult) (st st1 : ScanState)
    (h : scanIncludes recur cp incs st = some st1) (hst : I st) : I st1 := by
  induction incs generalizing st with
  | nil =>
    simp only [scanIncludes, Option.some.injEq] at h
    exact h ▸ hst
  | cons inc rest ih =>
    simp only [scanIncludes] at h
    have h1 : I (st.addInclude cp inc.Path) := hI.addInclude st cp inc.Path he hr hst
    cases hres : (st.addInclude cp inc.Path).pathResolver.ResolvePath inc.Path with
    | none =>
      simp only [hres] at h
      exact ih _ h (hI.unresolved _ _ h1)
    | some target =>
      simp only [hres] at h
      obtain ⟨r, hr1, h2⟩ := Option.bind_eq_some.mp h
      refine ih _ h2 ?_
      have h3 : I r.1 := hrec _ _ _ hr1 h1
      obtain ⟨r1, r2⟩ := r
      cases r2 with
      | none =>
        cases hc : inc.Conditional with
        | false => simpa [afterInclude, hc] using h3
        | true => simpa [afterInclude, hc] using hI.markConditional _ target h3
      | some e =>
        cases hc : inc.Conditional with
        | false => simpa [afterInclude, hc] using hI.warn _ (includeWarning target e) h3
        | true =>
          simpa [afterInclude, hc] using
            hI.markConditional _ target (hI.warn _ (includeWarning target e) h3)

theorem aliasStep_linv (fs : FileSystem) (I : ScanState → Prop) (hI : LineInv fs I) (cp : Str)
    (he : FileExists fs cp = true) (hr : FileReadable fs cp = true) (lines : List Str)
    (hl : ReadLines fs cp = .ok lines) (i : Nat) (line : Str)
    (hline : lines.get? i = some line) (st : ScanState) (hst : I st) :
    I (aliasStep cp i line st) := by
  unfold aliasStep
  split
  · split
    · rename_i d hd
      exact hI.addAlias st cp lines i line d he hr hl hline hd hst
    · exact hst
  · exact hst

theorem varStep_linv (fs : FileSystem) (I : ScanState → Prop) (hI : LineInv fs I)
    (line : Str) (st : ScanState) (hst : I st) : I (varStep line st) := by
  unfold varStep
  split
  · exact hI.setVariable _ _ _ hst
  · exact hst

theorem scanLines_linv (fs : FileSystem) (I : ScanState → Prop) (hI : LineInv fs I)
    (recur : Str → ScanState → Option (ScanState × Option Str))
    (hrec : ∀ p st r, recur p st = some r → I st → I r.1) (cp : Str)
    (he : FileExists fs cp = true) (hr : FileReadable fs cp = true) (lines : List Str)
    (hl : ReadLines fs cp = .ok lines) (pre rest : List Str) (hsplit : lines = pre ++ rest)
    (st st1 : ScanState)
    (h : scanLines recur cp rest pre.length st = some st1) (hst : I st) : I st1 := by
  induction rest generalizing pre st with
  | nil =>
    simp only [scanLines, Option.some.injEq] at h
    exact h ▸ hst
  | cons line rest ih =>
    simp only [scanLines] at h
    obtain ⟨s1, hs1, h2⟩ := Option.bind_eq_some.mp h
    have hline : lines.get? pre.length = some line := by
      rw [hsplit, List.get?_eq_getElem?, List.getElem?_append_right (Nat.le_refl _)]
      simp
    refine ih (pre ++ [line]) (by rw [hsplit, List.append_assoc]; rfl) s1
      (by rw [List.length_append]; exact h2) ?_
    unfold scanLine at hs1
    obtain ⟨s0, hs0, hv⟩ := Option.map_eq_some'.mp hs1
    rw [← hv]
    apply varStep_linv fs I hI
    have ha := aliasStep_linv fs I hI cp he hr lines hl pre.length line hline st hst
    unfold includeStep at hs0
    split at hs0
    · exact scanIncludes_linv fs I hI recur hrec cp he hr _ _ _ hs0 ha
    · simp only [Option.some.injEq] at hs0
      exact hs0 ▸ ha

theorem scanFileBody_linv (fs : FileSystem) (I : ScanState → Prop) (hI : LineInv fs I)
    (recur : Str → ScanState → Option (ScanState × Option Str))
    (hrec : ∀ p st r, recur p st = some r → I st → I r.1) (filePath : Str) (depth : Nat)
    (st : ScanState) (r : ScanState × Option Str)
    (h : scanFileBody fs recur filePath depth st = some r) (hst : I st) : I r.1 := by
  by_cases hd : depth < maxDepth
  · by_cases hv : canonOf fs filePath ∈ st.visited
    · rw [scanFileBody_visited fs recur filePath depth st hd hv] at h
      simp only [Option.some.injEq] at h
      exact h ▸ hst
    · cases he : FileExists fs (canonOf fs filePath) with
      | false =>
        rw [scanFileBody_missing fs recur filePath depth st hd hv he] at h
        simp only [Option.some.injEq] at h
        exact h ▸ hI.missing st _ hv he hst
      | true =>
        cases hr : FileReadable fs (canonOf fs filePath) with
        | false =>
          rw [scanFileBody_unreadable fs recur filePath depth st hd hv he hr] at h
          simp only [Option.some.injEq] at h
          exact h ▸ hI.unreadable st _ hv he hr hst
        | true =>
          cases hl : ReadLines fs (canonOf fs filePath) with
          | error e =>
            rw [scanFileBody_readError fs recur filePath depth st hd hv he hr e hl] at h
            simp only [Option.some.injEq] at h
            exact h ▸ hI.readError st _ e hv he hr hl hst
          | ok lines =>
            rw [scanFileBody_read fs recur filePath depth st hd hv he hr lines hl] at h
            obtain ⟨st2, hst2, hr2⟩ := Option.map_eq_some'.mp h
            rw [← hr2]
            exact scanLines_linv fs I hI recur hrec _ he hr lines hl [] lines rfl _ st2 hst2
              (hI.enter st _ hv he hr hst)
  · rw [scanFileBody_at_ceiling fs recur filePath depth st (Nat.not_lt.mp hd)] at h
    simp only [Option.some.injEq] at h
    exact h ▸ hI.warn _ _ hst

theorem scanFile_linv (fs : FileSystem) (I : ScanState → Prop) (hI : LineInv fs I)
    (fuel : Nat) :
    ∀ (depth : Nat) (p : Str) (st : ScanState) (r : ScanState × Option Str),
      scanFile fs fuel p depth st = some r → I st → I r.1 := by
  induction fuel with
  | zero =>
    intro depth p st r h
    simp [scanFile] at h
  | succ fuel ih =>
    intro depth p st r h hst
    exact scanFileBody_linv fs I hI _ (ih (depth + 1)) p depth st r h hst

/-- A predicate kept by every step, the alias step at a line of the file included, is kept
by the scan of the roots. -/
theorem scanRoots_linv (fs : FileSystem) (I : ScanState → Prop) (hI : LineInv fs I)
    (fuel : Nat) (roots : List Str) (st st1 : ScanState)
    (h : scanRoots fs fuel roots st = some st1) (hst : I st) : I st1 := by
  induction roots generalizing st with
  | nil =>
    simp only [scanRoots, Option.some.injEq] at h
    exact h ▸ hst
  | cons root rest ih =>
    simp only [scanRoots] at h
    obtain ⟨s1, hs1, h2⟩ := Option.bind_eq_some.mp h
    refine ih _ h2 ?_
    unfold scanRoot at hs1
    split at hs1
    · simp only [Option.some.injEq] at hs1
      exact hs1 ▸ hI.unresolved _ _ hst
    · obtain ⟨r, hr, hs⟩ := Option.map_eq_some'.mp hs1
      have h3 := scanFile_linv fs I hI fuel 0 _ st r hr hst
      rw [← hs]
      unfold afterRoot
      split
      · exact hI.warn _ _ h3
      · exact h3

theorem TableAtLine_step (fs : FileSystem) : LineInv fs (TableAtLine fs) where
  warn := fun _ _ h => h
  unresolved := fun _ _ h => h
  setVariable := fun _ _ _ h => h
  markConditional := fun _ _ h => h
  addInclude := fun _ _ _ _ _ h => h
  missing := fun _ _ _ _ h => h
  unreadable := fun _ _ _ _ _ h => h
  readError := fun _ _ _ _ _ _ _ h => h
  enter := fun _ _ _ _ _ h => h
  addAlias := by
    intro st cp lines i line d _ _ hl hline hd hst N e hget d1 hd1
    have hloc := ParseLine_location line cp (i + 1) d hd
    have hgood : AtLine fs d := by
      unfold AtLine
      rw [hloc]
      exact ⟨Nat.le_add_left 1 i, lines, hl, by simpa using hline⟩
    have hA : (st.addAlias cp d).result.Aliases = (st.result.AddAlias d).Aliases := by
      simp only [ScanState.addAlias, ScanState.modifyFile, ScanResult.AddAlias]
      cases mapGet st.result.Aliases d.Name <;> rfl
    have hget1 : mapGet (st.result.AddAlias d).Aliases N = some e := by
      rw [← hA]
      exact hget
    rw [mapGet_AddAlias] at hget1
    by_cases hN : d.Name = N
    · rw [if_pos hN] at hget1
      simp only [Option.some.injEq] at hget1
      cases h0 : mapGet st.result.Aliases N with
      | none =>
        rw [h0] at hget1
        rw [← hget1] at hd1
        simp only [List.mem_singleton] at hd1
        rw [hd1]
        exact hgood
      | some e0 =>
        rw [h0] at hget1
        have hdefs : e.Definitions = e0.Definitions ++ [d] := by
          rw [← hget1]
          simp only [AliasEntry.AddDefinition]
          split <;> rfl
        rw [hdefs] at hd1
        rcases List.mem_append.mp hd1 with h1 | h1
        · exact hst N e0 h0 d1 h1
        · rw [List.mem_singleton.mp h1]
          exact hgood
    · rw [if_neg hN] at hget1
      exact hst N e hget1 d1 hd1

/-- The final state of a scan of the roots from the initial state has the provenance
property. -/
theorem scanRoots_provenance (fs : FileSystem) (fuel : Nat) (s : Scanner) (shell : Str)
    (roots : List Str) (st : ScanState)
    (h : scanRoots fs fuel roots (initialState s shell roots) = some st) :
    Provenance fs st.result := by
  obtain ⟨defs, hlog, _, _⟩ := scan_log fs fuel s shell roots st h
  have hok : FilesOK fs st :=
    scanRoots_inv fs (FilesOK fs) (FilesOK_step fs) _ roots _ st h
      (by intro q sf hq; simp [initialState, NewScanResult, mapGet] at hq)
  have hat : TableAtLine fs st :=
    scanRoots_linv fs (TableAtLine fs) (TableAtLine_step fs) _ roots _ st h
      (by intro N e hq; simp [initialState, NewScanResult, mapGet] at hq)
  constructor
  · intro N e hget d hd
    have hdefs := TableOf_definitions hlog.1 hget
    rw [hdefs, List.mem_filter] at hd
    obtain ⟨hd1, hd2⟩ := hd
    have hname : d.Name = N := by simpa using hd2
    refine ⟨hname, ?_, hat N e hget d (by rw [hdefs, List.mem_filter]; exact ⟨hd1, hd2⟩)⟩
    obtain ⟨sf, hsf, hal⟩ := hlog.2.1 _ (hlog.2.2.1 d hd1)
    have hmem : d ∈ sf.Aliases := by
      rw [hal, List.mem_filter]
      exact ⟨hd1, by simp⟩
    obtain ⟨h1, h2, h3, h4⟩ := hok _ sf hsf
    have hlive : FileExists fs d.Location.FilePath = true ∧
        FileReadable fs d.Location.FilePath = true := by
      by_contra hdead
      have := h4 hdead
      rw [this] at hmem
      simp [deadFile] at hmem
    exact ⟨sf, hsf, h1, by rw [h2]; exact hlive.1, by rw [h3]; exact hlive.2, hmem⟩
  · intro q sf hq d hd
    have hal := (LogOf_file hlog hq).2
    rw [hal, List.mem_filter] at hd
    obtain ⟨e, he1, he2⟩ := TableOf_mem hlog.1 hd.1
    refine ⟨e, he1, ?_⟩
    rw [he2, List.mem_filter]
    exact ⟨hd.1, by simp⟩

/-- C35: for every file system, scanner, shell tag and list of roots, the scan returns a
result, and the result has the provenance property: every definition `d` in
`Aliases[N].Definitions` has `d.Name = N`; `Files` holds under `d.Location.FilePath` a file
whose `Path` is that key, whose `Exists` and `Readable` are true and whose `Aliases` holds
`d`; `d.Location.LineNum` is at least 1, and the line of that number of the lines that the
file reader returns for the file is `d.Location.RawLine`; and every definition in the
`Aliases` of a recorded file is in the definitions of the entry of its name. -/
theorem scan_result_has_provenance (fs : FileSystem) (s : Scanner) (shell : Str)
    (roots : List Str) :
    ∃ r, ScanShellFiles fs s shell roots = some r ∧ Provenance fs r.1 := by
  obtain ⟨r, hr, _⟩ := ScanShellFiles_terminates fs s shell roots
  refine ⟨r, hr, ?_⟩
  unfold ScanShellFiles ScanShellFilesFuel at hr
  obtain ⟨st, hst, he⟩ := Option.map_eq_some'.mp hr
  rw [← he]
  exact scanRoots_provenance fs _ s shell roots st hst

set_option maxRecDepth 100000 in
/-- C35, at the file `/rc` with the one line `alias x=y`: the definition of `x` is in the
alias list of `/rc` and stands at line 1 of the file. -/
theorem scan_result_has_provenance_witness :
    ScanShellFiles fsBlank scanner0 "zsh".toList ["/rc".toList]
      = some (blankResult, scanner0) ∧
    Provenance fsBlank blankResult ∧ AtLine fsBlank blankDef := by
  have e : ScanShellFiles fsBlank scanner0 "zsh".toList ["/rc".toList]
      = some (blankResult, scanner0) := by decide!
  obtain ⟨r, hr, hp⟩ := scan_result_has_provenance fsBlank scanner0 "zsh".toList
    ["/rc".toList]
  rw [e] at hr
  simp only [Option.some.injEq] at hr
  rw [← hr] at hp
  have hp2 : Provenance fsBlank blankResult := hp
  exact ⟨e, hp2, (hp2.1 "x".toList blankEntry (by decide!) blankDef (by decide!)).2.2⟩

/-! ## C11: an include through a variable that the resolver does not know -/

section UnknownName

open Regex

theorem shellName_cases (V : Str) (h : shellName V = true) :
    ∃ x xs, V = x :: xs ∧ (upper x = true ∨ lower x = true ∨ x = '_') ∧
      ∀ c ∈ xs, upper c = true ∨ lower c = true ∨ digit c = true ∨ c = '_' := by
  cases V with
  | nil => simp [shellName] at h
  | cons x xs =>
    simp only [shellName, Bool.and_eq_true, Bool.or_eq_true, decide_eq_true_eq,
      List.all_eq_true] at h
    refine ⟨x, xs, rfl, ?_, ?_⟩
    · rcases h.1 with (h1 | h1) | h1
      · exact Or.inl h1
      · exact Or.inr (Or.inl h1)
      · exact Or.inr (Or.inr h1)
    · intro c hc
      rcases h.2 c hc with ((h1 | h1) | h1) | h1
      · exact Or.inl h1
      · exact Or.inr (Or.inl h1)
      · exact Or.inr (Or.inr (Or.inl h1))
      · exact Or.inr (Or.inr (Or.inr h1))

/-- A letter, a digit or an underscore is a character of a plain path, no `$` and no
closing brace. -/
theorem nameChar_pathChar (c : Char)
    (h : upper c = true ∨ lower c = true ∨ digit c = true ∨ c = '_') :
    pathChar c = true ∧ c ≠ '$' ∧ c ≠ Char.ofNat 0x7d ∧ c ≠ Char.ofNat 0x7b := by
  have hn : ∀ d : Char, (upper d || lower d || digit d || decide (d = '_')) = false → c ≠ d := by
    intro d hd e
    subst e
    have : (upper c || lower c || digit c || decide (c = '_')) = true := by
      rcases h with h | h | h | h <;> simp [h]
    rw [hd] at this
    exact absurd this (by simp)
  have hsp : isSpace c = false := by
    apply nameRest_not_isSpace
    simp only [nameRest, Bool.or_eq_true, decide_eq_true_eq]
    rcases h with h | h | h | h
    · exact Or.inl (Or.inl (Or.inl (Or.inl (Or.inr h))))
    · exact Or.inl (Or.inl (Or.inl (Or.inl (Or.inl h))))
    · exact Or.inl (Or.inl (Or.inl (Or.inr h)))
    · exact Or.inl (Or.inl (Or.inr h))
  refine ⟨?_, hn '$' (by decide), hn (Char.ofNat 0x7d) (by decide),
    hn (Char.ofNat 0x7b) (by decide)⟩
  simp only [pathChar, Bool.and_eq_true, Bool.not_eq_true', bne_iff_ne, ne_eq]
  exact ⟨⟨⟨⟨⟨⟨hsp, hn '[' (by decide)⟩, hn '#' (by decide)⟩, hn '\'' (by decide)⟩,
    hn '"' (by decide)⟩, hn '\\' (by decide)⟩, hn ';' (by decide)⟩

/-- A text that starts with a `$` which starts no reference, and has no other `$`, holds no
reference: it is expanded to itself. -/
theorem expandVariables_no_reference (r : PathResolver) (s : Str)
    (href : refAt ('$' :: s) = none) (hd : '$' ∉ s) :
    r.expandVariables ('$' :: s) = some ('$' :: s) := by
  have hf : findFrom varPattern 1 ('$' :: s).length ('$' :: s) = none := by
    rw [findFrom_varPattern_next _ '$' s href]
    exact findFrom_varPattern_none _ s hd
  unfold PathResolver.expandVariables FindAllStringSubmatch
  rw [findAllFrom_none _ _ _ _ _ hf]
  rfl

/-- A path `$s` whose `$` starts no reference, with no other `$`, does not resolve: it is
not absolute. -/
theorem ResolvePath_no_reference (r : PathResolver) (s : Str)
    (hq : removeQuotes ('$' :: s) = '$' :: s)
    (href : refAt ('$' :: s) = none) (hd : '$' ∉ s) :
    r.ResolvePath ('$' :: s) = none := by
  unfold PathResolver.ResolvePath
  rw [if_neg (by simp)]
  simp only [hq]
  have h1 : HasPrefix ('$' :: s) "~/".toList = false := rfl
  have h2 : ('$' :: s) ≠ "~".toList := by
    intro e
    simp only [String.toList, List.cons.injEq] at e
    exact absurd e.1 (by decide)
  rw [if_neg (by rw [h1]; simp), if_neg h2, expandVariables_no_reference r s href hd]
  have h3 : HasPrefix ('$' :: s) ['/'] = false := rfl
  simp only [Clean_not_rooted _ h3]
  simp

/-- The path `$V/T` for a shell variable name `V` and a plain text `T` without `$`: when
the name that the resolver reads in `$V` has no value (or no name is read), the path does
not resolve. -/
theorem ResolvePath_unknown_name (r : PathResolver) (V ts : Str) (hV : shellName V = true)
    (hts : ∀ c ∈ ts, pathChar c = true) (hd : '$' ∉ ts)
    (hu : ∀ P, readName V = some P → r.valueOf P = none) :
    r.ResolvePath ('$' :: (V ++ '/' :: ts)) = none := by
  obtain ⟨x, xs, e, _, hxs⟩ := shellName_cases V hV
  have hall : ∀ c ∈ V, pathChar c = true ∧ c ≠ '$' ∧ c ≠ Char.ofNat 0x7d ∧
      c ≠ Char.ofNat 0x7b := by
    intro c hc
    apply nameChar_pathChar
    rw [e] at hc
    obtain ⟨x1, xs1, e1, hx1, _⟩ := shellName_cases V hV
    rw [e] at e1
    simp only [List.cons.injEq] at e1
    rcases List.mem_cons.mp hc with h | h
    · rw [h, e1.1]
      rcases hx1 with h1 | h1 | h1
      · exact Or.inl h1
      · exact Or.inr (Or.inl h1)
      · exact Or.inr (Or.inr (Or.inr h1))
    · exact hxs c h
  have hq : removeQuotes ('$' :: (V ++ '/' :: ts)) = '$' :: (V ++ '/' :: ts) := by
    apply removeQuotes_id '$' _ (by decide) _ ⟨by decide, by decide⟩
    intro d hd1
    have hd2 : (('$' :: V) ++ '/' :: ts).getLast? = some d := hd1
    rw [getLast?_append_cons] at hd2
    rcases List.mem_cons.mp (List.mem_of_mem_getLast? hd2) with e1 | e1
    · rw [e1]; decide
    · exact (pathChar_cases d (hts d e1)).1
  have hdV : '$' ∉ V ++ '/' :: ts := by
    intro hm
    rcases List.mem_append.mp hm with h | h
    · exact (hall _ h).2.1 rfl
    · exact not_mem_slash ts hd h
  cases hn : nameAt V with
  | none =>
    apply ResolvePath_no_reference r _ hq _ hdV
    have hx : varFirst x = false := by
      rw [e] at hn
      simp only [nameAt] at hn
      split at hn
      · simp at hn
      · rename_i h
        simpa using h
    have hb : x ≠ Char.ofNat 0x7b := (hall x (by rw [e]; exact List.mem_cons_self _ _)).2.2.2
    rw [e]
    simp [refAt, skipChar, hb, nameAt, hx]
  | some pr =>
    obtain ⟨P, R⟩ := pr
    obtain ⟨hsplit, hP⟩ := nameAt_split V P R hn
    obtain ⟨y, ys, eP, hy, hys⟩ := validVar_cons P hP
    have hR : R = xs.dropWhile varRest := by
      rw [e] at hn
      simp only [nameAt] at hn
      split at hn
      · simp only [Option.some.injEq, Prod.mk.injEq] at hn
        exact hn.2.symm
      · simp at hn
    have hb : ∀ z zs, R ++ '/' :: ts = z :: zs → varRest z = false ∧ z ≠ Char.ofNat 0x7d := by
      intro z zs hz
      cases hRc : R with
      | nil =>
        rw [hRc] at hz
        exact slash_tail ts z zs hz
      | cons a R1 =>
        rw [hRc] at hz
        simp only [List.cons_append, List.cons.injEq] at hz
        rw [← hz.1]
        refine ⟨dropWhile_head varRest xs a R1 (by rw [← hR, hRc]), ?_⟩
        exact (hall a (by rw [hsplit, hRc]; simp)).2.2.1
    have href : refAt ('$' :: (P ++ (R ++ '/' :: ts))) = some (P, R ++ '/' :: ts) := by
      rw [eP]
      exact refAt_plain y ys _ hy hys hb
    have hpath : '$' :: (V ++ '/' :: ts) = [] ++ '$' :: (P ++ (R ++ '/' :: ts)) := by
      rw [hsplit, List.append_assoc]
      rfl
    refine ResolvePath_unknown_reference r _ [] (P ++ (R ++ '/' :: ts)) P (R ++ '/' :: ts)
      (by rw [hq]; exact hpath) (by rw [hq]; rfl) href (hu P ?_)
    simp [readName, hn]

/-- The loop body on a line `source $V/T` for a shell variable name `V` in which the
resolver reads no known variable. -/
theorem scanLine_unknown_name (recur : Str → ScanState → Option (ScanState × Option Str))
    (cp : Str) (i : Nat) (st : ScanState) (V ts : Str) (hV : shellName V = true)
    (hts : ∀ c ∈ ts, pathChar c = true) (hd : '$' ∉ ts)
    (hu : ∀ P, readName V = some P → st.pathResolver.valueOf P = none) :
    scanLine recur cp i ("source ".toList ++ '$' :: (V ++ '/' :: ts)) st
      = some ((st.addInclude cp ('$' :: (V ++ '/' :: ts))).unresolved
          ('$' :: (V ++ '/' :: ts))) := by
  have hp : ∀ c ∈ '$' :: (V ++ '/' :: ts), pathChar c = true := by
    intro c hc
    rcases List.mem_cons.mp hc with h | h
    · rw [h]; decide
    · rcases List.mem_append.mp h with h1 | h1
      · obtain ⟨x, xs, e, hx, hxs⟩ := shellName_cases V hV
        rw [e] at h1
        rcases List.mem_cons.mp h1 with h2 | h2
        · rw [h2]
          apply (nameChar_pathChar x _).1
          rcases hx with h3 | h3 | h3
          · exact Or.inl h3
          · exact Or.inr (Or.inl h3)
          · exact Or.inr (Or.inr (Or.inr h3))
        · exact (nameChar_pathChar c (hxs c h2)).1
      · rcases List.mem_cons.mp h1 with h2 | h2
        · rw [h2]; decide
        · exact hts c h2
  exact scanLine_unresolved recur cp i _ st ⟨'$' :: (V ++ '/' :: ts), false⟩
    (IsAliasLine_source _ _ hp) (IsIncludeLine_source _ _ hp)
    (IncludeParser_ParseLine_source _ _ hp)
    (ResolvePath_unknown_name st.pathResolver V ts hV hts hd hu)
    (ParseVariableAssignment_source _ _ hp)

end UnknownName

/-- C11 (as amended): an include through a variable that the resolver does not know.  In
the loop over the lines of the file `cp`, at a line `source $V/.rc` where `V` is a shell
variable name and the name that the resolver reads in `$V` (the longest front part of `V`
of the shape `[A-Z_][A-Z0-9_]*`, if `V` starts with one) is neither `HOME` nor
`XDG_CONFIG_HOME` nor set in the resolver by an earlier assignment: the raw string `$V/.rc`
is appended to `UnresolvedPaths` and to the `Includes` of the file, no `SourceFile` is
created, nothing else changes, the recursive call `recur` is not made (whatever it is, the
outcome is the same), and the loop goes on with the remaining lines. -/
theorem unknown_variable_include_is_recorded
    (recur : Str → ScanState → Option (ScanState × Option Str)) (cp V : Str) (i : Nat)
    (rest : List Str) (st : ScanState) (hV : shellName V = true)
    (hu : ∀ P, readName V = some P → P ≠ "HOME".toList ∧ P ≠ "XDG_CONFIG_HOME".toList ∧
      mapGet st.pathResolver.customVars P = none) :
    ∃ st1 : ScanState,
      st1 = (st.addInclude cp ('$' :: (V ++ "/.rc".toList))).unresolved
        ('$' :: (V ++ "/.rc".toList)) ∧
      scanLines recur cp (("source ".toList ++ '$' :: (V ++ "/.rc".toList)) :: rest) i st
        = scanLines recur cp rest (i + 1) st1 ∧
      st1.result.UnresolvedPaths = st.result.UnresolvedPaths ++ ['$' :: (V ++ "/.rc".toList)] ∧
      (∀ sf, mapGet st.result.Files cp = some sf → mapGet st1.result.Files cp
        = some { sf with Includes := sf.Includes ++ ['$' :: (V ++ "/.rc".toList)] }) ∧
      (∀ q, q ≠ cp → mapGet st1.result.Files q = mapGet st.result.Files q) ∧
      (∀ q, (mapGet st1.result.Files q).isSome = (mapGet st.result.Files q).isSome) ∧
      st1.visited = st.visited ∧ st1.result.Aliases = st.result.Aliases ∧
      st1.result.Warnings = st.result.Warnings ∧ st1.pathResolver = st.pathResolver := by
  have hts : ∀ c ∈ ".rc".toList, pathChar c = true := by decide
  have hd : '$' ∉ ".rc".toList := by decide
  have hval : ∀ P, readName V = some P → st.pathResolver.valueOf P = none := by
    intro P hP
    obtain ⟨h1, h2, h3⟩ := hu P hP
    unfold PathResolver.valueOf
    rw [if_neg h1, if_neg h2]
    exact h3
  refine ⟨(st.addInclude cp ('$' :: (V ++ '/' :: ".rc".toList))).unresolved
    ('$' :: (V ++ '/' :: ".rc".toList)), rfl, ?_, rfl, ?_, ?_, ?_, rfl, rfl, rfl, rfl⟩
  · have := scanLine_unknown_name recur cp i st V ".rc".toList hV hts hd hval
    show (scanLine recur cp i ("source ".toList ++ '$' :: (V ++ '/' :: ".rc".toList))
      st).bind _ = _
    rw [this]
    rfl
  · intro sf hsf
    simp [ScanState.unresolved, ScanState.addInclude, ScanState.modifyFile, mapGet_mapModify,
      hsf]
  · intro q hq
    have : ¬ cp = q := fun e => hq e.symm
    simp [ScanState.unresolved, ScanState.addInclude, ScanState.modifyFile, mapGet_mapModify,
      this]
  · intro q
    simp only [ScanState.unresolved, ScanState.addInclude, ScanState.modifyFile,
      mapGet_mapModify]
    split <;> simp

/-- Scenario D: the scan of `/rc`, whose first line is `source $UNKNOWN/.rc`, records the
raw path as unresolved and as an include of `/rc`, records no other file, and still finds
the alias of the second line; and the same step for the lower-case name `foo`, in which the
resolver reads no name. -/
theorem unknown_variable_include_is_recorded_witness :
    (ScanShellFiles fsUnknown scanner0 "zsh".toList ["/rc".toList]).map
        (fun r => (r.1.UnresolvedPaths,
          r.1.Files.map (fun f => (f.1, f.2.Includes, f.2.Aliases.map AliasDefinition.Name)),
          r.1.Aliases.map Prod.fst))
      = some (["$UNKNOWN/.rc".toList],
          [("/rc".toList, ["$UNKNOWN/.rc".toList], ["a".toList])], ["a".toList]) ∧
    (∃ st1 : ScanState,
      scanLines (fun _ _ => none) "/rc".toList
          (("source ".toList ++ '$' :: ("UNKNOWN".toList ++ "/.rc".toList)) ::
            ["alias a=\'1\'".toList]) 0
          ((initialState scanner0 "zsh".toList ["/rc".toList]).enter "/rc".toList
            (newSourceFile fsUnknown "/rc".toList))
        = scanLines (fun _ _ => none) "/rc".toList ["alias a=\'1\'".toList] (0 + 1) st1 ∧
      st1.result.UnresolvedPaths = [] ++ ['$' :: ("UNKNOWN".toList ++ "/.rc".toList)]) ∧
    (∃ st1 : ScanState,
      scanLines (fun _ _ => none) "/rc".toList
          (("source ".toList ++ '$' :: ("foo".toList ++ "/.rc".toList)) :: []) 0
          (initialState scanner0 "zsh".toList ["/rc".toList])
        = scanLines (fun _ _ => none) "/rc".toList [] (0 + 1) st1 ∧
      st1.result.UnresolvedPaths = [] ++ ['$' :: ("foo".toList ++ "/.rc".toList)]) :=
  ⟨by rfl,
   (unknown_variable_include_is_recorded (fun _ _ => none) "/rc".toList "UNKNOWN".toList 0
      ["alias a=\'1\'".toList]
      ((initialState scanner0 "zsh".toList ["/rc".toList]).enter "/rc".toList
        (newSourceFile fsUnknown "/rc".toList))
      (by decide)
      (fun P hP => by
        have e : readName "UNKNOWN".toList = some "UNKNOWN".toList := by decide
        rw [e] at hP
        simp only [Option.some.injEq] at hP
        rw [← hP]
        exact ⟨by decide, by decide, rfl⟩)).imp (fun _ h => ⟨h.2.1, h.2.2.1⟩),
   (unknown_variable_include_is_recorded (fun _ _ => none) "/rc".toList "foo".toList 0 []
      (initialState scanner0 "zsh".toList ["/rc".toList]) (by decide)
      (fun P hP => by
        have e : readName "foo".toList = none := by decide
        rw [e] at hP
        exact absurd hP (by simp))).imp (fun _ h => ⟨h.2.1, h.2.2.1⟩)⟩

set_option maxRecDepth 100000 in
/-- C11 (as stated): the name `HOMEx` is neither `HOME` nor `XDG_CONFIG_HOME` nor assigned,
but the resolver reads `$HOME` in `$HOMEx`: the include `source $HOMEx/.rc` resolves to
`/home/ux/.rc`, nothing is unresolved, and the file `/home/ux/.rc` is recorded and
scanned (its alias `b` is found). -/
theorem mixed_case_variable_include_resolves :
    shellName "HOMEx".toList = true ∧
    "HOMEx".toList ≠ "HOME".toList ∧ "HOMEx".toList ≠ "XDG_CONFIG_HOME".toList ∧
    mapGet scanner0.pathResolver.customVars "HOMEx".toList = none ∧
    readName "HOMEx".toList = some "HOME".toList ∧
    scanner0.pathResolver.ResolvePath "$HOMEx/.rc".toList = some "/home/ux/.rc".toList ∧
    (ScanShellFiles fsMixed scanner0 "zsh".toList ["/r".toList]).map
        (fun r => (r.1.UnresolvedPaths,
          r.1.Files.map (fun f => (f.1, f.2.Includes, f.2.Aliases.map AliasDefinition.Name)),
          r.1.Aliases.map Prod.fst,
          r.2.pathResolver.customVars))
      = some ([],
          [("/r".toList, ["$HOMEx/.rc".toList], ["a".toList]),
           ("/home/ux/.rc".toList, [], ["b".toList])],
          ["b".toList, "a".toList], []) := by
  refine ⟨by decide, by decide, by decide, by rfl, by decide, by decide!, by rfl⟩

/-! ## C13: a missing file at the depth ceiling -/

set_option maxRecDepth 100000 in
set_option maxHeartbeats 4000000 in
/-- C13 (as stated): in the chain `/f -> /fx -> ...` cut after 25 files, the file with 24
letters `x` is scanned at depth 24 and sources the path with 25 letters `x`, which resolves
and names a file that does not exist.  The call for it is made at depth 25 and meets the
depth check first: the result has no `SourceFile` for the missing file, and the one warning
of the result is the depth warning raised for it. -/
theorem missing_include_at_depth_ceiling :
    FileExists fsChainEnd (chainPath 25) = false ∧
    ReadLines fsChainEnd (chainPath 24)
      = .ok ["# next".toList, "source ".toList ++ chainPath 25] ∧
    scanner0.pathResolver.ResolvePath (chainPath 25) = some (chainPath 25) ∧
    canonOf fsChainEnd (chainPath 25) = chainPath 25 ∧
    ∃ r, ScanShellFiles fsChainEnd scanner0 "bash".toList ["/f".toList] = some r ∧
      (mapGet r.1.Files (chainPath 24)).isSome = true ∧
      mapGet r.1.Files (chainPath 25) = none ∧
      r.1.Warnings = [depthWarning (chainPath 25)] := by
  obtain ⟨st1, hscan, hwarn, hkeys⟩ :=
    chain_scan fsChainEnd scanner0.pathResolver.homeDir scanner0.pathResolver.xdgConfigHome
      chainPath chainPath (fun i j _ _ h => chainPath_inj i j h)
      (fun i hi => by
        have hi2 : i < 25 := hi
        refine ⟨rfl, ?_, ?_, ["# next".toList, "source ".toList ++ chainPath (i + 1)],
          { Path := chainPath (i + 1), Conditional := false }, ?_, ?_, ?_⟩
        · interval_cases i <;> rfl
        · interval_cases i <;> rfl
        · interval_cases i <;> rfl
        · interval_cases i <;> decide!
        · intro vars
          interval_cases i <;> rfl)
      maxDepth 0 (by omega) (maxDepth + 1)
      (initialState scanner0 "bash".toList ["/f".toList]) (by omega) (by omega) rfl rfl
      (fun q hq => by simp [initialState] at hq)
  have hinit : ∀ q, (mapGet (initialState scanner0 "bash".toList
      ["/f".toList]).result.Files q).isSome = false := by
    intro q
    simp [initialState, NewScanResult, mapGet]
  refine ⟨by rfl, by rfl, by rfl, by rfl,
    (st1.result, { pathResolver := st1.pathResolver }), ?_, ?_, ?_, ?_⟩
  · have hr : (initialState scanner0 "bash".toList ["/f".toList]).pathResolver.ResolvePath
        "/f".toList = some (chainPath 0) := by decide!
    have hroots : scanRoots fsChainEnd (maxDepth + 1) ["/f".toList]
        (initialState scanner0 "bash".toList ["/f".toList]) = some st1 := by
      show (scanRoot fsChainEnd (maxDepth + 1) "/f".toList _).bind
        (scanRoots fsChainEnd (maxDepth + 1) []) = some st1
      unfold scanRoot
      rw [hr]
      simp only [hscan, Option.map_some', afterRoot, Option.some_bind, scanRoots]
    unfold ScanShellFiles ScanShellFilesFuel
    rw [hroots]
    rfl
  · exact (hkeys (chainPath 24)).mpr (Or.inr ⟨24, Nat.zero_le _, by decide, rfl⟩)
  · cases hg : mapGet st1.result.Files (chainPath 25) with
    | none => rfl
    | some sf =>
      rcases (hkeys (chainPath 25)).mp (by simp [hg]) with h | ⟨j, _, hj, hf⟩
      · rw [hinit] at h
        exact absurd h (by simp)
      · have := chainPath_inj 25 j hf
        have hj2 : j < 25 := hj
        omega
  · show st1.result.Warnings = _
    rw [hwarn]
    simp [initialState, NewScanResult]
    rfl

/-! ## C14: assignments that no include uses -/

end Falias
